import Mathlib

/-! # Oberon+ compiler back end: token catalog, runtime helpers and CIL generator

A shallow embedding of parts of the Oberon+ code generation subsystem
(`ObTokenType.cpp`, `scripts/OBX.Runtime.c`, `ObxCilGen.cpp`) together with
theorems about them.
-/

namespace Ob

/-! ## Token catalog (`ObTokenType.cpp`) -/

/-- Modelled from the spec: the enumeration `TokenType` of `ObTokenType.h` is
not among the sources.  The tags are listed in the order of the `switch` of
`tokenTypeString`; the range markers `TT_Literals`, `TT_Keywords`,
`TT_Specials`, `TT_MaxToken` and `TT_Max` stand where `tokenTypeIsLiteral`,
`tokenTypeIsKeyword` and `tokenTypeIsSpecial` need them (three disjoint
ranges: literals, keywords, specials). -/
inductive TokenType where
  | Tok_Invalid
  | TT_Literals
  | Tok_Hash
  | Tok_Dlr
  | Tok_Amp
  | Tok_Lpar
  | Tok_Latt
  | Tok_Rpar
  | Tok_Star
  | Tok_Ratt
  | Tok_StarGt
  | Tok_Plus
  | Tok_Comma
  | Tok_Minus
  | Tok_Dot
  | Tok_2Dot
  | Tok_Slash
  | Tok_2Slash
  | Tok_Colon
  | Tok_ColonEq
  | Tok_Semi
  | Tok_Lt
  | Tok_LtStar
  | Tok_Leq
  | Tok_Eq
  | Tok_Gt
  | Tok_Geq
  | Tok_Lbrack
  | Tok_Rbrack
  | Tok_Hat
  | Tok_Lbrace
  | Tok_Bar
  | Tok_Rbrace
  | Tok_Tilde
  | TT_Keywords
  | Tok_ARRAY
  | Tok_BEGIN
  | Tok_BY
  | Tok_CARRAY
  | Tok_CASE
  | Tok_CONST
  | Tok_CPOINTER
  | Tok_CSTRUCT
  | Tok_CUNION
  | Tok_DEFINITION
  | Tok_DIV
  | Tok_DO
  | Tok_ELSE
  | Tok_ELSIF
  | Tok_END
  | Tok_EXIT
  | Tok_FALSE
  | Tok_FOR
  | Tok_IF
  | Tok_IMPORT
  | Tok_IN
  | Tok_IS
  | Tok_LOOP
  | Tok_MOD
  | Tok_MODULE
  | Tok_NIL
  | Tok_OF
  | Tok_OR
  | Tok_POINTER
  | Tok_PROC
  | Tok_PROCEDURE
  | Tok_RECORD
  | Tok_REPEAT
  | Tok_RETURN
  | Tok_THEN
  | Tok_TO
  | Tok_TRUE
  | Tok_TYPE
  | Tok_UNSAFE
  | Tok_UNTIL
  | Tok_VAR
  | Tok_WEAK
  | Tok_WHILE
  | Tok_WITH
  | TT_Specials
  | Tok_ident
  | Tok_integer
  | Tok_real
  | Tok_string
  | Tok_hexchar
  | Tok_hexstring
  | Tok_Comment
  | Tok_Eof
  | TT_MaxToken
  | TT_Max
  deriving DecidableEq, Repr

/-- Numeric value of a tag (position in the enumeration). -/
def TokenType.code (r : TokenType) : Nat := r.toCtorIdx

/-- `tokenTypeString`: the spelling of a tag. -/
def tokenTypeString (r : TokenType) : String :=
  match r with
  | .Tok_Invalid => "<invalid>"
  | .Tok_Hash => "#"
  | .Tok_Dlr => "$"
  | .Tok_Amp => "&"
  | .Tok_Lpar => "("
  | .Tok_Latt => "(*"
  | .Tok_Rpar => ")"
  | .Tok_Star => "*"
  | .Tok_Ratt => "*)"
  | .Tok_StarGt => "*>"
  | .Tok_Plus => "+"
  | .Tok_Comma => ","
  | .Tok_Minus => "-"
  | .Tok_Dot => "."
  | .Tok_2Dot => ".."
  | .Tok_Slash => "/"
  | .Tok_2Slash => "//"
  | .Tok_Colon => ":"
  | .Tok_ColonEq => ":="
  | .Tok_Semi => ";"
  | .Tok_Lt => "<"
  | .Tok_LtStar => "<*"
  | .Tok_Leq => "<="
  | .Tok_Eq => "="
  | .Tok_Gt => ">"
  | .Tok_Geq => ">="
  | .Tok_Lbrack => "["
  | .Tok_Rbrack => "]"
  | .Tok_Hat => "^"
  | .Tok_Lbrace => "\x7b"
  | .Tok_Bar => "|"
  | .Tok_Rbrace => "\x7d"
  | .Tok_Tilde => "~"
  | .Tok_ARRAY => "ARRAY"
  | .Tok_BEGIN => "BEGIN"
  | .Tok_BY => "BY"
  | .Tok_CARRAY => "CARRAY"
  | .Tok_CASE => "CASE"
  | .Tok_CONST => "CONST"
  | .Tok_CPOINTER => "CPOINTER"
  | .Tok_CSTRUCT => "CSTRUCT"
  | .Tok_CUNION => "CUNION"
  | .Tok_DEFINITION => "DEFINITION"
  | .Tok_DIV => "DIV"
  | .Tok_DO => "DO"
  | .Tok_ELSE => "ELSE"
  | .Tok_ELSIF => "ELSIF"
  | .Tok_END => "END"
  | .Tok_EXIT => "EXIT"
  | .Tok_FALSE => "FALSE"
  | .Tok_FOR => "FOR"
  | .Tok_IF => "IF"
  | .Tok_IMPORT => "IMPORT"
  | .Tok_IN => "IN"
  | .Tok_IS => "IS"
  | .Tok_LOOP => "LOOP"
  | .Tok_MOD => "MOD"
  | .Tok_MODULE => "MODULE"
  | .Tok_NIL => "NIL"
  | .Tok_OF => "OF"
  | .Tok_OR => "OR"
  | .Tok_POINTER => "POINTER"
  | .Tok_PROC => "PROC"
  | .Tok_PROCEDURE => "PROCEDURE"
  | .Tok_RECORD => "RECORD"
  | .Tok_REPEAT => "REPEAT"
  | .Tok_RETURN => "RETURN"
  | .Tok_THEN => "THEN"
  | .Tok_TO => "TO"
  | .Tok_TRUE => "TRUE"
  | .Tok_TYPE => "TYPE"
  | .Tok_UNSAFE => "UNSAFE"
  | .Tok_UNTIL => "UNTIL"
  | .Tok_VAR => "VAR"
  | .Tok_WEAK => "WEAK"
  | .Tok_WHILE => "WHILE"
  | .Tok_WITH => "WITH"
  | .Tok_ident => "ident"
  | .Tok_integer => "integer"
  | .Tok_real => "real"
  | .Tok_string => "string"
  | .Tok_hexchar => "hexchar"
  | .Tok_hexstring => "hexstring"
  | .Tok_Comment => "Comment"
  | .Tok_Eof => "<eof>"
  | _ => ""

/-- `tokenTypeIsLiteral`. -/
def tokenTypeIsLiteral (r : TokenType) : Bool :=
  decide (TokenType.TT_Literals.code < r.code) && decide (r.code < TokenType.TT_Keywords.code)

/-- `tokenTypeIsKeyword`. -/
def tokenTypeIsKeyword (r : TokenType) : Bool :=
  decide (TokenType.TT_Keywords.code < r.code) && decide (r.code < TokenType.TT_Specials.code)

/-- `tokenTypeIsSpecial`. -/
def tokenTypeIsSpecial (r : TokenType) : Bool :=
  decide (TokenType.TT_Specials.code < r.code) && decide (r.code < TokenType.TT_Max.code)

/-- The static helper `at` of `ObTokenType.cpp` (`at` is reserved in Lean):
the byte at index `i`, or `0` when `i` is not below the length.  A byte is
represented by the `Char` with the same code; the buffer `str` together with
its length `len` is the list `str`.  Indices are natural numbers: the cursor
is taken to be non-negative and far enough below the `int` limit that `i + 9`
does not overflow. -/
def charAt (str : List Char) (i : Nat) : Char :=
  if h : i < str.length then str[i] else Char.ofNat 0

/-- The `switch` of `tokenTypeFromString(const char*, quint32, int*)`: from the
start index `i` it yields the final values of `res` and `i`.  Every `switch`
on a byte is the chain of its `case` labels in source order, its `default`
(or the fall through past the `switch`) last. -/
def tokenTypeSwitch (str : List Char) (i : Nat) : TokenType × Nat :=
  if charAt str i = '#' then
    (TokenType.Tok_Hash, i + 1)
  else if charAt str i = '$' then
    (TokenType.Tok_Dlr, i + 1)
  else if charAt str i = '&' then
    (TokenType.Tok_Amp, i + 1)
  else if charAt str i = '(' then
    if charAt str (i + 1) = '*' then
      (TokenType.Tok_Latt, i + 2)
    else
      (TokenType.Tok_Lpar, i + 1)
  else if charAt str i = ')' then
    (TokenType.Tok_Rpar, i + 1)
  else if charAt str i = '*' then
    if charAt str (i + 1) = ')' then
      (TokenType.Tok_Ratt, i + 2)
    else if charAt str (i + 1) = '>' then
      (TokenType.Tok_StarGt, i + 2)
    else
      (TokenType.Tok_Star, i + 1)
  else if charAt str i = '+' then
    (TokenType.Tok_Plus, i + 1)
  else if charAt str i = ',' then
    (TokenType.Tok_Comma, i + 1)
  else if charAt str i = '-' then
    (TokenType.Tok_Minus, i + 1)
  else if charAt str i = '.' then
    if charAt str (i + 1) = '.' then
      (TokenType.Tok_2Dot, i + 2)
    else
      (TokenType.Tok_Dot, i + 1)
  else if charAt str i = '/' then
    if charAt str (i + 1) = '/' then
      (TokenType.Tok_2Slash, i + 2)
    else
      (TokenType.Tok_Slash, i + 1)
  else if charAt str i = ':' then
    if charAt str (i + 1) = '=' then
      (TokenType.Tok_ColonEq, i + 2)
    else
      (TokenType.Tok_Colon, i + 1)
  else if charAt str i = ';' then
    (TokenType.Tok_Semi, i + 1)
  else if charAt str i = '<' then
    if charAt str (i + 1) = '*' then
      (TokenType.Tok_LtStar, i + 2)
    else if charAt str (i + 1) = '=' then
      (TokenType.Tok_Leq, i + 2)
    else
      (TokenType.Tok_Lt, i + 1)
  else if charAt str i = '=' then
    (TokenType.Tok_Eq, i + 1)
  else if charAt str i = '>' then
    if charAt str (i + 1) = '=' then
      (TokenType.Tok_Geq, i + 2)
    else
      (TokenType.Tok_Gt, i + 1)
  else if charAt str i = 'A' then
    if charAt str (i + 1) = 'R' then
      if charAt str (i + 2) = 'R' then
        if charAt str (i + 3) = 'A' then
          if charAt str (i + 4) = 'Y' then
            (TokenType.Tok_ARRAY, i + 5)
          else
            (TokenType.Tok_Invalid, i)
        else
          (TokenType.Tok_Invalid, i)
      else
        (TokenType.Tok_Invalid, i)
    else
      (TokenType.Tok_Invalid, i)
  else if charAt str i = 'B' then
    if charAt str (i + 1) = 'E' then
      if charAt str (i + 2) = 'G' then
        if charAt str (i + 3) = 'I' then
          if charAt str (i + 4) = 'N' then
            (TokenType.Tok_BEGIN, i + 5)
          else
            (TokenType.Tok_Invalid, i)
        else
          (TokenType.Tok_Invalid, i)
      else
        (TokenType.Tok_Invalid, i)
    else if charAt str (i + 1) = 'Y' then
      (TokenType.Tok_BY, i + 2)
    else
      (TokenType.Tok_Invalid, i)
  else if charAt str i = 'C' then
    if charAt str (i + 1) = 'A' then
      if charAt str (i + 2) = 'R' then
        if charAt str (i + 3) = 'R' then
          if charAt str (i + 4) = 'A' then
            if charAt str (i + 5) = 'Y' then
              (TokenType.Tok_CARRAY, i + 6)
            else
              (TokenType.Tok_Invalid, i)
          else
            (TokenType.Tok_Invalid, i)
        else
          (TokenType.Tok_Invalid, i)
      else if charAt str (i + 2) = 'S' then
        if charAt str (i + 3) = 'E' then
          (TokenType.Tok_CASE, i + 4)
        else
          (TokenType.Tok_Invalid, i)
      else
        (TokenType.Tok_Invalid, i)
    else if charAt str (i + 1) = 'O' then
      if charAt str (i + 2) = 'N' then
        if charAt str (i + 3) = 'S' then
          if charAt str (i + 4) = 'T' then
            (TokenType.Tok_CONST, i + 5)
          else
            (TokenType.Tok_Invalid, i)
        else
          (TokenType.Tok_Invalid, i)
      else
        (TokenType.Tok_Invalid, i)
    else if charAt str (i + 1) = 'P' then
      if charAt str (i + 2) = 'O' then
        if charAt str (i + 3) = 'I' then
          if charAt str (i + 4) = 'N' then
            if charAt str (i + 5) = 'T' then
              if charAt str (i + 6) = 'E' then
                if charAt str (i + 7) = 'R' then
                  (TokenType.Tok_CPOINTER, i + 8)
                else
                  (TokenType.Tok_Invalid, i)
              else
                (TokenType.Tok_Invalid, i)
            else
              (TokenType.Tok_Invalid, i)
          else
            (TokenType.Tok_Invalid, i)
        else
          (TokenType.Tok_Invalid, i)
      else
        (TokenType.Tok_Invalid, i)
    else if charAt str (i + 1) = 'S' then
      if charAt str (i + 2) = 'T' then
        if charAt str (i + 3) = 'R' then
          if charAt str (i + 4) = 'U' then
            if charAt str (i + 5) = 'C' then
              if charAt str (i + 6) = 'T' then
                (TokenType.Tok_CSTRUCT, i + 7)
              else
                (TokenType.Tok_Invalid, i)
            else
              (TokenType.Tok_Invalid, i)
          else
            (TokenType.Tok_Invalid, i)
        else
          (TokenType.Tok_Invalid, i)
      else
        (TokenType.Tok_Invalid, i)
    else if charAt str (i + 1) = 'U' then
      if charAt str (i + 2) = 'N' then
        if charAt str (i + 3) = 'I' then
          if charAt str (i + 4) = 'O' then
            if charAt str (i + 5) = 'N' then
              (TokenType.Tok_CUNION, i + 6)
            else
              (TokenType.Tok_Invalid, i)
          else
            (TokenType.Tok_Invalid, i)
        else
          (TokenType.Tok_Invalid, i)
      else
        (TokenType.Tok_Invalid, i)
    else
      (TokenType.Tok_Invalid, i)
  else if charAt str i = 'D' then
    if charAt str (i + 1) = 'E' then
      if charAt str (i + 2) = 'F' then
        if charAt str (i + 3) = 'I' then
          if charAt str (i + 4) = 'N' then
            if charAt str (i + 5) = 'I' then
              if charAt str (i + 6) = 'T' then
                if charAt str (i + 7) = 'I' then
                  if charAt str (i + 8) = 'O' then
                    if charAt str (i + 9) = 'N' then
                      (TokenType.Tok_DEFINITION, i + 10)
                    else
                      (TokenType.Tok_Invalid, i)
                  else
                    (TokenType.Tok_Invalid, i)
                else
                  (TokenType.Tok_Invalid, i)
              else
                (TokenType.Tok_Invalid, i)
            else
              (TokenType.Tok_Invalid, i)
          else
            (TokenType.Tok_Invalid, i)
        else
          (TokenType.Tok_Invalid, i)
      else
        (TokenType.Tok_Invalid, i)
    else if charAt str (i + 1) = 'I' then
      if charAt str (i + 2) = 'V' then
        (TokenType.Tok_DIV, i + 3)
      else
        (TokenType.Tok_Invalid, i)
    else if charAt str (i + 1) = 'O' then
      (TokenType.Tok_DO, i + 2)
    else
      (TokenType.Tok_Invalid, i)
  else if charAt str i = 'E' then
    if charAt str (i + 1) = 'L' then
      if charAt str (i + 2) = 'S' then
        if charAt str (i + 3) = 'E' then
          (TokenType.Tok_ELSE, i + 4)
        else if charAt str (i + 3) = 'I' then
          if charAt str (i + 4) = 'F' then
            (TokenType.Tok_ELSIF, i + 5)
          else
            (TokenType.Tok_Invalid, i)
        else
          (TokenType.Tok_Invalid, i)
      else
        (TokenType.Tok_Invalid, i)
    else if charAt str (i + 1) = 'N' then
      if charAt str (i + 2) = 'D' then
        (TokenType.Tok_END, i + 3)
      else
        (TokenType.Tok_Invalid, i)
    else if charAt str (i + 1) = 'X' then
      if charAt str (i + 2) = 'I' then
        if charAt str (i + 3) = 'T' then
          (TokenType.Tok_EXIT, i + 4)
        else
          (TokenType.Tok_Invalid, i)
      else
        (TokenType.Tok_Invalid, i)
    else
      (TokenType.Tok_Invalid, i)
  else if charAt str i = 'F' then
    if charAt str (i + 1) = 'A' then
      if charAt str (i + 2) = 'L' then
        if charAt str (i + 3) = 'S' then
          if charAt str (i + 4) = 'E' then
            (TokenType.Tok_FALSE, i + 5)
          else
            (TokenType.Tok_Invalid, i)
        else
          (TokenType.Tok_Invalid, i)
      else
        (TokenType.Tok_Invalid, i)
    else if charAt str (i + 1) = 'O' then
      if charAt str (i + 2) = 'R' then
        (TokenType.Tok_FOR, i + 3)
      else
        (TokenType.Tok_Invalid, i)
    else
      (TokenType.Tok_Invalid, i)
  else if charAt str i = 'I' then
    if charAt str (i + 1) = 'F' then
      (TokenType.Tok_IF, i + 2)
    else if charAt str (i + 1) = 'M' then
      if charAt str (i + 2) = 'P' then
        if charAt str (i + 3) = 'O' then
          if charAt str (i + 4) = 'R' then
            if charAt str (i + 5) = 'T' then
              (TokenType.Tok_IMPORT, i + 6)
            else
              (TokenType.Tok_Invalid, i)
          else
            (TokenType.Tok_Invalid, i)
        else
          (TokenType.Tok_Invalid, i)
      else
        (TokenType.Tok_Invalid, i)
    else if charAt str (i + 1) = 'N' then
      (TokenType.Tok_IN, i + 2)
    else if charAt str (i + 1) = 'S' then
      (TokenType.Tok_IS, i + 2)
    else
      (TokenType.Tok_Invalid, i)
  else if charAt str i = 'L' then
    if charAt str (i + 1) = 'O' then
      if charAt str (i + 2) = 'O' then
        if charAt str (i + 3) = 'P' then
          (TokenType.Tok_LOOP, i + 4)
        else
          (TokenType.Tok_Invalid, i)
      else
        (TokenType.Tok_Invalid, i)
    else
      (TokenType.Tok_Invalid, i)
  else if charAt str i = 'M' then
    if charAt str (i + 1) = 'O' then
      if charAt str (i + 2) = 'D' then
        if charAt str (i + 3) = 'U' then
          if charAt str (i + 4) = 'L' then
            if charAt str (i + 5) = 'E' then
              (TokenType.Tok_MODULE, i + 6)
            else
              (TokenType.Tok_Invalid, i)
          else
            (TokenType.Tok_Invalid, i)
        else
          (TokenType.Tok_MOD, i + 3)
      else
        (TokenType.Tok_Invalid, i)
    else
      (TokenType.Tok_Invalid, i)
  else if charAt str i = 'N' then
    if charAt str (i + 1) = 'I' then
      if charAt str (i + 2) = 'L' then
        (TokenType.Tok_NIL, i + 3)
      else
        (TokenType.Tok_Invalid, i)
    else
      (TokenType.Tok_Invalid, i)
  else if charAt str i = 'O' then
    if charAt str (i + 1) = 'F' then
      (TokenType.Tok_OF, i + 2)
    else if charAt str (i + 1) = 'R' then
      (TokenType.Tok_OR, i + 2)
    else
      (TokenType.Tok_Invalid, i)
  else if charAt str i = 'P' then
    if charAt str (i + 1) = 'O' then
      if charAt str (i + 2) = 'I' then
        if charAt str (i + 3) = 'N' then
          if charAt str (i + 4) = 'T' then
            if charAt str (i + 5) = 'E' then
              if charAt str (i + 6) = 'R' then
                (TokenType.Tok_POINTER, i + 7)
              else
                (TokenType.Tok_Invalid, i)
            else
              (TokenType.Tok_Invalid, i)
          else
            (TokenType.Tok_Invalid, i)
        else
          (TokenType.Tok_Invalid, i)
      else
        (TokenType.Tok_Invalid, i)
    else if charAt str (i + 1) = 'R' then
      if charAt str (i + 2) = 'O' then
        if charAt str (i + 3) = 'C' then
          if charAt str (i + 4) = 'E' then
            if charAt str (i + 5) = 'D' then
              if charAt str (i + 6) = 'U' then
                if charAt str (i + 7) = 'R' then
                  if charAt str (i + 8) = 'E' then
                    (TokenType.Tok_PROCEDURE, i + 9)
                  else
                    (TokenType.Tok_Invalid, i)
                else
                  (TokenType.Tok_Invalid, i)
              else
                (TokenType.Tok_Invalid, i)
            else
              (TokenType.Tok_Invalid, i)
          else
            (TokenType.Tok_PROC, i + 4)
        else
          (TokenType.Tok_Invalid, i)
      else
        (TokenType.Tok_Invalid, i)
    else
      (TokenType.Tok_Invalid, i)
  else if charAt str i = 'R' then
    if charAt str (i + 1) = 'E' then
      if charAt str (i + 2) = 'C' then
        if charAt str (i + 3) = 'O' then
          if charAt str (i + 4) = 'R' then
            if charAt str (i + 5) = 'D' then
              (TokenType.Tok_RECORD, i + 6)
            else
              (TokenType.Tok_Invalid, i)
          else
            (TokenType.Tok_Invalid, i)
        else
          (TokenType.Tok_Invalid, i)
      else if charAt str (i + 2) = 'P' then
        if charAt str (i + 3) = 'E' then
          if charAt str (i + 4) = 'A' then
            if charAt str (i + 5) = 'T' then
              (TokenType.Tok_REPEAT, i + 6)
            else
              (TokenType.Tok_Invalid, i)
          else
            (TokenType.Tok_Invalid, i)
        else
          (TokenType.Tok_Invalid, i)
      else if charAt str (i + 2) = 'T' then
        if charAt str (i + 3) = 'U' then
          if charAt str (i + 4) = 'R' then
            if charAt str (i + 5) = 'N' then
              (TokenType.Tok_RETURN, i + 6)
            else
              (TokenType.Tok_Invalid, i)
          else
            (TokenType.Tok_Invalid, i)
        else
          (TokenType.Tok_Invalid, i)
      else
        (TokenType.Tok_Invalid, i)
    else
      (TokenType.Tok_Invalid, i)
  else if charAt str i = 'T' then
    if charAt str (i + 1) = 'H' then
      if charAt str (i + 2) = 'E' then
        if charAt str (i + 3) = 'N' then
          (TokenType.Tok_THEN, i + 4)
        else
          (TokenType.Tok_Invalid, i)
      else
        (TokenType.Tok_Invalid, i)
    else if charAt str (i + 1) = 'O' then
      (TokenType.Tok_TO, i + 2)
    else if charAt str (i + 1) = 'R' then
      if charAt str (i + 2) = 'U' then
        if charAt str (i + 3) = 'E' then
          (TokenType.Tok_TRUE, i + 4)
        else
          (TokenType.Tok_Invalid, i)
      else
        (TokenType.Tok_Invalid, i)
    else if charAt str (i + 1) = 'Y' then
      if charAt str (i + 2) = 'P' then
        if charAt str (i + 3) = 'E' then
          (TokenType.Tok_TYPE, i + 4)
        else
          (TokenType.Tok_Invalid, i)
      else
        (TokenType.Tok_Invalid, i)
    else
      (TokenType.Tok_Invalid, i)
  else if charAt str i = 'U' then
    if charAt str (i + 1) = 'N' then
      if charAt str (i + 2) = 'S' then
        if charAt str (i + 3) = 'A' then
          if charAt str (i + 4) = 'F' then
            if charAt str (i + 5) = 'E' then
              (TokenType.Tok_UNSAFE, i + 6)
            else
              (TokenType.Tok_Invalid, i)
          else
            (TokenType.Tok_Invalid, i)
        else
          (TokenType.Tok_Invalid, i)
      else if charAt str (i + 2) = 'T' then
        if charAt str (i + 3) = 'I' then
          if charAt str (i + 4) = 'L' then
            (TokenType.Tok_UNTIL, i + 5)
          else
            (TokenType.Tok_Invalid, i)
        else
          (TokenType.Tok_Invalid, i)
      else
        (TokenType.Tok_Invalid, i)
    else
      (TokenType.Tok_Invalid, i)
  else if charAt str i = 'V' then
    if charAt str (i + 1) = 'A' then
      if charAt str (i + 2) = 'R' then
        (TokenType.Tok_VAR, i + 3)
      else
        (TokenType.Tok_Invalid, i)
    else
      (TokenType.Tok_Invalid, i)
  else if charAt str i = 'W' then
    if charAt str (i + 1) = 'E' then
      if charAt str (i + 2) = 'A' then
        if charAt str (i + 3) = 'K' then
          (TokenType.Tok_WEAK, i + 4)
        else
          (TokenType.Tok_Invalid, i)
      else
        (TokenType.Tok_Invalid, i)
    else if charAt str (i + 1) = 'H' then
      if charAt str (i + 2) = 'I' then
        if charAt str (i + 3) = 'L' then
          if charAt str (i + 4) = 'E' then
            (TokenType.Tok_WHILE, i + 5)
          else
            (TokenType.Tok_Invalid, i)
        else
          (TokenType.Tok_Invalid, i)
      else
        (TokenType.Tok_Invalid, i)
    else if charAt str (i + 1) = 'I' then
      if charAt str (i + 2) = 'T' then
        if charAt str (i + 3) = 'H' then
          (TokenType.Tok_WITH, i + 4)
        else
          (TokenType.Tok_Invalid, i)
      else
        (TokenType.Tok_Invalid, i)
    else
      (TokenType.Tok_Invalid, i)
  else if charAt str i = '[' then
    (TokenType.Tok_Lbrack, i + 1)
  else if charAt str i = ']' then
    (TokenType.Tok_Rbrack, i + 1)
  else if charAt str i = '^' then
    (TokenType.Tok_Hat, i + 1)
  else if charAt str i = '\x7b' then
    (TokenType.Tok_Lbrace, i + 1)
  else if charAt str i = '|' then
    (TokenType.Tok_Bar, i + 1)
  else if charAt str i = '\x7d' then
    (TokenType.Tok_Rbrace, i + 1)
  else if charAt str i = '~' then
    (TokenType.Tok_Tilde, i + 1)
  else
    (TokenType.Tok_Invalid, i)

/-- `tokenTypeFromString(str, len, pos)`: `pos` is the optional cursor (the
pointer may be null, then the scan starts at 0 and nothing is written back);
the result is the tag and the cursor after the call. -/
def tokenTypeFromString (str : List Char) (pos : Option Nat) : TokenType × Option Nat :=
  let i := match pos with
    | some p => p
    | none => 0
  let r := tokenTypeSwitch str i
  (r.1, match pos with
    | some _ => some r.2
    | none => none)

/-- The bytes of `w` stand in `str` from index `p` on, as seen through `charAt`. -/
def spelledAt (str : List Char) : Nat → List Char → Prop
  | _, [] => True
  | p, c :: w => charAt str p = c ∧ spelledAt str (p + 1) w

/-- What every leaf of the decision tree satisfies: either nothing was
recognised and the index is unchanged, or the tag is a literal or keyword whose
spelling stands at the start index and the index moved by its length. -/
def LeafOk (str : List Char) (i : Nat) (r : TokenType × Nat) : Prop :=
  (r.1 = TokenType.Tok_Invalid ∧ r.2 = i) ∨
  ((tokenTypeIsLiteral r.1 || tokenTypeIsKeyword r.1) = true ∧
    spelledAt str i (tokenTypeString r.1).toList ∧ r.2 = i + (tokenTypeString r.1).length)

/-- The input at `p` continues `MOD` with `U` without spelling `MODULE`. -/
def stuckAfterMOD (str : List Char) (p : Nat) : Prop :=
  charAt str p = 'M' ∧ charAt str (p + 1) = 'O' ∧ charAt str (p + 2) = 'D' ∧
  charAt str (p + 3) = 'U' ∧ ¬ (charAt str (p + 4) = 'L' ∧ charAt str (p + 5) = 'E')

/-- The input at `p` continues `PROC` with `E` without spelling `PROCEDURE`. -/
def stuckAfterPROC (str : List Char) (p : Nat) : Prop :=
  charAt str p = 'P' ∧ charAt str (p + 1) = 'R' ∧ charAt str (p + 2) = 'O' ∧
  charAt str (p + 3) = 'C' ∧ charAt str (p + 4) = 'E' ∧
  ¬ (charAt str (p + 5) = 'D' ∧ charAt str (p + 6) = 'U' ∧ charAt str (p + 7) = 'R' ∧
      charAt str (p + 8) = 'E')

/-- The result `r` of the decision tree is a tag and moves the index by at
least `n`, unless the input is stuck after `MOD` or `PROC`. -/
def Covers (str : List Char) (p : Nat) (n : Nat) (r : TokenType × Nat) : Prop :=
  (r.1 ≠ TokenType.Tok_Invalid ∧ p + n ≤ r.2) ∨ stuckAfterMOD str p ∨ stuckAfterPROC str p

end Ob

namespace OBX

/-! ## Runtime helpers (`scripts/OBX.Runtime.c`)

`int32_t` and `int64_t` values are integers in the signed range. The result of
an arithmetic operation that leaves the range is not defined by C; the helpers
take the parameter `ov`, which says whether such an operation ends the call
without result or wraps to the width (two's complement). The C operators `/`
and `%` truncate toward zero (`Int.tdiv`, `Int.tmod`); the one quotient that
leaves the range, `MIN / -1`, is treated like any other overflow.
`assert( b != 0 )` failing ends the call with `Fault.assertion`. -/

/-- Range of `int32_t`. -/
def isInt32 (x : Int) : Prop := -2147483648 ≤ x ∧ x < 2147483648

/-- Range of `int64_t`. -/
def isInt64 (x : Int) : Prop := -9223372036854775808 ≤ x ∧ x < 9223372036854775808

instance (x : Int) : Decidable (isInt32 x) := by unfold isInt32; infer_instance

instance (x : Int) : Decidable (isInt64 x) := by unfold isInt64; infer_instance

/-- Wrap an integer to the `int32_t` range. -/
def wrap32 (x : Int) : Int := (x + 2147483648) % 4294967296 - 2147483648

/-- Wrap an integer to the `int64_t` range. -/
def wrap64 (x : Int) : Int :=
  (x + 9223372036854775808) % 18446744073709551616 - 9223372036854775808

/-- What a signed operation does when its exact result leaves the range of the
type: the C standard leaves the behaviour undefined (`undefined`: the call has
no result); a compiler for a two's complement machine commonly lets the value
wrap (`wraps`). -/
inductive Overflow where
  | undefined
  | wraps
  deriving DecidableEq, Repr

/-- How a call of a helper ends other than by returning a value: `assert`
failed, or a signed operation overflowed where that is undefined. -/
inductive Fault where
  | assertion
  | overflow
  deriving DecidableEq, Repr

instance : DecidableEq (Except Fault Int) := fun x y =>
  match x, y with
  | .ok a, .ok b => if h : a = b then isTrue (by rw [h]) else isFalse (fun e => h (Except.ok.inj e))
  | .error a, .error b =>
    if h : a = b then isTrue (by rw [h]) else isFalse (fun e => h (Except.error.inj e))
  | .ok _, .error _ => isFalse (fun e => Except.noConfusion e)
  | .error _, .ok _ => isFalse (fun e => Except.noConfusion e)

/-- The result of one `int32_t` operation whose exact value is `x`. -/
def int32 (ov : Overflow) (x : Int) : Except Fault Int :=
  if isInt32 x then Except.ok x
  else
    match ov with
    | .undefined => Except.error Fault.overflow
    | .wraps => Except.ok (wrap32 x)

/-- The result of one `int64_t` operation whose exact value is `x`. -/
def int64 (ov : Overflow) (x : Int) : Except Fault Int :=
  if isInt64 x then Except.ok x
  else
    match ov with
    | .undefined => Except.error Fault.overflow
    | .wraps => Except.ok (wrap64 x)

/-- `x % y` on `int32_t`: when the quotient `x / y` is not representable, the
behaviour of `%` is undefined as well. -/
def rem32 (ov : Overflow) (x y : Int) : Except Fault Int := do
  let _ ← int32 ov (Int.tdiv x y)
  int32 ov (Int.tmod x y)

/-- `x % y` on `int64_t`. -/
def rem64 (ov : Overflow) (x y : Int) : Except Fault Int := do
  let _ ← int64 ov (Int.tdiv x y)
  int64 ov (Int.tmod x y)

/-- `OBX$Div32`: `(a - b + 1) / b` is `((a - b) + 1) / b`. -/
def OBX_Div32 (ov : Overflow) (a b : Int) : Except Fault Int :=
  if b = 0 then Except.error Fault.assertion
  else if a < 0 then do
    let d ← int32 ov (a - b)
    let s ← int32 ov (d + 1)
    int32 ov (Int.tdiv s b)
  else
    int32 ov (Int.tdiv a b)

/-- `OBX$Div64`. -/
def OBX_Div64 (ov : Overflow) (a b : Int) : Except Fault Int :=
  if b = 0 then Except.error Fault.assertion
  else if a < 0 then do
    let d ← int64 ov (a - b)
    let s ← int64 ov (d + 1)
    int64 ov (Int.tdiv s b)
  else
    int64 ov (Int.tdiv a b)

/-- `OBX$Mod32`: `(b - 1) + (a - b + 1) % b`. -/
def OBX_Mod32 (ov : Overflow) (a b : Int) : Except Fault Int :=
  if b = 0 then Except.error Fault.assertion
  else if a < 0 then do
    let p ← int32 ov (b - 1)
    let d ← int32 ov (a - b)
    let s ← int32 ov (d + 1)
    let r ← rem32 ov s b
    int32 ov (p + r)
  else
    rem32 ov a b

/-- `OBX$Mod64`. -/
def OBX_Mod64 (ov : Overflow) (a b : Int) : Except Fault Int :=
  if b = 0 then Except.error Fault.assertion
  else if a < 0 then do
    let p ← int64 ov (b - 1)
    let d ← int64 ov (a - b)
    let s ← int64 ov (d + 1)
    let r ← rem64 ov s b
    int64 ov (p + r)
  else
    rem64 ov a b

/-- `OBX$SetDiv` on `uint32_t` values (naturals below 2^32): `~` is the
complement to 2^32 - 1. -/
def OBX_SetDiv (lhs rhs : Nat) : Nat :=
  (4294967296 - ((lhs &&& rhs) % 4294967296 + 1)) &&& (lhs ||| rhs)

/-! ### String relations (`OBX$StrOp`) -/

/-- The C library `strcmp` on the characters at two pointers (`unsigned char`
values): the strings are compared up to the first pair of characters that
differ or the terminator. The C standard fixes the sign of the result; the
difference of that pair stands for it. A read beyond the characters given is
the result `none`. -/
def strcmp : List Nat → List Nat → Option Int
  | a :: as, b :: bs =>
    if a ≠ b then some ((a : Int) - (b : Int))
    else if a = 0 then some 0
    else strcmp as bs
  | _, _ => none

/-- The C library `wcscmp`: as `strcmp`, on wide characters (the values of the
characters are not negative). -/
def wcscmp (l r : List Nat) : Option Int := strcmp l r

/-- The C library `strlen`: `none` without a terminator among the characters
given. -/
def strlen : List Nat → Option Nat
  | [] => none
  | a :: as => if a = 0 then some 0 else (strlen as).map (fun n => n + 1)

/-- The copy of a narrow string into wide characters in `OBX$StrOp`:
`strlen + 1` characters, each cast by `(uint8_t)`. -/
def widen (a : List Nat) : Option (List Nat) :=
  (strlen a).map (fun n => (a.take (n + 1)).map (fun c => c % 256))

/-- The `switch(op)` of `OBX$StrOp` on the result `c` of the comparison. -/
def strOpSwitch (op : Int) (c : Int) : Int :=
  if op = 1 then (if c = 0 then 1 else 0)
  else if op = 2 then (if c ≠ 0 then 1 else 0)
  else if op = 3 then (if c < 0 then 1 else 0)
  else if op = 4 then (if c ≤ 0 then 1 else 0)
  else if op = 5 then (if c > 0 then 1 else 0)
  else if op = 6 then (if c ≥ 0 then 1 else 0)
  else 0

/-- `OBX$StrOp`: `lhs` and `rhs` are the characters at `lhs->$a` and
`rhs->$a`, `lwide` and `rwide` say whether the flag of the same name is not
zero. In the narrow case the comparison is called inside the `case` of the
operator, so another operator returns 0 without a comparison. -/
def OBX_StrOp (lhs : List Nat) (lwide : Bool) (rhs : List Nat) (rwide : Bool) (op : Int) :
    Option Int :=
  if !lwide && !rwide then
    if 1 ≤ op ∧ op ≤ 6 then (strcmp lhs rhs).map (strOpSwitch op)
    else some 0
  else
    match (if lwide then some lhs else widen lhs), (if rwide then some rhs else widen rhs) with
    | some l, some r =>
      if 1 ≤ op ∧ op ≤ 6 then (wcscmp l r).map (strOpSwitch op)
      else some 0
    | _, _ => none

/-- The zero-terminated string at a pointer: the characters before the first
terminator. -/
def cstring (a : List Nat) : List Nat := a.takeWhile (fun c => c ≠ 0)

/-! ### UTF-8 (`decode`) -/

/-- The byte `in[i]` of `decode`: a `uint8_t`; `none` beyond the bytes given. -/
def byteAt (bytes : List Nat) (i : Nat) : Option Nat :=
  match bytes[i]? with
  | some b => some (b % 256)
  | none => none

/-- `decode` of `OBX.Runtime.c`: `bytes` are the bytes at `in`; the result is
the value returned and the length stored to `*len`. `assert(0)` failing, and a
read beyond the bytes given, is the result `none`. No operation leaves the
range of `uint32_t`. -/
def decode (bytes : List Nat) : Option (Nat × Nat) :=
  match byteAt bytes 0 with
  | none => none
  | some b0 =>
    if b0 ≤ 0x7f then some (b0, 1)
    else if b0 ≤ 0xdf then
      match byteAt bytes 1 with
      | some b1 => some (((b0 &&& 0x1f) <<< 6) ||| (b1 &&& 0x3f), 2)
      | none => none
    else if b0 ≤ 0xef then
      match byteAt bytes 1, byteAt bytes 2 with
      | some b1, some b2 =>
        some ((((b0 &&& 0xf) <<< 12) ||| ((b1 &&& 0x3f) <<< 6)) ||| (b2 &&& 0x3f), 3)
      | _, _ => none
    else if b0 ≤ 0xf7 then
      match byteAt bytes 1, byteAt bytes 2, byteAt bytes 3 with
      | some b1, some b2, some b3 =>
        some (((((b0 &&& 0x7) <<< 18) ||| ((b1 &&& 0x3f) <<< 12)) ||| ((b2 &&& 0x3f) <<< 6)) |||
          (b3 &&& 0x3f), 4)
      | _, _, _ => none
    else none

/-- The standard UTF-8 encoding of the code point `c` (RFC 3629): one byte
`0xxxxxxx` below `0x80`, two bytes `110xxxxx 10xxxxxx` below `0x800`, three
bytes `1110xxxx 10xxxxxx 10xxxxxx` below `0x10000`, else four bytes
`11110xxx 10xxxxxx 10xxxxxx 10xxxxxx`; the bits of `c` fill the `x` from the
most significant one on. -/
def specUtf8Encode (c : Nat) : List Nat :=
  if c < 0x80 then [c]
  else if c < 0x800 then [0xc0 ||| (c >>> 6), 0x80 ||| (c &&& 0x3f)]
  else if c < 0x10000 then
    [0xe0 ||| (c >>> 12), 0x80 ||| ((c >>> 6) &&& 0x3f), 0x80 ||| (c &&& 0x3f)]
  else
    [0xf0 ||| (c >>> 18), 0x80 ||| ((c >>> 12) &&& 0x3f), 0x80 ||| ((c >>> 6) &&& 0x3f),
     0x80 ||| (c &&& 0x3f)]

end OBX

namespace Obx

/-! ## Code generator (`ObxCilGen.cpp`)

The generator is built with `_MY_GENERICS_` defined and `_USE_VALUE_RECORDS_`
undefined; the embedding follows that configuration, in which
`formatMetaActuals` returns the empty string and `forceFormalIndex` is never
set.  A `Q_ASSERT` is a precondition of the function that contains it; the
visits of statements and expressions count the ones that fail. -/

/-! ### Syntax tree -/

/-- Modelled from the spec: primitive tags of a base type (`ObxAst.h` is not
among the sources): BOOLEAN, CHAR, WCHAR, BYTE, SHORTINT, INTEGER, LONGINT,
REAL, LONGREAL, SET, NIL, STRING, WSTRING, BYTEARRAY, ENUMINT, ANY, NONE. -/
inductive BaseTypeTag where
  | BOOLEAN | CHAR | WCHAR | BYTE | SHORTINT | INTEGER | LONGINT | REAL | LONGREAL
  | SET | NIL | STRING | WSTRING | BYTEARRAY | ENUMINT | ANY | NONE
  deriving DecidableEq, Repr

/-- Modelled from the spec: tag of a named declaration (`Thing::getTag()` of
`ObxAst.h`): variable, local variable, parameter, field, procedure, named
type, constant, built-in, import, generic name, and the module itself. -/
inductive Tag where
  | T_Module | T_Procedure | T_NamedType | T_Variable | T_LocalVar | T_Parameter
  | T_Field | T_Const | T_BuiltIn | T_Import | T_GenericName
  deriving DecidableEq, Repr

/-- Modelled from the spec: `Named::Visibility` of `ObxAst.h`. -/
inductive Visibility where
  | NotApplicable | Private | ReadWrite | ReadOnly
  deriving DecidableEq, Repr

/-- Modelled from the spec: a source location (row, column); `RowCol()` is
row 0, column 0. -/
structure RowCol where
  d_row : Nat
  d_col : Nat
  deriving DecidableEq, Repr

/-- Modelled from the spec: a module with the flags the generator reads
(definition-only, validated, had-errors); `uid` stands for the identity of the
object (the source compares `Module*` pointers), `name` for `getName()`. -/
structure Module where
  uid : Nat
  name : String
  d_file : String
  d_isDef : Bool
  d_isValidated : Bool
  d_hasErrors : Bool
  deriving DecidableEq, Repr

/-- Modelled from the spec: the chain of `d_scope` pointers of a declaration:
no scope, a module, or an enclosing declaration (a procedure) with its own
scope. -/
inductive Scope where
  | null
  | module (m : Module)
  | decl (tag : Tag) (d_name : String) (d_scope : Scope)
  deriving DecidableEq, Repr

/-- Modelled from the spec: a named declaration; `getModule` is the module
that contains it. -/
structure Named where
  tag : Tag
  d_name : String
  d_visibility : Visibility
  d_scope : Scope
  getModule : Module
  deriving DecidableEq, Repr

/-- Modelled from the spec: what the generator reads of a record other than
its fields: the declaration `findDecl()` finds, the one `findDecl(true)` finds,
the anonymous slot with its validity flag and the by-value flag. -/
structure RecordRef where
  findDecl : Option Named
  findDeclRecursive : Option Named
  d_slot : Nat
  d_slotValid : Bool
  d_byValue : Bool
  deriving DecidableEq, Repr

mutual
/-- Modelled from the spec: a type: base type, enumeration, array (element
type and length; the length is `none` for an open array, whose `d_lenExpr` is
null), pointer (target), procedure type, qualified type (self-reference flag
and the type `d_quali->d_type` it resolves to) and record. A missing pointer
is `none`. -/
inductive Ty where
  | BaseType (b : BaseTypeTag)
  | Enumeration
  | Array (d_type : Option Ty) (d_len : Option Nat)
  | Pointer (d_to : Option Ty)
  | ProcType (pt : ProcType)
  | QualiType (d_selfRef : Bool) (d_quali_type : Option Ty)
  | Record (r : RecordRef)
/-- Modelled from the spec: a procedure type: formal parameters, optional
return type, type-bound flag and the module `declaredIn()` yields. -/
inductive ProcType where
  | mk (d_formals : List Parameter) (d_return : Option Ty) (d_typeBound : Bool)
      (declaredIn : Option Module)
/-- Modelled from the spec: a parameter with its `var` and `const` flags. -/
inductive Parameter where
  | mk (d_name : String) (d_var : Bool) (d_const : Bool) (d_type : Option Ty)
end

/-- Field `d_var` of a parameter. -/
def Parameter.d_var : Parameter → Bool
  | .mk _ v _ _ => v

/-- Field `d_const` of a parameter. -/
def Parameter.d_const : Parameter → Bool
  | .mk _ _ c _ => c

/-- Field `d_type` of a parameter. -/
def Parameter.d_type : Parameter → Option Ty
  | .mk _ _ _ t => t

/-- Field `d_name` of a parameter. -/
def Parameter.d_name : Parameter → String
  | .mk n _ _ _ => n

/-- Field `d_formals` of a procedure type. -/
def ProcType.d_formals : ProcType → List Parameter
  | .mk fs _ _ _ => fs

/-- Field `d_return` of a procedure type. -/
def ProcType.d_return : ProcType → Option Ty
  | .mk _ r _ _ => r

/-- Field `d_typeBound` of a procedure type. -/
def ProcType.d_typeBound : ProcType → Bool
  | .mk _ _ b _ => b

/-- The module `declaredIn()` yields for a procedure type. -/
def ProcType.declaredIn : ProcType → Option Module
  | .mk _ _ _ m => m

/-- Modelled from the spec: a record field with its owner record. -/
structure Field where
  named : Named
  d_loc : RowCol
  d_type : Option Ty
  d_owner : Option RecordRef

/-- Modelled from the spec: a record: what `RecordRef` holds, the location,
the base type as written (`d_base`), the base record it resolves to
(`d_baseRec`), the fields in source order, the list `getOrderedFields()`
returns, and the flag `d_slotAllocated`. -/
structure Record where
  ref : RecordRef
  d_loc : RowCol
  d_base : Option Ty
  d_baseRec : Option RecordRef
  d_fields : List Field
  getOrderedFields : List Field
  d_slotAllocated : Bool

/-- Modelled from the spec: an expression as far as `emitCall` inspects an
actual argument: its type and location. -/
structure Expression where
  d_type : Option Ty
  d_loc : RowCol

/-- Modelled from the spec: `Type::derefed()`: follows qualified types to the
type they name; an unresolved qualified type is returned as it is. -/
def Ty.derefed : Ty → Ty
  | .QualiType _ (some t) => t.derefed
  | t => t

/-- The static helper `derefed( Type* t )`: null stays null. -/
def derefed : Option Ty → Option Ty
  | some t => some t.derefed
  | none => none

/-- Modelled from the spec: `Type::isStructured()`: records and arrays are
structured, every other type is not. -/
def Ty.isStructured : Ty → Bool
  | .Record _ => true
  | .Array _ _ => true
  | _ => false

/-- Modelled from the spec: `Type::getBaseType()`: the primitive tag of a base
type, nothing for any other type. -/
def Ty.getBaseType : Ty → Option BaseTypeTag
  | .BaseType b => some b
  | _ => none

/-- Modelled from the spec: `Type::toRecord()`: the record a type denotes,
directly or through one pointer. -/
def Ty.toRecord (t : Ty) : Option RecordRef :=
  match t.derefed with
  | .Record r => some r
  | .Pointer (some p) =>
    match p.derefed with
    | .Record r => some r
    | _ => none
  | _ => none

/-! ### Emitter calls and generator state -/

/-- Modelled from the spec: `IlEmitter::MethodKind`. -/
inductive MethodKind where
  | Static | Instance | Virtual | Primary
  deriving DecidableEq, Repr

/-- Modelled from the spec: `IlEmitter::ModuleKind`. -/
inductive ModuleKind where
  | Library | ConsoleApp | GuiApp
  deriving DecidableEq, Repr

/-- Modelled from the spec: the target of `IlEmitter::conv_`. -/
inductive ConvTo where
  | ToI1 | ToI2 | ToI4 | ToI8 | ToR4 | ToR8 | ToU1 | ToU2 | ToU4 | ToU8
  deriving DecidableEq, Repr

/-- Modelled from the spec: one call of the emitter interface
(`ObxIlEmitter.h` is not among the sources), with the arguments of the call
site; an argument the call site leaves to its default is `none`. -/
inductive Emit where
  | beginClass (className : String) (isPublic : Bool) (superClassRef : String)
  | endClass
  | addField (name : String) (typeRef : String) (isPublic : Bool) (isStatic : Bool)
  | beginMethod (name : String) (isPublic : Bool) (kind : Option MethodKind)
      (isRuntime : Option Bool)
  | endMethod
  | addArgument (typeRef : String) (name : String)
  | addLocal (typeRef : String) (name : String)
  | line_ (loc : RowCol)
  | ldarg_ (n : Nat)
  | ldfld_ (fieldRef : String)
  | stfld_ (fieldRef : String)
  | call_ (methodRef : String) (argCount : Option Nat) (hasRet : Option Bool)
      (isInstance : Option Bool)
  | callvirt_ (methodRef : String) (argCount : Option Nat) (hasRet : Option Bool)
  | ret_ (hasRet : Option Bool)
  | beginModule (moduleName : String) (imports : List String) (sourceFile : String)
      (moduleKind : Option ModuleKind)
  | endModule
  | ldc_i4 (v : Int)
  | ldloc_ (n : Int)
  | stloc_ (n : Int)
  | starg_ (n : Nat)
  | dup_
  | pop_
  | ldlen_
  | ldelem_ (typeRef : String)
  | stelem_ (typeRef : String)
  | newarr_ (typeRef : String)
  | or_
  | and_
  | not_
  | add_
  | sub_
  | mul_
  | div_
  | conv_ (target : ConvTo)
  | ceq_
  | cgt_
  | clt_
  | isinst_ (typeRef : String)
  | ldnull_
  | brfalse_ (label : Nat)
  | brtrue_ (label : Nat)
  | br_ (label : Nat)
  | ble_ (label : Nat)
  | bge_ (label : Nat)
  | label_ (label : Nat)
  | ldc_i8 (v : Int)
  | ldc_r4 (v : ℚ)
  | ldc_r8 (v : ℚ)
  | newobj_ (methodRef : String)
  | ldsfld_ (fieldRef : String)
  | stsfld_ (fieldRef : String)
  | setReturnType (typeRef : String)
  | ldstr_ (text : String)
  deriving Repr

/-- The functions of the emitter interface. -/
inductive EmitKind where
  | beginClass | endClass | addField | beginMethod | endMethod | addArgument | addLocal | line_
  | ldarg_ | ldfld_ | stfld_ | call_ | callvirt_ | ret_ | beginModule | endModule | ldc_i4
  | ldloc_ | stloc_ | starg_ | dup_ | pop_ | ldlen_ | ldelem_ | stelem_ | newarr_ | or_ | and_
  | not_ | add_ | sub_ | mul_ | div_ | conv_ | ceq_ | cgt_ | clt_ | isinst_ | ldnull_ | brfalse_
  | brtrue_ | br_ | ble_ | bge_ | label_ | ldc_i8 | ldc_r4 | ldc_r8 | newobj_ | ldsfld_
  | stsfld_ | setReturnType | ldstr_
  deriving DecidableEq, Repr

/-- An argument of a call of the emitter. -/
inductive EmitArg where
  | b (x : Bool) | conv (x : ConvTo) | i (x : Int) | strs (x : List String) | n (x : Nat)
  | ob (x : Option Bool) | omk (x : Option MethodKind) | omod (x : Option ModuleKind)
  | on (x : Option Nat) | loc (x : RowCol) | s (x : String) | q (x : ℚ)
  deriving DecidableEq

/-- The function of the emitter a call goes to. -/
def Emit.kind : Emit → EmitKind
  | .beginClass _ _ _ => .beginClass
  | .endClass => .endClass
  | .addField _ _ _ _ => .addField
  | .beginMethod _ _ _ _ => .beginMethod
  | .endMethod => .endMethod
  | .addArgument _ _ => .addArgument
  | .addLocal _ _ => .addLocal
  | .line_ _ => .line_
  | .ldarg_ _ => .ldarg_
  | .ldfld_ _ => .ldfld_
  | .stfld_ _ => .stfld_
  | .call_ _ _ _ _ => .call_
  | .callvirt_ _ _ _ => .callvirt_
  | .ret_ _ => .ret_
  | .beginModule _ _ _ _ => .beginModule
  | .endModule => .endModule
  | .ldc_i4 _ => .ldc_i4
  | .ldloc_ _ => .ldloc_
  | .stloc_ _ => .stloc_
  | .starg_ _ => .starg_
  | .dup_ => .dup_
  | .pop_ => .pop_
  | .ldlen_ => .ldlen_
  | .ldelem_ _ => .ldelem_
  | .stelem_ _ => .stelem_
  | .newarr_ _ => .newarr_
  | .or_ => .or_
  | .and_ => .and_
  | .not_ => .not_
  | .add_ => .add_
  | .sub_ => .sub_
  | .mul_ => .mul_
  | .div_ => .div_
  | .conv_ _ => .conv_
  | .ceq_ => .ceq_
  | .cgt_ => .cgt_
  | .clt_ => .clt_
  | .isinst_ _ => .isinst_
  | .ldnull_ => .ldnull_
  | .brfalse_ _ => .brfalse_
  | .brtrue_ _ => .brtrue_
  | .br_ _ => .br_
  | .ble_ _ => .ble_
  | .bge_ _ => .bge_
  | .label_ _ => .label_
  | .ldc_i8 _ => .ldc_i8
  | .ldc_r4 _ => .ldc_r4
  | .ldc_r8 _ => .ldc_r8
  | .newobj_ _ => .newobj_
  | .ldsfld_ _ => .ldsfld_
  | .stsfld_ _ => .stsfld_
  | .setReturnType _ => .setReturnType
  | .ldstr_ _ => .ldstr_

/-- The arguments of a call, in order. -/
def Emit.args : Emit → List EmitArg
  | .beginClass a0 a1 a2 => [.s a0, .b a1, .s a2]
  | .endClass => []
  | .addField a0 a1 a2 a3 => [.s a0, .s a1, .b a2, .b a3]
  | .beginMethod a0 a1 a2 a3 => [.s a0, .b a1, .omk a2, .ob a3]
  | .endMethod => []
  | .addArgument a0 a1 => [.s a0, .s a1]
  | .addLocal a0 a1 => [.s a0, .s a1]
  | .line_ a0 => [.loc a0]
  | .ldarg_ a0 => [.n a0]
  | .ldfld_ a0 => [.s a0]
  | .stfld_ a0 => [.s a0]
  | .call_ a0 a1 a2 a3 => [.s a0, .on a1, .ob a2, .ob a3]
  | .callvirt_ a0 a1 a2 => [.s a0, .on a1, .ob a2]
  | .ret_ a0 => [.ob a0]
  | .beginModule a0 a1 a2 a3 => [.s a0, .strs a1, .s a2, .omod a3]
  | .endModule => []
  | .ldc_i4 a0 => [.i a0]
  | .ldloc_ a0 => [.i a0]
  | .stloc_ a0 => [.i a0]
  | .starg_ a0 => [.n a0]
  | .dup_ => []
  | .pop_ => []
  | .ldlen_ => []
  | .ldelem_ a0 => [.s a0]
  | .stelem_ a0 => [.s a0]
  | .newarr_ a0 => [.s a0]
  | .or_ => []
  | .and_ => []
  | .not_ => []
  | .add_ => []
  | .sub_ => []
  | .mul_ => []
  | .div_ => []
  | .conv_ a0 => [.conv a0]
  | .ceq_ => []
  | .cgt_ => []
  | .clt_ => []
  | .isinst_ a0 => [.s a0]
  | .ldnull_ => []
  | .brfalse_ a0 => [.n a0]
  | .brtrue_ a0 => [.n a0]
  | .br_ a0 => [.n a0]
  | .ble_ a0 => [.n a0]
  | .bge_ a0 => [.n a0]
  | .label_ a0 => [.n a0]
  | .ldc_i8 a0 => [.i a0]
  | .ldc_r4 a0 => [.q a0]
  | .ldc_r8 a0 => [.q a0]
  | .newobj_ a0 => [.s a0]
  | .ldsfld_ a0 => [.s a0]
  | .stsfld_ a0 => [.s a0]
  | .setReturnType a0 => [.s a0]
  | .ldstr_ a0 => [.s a0]

set_option maxHeartbeats 4000000 in
/-- Equality of calls is decided on the function and the arguments: a call is
given by them. -/
instance : DecidableEq Emit := fun a b =>
  decidable_of_iff (a.kind = b.kind ∧ a.args = b.args)
    ⟨fun h => by
      obtain ⟨hk, ha⟩ := h
      cases a <;> cases b <;>
        first
        | rfl
        | (simp only [Emit.kind, reduceCtorEq] at hk; done)
        | (simp only [Emit.args, List.cons.injEq, EmitArg.b.injEq, EmitArg.conv.injEq,
            EmitArg.i.injEq, EmitArg.strs.injEq, EmitArg.n.injEq, EmitArg.ob.injEq,
            EmitArg.omk.injEq, EmitArg.omod.injEq, EmitArg.on.injEq, EmitArg.loc.injEq,
            EmitArg.s.injEq, EmitArg.q.injEq, and_true] at ha
           simp only [ha]),
     fun h => h ▸ ⟨rfl, rfl⟩⟩

/-- `CilGenTempPool`: `d_slots` is the bitset (index `i` is bit `i`, 32 bits),
`d_start` a `quint16`, `d_max` a `qint16`. -/
structure CilGenTempPool where
  d_slots : List Bool
  d_start : Nat
  d_max : Int

/-- `CilGenTempPool::MAX_TEMP`. -/
def CilGenTempPool.MAX_TEMP : Nat := 32

/-- `CilGenTempPool::reset`. -/
def CilGenTempPool.reset (_p : CilGenTempPool) (start : Nat) : CilGenTempPool :=
  { d_slots := List.replicate CilGenTempPool.MAX_TEMP false, d_start := start % 65536,
    d_max := -1 }

/-- `CilGenTempPool::buy`: the lowest free index is taken; the result is the
slot `i + d_start`, or `-1` (after the failed `Q_ASSERT`) when all are taken. -/
def CilGenTempPool.buy (p : CilGenTempPool) : Int × CilGenTempPool :=
  match (List.range CilGenTempPool.MAX_TEMP).find? (fun i => !(p.d_slots.getD i false)) with
  | some i =>
    ((i : Int) + (p.d_start : Int),
      { p with d_slots := p.d_slots.set i true,
               d_max := if (i : Int) > p.d_max then (i : Int) else p.d_max })
  | none => (-1, p)

/-- `CilGenTempPool::sell`; `i >= d_start` is the precondition. -/
def CilGenTempPool.sell (p : CilGenTempPool) (i : Nat) : CilGenTempPool :=
  { p with d_slots := p.d_slots.set (i - p.d_start) false }

/-- What the string formatters of the generator read and write: the flag
`forceAssemblyPrefix`, the table `copiers` (type string, array type; an entry
is made once per key) and the table `delegates` (name, procedure type). -/
structure FmtState where
  forceAssemblyPrefix : Bool
  copiers : List (String × Ty)
  delegates : List (String × ProcType)

/-- An error posted to the collector: `err->error( Errors::Generator, Loc, msg )`. -/
structure GenError where
  loc : RowCol
  file : String
  msg : String
  deriving DecidableEq, Repr

/-- State of `ObxCilGenImp` as far as embedded: the emitter calls made so far
(`out`, in order), `last`, `temps`, the formatter state, the errors posted, the
number the next `emitter->newLabel()` returns (`labels`), `exitJump`, which
the constructor sets to -1, and the number of `Q_ASSERT`s of the statement and
expression visits that have failed (`failedAsserts`): a build with assertions
stops at the first of them, a build without them goes on as embedded. -/
structure Gen where
  out : List Emit
  last : RowCol
  temps : CilGenTempPool
  fmt : FmtState
  errs : List GenError
  labels : Nat := 0
  exitJump : Int := -1
  failedAsserts : Nat := 0

/-- What is fixed during the generation of a module: `thisMod` and the hash
`delegateName` applies (MD5 of `QCryptographicHash`, a library function, as
hexadecimal text). -/
structure Env where
  thisMod : Module
  md5Hex : String → String

/-- `escape`. -/
def escape (name : String) : String := "'" ++ name ++ "'"

/-- A call of the emitter. -/
def Gen.emit (g : Gen) (e : Emit) : Gen :=
  { g with out := g.out ++ [e] }

/-- `line`: emits a line marker when the location differs from the last one. -/
def line (g : Gen) (loc : RowCol) : Gen :=
  if ¬ (loc = g.last) then { g.emit (Emit.line_ loc) with last := loc } else g

/-- `beginBody`. -/
def beginBody (g : Gen) (start : Nat) : Gen :=
  { g with last := ⟨0, 0⟩, temps := g.temps.reset start }

/-- `emitLocalVars`: one `int32` local per temporary index up to `d_max`. -/
def emitLocalVars (g : Gen) : Gen :=
  (List.range (g.temps.d_max + 1).toNat).foldl
    (fun h i => h.emit (Emit.addLocal "int32" (escape ("#temp" ++ toString i)))) g

/-! ### Names and type references -/

/-- `dottedName` of a declaration with name `d_name` and scope chain `s`:
the names up to, but not including, the module. -/
def dottedNameIn (d_name : String) (doEscape : Bool) : Scope → String
  | .decl _ sname outer =>
    dottedNameIn sname doEscape outer ++ "." ++ (if doEscape then escape d_name else d_name)
  | _ => if doEscape then escape d_name else d_name

/-- `dottedName( Named* n, bool doEscape = true )`. -/
def dottedName (n : Named) (doEscape : Bool) : String :=
  dottedNameIn n.d_name doEscape n.d_scope

/-- `formatMetaActuals` (both overloads): empty in this configuration. -/
def formatMetaActuals : String := ""

/-- `moduleRef`. -/
def moduleRef (env : Env) (s : FmtState) (modName : Module) : String :=
  let mod := escape modName.name
  if !s.forceAssemblyPrefix && modName = env.thisMod then mod
  else "[" ++ mod ++ "]" ++ mod

/-- `classRef( Named* className )`. -/
def classRefNamed (env : Env) (s : FmtState) (className : Named) : String :=
  moduleRef env s className.getModule ++ "/" ++ dottedName className true

/-- `classRef( Record* r )`. -/
def classRef (env : Env) (s : FmtState) (r : RecordRef) : String :=
  match r.findDecl with
  | some n =>
    if n.tag = Tag.T_NamedType then classRefNamed env s n
    else moduleRef env s n.getModule ++ "/'#" ++ toString r.d_slot ++ "'"
  | none =>
    let m := match r.findDeclRecursive with
      | some n => n.getModule
      | none => env.thisMod
    moduleRef env s m ++ "/'#" ++ toString r.d_slot ++ "'"

/-- `formatBaseType`. -/
def formatBaseType : BaseTypeTag → String
  | .BOOLEAN => "bool"
  | .CHAR => "char"
  | .WCHAR => "char"
  | .BYTE => "uint8"
  | .SHORTINT => "int16"
  | .INTEGER => "int32"
  | .LONGINT => "int64"
  | .REAL => "float32"
  | .LONGREAL => "float64"
  | .SET => "int32"
  | _ => "?"

/-- The case `T_Record` of `formatType`. -/
def formatRecordType (env : Env) (s : FmtState) (r : RecordRef) : String :=
  "class " ++ classRef env s r ++ formatMetaActuals

/-- `passByRef`. -/
def passByRef (p : Parameter) : Bool :=
  if !p.d_var || p.d_const then false
  else
    match derefed p.d_type with
    | some td => if !td.isStructured then true else false
    | none => false

mutual
/-- `formatType` for a type that is not null. -/
def formatType (env : Env) (s : FmtState) : Ty → String × FmtState
  | .Array (some t) _ =>
    let r := formatType env s t
    (r.1 ++ "[]", r.2)
  | .Array none _ => ("?", s)
  | .BaseType b => (formatBaseType b, s)
  | .Enumeration => ("uint16", s)
  | .Pointer (some t) => formatType env s t
  | .Pointer none => ("?", s)
  | .ProcType pt =>
    let r := delegateRef env s pt
    ("class " ++ r.1, r.2)
  | .QualiType _ none => ("?", s)
  | .QualiType d_selfRef (some t) =>
    if d_selfRef then
      match t.derefed.toRecord with
      | some r => (formatRecordType env s r, s)
      | none => ("[mscorlib]System.Object", s)
    else formatType env s t
  | .Record r => (formatRecordType env s r, s)
termination_by structural t => t
/-- `formatType( Type* t )`: `void` for null. -/
def formatTypeOpt (env : Env) (s : FmtState) : Option Ty → String × FmtState
  | none => ("void", s)
  | some t => formatType env s t
termination_by structural t => t
/-- `delegateRef` for a procedure type that is not null. -/
def delegateRef (env : Env) (s : FmtState) : ProcType → String × FmtState
  | .mk d_formals d_return d_typeBound declaredIn =>
    let s1 : FmtState := { s with forceAssemblyPrefix := true }
    -- procTypeSignature
    let r := formatTypeOpt env s1 d_return
    let f := formatFormalsFrom env r.2 false 0 d_formals
    let sig := r.1 ++ "*" ++ ("(" ++ f.1 ++ ")")
    let name := env.md5Hex sig
    let s2 : FmtState :=
      if declaredIn = some env.thisMod then
        { f.2 with delegates :=
            (f.2.delegates.filter (fun e => e.1 != name)) ++
              [(name, ProcType.mk d_formals d_return d_typeBound declaredIn)] }
      else f.2
    let m := match declaredIn with
      | some m => m
      | none => env.thisMod
    let res := moduleRef env s2 m ++ "/'" ++ name ++ "'" ++ formatMetaActuals
    (res, { s2 with forceAssemblyPrefix := false })
termination_by structural pt => pt
/-- One formal inside `formatFormals`: its type, `&` when passed by
reference, and its name when `withName` is set. -/
def formatFormal (env : Env) (s : FmtState) (withName : Bool) : Parameter → String × FmtState
  | .mk d_name d_var d_const d_type =>
    let r := formatTypeOpt env s d_type
    (r.1 ++ (if passByRef (Parameter.mk d_name d_var d_const d_type) then "&" else "")
       ++ (if withName then " " ++ escape d_name else ""), r.2)
termination_by structural p => p
/-- The loop of `formatFormals` from index `i` on (what stands between the
parentheses). -/
def formatFormalsFrom (env : Env) (s : FmtState) (withName : Bool) (i : Nat) :
    List Parameter → String × FmtState
  | [] => ("", s)
  | p :: ps =>
    let r := formatFormal env s withName p
    let rest := formatFormalsFrom env r.2 withName (i + 1) ps
    ((if i ≠ 0 then ", " else "") ++ r.1 ++ rest.1, rest.2)
termination_by structural ps => ps
end

/-- `formatFormals`. -/
def formatFormals (env : Env) (s : FmtState) (formals : List Parameter) (withName : Bool) :
    String × FmtState :=
  let f := formatFormalsFrom env s withName 0 formals
  ("(" ++ f.1 ++ ")", f.2)

/-- `procTypeSignature`. -/
def procTypeSignature (env : Env) (s : FmtState) (pt : ProcType) : String × FmtState :=
  let r := formatTypeOpt env s pt.d_return
  let f := formatFormals env r.2 pt.d_formals false
  (r.1 ++ "*" ++ f.1, f.2)

/-- `memberRef` for a member that is a field (case `T_Field`). -/
def memberRef (env : Env) (s : FmtState) (member : Field) : String × FmtState :=
  let t := formatTypeOpt env s member.d_type
  let cls := match member.d_owner with
    | none => moduleRef env t.2 member.named.getModule
    | some record => classRef env t.2 record
  let nm := match member.d_owner with
    | none => dottedName member.named true
    | some _ => escape member.named.d_name
  (t.1 ++ " " ++ cls ++ formatMetaActuals ++ "::" ++ nm, t.2)

/-- `formatArrayCopierRef`; `a` is the array type. -/
def formatArrayCopierRef (env : Env) (s : FmtState) (a : Ty) : String × FmtState :=
  let sig := formatType env s a
  let s1 : FmtState :=
    if sig.2.copiers.any (fun e => e.1 == sig.1) then sig.2
    else { sig.2 with copiers := sig.2.copiers ++ [(sig.1, a)] }
  ("void " ++ moduleRef env s1 env.thisMod ++ "::'#copy'(" ++ sig.1 ++ ", " ++ sig.1 ++ ")", s1)

/-! ### Record classes -/

/-- `visit( Field* )`, that is `emitVar( me, false )`. -/
def emitField (env : Env) (g : Gen) (me : Field) : Gen :=
  let t := formatTypeOpt env g.fmt me.d_type
  { g with fmt := t.2 }.emit
    (Emit.addField (escape me.named.d_name) t.1
      (me.named.d_visibility = Visibility.ReadWrite ∨ me.named.d_visibility = Visibility.ReadOnly)
      false)

/-- `emitRecordDecl`, from its start to the call of `beginClass`: the guard
on `d_slotAllocated`, class name, visibility and superclass.  The result is
the generator state and the record as the function has updated it
(`d_slotAllocated`, `d_byValue`). -/
def emitRecordDecl_beginClass (env : Env) (g : Gen) (r : Record) : Gen × Record :=
  if r.d_slotAllocated then (g, r)
  else
    let r1 : Record := { r with d_slotAllocated := true }
    match r1.ref.findDecl with
    | some n =>
      if n.tag ≠ Tag.T_NamedType then
        (g.emit (Emit.beginClass ("'#" ++ toString r1.ref.d_slot ++ "'") false ""), r1)
      else
        let isPublic : Bool :=
          n.d_scope = Scope.module env.thisMod ∧ n.d_visibility = Visibility.ReadWrite
        let r2 : Record := { r1 with ref := { r1.ref with d_byValue := false } }
        let className := dottedName n true
        match r2.d_base with
        | some b =>
          let sup := formatType env g.fmt b
          ({ g with fmt := sup.2 }.emit (Emit.beginClass className isPublic sup.1), r2)
        | none => (g.emit (Emit.beginClass className isPublic ""), r2)
    | none =>
      (g.emit (Emit.beginClass ("'#" ++ toString r1.ref.d_slot ++ "'") false ""), r1)

/-- `emitRecordDecl`, the start of the default constructor: `beginMethod`,
`beginBody`, `ldarg 0` and the call of the parent constructor. -/
def emitRecordDecl_ctorCall (env : Env) (g : Gen) (r : Record) : Gen :=
  let g1 := g.emit (Emit.beginMethod ".ctor" true none none)
  let g2 := beginBody g1 0
  let g3 := (line g2 r.d_loc).emit (Emit.ldarg_ 0)
  let what : String :=
    match r.d_baseRec with
    | some b => "void class " ++ classRef env g3.fmt b ++ formatMetaActuals ++ "::.ctor()"
    | none =>
      if r.ref.d_byValue then "void [mscorlib]System.ValueType::.ctor()"
      else "void [mscorlib]System.Object::.ctor()"
  (line g3 r.d_loc).emit (Emit.call_ what (some 1) (some false) (some true))

/-- One round of the loop over the fields in the `#copy` method of
`emitRecordDecl`: the code that copies the field `f` of record `r`. -/
def emitRecordDecl_copyField (env : Env) (r : Record) (g : Gen) (f : Field) : Gen :=
  match derefed f.d_type with
  | some (Ty.Record r2) =>
    let g1 := (line g r.d_loc).emit (Emit.ldarg_ 0)
    let m1 := memberRef env g1.fmt f
    let g2 := (line { g1 with fmt := m1.2 } r.d_loc).emit (Emit.ldfld_ m1.1)
    let g3 := (line g2 r.d_loc).emit (Emit.ldarg_ 1)
    let m2 := memberRef env g3.fmt f
    let g4 := (line { g3 with fmt := m2.2 } r.d_loc).emit (Emit.ldfld_ m2.1)
    let what := "void class " ++ classRef env g4.fmt r2 ++ formatMetaActuals ++ "::'#copy'("
    let type := formatType env g4.fmt (Ty.Record r2)
    let type1 := if r2.d_byValue then type.1 ++ "&" else type.1
    (line { g4 with fmt := type.2 } r.d_loc).emit
      (Emit.callvirt_ (what ++ (type1 ++ ")")) (some 1) none)
  | some (Ty.Array et d_len) =>
    let g1 := (line g r.d_loc).emit (Emit.ldarg_ 0)
    let m1 := memberRef env g1.fmt f
    let g2 := (line { g1 with fmt := m1.2 } r.d_loc).emit (Emit.ldfld_ m1.1)
    let g3 := (line g2 r.d_loc).emit (Emit.ldarg_ 1)
    let m2 := memberRef env g3.fmt f
    let g4 := (line { g3 with fmt := m2.2 } r.d_loc).emit (Emit.ldfld_ m2.1)
    let c := formatArrayCopierRef env g4.fmt (Ty.Array et d_len)
    (line { g4 with fmt := c.2 } r.d_loc).emit (Emit.call_ c.1 (some 2) none none)
  | some (Ty.QualiType _ _) => g
  | some _ =>
    let g1 := (line g r.d_loc).emit (Emit.ldarg_ 0)
    let g2 := (line g1 r.d_loc).emit (Emit.ldarg_ 1)
    let m1 := memberRef env g2.fmt f
    let g3 := (line { g2 with fmt := m1.2 } r.d_loc).emit (Emit.ldfld_ m1.1)
    let m2 := memberRef env g3.fmt f
    (line { g3 with fmt := m2.2 } r.d_loc).emit (Emit.stfld_ m2.1)
  | none => g

/-- `emitRecordDecl`, the block `if( r->d_baseRec )` of the `#copy` method:
the call of the base record's `#copy`. -/
def emitRecordDecl_copyBase (env : Env) (r : Record) (g : Gen) : Gen :=
  match r.d_baseRec with
  | some b =>
    let h1 := (line g r.d_loc).emit (Emit.ldarg_ 0)
    let h2 := (line h1 r.d_loc).emit (Emit.ldarg_ 1)
    let what := "void class " ++ classRef env h2.fmt b ++ formatMetaActuals ++ "::'#copy'("
    let type := formatType env h2.fmt (Ty.Record b)
    let type1 := if r.ref.d_byValue then type.1 ++ "&" else type.1
    (line { h2 with fmt := type.2 } r.d_loc).emit
      (Emit.call_ (what ++ (type1 ++ ")")) (some 1) (some false) (some true))
  | none => g

/-- `emitRecordDecl`, the `#copy` method: from `beginMethod` to `endMethod`;
`r` is the record as updated before (see `emitRecordDecl_beginClass`). -/
def emitRecordDecl_copy (env : Env) (g : Gen) (r : Record) : Gen :=
  let g1 := g.emit (Emit.beginMethod "'#copy'" true (some MethodKind.Virtual) none)
  let type := formatType env g1.fmt (Ty.Record r.ref)
  let type1 := if r.ref.d_byValue then type.1 ++ "&" else type.1
  let g2 := { g1 with fmt := type.2 }.emit (Emit.addArgument type1 "rhs")
  let g3 := beginBody g2 0
  let g4 := emitRecordDecl_copyBase env r g3
  let g5 := r.getOrderedFields.foldl (emitRecordDecl_copyField env r) g4
  let g6 := (line g5 r.d_loc).emit (Emit.ret_ none)
  let g7 := emitLocalVars g6
  g7.emit Emit.endMethod

/-! ### Calls -/

/-- What the loop over the formals in `emitCall` does with one argument: it
posts the Generator error and skips the argument, or it emits the address of
the designator (`emitFetchDesigAddr`), or it emits the value (`accept`
followed by `prepareRhs`). -/
inductive ArgAction where
  | error (e : GenError)
  | emitFetchDesigAddr
  | acceptAndPrepareRhs
  deriving DecidableEq, Repr

/-- The body of the loop over the formals in `emitCall`, as far as it decides
between its branches: `p` is the formal, `arg` the actual at the same index. -/
def emitCall_argAction (env : Env) (p : Parameter) (arg : Expression) : ArgAction :=
  if passByRef p then
    match derefed p.d_type with
    | some (Ty.Array la_d_type _) =>
      let rat : Option Ty :=
        match derefed arg.d_type with
        | some (Ty.Array ta_d_type _) => derefed ta_d_type
        | _ => none
      if ((derefed la_d_type).bind Ty.getBaseType == some BaseTypeTag.BYTE) &&
          (rat.isNone || (rat.bind Ty.getBaseType != some BaseTypeTag.BYTE)) then
        ArgAction.error
          { loc := arg.d_loc, file := env.thisMod.d_file,
            msg := "cannot generate code for Oberon VAR ARRAY OF BYTE trick" }
      else ArgAction.emitFetchDesigAddr
    | _ => ArgAction.emitFetchDesigAddr
  else ArgAction.acceptAndPrepareRhs

/-- The loop over the formals in `emitCall`: one action per formal, in order
(`pt->d_formals.size() <= me->d_args.size()` is the precondition). -/
def emitCall_argActions (env : Env) : List Parameter → List Expression → List ArgAction
  | p :: ps, a :: as => emitCall_argAction env p a :: emitCall_argActions env ps as
  | _, _ => []

/-! ### `CilGen::translate` -/

/-- `CilGen::translate`: `errCount` is the collector's error count (a
`quint32`) before generation, `posted` the number of errors that generating
the module (`m->accept(&imp)`) posts. -/
def translate (m : Module) (errCount : Nat) (posted : Nat) : Bool :=
  if m.d_hasErrors || !m.d_isValidated then false
  else if m.d_isDef then true
  else
    let before := errCount % 4294967296
    let after := (errCount + posted) % 4294967296
    decide ((after + 4294967296 - before) % 4294967296 ≠ 0)

/-! ### Observations on a sequence of emitter calls -/

/-- A line marker. -/
def Emit.isLine : Emit → Bool
  | .line_ _ => true
  | _ => false

/-- The emitter calls other than line markers. -/
def nonLine (l : List Emit) : List Emit := l.filter (fun e => !e.isLine)

/-- A `call` (non-virtual) of an instance method: `call_` with `isInstance` set. -/
def Emit.isInstanceCall : Emit → Bool
  | .call_ _ _ _ (some true) => true
  | _ => false

/-- An instruction that reads or writes a field. -/
def Emit.isFieldAccess : Emit → Bool
  | .ldfld_ _ => true
  | .stfld_ _ => true
  | _ => false

/-- The state `g2` has the emitter calls of `g1` followed by calls that all
satisfy `P`. -/
def Appends (P : Emit → Prop) (g1 g2 : Gen) : Prop :=
  ∃ l, g2.out = g1.out ++ l ∧ ∀ e ∈ l, P e

/-! ### Example inputs

A module `M` with `TYPE Base = RECORD ... END`,
`TYPE Derived = RECORD (Base) y: INTEGER END` and
`VAR v: RECORD (Base) END` (an anonymous record with a base record). -/

/-- The module `M`. -/
def exM : Module :=
  { uid := 1, name := "M", d_file := "M.obx", d_isDef := false, d_isValidated := true,
    d_hasErrors := false }

/-- Generation of `M`; the hash is left symbolic (identity). -/
def exEnv : Env := { thisMod := exM, md5Hex := fun s => s }

/-- The generator state at the start. -/
def exG : Gen :=
  { out := [], last := ⟨0, 0⟩, temps := { d_slots := [], d_start := 0, d_max := -1 },
    fmt := { forceAssemblyPrefix := false, copiers := [], delegates := [] }, errs := [] }

/-- The declaration `TYPE Base`. -/
def exBaseDecl : Named :=
  { tag := Tag.T_NamedType, d_name := "Base", d_visibility := Visibility.ReadWrite,
    d_scope := Scope.module exM, getModule := exM }

/-- The record `Base`. -/
def exBase : RecordRef :=
  { findDecl := some exBaseDecl, findDeclRecursive := some exBaseDecl, d_slot := 0,
    d_slotValid := false, d_byValue := false }

/-- The declaration `TYPE Derived`. -/
def exDerivedDecl : Named :=
  { tag := Tag.T_NamedType, d_name := "Derived", d_visibility := Visibility.Private,
    d_scope := Scope.module exM, getModule := exM }

/-- The record `Derived`, as a type. -/
def exDerivedRef : RecordRef :=
  { findDecl := some exDerivedDecl, findDeclRecursive := some exDerivedDecl, d_slot := 0,
    d_slotValid := false, d_byValue := false }

/-- The field `y: INTEGER` of `Derived`. -/
def exY : Field :=
  { named := { tag := Tag.T_Field, d_name := "y", d_visibility := Visibility.Private,
               d_scope := Scope.null, getModule := exM },
    d_loc := ⟨4, 9⟩, d_type := some (Ty.BaseType BaseTypeTag.INTEGER),
    d_owner := some exDerivedRef }

/-- The record `Derived` with base `Base`. -/
def exDerived : Record :=
  { ref := exDerivedRef, d_loc := ⟨3, 5⟩,
    d_base := some (Ty.QualiType false (some (Ty.Record exBase))), d_baseRec := some exBase,
    d_fields := [exY], getOrderedFields := [exY], d_slotAllocated := false }

/-- The declaration `VAR v`. -/
def exVarDecl : Named :=
  { tag := Tag.T_Variable, d_name := "v", d_visibility := Visibility.Private,
    d_scope := Scope.module exM, getModule := exM }

/-- The anonymous record of `VAR v: RECORD (Base) END`, with slot 1. -/
def exAnon : Record :=
  { ref := { findDecl := some exVarDecl, findDeclRecursive := some exVarDecl, d_slot := 1,
             d_slotValid := true, d_byValue := false },
    d_loc := ⟨7, 5⟩,
    d_base := some (Ty.QualiType false (some (Ty.Record exBase))), d_baseRec := some exBase,
    d_fields := [], getOrderedFields := [], d_slotAllocated := false }

/-- A formal `VAR a: ARRAY OF BYTE`. -/
def exByteArrayFormal : Parameter :=
  Parameter.mk "a" true false (some (Ty.Array (some (Ty.BaseType BaseTypeTag.BYTE)) none))

/-- An actual of type INTEGER at row 12, column 7. -/
def exIntActual : Expression :=
  { d_type := some (Ty.BaseType BaseTypeTag.INTEGER), d_loc := ⟨12, 7⟩ }

/-- A formal `IN x: INTEGER` (both `var` and `const` are set). -/
def exInFormal : Parameter :=
  Parameter.mk "x" true true (some (Ty.BaseType BaseTypeTag.INTEGER))

/-! ### Sequences of calls on the temporary pool -/

/-- A call on the temporary pool inside a procedure body. -/
inductive TempCall where
  | buy
  | sell (i : Int)
  deriving DecidableEq, Repr

/-- A pool together with the record of a run since the last `reset`: the
slots bought and not sold (`bought`) and every slot `buy` has returned
(`returned`). -/
structure TempRun where
  pool : CilGenTempPool
  bought : List Int
  returned : List Int

/-- The run starts with `reset(start)`. -/
def TempRun.reset (p : CilGenTempPool) (start : Nat) : TempRun :=
  { pool := p.reset start, bought := [], returned := [] }

/-- One call. `sell` is applied only to a slot that is currently bought;
a `buy` that finds no free slot returns `-1`, which is not a slot. -/
def TempRun.call (r : TempRun) : TempCall → Option TempRun
  | .buy =>
    let b := r.pool.buy
    if b.1 = -1 then some { r with pool := b.2 }
    else some { pool := b.2, bought := b.1 :: r.bought, returned := b.1 :: r.returned }
  | .sell i =>
    if i ∈ r.bought then
      some { r with pool := r.pool.sell i.toNat, bought := r.bought.erase i }
    else none

/-- A sequence of calls. -/
def TempRun.calls (r : TempRun) : List TempCall → Option TempRun
  | [] => some r
  | c :: cs => (r.call c).bind (fun r1 => r1.calls cs)

/-- The invariant of a run after `reset(start)`. -/
def TempRun.Inv (start : Nat) (r : TempRun) : Prop :=
  r.pool.d_start = start ∧ r.pool.d_slots.length = 32 ∧ r.bought.Nodup ∧
  (∀ i : Nat, i < 32 → (r.pool.d_slots.getD i false = true ↔ ((i : Int) + start) ∈ r.bought)) ∧
  (∀ s ∈ r.bought, ∃ i : Nat, i < 32 ∧ s = (i : Int) + start) ∧
  (r.returned = [] → r.pool.d_max = -1) ∧
  (∀ s ∈ r.returned, ∃ i : Nat, i < 32 ∧ s = (i : Int) + start ∧ (i : Int) ≤ r.pool.d_max) ∧
  (r.returned ≠ [] → r.pool.d_max + start ∈ r.returned)

/-- Example calls: two slots are bought, the first is sold, two more are bought. -/
def exTempCalls : List TempCall :=
  [TempCall.buy, TempCall.buy, TempCall.sell 3, TempCall.buy, TempCall.buy]

/-- Example calls: two slots are bought and sold, one more is bought. -/
def exTempCalls2 : List TempCall :=
  [TempCall.buy, TempCall.buy, TempCall.sell 4, TempCall.sell 3, TempCall.buy]

/-! ### Anonymous record slots -/

/-- The records of the syntax tree (a `Record*` is the index in `records`) and
the counter `anonymousDeclNr`, a `quint32` that starts with 1. -/
structure AllocState where
  anonymousDeclNr : Nat
  records : List RecordRef
  deriving DecidableEq, Repr

/-- The test `n == 0 || n->getTag() != Thing::T_NamedType` of
`allocRecordDecl` for `n = r->findDecl()`. -/
def RecordRef.isAnonymous (r : RecordRef) : Bool :=
  match r.findDecl with
  | none => true
  | some n => n.tag ≠ Tag.T_NamedType

/-- `allocRecordDecl`. -/
def allocRecordDecl (st : AllocState) (r : Nat) : AllocState :=
  match st.records[r]? with
  | none => st
  | some rec =>
    if rec.d_slotValid then st
    else if rec.isAnonymous then
      { anonymousDeclNr := (st.anonymousDeclNr + 1) % 4294967296,
        records := st.records.set r { rec with d_slot := st.anonymousDeclNr, d_slotValid := true } }
    else st

/-- The loop `foreach( Record* r, co.allRecords ) allocRecordDecl(r)` of
`visit(Module)`, with the counter as the constructor of `ObxCilGenImp` sets
it. -/
def allocRecordDecls (records : List RecordRef) (allRecords : List Nat) : AllocState :=
  allRecords.foldl allocRecordDecl { anonymousDeclNr := 1, records := records }

/-- The elements of a list in the order of their first occurrence. -/
def firstOccurrences (l : List Nat) : List Nat :=
  l.foldl (fun acc r => if r ∈ acc then acc else acc ++ [r]) []

/-- The anonymous records of the collected list, in the order of their first
occurrence. -/
def anonymousOrder (records : List RecordRef) (allRecords : List Nat) : List Nat :=
  firstOccurrences (allRecords.filter (fun r =>
    match records[r]? with
    | some rec => rec.isAnonymous
    | none => false))

/-- Example: three records; 0 and 2 are anonymous, 1 is declared by the named
type `Base`. -/
def exRecords : List RecordRef :=
  [{ findDecl := some exVarDecl, findDeclRecursive := some exVarDecl, d_slot := 0,
     d_slotValid := false, d_byValue := false },
   { exBase with d_slotValid := false },
   { findDecl := none, findDeclRecursive := none, d_slot := 0, d_slotValid := false,
     d_byValue := false }]

/-- Example: the collected list names record 2, then 1, then 0, then 2 again. -/
def exAllRecords : List Nat := [2, 1, 0, 2]

/-- The invariant of the loop over the collected list: `acc` holds the
anonymous records met so far in the order of their first occurrence. -/
def AllocInv (records : List RecordRef) (st : AllocState) (acc : List Nat) : Prop :=
  st.anonymousDeclNr = acc.length + 1 ∧
  (∀ k r, acc[k]? = some r → ∃ rec : RecordRef, records[r]? = some rec ∧
    st.records[r]? = some { rec with d_slot := k + 1, d_slotValid := true }) ∧
  (∀ r, r ∉ acc → st.records[r]? = records[r]?)

/-! ### `CilGen::generateMain` -/

/-- `CilGen::generateMain(e, name, module, function)`: the result and the calls
made on the emitter `e`. -/
def generateMain (name module function : String) : Bool × List Emit :=
  if module.isEmpty then (false, [])
  else
    let mod := escape name
    let imports := [mod]
    (true,
      [Emit.beginModule mod imports "" (some ModuleKind.ConsoleApp),
       Emit.beginMethod "main" false (some MethodKind.Primary) none,
       (if !function.isEmpty then
          Emit.call_ ("void ['" ++ mod ++ "']'" ++ mod ++ "'::'" ++ function ++ "'()") none none
            none
        else Emit.call_ ("void ['" ++ mod ++ "']'" ++ mod ++ "'::'ping#'()") none none none),
       Emit.ret_ none,
       Emit.endMethod,
       Emit.endModule])

/-- `CilGen::generateMain(e, name, modules)`: the result and the calls made on
the emitter `e`. -/
def generateMainModules (name : String) (modules : List String) : Bool × List Emit :=
  if modules.isEmpty then (false, [])
  else
    let imports := modules.foldl (fun l mod => l ++ [escape mod]) []
    let out0 := [Emit.beginModule (escape name) imports "" (some ModuleKind.ConsoleApp),
      Emit.beginMethod "main" false (some MethodKind.Primary) none]
    let out1 := modules.foldl
      (fun l mod => l ++ [Emit.call_ ("void ['" ++ mod ++ "']'" ++ mod ++ "'::'ping#'()")
        none none none]) out0
    (true, out1 ++ [Emit.ret_ none, Emit.endMethod, Emit.endModule])

/-! ### Array copiers and `visit(Module)` -/

/-- Modelled from the spec: `IlEmitter::newLabel()`: the labels of an emitter
are numbered in the order in which they are requested. -/
def newLabel (g : Gen) : Nat × Gen := (g.labels, { g with labels := g.labels + 1 })

/-- A sequence of calls of the emitter. -/
def Gen.emits (g : Gen) (l : List Emit) : Gen := { g with out := g.out ++ l }

/-- `line(loc).op(...)`: the line marker if needed, then the call. -/
def Gen.lineEmit (g : Gen) (loc : RowCol) (e : Emit) : Gen := (line g loc).emit e

/-- `temps.buy()`; the result is the slot and the state. -/
def Gen.buy (g : Gen) : Int × Gen := (g.temps.buy.1, { g with temps := g.temps.buy.2 })

/-- `temps.sell(i)`. -/
def Gen.sell (g : Gen) (i : Int) : Gen := { g with temps := g.temps.sell i.toNat }

/-- The state `ObxCilGenImp` has after its constructor. -/
def Gen.init : Gen :=
  { out := [], last := ⟨0, 0⟩,
    temps := { d_slots := List.replicate CilGenTempPool.MAX_TEMP false, d_start := 0, d_max := -1 },
    fmt := { forceAssemblyPrefix := false, copiers := [], delegates := [] }, errs := [],
    labels := 0, exitJump := -1 }

/-- The part of `emitArrayCopier` that copies one element, for the element
type `et` (not null): an element that is an array is copied by its own copier,
which is requested here; a record by its `#copy` method; any other element by
`ldelem`, `stelem`. -/
def emitArrayCopier_element (env : Env) (g : Gen) (et : Ty) (idx : Int) (addLbl : Nat) : Gen :=
  match et with
  | Ty.Array _ _ =>
    let g1 := g.emits [Emit.ldarg_ 0, Emit.ldloc_ idx]
    let t1 := formatType env g1.fmt et
    let g2 := ({ g1 with fmt := t1.2 }.emit (Emit.ldelem_ t1.1)).emits
      [Emit.ldarg_ 1, Emit.ldloc_ idx]
    let t2 := formatType env g2.fmt et
    let g3 := { g2 with fmt := t2.2 }.emit (Emit.ldelem_ t2.1)
    let c := formatArrayCopierRef env g3.fmt et
    ({ g3 with fmt := c.2 }.emit (Emit.call_ c.1 (some 2) none none)).emit (Emit.br_ addLbl)
  | Ty.Record r2 =>
    let g1 := g.emits [Emit.ldarg_ 0, Emit.ldloc_ idx]
    let t1 := formatType env g1.fmt et
    let g2 := ({ g1 with fmt := t1.2 }.emit (Emit.ldelem_ t1.1)).emits
      [Emit.ldarg_ 1, Emit.ldloc_ idx]
    let t2 := formatType env g2.fmt et
    let g3 := { g2 with fmt := t2.2 }.emit (Emit.ldelem_ t2.1)
    let t3 := formatType env g3.fmt et
    let type := if r2.d_byValue then t3.1 ++ "&" else t3.1
    { g3 with fmt := t3.2 }.emit
      (Emit.callvirt_ ("void class " ++ classRef env t3.2 r2 ++ formatMetaActuals ++
        "::'#copy'(" ++ type ++ ")") (some 1) none)
  | Ty.QualiType _ _ => g
  | _ =>
    let g1 := g.emits [Emit.ldarg_ 0, Emit.ldloc_ idx, Emit.ldarg_ 1, Emit.ldloc_ idx]
    let t1 := formatType env g1.fmt et
    let g2 := { g1 with fmt := t1.2 }.emit (Emit.ldelem_ t1.1)
    let t2 := formatType env g2.fmt et
    { g2 with fmt := t2.2 }.emit (Emit.stelem_ t2.1)

/-- `emitArrayCopier(a, loc)` for an array type `a` with an element type. -/
def emitArrayCopier (env : Env) (g0 : Gen) (a : Ty) (loc : RowCol) : Gen :=
  match a with
  | Ty.Array (some d_type) _ =>
    let et := d_type.derefed
    let g1 := g0.emit (Emit.beginMethod "'#copy'" true (some MethodKind.Static) none)
    let type := formatType env g1.fmt a
    let g2 := { g1 with fmt := type.2 }.emits
      [Emit.addArgument type.1 "lhs", Emit.addArgument type.1 "rhs"]
    let g3 := line (beginBody g2 0) loc
    let len := g3.buy
    let g4 := len.2.emits [Emit.ldarg_ 0, Emit.ldlen_, Emit.ldarg_ 1, Emit.ldlen_]
    let lhsIsLen := newLabel g4
    let storeLen := newLabel lhsIsLen.2
    let g5 := storeLen.2.emits
      [Emit.ble_ lhsIsLen.1, Emit.ldarg_ 1, Emit.ldlen_, Emit.br_ storeLen.1,
       Emit.label_ lhsIsLen.1, Emit.ldarg_ 0, Emit.ldlen_, Emit.label_ storeLen.1,
       Emit.stloc_ len.1]
    let idx := g5.buy
    let g6 := idx.2.emits [Emit.ldc_i4 0, Emit.stloc_ idx.1]
    let checkLenLbl := newLabel g6
    let addLbl := newLabel checkLenLbl.2
    let g7 := addLbl.2.emits [Emit.label_ checkLenLbl.1, Emit.ldloc_ idx.1, Emit.ldloc_ len.1]
    let afterLoopLbl := newLabel g7
    let g8 := afterLoopLbl.2.emit (Emit.bge_ afterLoopLbl.1)
    let g9 := emitArrayCopier_element env g8 et idx.1 addLbl.1
    let g10 := g9.emits
      [Emit.label_ addLbl.1, Emit.ldloc_ idx.1, Emit.ldc_i4 1, Emit.add_, Emit.stloc_ idx.1,
       Emit.br_ checkLenLbl.1, Emit.label_ afterLoopLbl.1]
    let g11 := ((g10.sell idx.1).sell len.1).emit (Emit.ret_ none)
    (emitLocalVars g11).emit Emit.endMethod
  | _ => g0

/-- The loop `while( !copiers.isEmpty() )` of `visit(Module)`; `done` is the
set of the same name. `copiers` is a hash table, so which entry `begin()`
yields is not fixed by the source: `first` gives the index of that entry in the
list of entries (the first entry for an index that is out of range). `fuel`
bounds the number of iterations. -/
def emitCopiers (env : Env) (first : List (String × Ty) → Nat) (loc : RowCol) :
    Nat → List String → Gen → Gen
  | 0, _, g => g
  | fuel + 1, done, g =>
    match g.fmt.copiers with
    | [] => g
    | e0 :: rest =>
      let e := (e0 :: rest).getD (first (e0 :: rest)) e0
      let g1 := { g with fmt := { g.fmt with copiers := (e0 :: rest).filter (fun x => x.1 != e.1) } }
      if done.contains e.1 then emitCopiers env first loc fuel done g1
      else emitCopiers env first loc fuel (done ++ [e.1]) (emitArrayCopier env g1 e.2 loc)

/-- `emitDelegDecl( sig, name )`: the sealed class of a delegate with its
constructor and its method `Invoke`, which has the return type and the formals
of the procedure type. -/
def emitDelegDecl (env : Env) (g : Gen) (sig : ProcType) (name : String) : Gen :=
  let g1 := g.emits
    [Emit.beginClass (escape name) true "[mscorlib]System.MulticastDelegate",
     Emit.beginMethod ".ctor" true (some MethodKind.Instance) (some true),
     Emit.addArgument "object" "MethodsClass",
     Emit.addArgument "native unsigned int" "MethodPtr",
     Emit.endMethod,
     Emit.beginMethod "Invoke" true (some MethodKind.Instance) (some true)]
  let g2 :=
    match sig.d_return with
    | some t =>
      let r := formatType env g1.fmt t
      { g1 with fmt := r.2 }.emit (Emit.setReturnType r.1)
    | none => g1
  let g3 := sig.d_formals.foldl
    (fun h p =>
      let r := formatTypeOpt env h.fmt p.d_type
      { h with fmt := r.2 }.emit
        (Emit.addArgument (if passByRef p then r.1 ++ "&" else r.1) (escape p.d_name)))
    g2
  g3.emits [Emit.endMethod, Emit.endClass]

/-- The loop `for( i = delegates.begin(); i != delegates.end(); ++i )` of
`visit(Module)` over the entries `table`. `delegates` is a hash table, so the
order in which the iterator yields the entries is not fixed by the source:
`next` gives the index, in the list of the entries not yet yielded, of the
entry yielded next (the last entry for an index that is out of range). `fuel`
bounds the number of iterations; the number of entries suffices. -/
def emitDelegDecls (visit : Gen → ProcType → String → Gen)
    (next : List (String × ProcType) → Nat) : Nat → List (String × ProcType) → Gen → Gen
  | 0, _, g => g
  | _ + 1, [], g => g
  | fuel + 1, e0 :: rest, g =>
    let i := min (next (e0 :: rest)) rest.length
    let e := (e0 :: rest).getD i e0
    emitDelegDecls visit next fuel ((e0 :: rest).eraseIdx i) (visit g e.2 e.1)

/-- The visitors that `visit(Module)` calls, as parameters; each maps the state
before to the state after. -/
structure Visitors where
  emitRecordDecl : Gen → Record → Gen
  visitVariable : Gen → Named → Gen
  visitProcedure : Gen → Named → Gen
  emitInitializer : Gen → Named → Gen
  visitStatement : Gen → Expression → Gen
  emitDelegDecl : Gen → ProcType → String → Gen

/-- Modelled from the spec: what `visit(Module)` walks through: the module with
the locations of its `BEGIN` and `END`, the names of the modules of
`co.allImports` other than the module itself (in the order in which the set
yields them, after the imports of `d_imports` that are neither synthetic nor
definitions have been added), the procedure types, records and procedures the
collector found, the variables of `d_order`, the statements of the body, the
choice of the entry `copiers.begin()` yields, a bound for the iterations of
the copier loop, and the choice of the entry the iterator of `delegates` yields
next. -/
structure ModuleVisit where
  me : Module
  d_begin : RowCol
  d_end : RowCol
  imports : List String
  allProcTypes : List ProcType
  allRecords : List Record
  vars : List Named
  allProcs : List Named
  d_body : List Expression
  copiersFirst : List (String × Ty) → Nat
  copierFuel : Nat
  delegatesNext : List (String × ProcType) → Nat

/-- `visit(Module)`. The slots of the anonymous records (`allocRecordDecl`, see
`allocRecordDecls`) live in the syntax tree and cause no call of the emitter. -/
def visitModule (env : Env) (v : Visitors) (m : ModuleVisit) (g0 : Gen) : Gen :=
  let imports := [escape "mscorlib", escape "OBX.Runtime"] ++ m.imports.map escape
  let g1 := g0.emit (Emit.beginModule (escape m.me.name) imports env.thisMod.d_file none)
  let g2 := m.allProcTypes.foldl (fun g pt => { g with fmt := (delegateRef env g.fmt pt).2 }) g1
  let g3 := m.allRecords.foldl v.emitRecordDecl g2
  let g4 := m.vars.foldl v.visitVariable g3
  let g5 := m.allProcs.foldl v.visitProcedure g4
  let g6 := g5.emit (Emit.beginMethod ".cctor" false (some MethodKind.Static) none)
  let g7 := beginBody g6 0
  let g8 := m.vars.foldl v.emitInitializer g7
  let g9 := m.d_body.foldl v.visitStatement g8
  let g10 := (line g9 m.d_begin).emit (Emit.ret_ (some false))
  let g11 := (emitLocalVars g10).emit Emit.endMethod
  let g12 := g11.emit (Emit.beginMethod "'ping#'" true (some MethodKind.Static) none)
  let g13 := ((line g12 m.d_end).emit (Emit.ret_ none)).emit Emit.endMethod
  let g14 := emitCopiers env m.copiersFirst m.d_end m.copierFuel [] g13
  let g15 := emitDelegDecls v.emitDelegDecl m.delegatesNext g14.fmt.delegates.length
    g14.fmt.delegates g14
  g15.emit Emit.endModule

/-- Example: the module `M` without imports, declarations and statements. -/
def exEmptyModule : ModuleVisit :=
  { me := exM, d_begin := ⟨1, 1⟩, d_end := ⟨1, 11⟩, imports := [], allProcTypes := [],
    allRecords := [], vars := [], allProcs := [], d_body := [], copiersFirst := fun _ => 0,
    copierFuel := 0, delegatesNext := fun _ => 0 }

/-! ### Expressions (`visit( BinExpr* )`, `visit( SetExpr* )`) -/

/-- Modelled from the spec: `BinExpr::Op` of `ObxAst.h`. -/
inductive BinOp where
  | Invalid | Range | EQ | NEQ | LT | LEQ | GT | GEQ | IN | IS | ADD | SUB | OR | MUL | FDIV
  | DIV | MOD | AND
  deriving DecidableEq, Repr

/-- Modelled from the spec: an expression. `other` is an expression of a kind
whose visit is not embedded here (a literal, a designator, a call, a unary
expression): `visit` is what its `accept( this )` does to the generator. A
binary expression has its operator, both operands (present: the first
statement of `visit( BinExpr* )` asserts it), its type, the field `d_baseType`
(`none` is the value the constructor leaves, which is no tag of a base type)
and its location; a set constructor has its parts. -/
inductive Expr where
  | other (visit : Gen → Gen) (d_type : Option Ty) (d_loc : RowCol)
  | BinExpr (d_op : BinOp) (d_lhs d_rhs : Expr) (d_type : Option Ty)
      (d_baseType : Option BaseTypeTag) (d_loc : RowCol)
  | SetExpr (d_parts : List Expr) (d_type : Option Ty) (d_loc : RowCol)

/-- Field `d_type` of an expression. -/
def Expr.d_type : Expr → Option Ty
  | .other _ t _ => t
  | .BinExpr _ _ _ t _ _ => t
  | .SetExpr _ t _ => t

/-- Field `d_loc` of an expression. -/
def Expr.d_loc : Expr → RowCol
  | .other _ _ l => l
  | .BinExpr _ _ _ _ _ l => l
  | .SetExpr _ _ l => l

/-- Modelled from the spec: `Thing::getTag()` of a type. -/
inductive TypeTag where
  | T_BaseType | T_Enumeration | T_Array | T_Pointer | T_ProcType | T_QualiType | T_Record
  deriving DecidableEq, Repr

/-- Modelled from the spec: `getTag()` of a type. -/
def Ty.getTag : Ty → TypeTag
  | .BaseType _ => .T_BaseType
  | .Enumeration => .T_Enumeration
  | .Array _ _ => .T_Array
  | .Pointer _ => .T_Pointer
  | .ProcType _ => .T_ProcType
  | .QualiType _ _ => .T_QualiType
  | .Record _ => .T_Record

/-- Modelled from the spec: `Type::isInteger()`: BYTE, SHORTINT, INTEGER or
LONGINT. -/
def Ty.isInteger (t : Ty) : Bool :=
  match t.getBaseType with
  | some .BYTE | some .SHORTINT | some .INTEGER | some .LONGINT => true
  | _ => false

/-- Modelled from the spec: `Type::isReal()`: REAL or LONGREAL. -/
def Ty.isReal (t : Ty) : Bool :=
  match t.getBaseType with
  | some .REAL | some .LONGREAL => true
  | _ => false

/-- Modelled from the spec: `Type::isNumeric()`: an integer or a real type. -/
def Ty.isNumeric (t : Ty) : Bool := t.isInteger || t.isReal

/-- Modelled from the spec: `Type::isSet()`: the base type SET. -/
def Ty.isSet (t : Ty) : Bool := t.getBaseType = some BaseTypeTag.SET

/-- Modelled from the spec: `Type::isChar()`: CHAR or WCHAR. -/
def Ty.isChar (t : Ty) : Bool :=
  match t.getBaseType with
  | some .CHAR | some .WCHAR => true
  | _ => false

/-- Modelled from the spec: `Type::isText()`: a character, a string literal
type or an array of characters. -/
def Ty.isText (t : Ty) : Bool :=
  t.isChar ||
  (match t with
   | .BaseType .STRING => true
   | .BaseType .WSTRING => true
   | .Array (some e) _ => e.derefed.isChar
   | _ => false)

/-- Modelled from the spec: `getBaseType() <= Type::INTEGER` for an integer
type: the tags of the integer types are ordered BYTE, SHORTINT, INTEGER,
LONGINT. -/
def Ty.upToINTEGER (t : Ty) : Bool :=
  match t.getBaseType with
  | some .BYTE | some .SHORTINT | some .INTEGER => true
  | _ => false

/-- A `Q_ASSERT` of the statement and expression visits has failed. -/
def Gen.assertFailed (g : Gen) : Gen := { g with failedAsserts := g.failedAsserts + 1 }

/-- `stringOp`. -/
def stringOp (lhsChar rhsChar : Bool) (op : Int) (loc : RowCol) (g : Gen) : Gen :=
  let g1 := (line g loc).emit (Emit.ldc_i4 op)
  if lhsChar && rhsChar then
    (line g1 loc).emit
      (Emit.call_ "bool [OBX.Runtime]OBX.Runtime::relOp(char,char,int32)" (some 3) (some true) none)
  else if lhsChar && !rhsChar then
    (line g1 loc).emit
      (Emit.call_ "bool [OBX.Runtime]OBX.Runtime::relOp(char,char[],int32)" (some 3) (some true)
        none)
  else if !lhsChar && rhsChar then
    (line g1 loc).emit
      (Emit.call_ "bool [OBX.Runtime]OBX.Runtime::relOp(char[],char,int32)" (some 3) (some true)
        none)
  else
    (line g1 loc).emit
      (Emit.call_ "bool [OBX.Runtime]OBX.Runtime::relOp(char[],char[],int32)" (some 3) (some true)
        none)

/-- `convertTo( toBaseType, from, loc )`. -/
def convertTo (toBaseType : Option BaseTypeTag) (fromT : Option Ty) (loc : RowCol) (g : Gen) :
    Gen :=
  match derefed fromT with
  | none => g
  | some t =>
    if toBaseType = t.getBaseType then g
    else
      match toBaseType with
      | some .LONGREAL => (line g loc).emit (Emit.conv_ ConvTo.ToR8)
      | some .REAL => (line g loc).emit (Emit.conv_ ConvTo.ToR4)
      | some .LONGINT => (line g loc).emit (Emit.conv_ ConvTo.ToI8)
      | some .INTEGER => (line g loc).emit (Emit.conv_ ConvTo.ToI4)
      | some .SET => (line g loc).emit (Emit.conv_ ConvTo.ToI4)
      | some .SHORTINT => (line g loc).emit (Emit.conv_ ConvTo.ToI2)
      | some .CHAR => (line g loc).emit (Emit.conv_ ConvTo.ToI2)
      | some .WCHAR => (line g loc).emit (Emit.conv_ ConvTo.ToI2)
      | some .BYTE => (line g loc).emit (Emit.conv_ ConvTo.ToU1)
      | some .BOOLEAN => (line g loc).emit (Emit.conv_ ConvTo.ToU1)
      | _ => g

/-- The condition under which the relations `=` and `#` emit `ceq`. -/
def eqComparable (lhsT rhsT : Ty) : Bool :=
  (lhsT.isNumeric && rhsT.isNumeric) ||
  (lhsT.getBaseType = some BaseTypeTag.BOOLEAN && rhsT.getBaseType = some BaseTypeTag.BOOLEAN) ||
  (lhsT.getBaseType = some BaseTypeTag.SET && rhsT.getBaseType = some BaseTypeTag.SET) ||
  (lhsT.isChar && rhsT.isChar) ||
  (lhsT.getTag = TypeTag.T_Enumeration && rhsT.getTag = TypeTag.T_Enumeration) ||
  ((lhsT.getBaseType = some BaseTypeTag.NIL || lhsT.getTag = TypeTag.T_Pointer ||
      lhsT.getTag = TypeTag.T_ProcType) &&
   (rhsT.getBaseType = some BaseTypeTag.NIL || rhsT.getTag = TypeTag.T_Pointer ||
      rhsT.getTag = TypeTag.T_ProcType))

/-- The condition under which the relations `<`, `<=`, `>` and `>=` emit a
comparison instruction. -/
def ordComparable (lhsT rhsT : Ty) : Bool :=
  (lhsT.isNumeric && rhsT.isNumeric) ||
  (lhsT.getTag = TypeTag.T_Enumeration && rhsT.getTag = TypeTag.T_Enumeration) ||
  (lhsT.isChar && rhsT.isChar)

/-- The `switch( me->d_op )` of `visit( BinExpr* )`: `lhsT` and `rhsT` are the
dereferenced types of the operands, `visitRhs` is `me->d_rhs->accept(this)`,
which `AND` and `OR` call here. -/
def visitBinExpr_op (env : Env) (d_op : BinOp) (lhsT rhsT : Ty) (d_loc : RowCol)
    (visitRhs : Gen → Gen) (g : Gen) : Gen :=
  let ltag := lhsT.getTag
  let rtag := rhsT.getTag
  match d_op with
  | .IN =>
    if lhsT.isInteger && rhsT.getBaseType = some BaseTypeTag.SET then
      (line g d_loc).emit
        (Emit.call_ "bool [OBX.Runtime]OBX.Runtime::IN(int32, int32)" (some 2) (some true) none)
    else g.assertFailed
  | .IS =>
    let t := formatType env g.fmt rhsT
    let g1 := (line { g with fmt := t.2 } d_loc).emit (Emit.isinst_ t.1)
    let g2 := (line g1 d_loc).emit Emit.ldnull_
    let g3 := (line g2 d_loc).emit Emit.ceq_
    let g4 := (line g3 d_loc).emit (Emit.ldc_i4 0)
    (line g4 d_loc).emit Emit.ceq_
  | .ADD =>
    if (lhsT.isNumeric && rhsT.isNumeric) ||
        (ltag = TypeTag.T_Enumeration && rtag = TypeTag.T_Enumeration) then
      (line g d_loc).emit Emit.add_
    else if lhsT.isSet && rhsT.isSet then
      (line g d_loc).emit Emit.or_
    else if lhsT.isText && rhsT.isText then
      if lhsT.isChar && rhsT.isChar then
        (line g d_loc).emit
          (Emit.call_ "char[] [OBX.Runtime]OBX.Runtime::join(char,char)" (some 2) (some true) none)
      else if lhsT.isChar && !rhsT.isChar then
        (line g d_loc).emit
          (Emit.call_ "char[] [OBX.Runtime]OBX.Runtime::join(char,char[])" (some 2) (some true)
            none)
      else if !lhsT.isChar && rhsT.isChar then
        (line g d_loc).emit
          (Emit.call_ "char[] [OBX.Runtime]OBX.Runtime::join(char[],char)" (some 2) (some true)
            none)
      else
        (line g d_loc).emit
          (Emit.call_ "char[] [OBX.Runtime]OBX.Runtime::join(char[],char[])" (some 2) (some true)
            none)
    else g.assertFailed
  | .SUB =>
    if (lhsT.isNumeric && rhsT.isNumeric) ||
        (ltag = TypeTag.T_Enumeration && rtag = TypeTag.T_Enumeration) then
      (line g d_loc).emit Emit.sub_
    else if lhsT.isSet && rhsT.isSet then
      let g1 := (line g d_loc).emit Emit.not_
      (line g1 d_loc).emit Emit.and_
    else g.assertFailed
  | .FDIV =>
    if lhsT.isNumeric && rhsT.isNumeric then
      (line g d_loc).emit Emit.div_
    else if lhsT.isSet && rhsT.isSet then
      let rhs := g.buy
      let g1 := (line rhs.2 d_loc).emit (Emit.stloc_ rhs.1)
      let lhs := g1.buy
      let g2 := (line lhs.2 d_loc).emit (Emit.stloc_ lhs.1)
      let g3 := (line g2 d_loc).emit (Emit.ldloc_ lhs.1)
      let g4 := (line g3 d_loc).emit (Emit.ldloc_ rhs.1)
      let g5 := (line g4 d_loc).emit Emit.and_
      let g6 := (line g5 d_loc).emit Emit.not_
      let g7 := (line g6 d_loc).emit (Emit.ldloc_ lhs.1)
      let g8 := (line g7 d_loc).emit (Emit.ldloc_ rhs.1)
      let g9 := (line g8 d_loc).emit Emit.or_
      let g10 := (line g9 d_loc).emit Emit.and_
      (g10.sell rhs.1).sell lhs.1
    else g
  | .MUL =>
    if lhsT.isNumeric && rhsT.isNumeric then
      (line g d_loc).emit Emit.mul_
    else if lhsT.isSet && rhsT.isSet then
      (line g d_loc).emit Emit.and_
    else g.assertFailed
  | .DIV =>
    if lhsT.isInteger && rhsT.isInteger then
      if lhsT.upToINTEGER && rhsT.upToINTEGER then
        (line g d_loc).emit
          (Emit.call_ "int32 [OBX.Runtime]OBX.Runtime::DIV(int32,int32)" (some 2) (some true) none)
      else
        (line g d_loc).emit
          (Emit.call_ "int64 [OBX.Runtime]OBX.Runtime::DIV(int64,int64)" (some 2) (some true) none)
    else g.assertFailed
  | .MOD =>
    if lhsT.isInteger && rhsT.isInteger then
      if lhsT.upToINTEGER && rhsT.upToINTEGER then
        (line g d_loc).emit
          (Emit.call_ "int32 [OBX.Runtime]OBX.Runtime::MOD(int32,int32)" (some 2) (some true) none)
      else
        (line g d_loc).emit
          (Emit.call_ "int64 [OBX.Runtime]OBX.Runtime::MOD(int64,int64)" (some 2) (some true) none)
    else g.assertFailed
  | .AND =>
    if lhsT.getBaseType = some BaseTypeTag.BOOLEAN &&
        rhsT.getBaseType = some BaseTypeTag.BOOLEAN then
      let afterEnd := newLabel g
      let setFalse := newLabel afterEnd.2
      let g1 := (line setFalse.2 d_loc).emit (Emit.brfalse_ setFalse.1)
      let g2 := visitRhs g1
      let g3 := (line g2 d_loc).emit (Emit.br_ afterEnd.1)
      let g4 := (line g3 d_loc).emit (Emit.label_ setFalse.1)
      let g5 := (line g4 d_loc).emit (Emit.ldc_i4 0)
      (line g5 d_loc).emit (Emit.label_ afterEnd.1)
    else g.assertFailed
  | .OR =>
    if lhsT.getBaseType = some BaseTypeTag.BOOLEAN &&
        rhsT.getBaseType = some BaseTypeTag.BOOLEAN then
      let afterEnd := newLabel g
      let setTrue := newLabel afterEnd.2
      let g1 := (line setTrue.2 d_loc).emit (Emit.brtrue_ setTrue.1)
      let g2 := visitRhs g1
      let g3 := (line g2 d_loc).emit (Emit.br_ afterEnd.1)
      let g4 := (line g3 d_loc).emit (Emit.label_ setTrue.1)
      let g5 := (line g4 d_loc).emit (Emit.ldc_i4 1)
      (line g5 d_loc).emit (Emit.label_ afterEnd.1)
    else g.assertFailed
  | .EQ =>
    if eqComparable lhsT rhsT then (line g d_loc).emit Emit.ceq_
    else if lhsT.isText && rhsT.isText then stringOp lhsT.isChar rhsT.isChar 1 d_loc g
    else g.assertFailed
  | .NEQ =>
    if eqComparable lhsT rhsT then
      let g1 := (line g d_loc).emit Emit.ceq_
      let g2 := (line g1 d_loc).emit (Emit.ldc_i4 0)
      (line g2 d_loc).emit Emit.ceq_
    else if lhsT.isText && rhsT.isText then stringOp lhsT.isChar rhsT.isChar 2 d_loc g
    else g.assertFailed
  | .LT =>
    if ordComparable lhsT rhsT then (line g d_loc).emit Emit.clt_
    else if lhsT.isText && rhsT.isText then stringOp lhsT.isChar rhsT.isChar 3 d_loc g
    else g.assertFailed
  | .LEQ =>
    if ordComparable lhsT rhsT then
      let g1 := (line g d_loc).emit Emit.cgt_
      let g2 := (line g1 d_loc).emit (Emit.ldc_i4 0)
      (line g2 d_loc).emit Emit.ceq_
    else if lhsT.isText && rhsT.isText then stringOp lhsT.isChar rhsT.isChar 4 d_loc g
    else g.assertFailed
  | .GT =>
    if ordComparable lhsT rhsT then (line g d_loc).emit Emit.cgt_
    else if lhsT.isText && rhsT.isText then stringOp lhsT.isChar rhsT.isChar 5 d_loc g
    else g.assertFailed
  | .GEQ =>
    if ordComparable lhsT rhsT then
      let g1 := (line g d_loc).emit Emit.clt_
      let g2 := (line g1 d_loc).emit (Emit.ldc_i4 0)
      (line g2 d_loc).emit Emit.ceq_
    else if lhsT.isText && rhsT.isText then stringOp lhsT.isChar rhsT.isChar 6 d_loc g
    else g.assertFailed
  | _ => g.assertFailed

/-- `visit( BinExpr* )` given what the visits of the two operands do. An
operand without type fails the first assertion; the code that follows it
dereferences the type, so nothing is embedded for that case. -/
def visitBinExpr (env : Env) (isArithRelation : BinOp → Bool) (d_op : BinOp)
    (lhsType rhsType : Option Ty) (lhsLoc rhsLoc : RowCol) (d_baseType : Option BaseTypeTag)
    (d_loc : RowCol) (visitLhs visitRhs : Gen → Gen) (g : Gen) : Gen :=
  match derefed lhsType, derefed rhsType with
  | some lhsT, some rhsT =>
    let g1 := visitLhs g
    let g2 := if isArithRelation d_op then convertTo d_baseType lhsType lhsLoc g1 else g1
    let g3 :=
      if d_op ≠ BinOp.AND ∧ d_op ≠ BinOp.OR then
        let h := visitRhs g2
        if isArithRelation d_op then convertTo d_baseType rhsType rhsLoc h else h
      else g2
    visitBinExpr_op env d_op lhsT rhsT d_loc visitRhs g3
  | _, _ => g.assertFailed

mutual
/-- `accept( this )` of an expression: `visit( BinExpr* )`, `visit( SetExpr* )`,
or the visit of an expression of another kind. `isArithRelation` is
`BinExpr::isArithRelation()` of `ObxAst.cpp` as a function of the operator. -/
def visitExpr (env : Env) (isArithRelation : BinOp → Bool) : Expr → Gen → Gen
  | .other visit _ _, g => visit g
  | .BinExpr d_op d_lhs d_rhs _ d_baseType d_loc, g =>
    visitBinExpr env isArithRelation d_op d_lhs.d_type d_rhs.d_type d_lhs.d_loc d_rhs.d_loc
      d_baseType d_loc (visitExpr env isArithRelation d_lhs) (visitExpr env isArithRelation d_rhs) g
  | .SetExpr d_parts _ d_loc, g =>
    visitSetParts env isArithRelation d_loc d_parts ((line g d_loc).emit (Emit.ldc_i4 0))
termination_by structural e => e
/-- The loop of `visit( SetExpr* )` over the parts: a range pushes both bounds
and calls `addRangeToSet`, any other part is pushed and added by
`addElemToSet`. -/
def visitSetParts (env : Env) (isArithRelation : BinOp → Bool) (d_loc : RowCol) :
    List Expr → Gen → Gen
  | [], g => g
  | p :: ps, g =>
    let elem := (line (visitExpr env isArithRelation p g) d_loc).emit
      (Emit.call_ "int32 [OBX.Runtime]OBX.Runtime::addElemToSet(int32, int32)" (some 2)
        (some true) none)
    let g3 :=
      match p with
      | .BinExpr .Range d_lhs d_rhs _ _ _ =>
        let g1 := visitExpr env isArithRelation d_lhs g
        let g2 := visitExpr env isArithRelation d_rhs g1
        (line g2 d_loc).emit
          (Emit.call_ "int32 [OBX.Runtime]OBX.Runtime::addRangeToSet(int32, int32, int32)"
            (some 3) (some true) none)
      | _ => elem
    visitSetParts env isArithRelation d_loc ps g3
termination_by structural l => l
end

/-! ### Statements (`visit( IfLoop* )`, `visit( CaseStmt* )`, `visit( Exit* )`) -/

/-- Modelled from the spec: `IfLoop::Op` of `ObxAst.h`. -/
inductive IfLoopOp where
  | IF | WHILE | REPEAT | WITH | LOOP
  deriving DecidableEq, Repr

mutual
/-- Modelled from the spec: a statement. `other` is a statement of a kind
whose visit is not embedded here (an assignment, a call, a return, a FOR
loop): `visit` is what its `accept( this )` does to the generator. -/
inductive Stmt where
  | other (visit : Gen → Gen)
  | IfLoop (d_op : IfLoopOp) (d_if : List Expr) (d_then : List (List Stmt))
      (d_else : List Stmt) (d_loc : RowCol)
  | Exit (d_loc : RowCol)
  | CaseStmt (d_typeCase : Bool) (d_exp : Expr) (d_cases : List Case) (d_loc : RowCol)
/-- Modelled from the spec: `CaseStmt::Case`: the labels and the block of one
arm. -/
inductive Case where
  | mk (d_labels : List Expr) (d_block : List Stmt)
end

/-- Field `d_labels` of an arm. -/
def Case.d_labels : Case → List Expr
  | .mk l _ => l

/-- Field `d_block` of an arm. -/
def Case.d_block : Case → List Stmt
  | .mk _ b => b

/-- `visit( Exit* )`. -/
def visitExit (d_loc : RowCol) (g : Gen) : Gen :=
  let g1 :=
    if g.exitJump < 0 then
      let l := newLabel g
      { l.2 with exitJump := (l.1 : Int) }
    else g.assertFailed
  (line g1 d_loc).emit (Emit.br_ g1.exitJump.toNat)

/-- The `ELSIF` loop of `emitIf` from index `i` on; `conds` are the conditions
`d_if[i]`, `d_if[i+1]`, ... and `d_then[i]` is given by what the visits of its
statements do. An index out of range fails the assertion of
`QList::operator[]`; nothing is embedded beyond it. -/
def emitIf_elsif (visitE : Expr → Gen → Gen) (d_then : List (Gen → Gen)) (d_loc : RowCol)
    (afterEnd : Nat) : Nat → List Expr → Gen → Gen
  | _, [], g => g
  | i, c :: conds, g =>
    match d_then[i]? with
    | some block =>
      let g1 := visitE c g
      let afterNext := newLabel g1
      let g2 := (line afterNext.2 d_loc).emit (Emit.brfalse_ afterNext.1)
      let g3 := block g2
      let g4 := (line g3 d_loc).emit (Emit.br_ afterEnd)
      let g5 := (line g4 d_loc).emit (Emit.label_ afterNext.1)
      emitIf_elsif visitE d_then d_loc afterEnd (i + 1) conds g5
    | none => g.assertFailed

/-- `emitIf`: `visitE` is `accept( this )` of an expression, a block of
`d_then` is given by what the visits of its statements do, and `d_else` by the
visit of each of its statements. An index out of range fails the assertion of
`QList::operator[]`; nothing is embedded beyond it. -/
def emitIf (visitE : Expr → Gen → Gen) (d_if : List Expr) (d_then : List (Gen → Gen))
    (d_else : List (Gen → Gen)) (d_loc : RowCol) (g : Gen) : Gen :=
  match d_if, d_then with
  | c0 :: conds, block0 :: _ =>
    let g1 := visitE c0 g
    let afterFirst := newLabel g1
    let g2 := (line afterFirst.2 d_loc).emit (Emit.brfalse_ afterFirst.1)
    let g3 := block0 g2
    let afterEnd := newLabel g3
    let g4 := (line afterEnd.2 d_loc).emit (Emit.br_ afterEnd.1)
    let g5 := (line g4 d_loc).emit (Emit.label_ afterFirst.1)
    let g6 := emitIf_elsif visitE d_then d_loc afterEnd.1 1 conds g5
    let g7 := d_else.foldl (fun h visit => visit h) g6
    (line g7 d_loc).emit (Emit.label_ afterEnd.1)
  | _, _ => g.assertFailed

/-- Case `IfLoop::LOOP` of `visit( IfLoop* )`. -/
def visitLOOP (d_then : List (Gen → Gen)) (d_loc : RowCol) (g : Gen) : Gen :=
  match d_then with
  | body :: _ =>
    let g0 := if g.exitJump = -1 then g else g.assertFailed
    let loopStart := newLabel g0
    let g1 := (line loopStart.2 d_loc).emit (Emit.label_ loopStart.1)
    let g2 := body g1
    let g3 := (line g2 d_loc).emit (Emit.br_ loopStart.1)
    let g4 := if g3.exitJump ≠ -1 then (line g3 d_loc).emit (Emit.label_ g3.exitJump.toNat) else g3
    { g4 with exitJump := -1 }
  | [] => g.assertFailed

/-- `visit( IfLoop* )`, with the blocks given as in `emitIf`. A `WHILE` is
rewritten to a `LOOP` whose body is the `IF` with the conditions and blocks of
the `WHILE` and an `EXIT` as its `ELSE`. -/
def visitIfLoop (visitE : Expr → Gen → Gen) (d_op : IfLoopOp) (d_if : List Expr)
    (d_then : List (Gen → Gen)) (d_else : List (Gen → Gen)) (d_loc : RowCol) (g : Gen) : Gen :=
  match d_op with
  | .IF => emitIf visitE d_if d_then d_else d_loc g
  | .WHILE =>
    let g0 := if d_else.isEmpty then g else g.assertFailed
    visitLOOP [emitIf visitE d_if d_then [visitExit d_loc] d_loc] d_loc g0
  | .REPEAT =>
    match d_then, d_if with
    | body :: _, c0 :: _ =>
      let loopStart := newLabel g
      let g1 := (line loopStart.2 d_loc).emit (Emit.label_ loopStart.1)
      let g2 := body g1
      let g3 := visitE c0 g2
      let afterEnd := newLabel g3
      let g4 := (line afterEnd.2 d_loc).emit (Emit.brtrue_ afterEnd.1)
      let g5 := (line g4 d_loc).emit (Emit.br_ loopStart.1)
      (line g5 d_loc).emit (Emit.label_ afterEnd.1)
    | _, _ => g.assertFailed
  | .WITH => emitIf visitE d_if d_then d_else d_loc g
  | .LOOP => visitLOOP d_then d_loc g

/-- The condition `visit( CaseStmt* )` builds for the arm of a type case: the
one label `l` gives `d_exp IS l`. With another number of labels the assertion
fails; nothing is embedded beyond it. -/
def typeCaseCond (d_exp : Expr) (d_labels : List Expr) : Option Expr :=
  match d_labels with
  | [l] =>
    some (Expr.BinExpr BinOp.IS d_exp l (some (Ty.BaseType BaseTypeTag.BOOLEAN)) none d_exp.d_loc)
  | _ => none

/-- The list `ors` that `visit( CaseStmt* )` builds for the labels of an arm of
a value case. -/
def caseOrs (d_exp : Expr) (d_labels : List Expr) : List Expr :=
  d_labels.map (fun l =>
    match l with
    | .BinExpr .Range d_lhs d_rhs _ _ _ =>
      Expr.BinExpr BinOp.AND
        (Expr.BinExpr BinOp.GEQ d_exp d_lhs (some (Ty.BaseType BaseTypeTag.BOOLEAN)) none l.d_loc)
        (Expr.BinExpr BinOp.LEQ d_exp d_rhs (some (Ty.BaseType BaseTypeTag.BOOLEAN)) none l.d_loc)
        (some (Ty.BaseType BaseTypeTag.BOOLEAN)) none l.d_loc
    | _ => Expr.BinExpr BinOp.EQ d_exp l (some (Ty.BaseType BaseTypeTag.BOOLEAN)) none l.d_loc)

/-- The loop `for( int i = 2; i < ors.size(); i++ )` of `visit( CaseStmt* )`
from index `i` on, with at most `n` iterations. -/
def caseCondLoop (ors : List Expr) : Nat → Nat → Expr → Expr
  | 0, _, bi => bi
  | n + 1, i, bi =>
    match ors[i]? with
    | some o =>
      caseCondLoop ors n (i + 1)
        (Expr.BinExpr BinOp.OR bi o (some (Ty.BaseType BaseTypeTag.BOOLEAN)) none o.d_loc)
    | none => bi

/-- The condition `visit( CaseStmt* )` builds for an arm of a value case. An
arm without label fails the assertion; nothing is embedded beyond it. -/
def caseCond (d_exp : Expr) (d_labels : List Expr) : Option Expr :=
  let ors := caseOrs d_exp d_labels
  match ors with
  | [] => none
  | [o] => some o
  | o0 :: o1 :: _ =>
    some (caseCondLoop ors (ors.length - 2) 2
      (Expr.BinExpr BinOp.OR o0 o1 (some (Ty.BaseType BaseTypeTag.BOOLEAN)) none o1.d_loc))

/-- The conditions of all arms, if each arm has one. -/
def caseConds (cond : List Expr → Option Expr) : List (List Expr) → Option (List Expr)
  | [] => some []
  | l :: ls =>
    match cond l, caseConds cond ls with
    | some c, some cs => some (c :: cs)
    | _, _ => none

/-- `visit( CaseStmt* )`: the `IF` statement is built and visited. `labels` are
the label lists of the arms, `blocks` what the visits of the statements of
their blocks do. -/
def visitCaseStmt (visitE : Expr → Gen → Gen) (d_typeCase : Bool) (d_exp : Expr)
    (labels : List (List Expr)) (blocks : List (Gen → Gen)) (d_loc : RowCol) (g : Gen) : Gen :=
  if d_typeCase then
    if labels.isEmpty then g
    else
      match caseConds (typeCaseCond d_exp) labels with
      | some d_if => visitIfLoop visitE IfLoopOp.IF d_if blocks [] d_loc g
      | none => g.assertFailed
  else
    match caseConds (caseCond d_exp) labels with
    | some d_if => visitIfLoop visitE IfLoopOp.IF d_if blocks [] d_loc g
    | none => g.assertFailed

mutual
/-- `accept( this )` of a statement. -/
def visitStmt (env : Env) (isArithRelation : BinOp → Bool) : Stmt → Gen → Gen
  | .other visit, g => visit g
  | .IfLoop d_op d_if d_then d_else d_loc, g =>
    visitIfLoop (visitExpr env isArithRelation) d_op d_if
      (visitBlocks env isArithRelation d_then) (visitEach env isArithRelation d_else) d_loc g
  | .Exit d_loc, g => visitExit d_loc g
  | .CaseStmt d_typeCase d_exp d_cases d_loc, g =>
    visitCaseStmt (visitExpr env isArithRelation) d_typeCase d_exp
      (d_cases.map Case.d_labels) (visitCaseBlocks env isArithRelation d_cases) d_loc g
termination_by structural s => s
/-- The loop `for( ... ) seq[i]->accept(this)` over a statement sequence. -/
def visitSeq (env : Env) (isArithRelation : BinOp → Bool) : List Stmt → Gen → Gen
  | [], g => g
  | s :: ss, g => visitSeq env isArithRelation ss (visitStmt env isArithRelation s g)
termination_by structural l => l
/-- What the visits of the statements of each block do. -/
def visitBlocks (env : Env) (isArithRelation : BinOp → Bool) :
    List (List Stmt) → List (Gen → Gen)
  | [] => []
  | b :: bs => visitSeq env isArithRelation b :: visitBlocks env isArithRelation bs
termination_by structural l => l
/-- What the visit of each statement of a sequence does. -/
def visitEach (env : Env) (isArithRelation : BinOp → Bool) : List Stmt → List (Gen → Gen)
  | [] => []
  | s :: ss => visitStmt env isArithRelation s :: visitEach env isArithRelation ss
termination_by structural l => l
/-- What the visits of the statements of the block of each arm do. -/
def visitCaseBlocks (env : Env) (isArithRelation : BinOp → Bool) :
    List Case → List (Gen → Gen)
  | [] => []
  | .mk _ d_block :: cs =>
    visitSeq env isArithRelation d_block :: visitCaseBlocks env isArithRelation cs
termination_by structural l => l
end

/-- Example: the Boolean variable in local slot `n`, read at line `row`. -/
def exBoolVar (n : Int) (row : Nat) : Expr :=
  Expr.other (fun g => (line g ⟨row, 1⟩).emit (Emit.ldloc_ n))
    (some (Ty.BaseType BaseTypeTag.BOOLEAN)) ⟨row, 1⟩

/-- Example: `IF b THEN EXIT END` at line `row`, with `b` in local slot `n`. -/
def exIfExit (n : Int) (row : Nat) : Stmt :=
  Stmt.IfLoop IfLoopOp.IF [exBoolVar n row] [[Stmt.Exit ⟨row, 11⟩]] [] ⟨row, 1⟩

/-- Example: `LOOP IF a THEN EXIT END; IF b THEN EXIT END END`. -/
def exLoopTwoExits : Stmt :=
  Stmt.IfLoop IfLoopOp.LOOP [] [[exIfExit 0 2, exIfExit 1 3]] [] ⟨1, 1⟩

/-- Example: `LOOP IF a THEN EXIT END; LOOP IF b THEN EXIT END END END`. -/
def exLoopExitLoop : Stmt :=
  Stmt.IfLoop IfLoopOp.LOOP []
    [[exIfExit 0 2, Stmt.IfLoop IfLoopOp.LOOP [] [[exIfExit 1 4]] [] ⟨3, 1⟩]] [] ⟨1, 1⟩

/-- Example: the integer literal `v` at line `row`, column `col`. -/
def exIntLit (v : Int) (row col : Nat) : Expr :=
  Expr.other (fun g => (line g ⟨row, col⟩).emit (Emit.ldc_i4 v))
    (some (Ty.BaseType BaseTypeTag.INTEGER)) ⟨row, col⟩

/-- The set constructor in the words of the specification: `ldc.i4 0`, then
for each part in order its operand code and one call of the runtime:
`addRangeToSet` after both bounds of a range (lower bound first),
`addElemToSet` after any other part. `visitE` is the visit of an operand. -/
def specSetExpr (visitE : Expr → Gen → Gen) (d_parts : List Expr) (d_loc : RowCol) (g : Gen) :
    Gen :=
  d_parts.foldl
    (fun h p =>
      match p with
      | .BinExpr .Range lo hi _ _ _ =>
        (line (visitE hi (visitE lo h)) d_loc).emit
          (Emit.call_ "int32 [OBX.Runtime]OBX.Runtime::addRangeToSet(int32, int32, int32)"
            (some 3) (some true) none)
      | _ =>
        (line (visitE p h) d_loc).emit
          (Emit.call_ "int32 [OBX.Runtime]OBX.Runtime::addElemToSet(int32, int32)" (some 2)
            (some true) none))
    ((line g d_loc).emit (Emit.ldc_i4 0))

/-- Example: the type SET. -/
def exSetType : Option Ty := some (Ty.BaseType BaseTypeTag.SET)

/-- Example: the constructor `{0, 2..4}` at line 1. -/
def exSet024 : Expr :=
  Expr.SetExpr
    [exIntLit 0 1 2,
     Expr.BinExpr BinOp.Range (exIntLit 2 1 5) (exIntLit 4 1 8) none none ⟨1, 6⟩]
    exSetType ⟨1, 1⟩

/-- Example: the constructor `{3}` at line 1. -/
def exSet3 : Expr := Expr.SetExpr [exIntLit 3 1 14] exSetType ⟨1, 13⟩

/-- Example: a set value `v` that is pushed by `ldc.i4`. -/
def exSetLit (v : Int) (col : Nat) : Expr :=
  Expr.other (fun g => (line g ⟨1, col⟩).emit (Emit.ldc_i4 v)) exSetType ⟨1, col⟩

/-- Modelled from the spec: the state in which straight-line code on 32-bit
masks is evaluated: the evaluation stack (top first) and the local slots. -/
structure Machine where
  stack : List Nat
  locals : Int → Nat

/-- The 32-bit mask of an integer constant. -/
def mask32 (v : Int) : Nat := (v % 4294967296).toNat

/-- Bitwise complement of a 32-bit mask. -/
def not32 (x : Nat) : Nat := 4294967296 - (x % 4294967296 + 1)

/-- Modelled from the spec: what one instruction does to the machine (the CIL
instructions `ldc.i4`, `ldloc`, `stloc`, `or`, `and`, `not` on 32-bit values; a
line marker does nothing); `none` for any other instruction and for a stack
that is too short. -/
def Machine.step (m : Machine) : Emit → Option Machine
  | .line_ _ => some m
  | .ldc_i4 v => some { m with stack := mask32 v :: m.stack }
  | .ldloc_ n => some { m with stack := m.locals n :: m.stack }
  | .stloc_ n =>
    match m.stack with
    | x :: st => some { stack := st, locals := fun k => if k = n then x else m.locals k }
    | _ => none
  | .or_ =>
    match m.stack with
    | y :: x :: st => some { m with stack := (x ||| y) :: st }
    | _ => none
  | .and_ =>
    match m.stack with
    | y :: x :: st => some { m with stack := (x &&& y) :: st }
    | _ => none
  | .not_ =>
    match m.stack with
    | x :: st => some { m with stack := not32 x :: st }
    | _ => none
  | _ => none

/-- The instructions of a list, one after the other. -/
def Machine.run (m : Machine) : List Emit → Option Machine
  | [] => some m
  | e :: es =>
    match m.step e with
    | some m1 => m1.run es
    | none => none

/-- Example: the machine with an empty stack and all locals 0. -/
def exMachine : Machine := { stack := [], locals := fun _ => 0 }

/-! ### Labels of emitted code -/

/-- Is the call the placement of a label? -/
def Emit.isLabel : Emit → Bool
  | .label_ _ => true
  | _ => false

/-- What a run of the generator from state `g` to state `g2` has added: the
calls `l` (line markers aside); no label number is given back, and every label
placed in `l` has a number taken during the run. -/
def Code (g g2 : Gen) (l : List Emit) : Prop :=
  nonLine g2.out = nonLine g.out ++ l ∧ g.labels ≤ g2.labels ∧
  ∀ n, Emit.label_ n ∈ l → g.labels ≤ n ∧ n < g2.labels

/-- A visit that only adds calls and only places labels it has taken. -/
def Adds (visit : Gen → Gen) : Prop := ∀ g, ∃ l, Code g (visit g) l

mutual
/-- Every expression of a kind that is not embedded, at any depth below the
expression, has a visit that only adds calls and only places labels it has
taken. -/
def Expr.LeavesFresh : Expr → Prop
  | .other visit _ _ => Adds visit
  | .BinExpr _ d_lhs d_rhs _ _ _ => d_lhs.LeavesFresh ∧ d_rhs.LeavesFresh
  | .SetExpr d_parts _ _ => Expr.LeavesFreshAll d_parts
termination_by structural e => e
/-- `Expr.LeavesFresh` for each expression of a list. -/
def Expr.LeavesFreshAll : List Expr → Prop
  | [] => True
  | p :: ps => p.LeavesFresh ∧ Expr.LeavesFreshAll ps
termination_by structural l => l
end

/-! ### Initializers (`emitInitializer`, `emitCalcLengths`) -/

/-- Modelled from the spec: a declaration as `emitInitializer( Named* )`,
`emitVarToStack` and `emitStackToVar` read it: a field, module variable, local
variable or parameter (the tag of `member.named`) with its slot and, for a
parameter, the flag `d_var`. -/
structure VarDecl where
  member : Field
  d_slot : Nat
  d_slotValid : Bool
  d_var : Bool

/-- `memberRef` for a module variable (case `T_Variable`): there is no record. -/
def memberRefVar (env : Env) (s : FmtState) (member : Field) : String × FmtState :=
  memberRef env s { member with d_owner := none }

/-- `emitStackToVar`. -/
def emitStackToVar (env : Env) (me : VarDecl) (loc : RowCol) (g : Gen) : Gen :=
  match me.member.named.tag with
  | .T_Field =>
    let m := memberRef env g.fmt me.member
    (line { g with fmt := m.2 } loc).emit (Emit.stfld_ m.1)
  | .T_Variable =>
    let m := memberRefVar env g.fmt me.member
    (line { g with fmt := m.2 } loc).emit (Emit.stsfld_ m.1)
  | .T_LocalVar =>
    let g0 := if me.d_slotValid then g else g.assertFailed
    (line g0 loc).emit (Emit.stloc_ (me.d_slot : Int))
  | .T_Parameter =>
    let g0 := if me.d_slotValid then g else g.assertFailed
    (line g0 loc).emit (Emit.starg_ me.d_slot)
  | _ => g

/-- `emitVarToStack`. -/
def emitVarToStack (env : Env) (me : VarDecl) (loc : RowCol) (g : Gen) : Gen :=
  match me.member.named.tag with
  | .T_Field =>
    let m := memberRef env g.fmt me.member
    (line { g with fmt := m.2 } loc).emit (Emit.ldfld_ m.1)
  | .T_Variable =>
    let m := memberRefVar env g.fmt me.member
    (line { g with fmt := m.2 } loc).emit (Emit.ldsfld_ m.1)
  | .T_LocalVar => (line g loc).emit (Emit.ldloc_ (me.d_slot : Int))
  | .T_Parameter => (line g loc).emit (Emit.ldarg_ me.d_slot)
  | _ => g

/-- The loop of `emitCalcLengths`; the first argument is the dereferenced type
`t` (a qualified type stands for the type it names). An array without element
type ends the embedding with a failed assertion: the code dereferences the
null pointer. -/
def emitCalcLengths_loop (env : Env) : Ty → List Int → RowCol → Gen → List Int × Gen
  | .QualiType _ (some t), lengths, loc, g => emitCalcLengths_loop env t lengths loc g
  | .Array (some et) none, lengths, loc, g =>
    let g1 := (line g loc).emit Emit.dup_
    let g2 := (line g1 loc).emit Emit.ldlen_
    let len := g2.buy
    let g3 := (line len.2 loc).emit (Emit.stloc_ len.1)
    let g4 := (line g3 loc).emit (Emit.ldc_i4 0)
    let t := formatType env g4.fmt et
    let g5 := (line { g4 with fmt := t.2 } loc).emit (Emit.ldelem_ t.1)
    emitCalcLengths_loop env et (lengths ++ [len.1]) loc g5
  | .Array none none, lengths, loc, g =>
    let g1 := (line g loc).emit Emit.dup_
    let g2 := (line g1 loc).emit Emit.ldlen_
    let len := g2.buy
    let g3 := (line len.2 loc).emit (Emit.stloc_ len.1)
    let g4 := (line g3 loc).emit (Emit.ldc_i4 0)
    let g5 := (line g4 loc).emit (Emit.ldelem_ "void")
    (lengths ++ [len.1], g5.assertFailed)
  | _, lengths, _, g => (lengths, g)
termination_by structural t => t

/-- `emitCalcLengths( t, lengths, loc )`; the result is the list `lengths` and
the state. -/
def emitCalcLengths (env : Env) (t : Ty) (lengths : List Int) (loc : RowCol) (g : Gen) :
    List Int × Gen :=
  let r := emitCalcLengths_loop env t lengths loc g
  (r.1, (line r.2 loc).emit Emit.pop_)

/-- `emitInitializer( Type* t, resolvePtr, loc, lengths )` for a type that is
not null; the result is the value returned and the state. A qualified type
stands for the type it names (`derefed`). A pointer or an array without target
or element type ends the embedding with a failed assertion: the code
dereferences the null pointer. For an array with a length the field `d_len` is
emitted; for an open array without `lengths` the assertion fails and 0 is
taken for `d_len`. -/
def emitInitializer (env : Env) : Ty → Bool → RowCol → List Int → Gen → Bool × Gen
  | .QualiType _ (some t), resolvePtr, loc, lengths, g =>
    emitInitializer env t resolvePtr loc lengths g
  | .QualiType _ none, _, _, _, g => (false, g.assertFailed)
  | .Pointer (some t), resolvePtr, loc, lengths, g =>
    if resolvePtr then emitInitializer env t false loc lengths g else (false, g)
  | .Pointer none, resolvePtr, _, _, g =>
    if resolvePtr then (false, g.assertFailed) else (false, g)
  | .ProcType _, _, _, _, g => (false, g)
  | .BaseType b, _, loc, _, g =>
    match b with
    | .BOOLEAN | .CHAR | .WCHAR | .BYTE | .SHORTINT | .INTEGER | .SET =>
      (true, (line g loc).emit (Emit.ldc_i4 0))
    | .LONGINT => (true, (line g loc).emit (Emit.ldc_i8 0))
    | .REAL => (true, (line g loc).emit (Emit.ldc_r4 0))
    | .LONGREAL => (true, (line g loc).emit (Emit.ldc_r8 0))
    | _ => (true, g.assertFailed)
  | .Enumeration, _, loc, _, g => (true, (line g loc).emit (Emit.ldc_i4 0))
  | .Record r, _, loc, _, g =>
    let g0 := if !r.d_byValue then g else g.assertFailed
    (true, (line g0 loc).emit
      (Emit.newobj_ ("void class " ++ classRef env g0.fmt r ++ formatMetaActuals ++ "::.ctor()")))
  | .Array none _, _, _, _, g => (false, g.assertFailed)
  | .Array (some et) d_len, _, loc, lengths, g =>
    let td := et.derefed
    let r1 : Int × Gen :=
      match lengths with
      | l0 :: _ =>
        let g0 := if d_len.isNone then g else g.assertFailed
        (l0, (line g0 loc).emit (Emit.ldloc_ l0))
      | [] =>
        let g0 := if d_len.isSome then g else g.assertFailed
        let g1 := (line g0 loc).emit (Emit.ldc_i4 ((d_len.getD 0 : Nat) : Int))
        if td.isStructured then
          let len := g1.buy
          let g2 := (line len.2 loc).emit Emit.dup_
          (len.1, (line g2 loc).emit (Emit.stloc_ len.1))
        else (-1, g1)
    let len := r1.1
    let t1 := formatType env r1.2.fmt et
    let g3 := (line { r1.2 with fmt := t1.2 } loc).emit (Emit.newarr_ t1.1)
    let g4 :=
      if td.isStructured then
        let i := g3.buy
        let h0 := if i.1 ≥ 0 then i.2 else i.2.assertFailed
        let h1 := (line h0 loc).emit (Emit.ldc_i4 0)
        let h2 := (line h1 loc).emit (Emit.stloc_ i.1)
        let checkLenLbl := newLabel h2
        let h3 := (line checkLenLbl.2 loc).emit (Emit.label_ checkLenLbl.1)
        let h4 := (line h3 loc).emit (Emit.ldloc_ i.1)
        let h5 := (line h4 loc).emit (Emit.ldloc_ len)
        let afterLoopLbl := newLabel h5
        let h6 := (line afterLoopLbl.2 loc).emit (Emit.bge_ afterLoopLbl.1)
        let h7 := (line h6 loc).emit Emit.dup_
        let h8 := (line h7 loc).emit (Emit.ldloc_ i.1)
        let h9 :=
          if lengths.length > 1 then (emitInitializer env et false loc (lengths.drop 1) h8).2
          else (emitInitializer env et false loc [] h8).2
        let t2 := formatType env h9.fmt et
        let h10 := (line { h9 with fmt := t2.2 } loc).emit (Emit.stelem_ t2.1)
        let h11 := (line h10 loc).emit (Emit.ldloc_ i.1)
        let h12 := (line h11 loc).emit (Emit.ldc_i4 1)
        let h13 := (line h12 loc).emit Emit.add_
        let h14 := (line h13 loc).emit (Emit.stloc_ i.1)
        let h15 := (line h14 loc).emit (Emit.br_ checkLenLbl.1)
        let h16 := (line h15 loc).emit (Emit.label_ afterLoopLbl.1)
        h16.sell i.1
      else g3
    (true, if len ≥ 0 then g4.sell len else g4)
termination_by structural t => t

/-- `emitInitializer( Named* me )`. -/
def emitInitializerNamed (env : Env) (me : VarDecl) (g : Gen) : Gen :=
  let d_loc := me.member.d_loc
  match me.member.named.tag with
  | .T_Variable | .T_LocalVar =>
    match me.member.d_type with
    | some t =>
      let r := emitInitializer env t false d_loc [] g
      if r.1 then emitStackToVar env me d_loc r.2 else r.2
    | none => g.assertFailed
  | .T_Parameter =>
    match me.member.d_type, derefed me.member.d_type with
    | some d_type, some t =>
      if !me.d_var && t.isStructured then
        let r1 : List Int × Gen :=
          match t with
          | .Array _ none => emitCalcLengths env t [] d_loc (emitVarToStack env me d_loc g)
          | _ => ([], g)
        let r2 := emitInitializer env d_type false d_loc r1.1 r1.2
        let g3 := (line r2.2 d_loc).emit Emit.dup_
        let g4 := emitVarToStack env me d_loc g3
        let g5 :=
          match t with
          | .Record r =>
            let what := "void class " ++ classRef env g4.fmt r ++ formatMetaActuals ++ "::'#copy'("
            let type := formatType env g4.fmt (Ty.Record r)
            let type1 := if r.d_byValue then type.1 ++ "&" else type.1
            (line { g4 with fmt := type.2 } d_loc).emit
              (Emit.callvirt_ (what ++ (type1 ++ ")")) (some 1) none)
          | .Array _ _ =>
            let c := formatArrayCopierRef env g4.fmt t
            (line { g4 with fmt := c.2 } d_loc).emit (Emit.call_ c.1 (some 2) none none)
          | _ => g4.assertFailed
        emitStackToVar env me d_loc g5
      else g
    | _, _ => g
  | _ => g.assertFailed

/-- Example: the parameter `s: ARRAY OF CHAR` in argument slot 0 of a
procedure of module `M`, declared at line 3. -/
def exOpenArrayParam : VarDecl :=
  { member :=
      { named := { tag := Tag.T_Parameter, d_name := "s", d_visibility := Visibility.NotApplicable,
                   d_scope := Scope.decl Tag.T_Procedure "P" (Scope.module exM), getModule := exM },
        d_loc := ⟨3, 13⟩,
        d_type := some (Ty.Array (some (Ty.BaseType BaseTypeTag.CHAR)) none),
        d_owner := none },
    d_slot := 0, d_slotValid := true, d_var := false }

/-! ### Copiers emitted -/

/-- The signatures of the copiers in a list of emitter calls, in order: a
copier is the only method with an argument named `lhs` (the name of a formal
parameter is escaped). -/
def copierSigsOf (l : List Emit) : List String :=
  l.filterMap (fun e =>
    match e with
    | .addArgument t name => if name = "lhs" then some t else none
    | _ => none)

/-- The head of the copier for the array type signature `t`: a public static
method `'#copy'` with the arguments `lhs` and `rhs`, both of type `t`. -/
def copierHead (t : String) : List Emit :=
  [Emit.beginMethod "'#copy'" true (some MethodKind.Static) none, Emit.addArgument t "lhs",
   Emit.addArgument t "rhs"]

/-- Nesting depth of an array type (a qualified type stands for the type it
names). -/
def Ty.arrayDepth : Ty → Nat
  | .Array (some e) _ => e.arrayDepth + 1
  | .Array none _ => 1
  | .QualiType _ (some t) => t.arrayDepth
  | _ => 0

/-- A number of iterations that suffices for the copier loop. -/
def copierFuelFor (copiers : List (String × Ty)) : Nat :=
  (copiers.map (fun e => e.2.arrayDepth + 1)).sum

/-- The signature `emitArrayCopier( a )` requests a copier for: that of the
element type, if it is an array. -/
def elementCopierSig (env : Env) (s : FmtState) (a : Ty) : Option String :=
  match a with
  | .Array (some d) _ =>
    match d.derefed with
    | .Array e l => some (formatType env s (.Array e l)).1
    | _ => none
  | _ => none

/-- Example: the types `ARRAY 2 OF ARRAY 3 OF CHAR` and `ARRAY 4 OF INTEGER`. -/
def exArrayTypes : List Ty :=
  [Ty.Array (some (Ty.Array (some (Ty.BaseType BaseTypeTag.CHAR)) (some 3))) (some 2),
   Ty.Array (some (Ty.BaseType BaseTypeTag.INTEGER)) (some 4)]

/-- Example: the state of a new generator after copiers for the example types
have been requested. -/
def exCopiersRequested : Gen :=
  { Gen.init with
    fmt := exArrayTypes.foldl (fun s a => (formatArrayCopierRef exEnv s a).2) Gen.init.fmt }

/-- Is the call the declaration of an argument of a method? -/
def Emit.isArgument : Emit → Bool
  | .addArgument _ _ => true
  | _ => false

/-- Every array type on the way from a type through the element types has its
element type (a qualified type stands for the type it names). -/
def Ty.elemsPresent : Ty → Bool
  | .Array (some d) _ => d.elemsPresent
  | .Array none _ => false
  | .QualiType _ (some t) => t.elemsPresent
  | _ => true

/-- An entry of `copiers` as `formatArrayCopierRef( a )` makes it: the array
type `a`, which has its element types, under the signature `formatType(a)`
yields while the flag `forceAssemblyPrefix` is unset, as it is in `s0`. -/
def ValidEntry (env : Env) (s0 : FmtState) (e : String × Ty) : Prop :=
  e.2.elemsPresent = true ∧ (∃ d len, e.2 = Ty.Array (some d) len) ∧
  e.1 = (formatType env s0 e.2).1

/-- The invariant of the copier loop of `visit(Module)`: `init` are the
entries at the start of the loop, `base` the calls made before it, `emitted`
the copiers emitted so far (signature and array type, in order) and `done` the
set of the loop. -/
def CopierInv (env : Env) (s0 : FmtState) (base : List Emit) (init emitted : List (String × Ty))
    (done : List String) (g : Gen) : Prop :=
  done = emitted.map Prod.fst ∧ done.Nodup ∧ g.fmt.forceAssemblyPrefix = false ∧
  (∀ e ∈ g.fmt.copiers, ValidEntry env s0 e) ∧
  (∀ e ∈ emitted, ValidEntry env s0 e) ∧
  copierSigsOf g.out = copierSigsOf base ++ done ∧
  (∀ e ∈ emitted, copierHead e.1 <:+: g.out) ∧
  (∀ e ∈ init, e.1 ∈ done ∨ e.1 ∈ g.fmt.copiers.map Prod.fst) ∧
  (∀ e ∈ emitted, ∀ t, elementCopierSig env s0 e.2 = some t →
    t ∈ done ∨ t ∈ g.fmt.copiers.map Prod.fst)

/-- What a formatter does to the state, as far as the copier loop depends on
it: the table `copiers` is left as it is, and the flag stays unset. -/
def FmtKeeps (s : FmtState) (r : String × FmtState) : Prop :=
  r.2.copiers = s.copiers ∧ (s.forceAssemblyPrefix = false → r.2.forceAssemblyPrefix = false)

/-- The results of a formatter in two states agree as far as the copier loop
depends on them: the same text, and the same flag afterwards. -/
def FmtAgree (r1 r2 : String × FmtState) : Prop :=
  r1.1 = r2.1 ∧ r1.2.forceAssemblyPrefix = r2.2.forceAssemblyPrefix

/-! ### Literals (`emitConst`) -/

/-- Modelled from the spec: a `QVariant` of Qt as far as `emitConst` reads it:
the value `toBool()` returns, the value it holds as a 64-bit integer
(`qlonglong`), and the values `toDouble()`, `toByteArray()` and
`value<Literal::SET>().to_ulong()` return. -/
structure QVariant where
  toBool : Bool
  toLongLong : Int
  toDouble : ℚ
  toByteArray : String
  toSET : Nat

/-- Modelled from the spec: `QVariant::toInt()` of Qt. The result type is
`int`: Qt converts the 64-bit value by `int( ... )`, which keeps the low 32
bits. -/
def QVariant.toInt (val : QVariant) : Int := OBX.wrap32 val.toLongLong

/-- Modelled from the spec: `QVariant::toUInt()` of Qt. The result type is
`unsigned int`: the low 32 bits of the value. -/
def QVariant.toUInt (val : QVariant) : Int := val.toLongLong % 4294967296

/-- Modelled from the spec: the `QVariant` that holds the 64-bit integer `v`. -/
def QVariant.ofLongLong (v : Int) : QVariant :=
  { toBool := decide (v ≠ 0), toLongLong := v, toDouble := v, toByteArray := toString v,
    toSET := 0 }

/-- Modelled from the spec: the `QVariant` that holds the bytes `s`. -/
def QVariant.ofByteArray (s : String) : QVariant :=
  { toBool := decide (s ≠ "" ∧ s ≠ "0" ∧ s ≠ "false"), toLongLong := 0, toDouble := 0,
    toByteArray := s, toSET := 0 }

/-- `QByteArray::replace( before, after )` for a byte `before`: each
occurrence is replaced. -/
def replaceChar (before : Char) (after : List Char) (s : List Char) : List Char :=
  s.flatMap (fun c => if c = before then after else [c])

/-- The operand text `emitConst` gives `ldstr` for the bytes `str`: the
backslashes are doubled, then each double quote gets a backslash, and the
result stands between double quotes, followed by backslash and `0`. -/
def ldstrText (str : String) : String :=
  let s1 := replaceChar '\\' ['\\', '\\'] str.toList
  let s2 := replaceChar '"' ['\\', '"'] s1
  String.mk (['"'] ++ s2 ++ ['\\', '0'] ++ ['"'])

/-- The loop of `emitConst` over the bytes of a byte array, from index `i` on. -/
def emitConst_bytes (loc : RowCol) : Nat → List Char → Gen → Gen
  | _, [], g => g
  | i, b :: rest, g =>
    let g1 := (line g loc).emit Emit.dup_
    let g2 := (line g1 loc).emit (Emit.ldc_i4 (i : Int))
    let g3 := (line g2 loc).emit (Emit.ldc_i4 ((b.toNat % 256 : Nat) : Int))
    let g4 := (line g3 loc).emit (Emit.stelem_ "uint8")
    emitConst_bytes loc (i + 1) rest g4

/-- `emitConst( basetype, val, loc )`; the argument of an `ldc` call is the
value the call site passes. -/
def emitConst (basetype : BaseTypeTag) (val : QVariant) (loc : RowCol) (g : Gen) : Gen :=
  match basetype with
  | .BOOLEAN =>
    if val.toBool then (line g loc).emit (Emit.ldc_i4 1) else (line g loc).emit (Emit.ldc_i4 0)
  | .SHORTINT => (line g loc).emit (Emit.ldc_i4 val.toInt)
  | .INTEGER => (line g loc).emit (Emit.ldc_i4 val.toInt)
  | .LONGINT => (line g loc).emit (Emit.ldc_i8 val.toInt)
  | .BYTE => (line g loc).emit (Emit.ldc_i4 val.toInt)
  | .ENUMINT => (line g loc).emit (Emit.ldc_i4 val.toInt)
  | .REAL => (line g loc).emit (Emit.ldc_r8 val.toDouble)
  | .LONGREAL => (line g loc).emit (Emit.ldc_r8 val.toDouble)
  | .NIL => (line g loc).emit Emit.ldnull_
  | .STRING | .WSTRING =>
    let g1 := (line g loc).emit (Emit.ldstr_ (ldstrText val.toByteArray))
    (line g1 loc).emit
      (Emit.callvirt_ "char[] [mscorlib]System.String::ToCharArray()" (some 0) (some true))
  | .BYTEARRAY =>
    let ba := val.toByteArray.toList
    let g1 := (line g loc).emit (Emit.ldc_i4 (ba.length : Int))
    let g2 := (line g1 loc).emit (Emit.newarr_ "uint8")
    emitConst_bytes loc 0 ba g2
  | .CHAR | .WCHAR => (line g loc).emit (Emit.ldc_i4 val.toUInt)
  | .SET => (line g loc).emit (Emit.ldc_i4 (val.toSET : Int))
  | _ => g.assertFailed

/-! ### Delegates of a module -/

end Obx

namespace Pelib


/-! ## Signature resolver and binary builder (`ObxPelibGen.cpp`) -/

/-! ### `SignatureLexer` -/

/-- `SignatureLexer::TokenType`. -/
inductive TokenType where
  | Invalid | Done | ID | QSTRING | CLASS | VALUETYPE | LBRACK | RBRACK | ARR
  | DBLCOLON | SLASH | LPAR | RPAR | AMPERS | COMMA | DOT
  deriving DecidableEq, Repr

/-- `SignatureLexer::Token`; `d_pos` is a `quint16`. -/
structure Token where
  d_tt : TokenType
  d_pos : Nat
  d_val : String
  deriving DecidableEq, Repr

/-- `Token()`: the default token. -/
def Token.default : Token := { d_tt := TokenType.Invalid, d_pos := 0, d_val := "" }

/-- `Token::isName`. -/
def Token.isName (t : Token) : Bool :=
  t.d_tt = TokenType.ID || t.d_tt = TokenType.QSTRING

/-- State of a `SignatureLexer`: the text (a byte is the `Char` with the same
code), the offset `d_off` and the token `d_tmp` that `peek` has read ahead. -/
structure SignatureLexer where
  d_in : List Char
  d_off : Nat
  d_tmp : Token
  deriving DecidableEq, Repr

/-- `SignatureLexer(in)`. -/
def SignatureLexer.init (text : String) : SignatureLexer :=
  { d_in := text.toList, d_off := 0, d_tmp := Token.default }

/-- The C library `isspace` in the C locale. -/
def isspace (c : Char) : Bool :=
  c = ' ' || c = '\t' || c = '\n' || c = '\x0b' || c = '\x0c' || c = '\r'

/-- The C library `isalpha` in the C locale. -/
def isalpha (c : Char) : Bool :=
  ('a'.toNat ≤ c.toNat && c.toNat ≤ 'z'.toNat) || ('A'.toNat ≤ c.toNat && c.toNat ≤ 'Z'.toNat)

/-- The C library `isalnum` in the C locale. -/
def isalnum (c : Char) : Bool :=
  isalpha c || ('0'.toNat ≤ c.toNat && c.toNat ≤ '9'.toNat)

/-- The position a token gets: `d_off - 1` in `quint32` arithmetic, stored in
the `quint16` field `d_pos`. -/
def posOf (d_off : Nat) : Nat := (d_off + 65535) % 65536

/-- `SignatureLexer::ident`: `ch` is the first character, `off` the offset at
which the loop starts peeking; the loop takes the characters that are
alphanumeric or `_`. -/
def ident (d_in : List Char) (ch : Char) (off : Nat) : Token × Nat :=
  let pos := posOf off
  let tail := (d_in.drop off).takeWhile (fun c => isalnum c || c = '_')
  let str := String.mk (ch :: tail)
  let off1 := off + tail.length
  if str = "class" then ({ d_tt := TokenType.CLASS, d_pos := pos, d_val := "" }, off1)
  else if str = "valuetype" then ({ d_tt := TokenType.VALUETYPE, d_pos := pos, d_val := "" }, off1)
  else ({ d_tt := TokenType.ID, d_pos := pos, d_val := str }, off1)

/-- `SignatureLexer::qstring`: `off` is the offset after the opening quote;
the loop takes the characters up to the next quote, which it consumes. -/
def qstring (d_in : List Char) (off : Nat) : Token × Nat :=
  let pos := posOf off
  let body := (d_in.drop off).takeWhile (fun c => c ≠ '\'')
  let off1 := off + body.length
  ({ d_tt := TokenType.QSTRING, d_pos := pos, d_val := String.mk body },
    if off1 < d_in.length then off1 + 1 else off1)

/-- `SignatureLexer::nextImp`: white space is skipped, then one token is read;
the result is the token and the new offset. -/
def nextImp (d_in : List Char) (d_off : Nat) : Token × Nat :=
  let skipped := (d_in.drop d_off).takeWhile isspace
  match (d_in.drop d_off).dropWhile isspace with
  | [] =>
    let off := d_off + skipped.length
    ({ d_tt := TokenType.Done, d_pos := posOf off, d_val := "" }, off)
  | ch :: rest =>
    -- `off` is `d_off` after `get(&ch)`
    let off := d_off + skipped.length + 1
    let tok (tt : TokenType) (o : Nat) : Token × Nat :=
      ({ d_tt := tt, d_pos := posOf o, d_val := "" }, o)
    if isalpha ch || ch = '_' then ident d_in ch off
    else if ch = '\'' then qstring d_in off
    else if ch = '[' then
      if rest.head? = some ']' then tok TokenType.ARR (off + 1)
      else tok TokenType.LBRACK off
    else if ch = ']' then tok TokenType.RBRACK off
    else if ch = ':' then
      match rest with
      | c :: _ => if c = ':' then tok TokenType.DBLCOLON (off + 1)
                  else tok TokenType.Invalid (off + 1)
      | [] => tok TokenType.Invalid off
    else if ch = '/' then tok TokenType.SLASH off
    else if ch = '(' then tok TokenType.LPAR off
    else if ch = ')' then tok TokenType.RPAR off
    else if ch = '&' then tok TokenType.AMPERS off
    else if ch = ',' then tok TokenType.COMMA off
    else if ch = '.' then
      if rest.head? = some 'c' then ident d_in 'c' off
      else tok TokenType.DOT off
    else tok TokenType.Invalid off

/-- `SignatureLexer::peek()`. -/
def SignatureLexer.peek (l : SignatureLexer) : Token × SignatureLexer :=
  if l.d_tmp.d_tt = TokenType.Invalid then
    let r := nextImp l.d_in l.d_off
    (r.1, { l with d_off := r.2, d_tmp := r.1 })
  else (l.d_tmp, l)

/-- `SignatureLexer::next()`. -/
def SignatureLexer.next (l : SignatureLexer) : Token × SignatureLexer :=
  if l.d_tmp.d_tt ≠ TokenType.Invalid then
    (l.d_tmp, { l with d_tmp := Token.default })
  else
    let r := nextImp l.d_in l.d_off
    (r.1, { l with d_off := r.2 })

/-! ### Symbol tree

A `Node*` is the index of the node in the list of all nodes; the root is node
`0`. An object of the PE library (`Resource`) is held by exactly one node and is
referred to by the index of that node. A `Q_ASSERT` that fails ends the run
(`Err.assertion`); a `throw` is `Err.thrown`. -/

/-- Modelled from the spec: `Type::BasicType` of the PE library (not among the
sources), as far as the resolver names it; `cls` is the type of a class
reference. -/
inductive BasicType where
  | cls | Void | Bool | Char | i8 | u8 | i16 | u16 | i32 | u32 | i64 | u64
  | inative | unative | r32 | r64 | object | string
  deriving DecidableEq, Repr

/-- `SignatureParser::MemberHint`. -/
inductive MemberHint where
  | TypeRef | Instance | Static | Virtual
  deriving DecidableEq, Repr

/-- Modelled from the spec: `Param` of the PE library with the field
`typeCompare` the resolver sets; `type` is the node that holds the `Type`
object, if the parameter type node holds one. -/
structure Param where
  name : String
  type : Option Nat
  index : Nat
  typeCompare : String
  deriving DecidableEq, Repr

/-- Modelled from the spec: the objects of the PE library a node holds
(`Node::thing`): assembly, namespace, class, type (basic type, class it refers
to, array level, by-reference flag), method (name, container, return type,
parameters, the hint that chose the qualifiers, special-name flag) and field. -/
inductive Thing where
  | AssemblyDef (name : String)
  | Namespace (name : String)
  | Class (name : String) (extendsFrom : Option Nat)
  | Type (tp : BasicType) (typeRef : Option Nat) (arrayLevel : Nat) (byRef : Bool)
  | Method (name : String) (container : Nat) (returnType : Option Nat) (params : List Param)
      (hint : MemberHint) (specialName : Bool)
  | Field (name : String) (type : Option Nat) (isStatic : Bool)
  deriving DecidableEq, Repr

/-- `dynamic_cast<DataContainer*>` succeeds. -/
def Thing.isDataContainer : Thing → Bool
  | .AssemblyDef _ => true
  | .Namespace _ => true
  | .Class _ _ => true
  | _ => false

/-- `dynamic_cast<Class*>` succeeds. -/
def Thing.isClass : Thing → Bool
  | .Class _ _ => true
  | _ => false

/-- `dynamic_cast<Type*>` succeeds. -/
def Thing.isType : Thing → Bool
  | .Type _ _ _ _ => true
  | _ => false

/-- `dynamic_cast<Method*>` succeeds. -/
def Thing.isMethod : Thing → Bool
  | .Method _ _ _ _ _ _ => true
  | _ => false

/-- `dynamic_cast<Field*>` succeeds. -/
def Thing.isField : Thing → Bool
  | .Field _ _ _ => true
  | _ => false

/-- `SignatureParser::Node`; `subs` is the `QMultiMap`, the entry inserted
last first. -/
structure Node where
  name : String
  thing : Option Thing
  parent : Option Nat
  subs : List (String × Nat)
  deriving DecidableEq, Repr

/-- The nodes allocated so far; node `0` is the root. -/
abbrev Tree := List Node

/-- `QMultiMap::value(key)`: the entry for `key` inserted last, if any. -/
def subsValue : List (String × Nat) → String → Option Nat
  | [], _ => none
  | (k, v) :: rest, key => if k = key then some v else subsValue rest key

/-- `QMultiMap::values(key)`: all entries for `key`, the one inserted last
first. -/
def subsValues : List (String × Nat) → String → List Nat
  | [], _ => []
  | (k, v) :: rest, key => if k = key then v :: subsValues rest key else subsValues rest key

/-- `n->thing`. -/
def Tree.thing (t : Tree) (n : Nat) : Option Thing :=
  match t[n]? with
  | some nd => nd.thing
  | none => none

/-- `n->name`. -/
def Tree.name (t : Tree) (n : Nat) : String :=
  match t[n]? with
  | some nd => nd.name
  | none => ""

/-- `n->parent`. -/
def Tree.parent (t : Tree) (n : Nat) : Option Nat :=
  match t[n]? with
  | some nd => nd.parent
  | none => none

/-- `n->subs.value(key)`. -/
def Tree.value (t : Tree) (n : Nat) (key : String) : Option Nat :=
  match t[n]? with
  | some nd => subsValue nd.subs key
  | none => none

/-- `n->subs.values(key)`. -/
def Tree.values (t : Tree) (n : Nat) (key : String) : List Nat :=
  match t[n]? with
  | some nd => subsValues nd.subs key
  | none => []

/-- `new Node(parent, name)` with `thing` set as given. -/
def Tree.newNode (t : Tree) (parent : Option Nat) (name : String) (thing : Option Thing) :
    Nat × Tree :=
  (t.length, t ++ [{ name := name, thing := thing, parent := parent, subs := [] }])

/-- `n->subs.insert(key, c)`. -/
def Tree.insert (t : Tree) (n : Nat) (key : String) (c : Nat) : Tree :=
  match t[n]? with
  | some nd => t.set n { nd with subs := (key, c) :: nd.subs }
  | none => t

/-- `n->thing = x`. -/
def Tree.setThing (t : Tree) (n : Nat) (x : Thing) : Tree :=
  match t[n]? with
  | some nd => t.set n { nd with thing := some x }
  | none => t

/-- A byte array read as a C string (`constData()` passed to `strcmp` or to a
`std::string`): the bytes before the first NUL. -/
def cstr (s : String) : String :=
  String.mk (s.toList.takeWhile (fun c => c ≠ '\x00'))

/-- `QByteArray::simplified` on a list of bytes: white space at both ends is
removed and every inner run of white space becomes one blank. -/
def simplifiedChars : List Char → List Char
  | [] => []
  | c :: rest =>
    if isspace c then
      match simplifiedChars rest with
      | [] => []
      | d :: out => if d = ' ' then d :: out else ' ' :: d :: out
    else c :: simplifiedChars rest

/-- `QByteArray::simplified`. -/
def simplified (s : List Char) : String :=
  String.mk ((simplifiedChars s).dropWhile (fun c => c = ' '))

/-- `QByteArray::mid(pos, len)` for `pos >= 0`: a negative length, or one that
reaches beyond the end, takes the rest. -/
def mid (s : List Char) (pos : Nat) (len : Int) : List Char :=
  if pos > s.length then []
  else if len < 0 then s.drop pos
  else (s.drop pos).take len.toNat

/-! ### `SignatureParser` -/

/-- How a run of the parser ends other than by returning: a `throw` with its
message, or a failed `Q_ASSERT`. -/
inductive Err where
  | thrown (msg : String)
  | assertion
  deriving DecidableEq, Repr

instance {α : Type} [DecidableEq α] : DecidableEq (Except Err α) := fun x y =>
  match x, y with
  | .ok a, .ok b => if h : a = b then isTrue (by rw [h]) else isFalse (fun e => h (Except.ok.inj e))
  | .error a, .error b =>
    if h : a = b then isTrue (by rw [h]) else isFalse (fun e => h (Except.error.inj e))
  | .ok _, .error _ => isFalse (fun e => Except.noConfusion e)
  | .error _, .ok _ => isFalse (fun e => Except.noConfusion e)

/-- State of a `SignatureParser`: the lexer and the tree below `root`. -/
structure PState where
  lex : SignatureLexer
  root : Tree
  deriving DecidableEq, Repr

/-- A member function of the parser: it ends with a result or an `Err`, and
with the state it leaves in either case. -/
def P (α : Type) : Type := PState → Except Err α × PState

/-- Return. -/
def P.pure {α : Type} (a : α) : P α := fun s => (Except.ok a, s)

/-- Sequencing: an `Err` ends the run. -/
def P.bind {α β : Type} (m : P α) (f : α → P β) : P β := fun s =>
  match m s with
  | (Except.ok a, s1) => f a s1
  | (Except.error e, s1) => (Except.error e, s1)

instance : Monad P where
  pure := P.pure
  bind := P.bind

/-- `throw msg`. -/
def throwP {α : Type} (msg : String) : P α := fun s => (Except.error (Err.thrown msg), s)

/-- `Q_ASSERT(c)`. -/
def assertP (c : Bool) : P Unit := fun s =>
  if c then (Except.ok (), s) else (Except.error Err.assertion, s)

/-- `lex.peek()`. -/
def peekP : P Token := fun s =>
  let r := s.lex.peek
  (Except.ok r.1, { s with lex := r.2 })

/-- `lex.next()`. -/
def nextP : P Token := fun s =>
  let r := s.lex.next
  (Except.ok r.1, { s with lex := r.2 })

/-- Reads the tree. -/
def getTree : P Tree := fun s => (Except.ok s.root, s)

/-- Replaces the tree. -/
def setTree (t : Tree) : P Unit := fun s => (Except.ok (), { s with root := t })

/-- `new Node(parent, name)` followed by `scope->subs.insert(key, node)`; the
node gets `thing`. -/
def newChild (scope : Nat) (parent : Option Nat) (key name : String) (thing : Option Thing) :
    P Nat := fun s =>
  let r := s.root.newNode parent name thing
  (Except.ok r.1, { s with root := r.2.insert scope key r.1 })

/-- An upper bound for the number of iterations of any loop of the parser:
every iteration consumes a token. -/
def fuelP : P Nat := fun s => (Except.ok (s.lex.d_in.length + 1), s)

/-- `QByteArrayList::join(sep)`. -/
def join (sep : String) : List String → String
  | [] => ""
  | [a] => a
  | a :: rest => a ++ sep ++ join sep rest

/-- `SignatureParser::equalParams`. -/
def equalParams (sig : List Param) (pars : List (Nat × String × String)) : Bool :=
  sig.length = pars.length &&
    (sig.zip pars).all (fun x => cstr x.1.typeCompare = cstr x.2.2.1)

/-- `SignatureParser::createMethod`. A parameter `Par` is the triple
`(d_type, d_typeStr, d_name)`. -/
def createMethod (cls : Nat) (name : String) (pars : List (Nat × String × String))
    (ret : Nat) (hint : MemberHint) : P Nat := do
  let t0 ← getTree
  let isType (n : Nat) : Option Nat :=
    match t0.thing n with
    | some x => if x.isType then some n else none
    | none => none
  let sig := pars.enum.map (fun p =>
    ({ name := cstr p.2.2.2, type := isType p.2.1, index := p.1, typeCompare := cstr p.2.2.1 }
      : Param))
  let member ← newChild cls (some cls) name name
    (some (Thing.Method (cstr name) cls (isType ret) sig hint
      (name = ".ctor" || name = ".cctor")))
  assertP (match t0.thing cls with
    | some x => x.isDataContainer
    | none => false)
  return member

/-- The loop of `findOrCreateMethod` over `members`. -/
def findMethod (t : Tree) (pars : List (Nat × String × String)) :
    List Nat → Except Err (Option Nat)
  | [] => Except.ok none
  | m :: rest =>
    match t.thing m with
    | some (Thing.Method _ _ _ sig _ _) =>
      if equalParams sig pars then Except.ok (some m) else findMethod t pars rest
    | _ => Except.error (Err.thrown "this is not a method")

/-- `SignatureParser::findOrCreateMethod`. -/
def findOrCreateMethod (cls : Nat) (name : String) (pars : List (Nat × String × String))
    (ret : Nat) (hint : MemberHint) : P Nat := do
  let t ← getTree
  match findMethod t pars (t.values cls name) with
  | Except.error e => fun s => (Except.error e, s)
  | Except.ok (some m) => return m
  | Except.ok none => createMethod cls name pars ret hint

/-- `SignatureParser::createClassFor`. -/
def createClassFor (node : Nat) : P Unit := do
  let t ← getTree
  assertP (t.thing node).isNone
  assertP (t.parent node).isSome
  assertP (match (t.parent node).bind t.thing with
    | some x => x.isDataContainer
    | none => false)
  setTree (t.setThing node (Thing.Class (cstr (t.name node)) none))

/-- `SignatureParser::findOrCreateField`. -/
def findOrCreateField (cls : Nat) (name : String) (type : Nat) (hint : MemberHint) : P Nat := do
  let t ← getTree
  match t.value cls name with
  | none =>
    let ty : Option Nat := match t.thing type with
      | some x => if x.isType then some type else none
      | none => none
    let member ← newChild cls (some cls) name name
      (some (Thing.Field (cstr name) ty (hint = MemberHint.Static)))
    match t.thing cls with
    | some (Thing.Class _ _) => return member
    | _ => throwP "can only add fields to classes"
  | some member =>
    match t.thing member with
    | some (Thing.Field _ _ _) => return member
    | _ => throwP "expecting field member"

/-- The chain of comparisons of `fetchPrimitive`. -/
def basicTypeOf (name : String) : Option BasicType :=
  if name = "bool" then some BasicType.Bool
  else if name = "char" then some BasicType.Char
  else if name = "int8" then some BasicType.i8
  else if name = "unsigned int8" || name = "uint8" then some BasicType.u8
  else if name = "int16" then some BasicType.i16
  else if name = "unsigned int16" || name = "uint16" then some BasicType.u16
  else if name = "int32" then some BasicType.i32
  else if name = "unsigned int32" || name = "uint32" then some BasicType.u32
  else if name = "int64" then some BasicType.i64
  else if name = "unsigned int64" || name = "uint64" then some BasicType.u64
  else if name = "float32" then some BasicType.r32
  else if name = "float64" then some BasicType.r64
  else if name = "native int" || name = "int" then some BasicType.inative
  else if name = "native unsigned int" || name = "native uint" || name = "uint" then
    some BasicType.unative
  else if name = "string" then some BasicType.string
  else if name = "object" then some BasicType.object
  else if name = "void" then some BasicType.Void
  else none

/-- `SignatureParser::fetchPrimitive`. -/
def fetchPrimitive (name : String) : P Nat := do
  let t0 ← getTree
  let p ← (match t0.value 0 "" with
    | none => newChild 0 none "" "<all primitive types>" none
    | some p => pure p : P Nat)
  let t1 ← getTree
  match t1.value p name with
  | some t => return t
  | none =>
    let t ← newChild p (some p) name name none
    match basicTypeOf name with
    | some b =>
      let t2 ← getTree
      setTree (t2.setThing t (Thing.Type b none 0 false))
      return t
    | none => throwP "invalid primitive type"

/-- The set `primitives`. -/
def primitives : List String :=
  ["void", "bool", "char", "int8", "unsigned int8", "uint8", "int16", "unsigned int16",
   "uint16", "int32", "unsigned int32", "uint32", "int64", "unsigned int64", "uint64",
   "float32", "float64", "native int", "native unsigned int", "native uint", "int", "uint",
   "string", "object"]

/-- The expression `primitives.contains(t)` that `isPrimitive` evaluates. -/
def primitivesContains (t : String) : Bool := primitives.contains t

/-- The loop `while( lex.peek().d_tt == DOT )` that collects the names of a
dotted name. -/
def dottedLoop (msg : String) : Nat → List String → P (List String)
  | 0, name => pure name
  | fuel + 1, name => do
    let pk ← peekP
    if pk.d_tt = TokenType.DOT then
      let _ ← nextP
      let t ← nextP
      if !t.isName then throwP msg
      else dottedLoop msg fuel (name ++ [t.d_val])
    else pure name

/-- `SignatureParser::fetchAssembly`. -/
def fetchAssembly (name : String) : P Nat := do
  let t ← getTree
  match t.value 0 name with
  | some a => return a
  | none =>
    if t.name 0 = name then return 0
    else
      let r := t.newNode (some 0) name (some (Thing.AssemblyDef (cstr name)))
      setTree (r.2.insert 0 name r.1)
      return r.1

/-- `SignatureParser::assembly`. -/
def assembly : P Nat := do
  let t0 ← nextP
  if t0.d_tt ≠ TokenType.LBRACK then throwP "expecting '['"
  else
    let t ← nextP
    if !t.isName then throwP "expecting name"
    else
      let fuel ← fuelP
      let name ← dottedLoop "expecting a name after '.'" fuel [t.d_val]
      let t1 ← nextP
      if t1.d_tt ≠ TokenType.RBRACK then throwP "expecting ']'"
      else fetchAssembly (join "." name)

/-- The first loop of `path`: the names before the last are looked up, or
created as namespaces. -/
def pathNamespaces : List String → Nat → P Nat
  | [], scope => pure scope
  | [_], scope => pure scope
  | n :: rest, scope => do
    let t ← getTree
    match t.value scope n with
    | some node => pathNamespaces rest node
    | none =>
      assertP (match t.thing scope with
        | some x => x.isDataContainer
        | none => false)
      let node ← newChild scope (some scope) n n (some (Thing.Namespace (cstr n)))
      pathNamespaces rest node

/-- The loop of `path` that collects the names after each `/`. -/
def nestedLoop : Nat → List String → P (List String)
  | 0, nested => pure nested
  | fuel + 1, nested => do
    let pk ← peekP
    if pk.d_tt = TokenType.SLASH then
      let _ ← nextP
      let t ← nextP
      if !t.isName then throwP "expecting a name after '/'"
      else
        let f ← fuelP
        let parts ← dottedLoop "invalid dotted name after '/'" f [t.d_val]
        nestedLoop fuel (nested ++ [join "." parts])
    else pure nested

/-- The last loop of `path`: the nested classes are looked up or created. -/
def pathNested : List String → Nat → P Nat
  | [], scope => pure scope
  | n :: rest, scope => do
    let t ← getTree
    match t.value scope n with
    | none =>
      let node ← newChild scope (some scope) n n none
      createClassFor node
      pathNested rest node
    | some node =>
      match t.thing node with
      | some (Thing.Class _ _) => pathNested rest node
      | _ => throwP "cannot nest class in given scope"

/-- `SignatureParser::path`. `isPrimitive` is the value a call of
`isPrimitive` yields: the source function evaluates `primitives.contains(t)`
and ends without a `return` statement, so the source does not fix it. -/
def path (isPrimitive : String → Bool) (scope : Nat) : P Nat := do
  let t ← nextP
  if !t.isName then throwP "expecting a path to start with a name"
  else
    let fuel ← fuelP
    let name ← dottedLoop "expecting a name after '.'" fuel [t.d_val]
    if name.length = 1 && scope = 0 && isPrimitive (name.headD "") then
      fetchPrimitive (name.headD "")
    else
      let scope1 ← pathNamespaces name scope
      let tr ← getTree
      let node ← (match tr.value scope1 (name.getLastD "") with
        | some node => pure node
        | none => newChild scope1 (some scope1) (name.getLastD "") (name.getLastD "") none
        : P Nat)
      let nested ← nestedLoop fuel []
      if nested.isEmpty then return node
      else
        let tr1 ← getTree
        match tr1.thing node with
        | none => do
          createClassFor node
          pathNested nested node
        | some (Thing.Class _ _) => pathNested nested node
        | some _ => throwP "cannot nest class in given scope"

/-- `SignatureParser::primitiveType`. -/
def primitiveType (isPrimitive : String → Bool) : P Nat := do
  let first ← nextP
  let pk ← peekP
  let str ← (if pk.isName && pk.d_val = "unsigned" then do
      let u ← nextP
      pure [first.d_val, u.d_val]
    else pure [first.d_val] : P (List String))
  let t ← nextP
  if !t.isName then throwP "expecting ID in primitive type"
  else if !isPrimitive t.d_val then throwP "expecting primitive type"
  else fetchPrimitive (join " " (str ++ [t.d_val]))

/-- The loop of `typeRef` over the `[]` suffixes: the text `array` and the
level. -/
def arrayLoop : Nat → String → Nat → P (String × Nat)
  | 0, array, level => pure (array, level)
  | fuel + 1, array, level => do
    let pk ← peekP
    if pk.d_tt = TokenType.ARR then
      let _ ← nextP
      arrayLoop fuel (array ++ "[]") (level + 1)
    else pure (array, level)

/-- `SignatureParser::typeRef`. -/
def typeRef (isPrimitive : String → Bool) : P Nat := do
  let t0 ← peekP
  let t ← (if t0.d_tt = TokenType.CLASS || t0.d_tt = TokenType.VALUETYPE then do
      let _ ← nextP
      peekP
    else pure t0 : P Token)
  let node ← (if t.isName && (t.d_val = "native" || t.d_val = "unsigned") then
      primitiveType isPrimitive
    else if t.d_tt = TokenType.LBRACK then do
      let ass ← assembly
      path isPrimitive ass
    else path isPrimitive 0 : P Nat)
  let tr ← getTree
  let _ ← (if (tr.thing node).isNone then createClassFor node else pure () : P Unit)
  let fuel ← fuelP
  let (array, level) ← arrayLoop fuel "" 0
  let tr1 ← getTree
  match tr1.thing node with
  | some (Thing.Type tp _ _ _) =>
    if level = 0 then return node
    else
      match tr1.value node array with
      | some suffix => return suffix
      | none => newChild node (some node) array array (some (Thing.Type tp none level false))
  | other =>
    assertP (match other with
      | some x => x.isDataContainer
      | none => false)
    match tr1.value node array with
    | some suffix => return suffix
    | none =>
      newChild node (some node) array array (some (Thing.Type BasicType.cls (some node) level false))

/-- `SignatureParser::param`: the result is `(d_type, d_typeStr, d_name)`. -/
def param (isPrimitive : String → Bool) : P (Nat × String × String) := do
  let pk0 ← peekP
  let start := pk0.d_pos
  let ty ← typeRef isPrimitive
  let pk1 ← peekP
  let d_type ← (if pk1.d_tt = TokenType.AMPERS then do
      let _ ← nextP
      let tr ← getTree
      match tr.thing ty with
      | some (Thing.Type tp cls lvl _) =>
        if cls.isSome || lvl ≠ 0 then
          let name := tr.name ty ++ "&"
          match tr.parent ty with
          | none => (fun s => (Except.error Err.assertion, s) : P Nat)
          | some par =>
            match tr.value par name with
            | some suffix => pure suffix
            | none =>
              newChild par (some par) name name
                (some (if cls.isSome then Thing.Type BasicType.cls cls lvl true
                  else Thing.Type tp none lvl true))
        else
          match tr.value ty "&" with
          | some suffix => pure suffix
          | none => newChild ty (some ty) "&" "&" (some (Thing.Type tp none 0 true))
      | _ => (fun s => (Except.error Err.assertion, s) : P Nat)
    else pure ty : P Nat)
  let pk2 ← peekP
  let text ← (fun s => (Except.ok s.lex.d_in, s) : P (List Char))
  let d_typeStr := simplified (mid text start ((pk2.d_pos : Int) - (start : Int)))
  let pk3 ← peekP
  if pk3.isName then
    let nm ← nextP
    return (d_type, d_typeStr, nm.d_val)
  else return (d_type, d_typeStr, "")

/-- The inner loop of `params` over `, param`. -/
def commaLoop (isPrimitive : String → Bool) :
    Nat → List (Nat × String × String) → P (List (Nat × String × String))
  | 0, res => pure res
  | fuel + 1, res => do
    let pk ← peekP
    if pk.d_tt = TokenType.COMMA then
      let _ ← nextP
      let p ← param isPrimitive
      commaLoop isPrimitive fuel (res ++ [p])
    else pure res

/-- The outer loop of `params`, which runs until the next token is `)`. -/
def paramsLoop (isPrimitive : String → Bool) :
    Nat → List (Nat × String × String) → P (List (Nat × String × String))
  | 0, res => pure res
  | fuel + 1, res => do
    let pk ← peekP
    if pk.d_tt ≠ TokenType.RPAR then
      let p ← param isPrimitive
      let f ← fuelP
      let res1 ← commaLoop isPrimitive f (res ++ [p])
      paramsLoop isPrimitive fuel res1
    else pure res

/-- `SignatureParser::params`. -/
def params (isPrimitive : String → Bool) : P (List (Nat × String × String)) := do
  let pk ← peekP
  if pk.d_tt = TokenType.LPAR then
    let _ ← nextP
    let fuel ← fuelP
    paramsLoop isPrimitive fuel []
  else throwP "invalid params, expecting '('"

/-- What `memberRef` does before it looks the member up: the result is the
type node, the class node and the name of the member. -/
def memberRefHead (isPrimitive : String → Bool) : P (Nat × Nat × String) := do
  let type ← typeRef isPrimitive
  let t0 ← peekP
  let t ← (if t0.d_tt = TokenType.CLASS || t0.d_tt = TokenType.VALUETYPE then do
      let _ ← nextP
      peekP
    else pure t0 : P Token)
  let node ← (if t.d_tt = TokenType.LBRACK then do
      let a ← assembly
      path isPrimitive a
    else path isPrimitive 0 : P Nat)
  let t1 ← nextP
  if t1.d_tt ≠ TokenType.DBLCOLON then throwP "member ref without ::"
  else
    let tr ← getTree
    let _ ← (match tr.thing node with
      | none => createClassFor node
      | some (Thing.Class _ _) => pure ()
      | some _ => throwP "member ref must point to a class" : P Unit)
    let t2 ← nextP
    if !t2.isName then throwP "expecting name after '::'"
    else
      let fuel ← fuelP
      let name ← dottedLoop "expecting a name after '.'" fuel [t2.d_val]
      return (type, node, join "." name)

/-- `SignatureParser::memberRef`. -/
def memberRef (isPrimitive : String → Bool) (hint : MemberHint) : P Nat := do
  let (type, node, name) ← memberRefHead isPrimitive
  let pk ← peekP
  if pk.d_tt = TokenType.LPAR then
    let pars ← params isPrimitive
    findOrCreateMethod node name pars type hint
  else findOrCreateField node name type hint

/-- `SignatureParser::parse` on a new parser for `ref`: the node, or `none`
(the null pointer) after a `throw`, together with the tree afterwards. A failed
`Q_ASSERT` is not caught. -/
def parse (isPrimitive : String → Bool) (hint : MemberHint) (ref : String) (root : Tree) :
    Except Err (Option Nat) × Tree :=
  let s0 : PState := { lex := SignatureLexer.init ref, root := root }
  let r := if hint ≠ MemberHint.TypeRef then memberRef isPrimitive hint s0
           else typeRef isPrimitive s0
  match r with
  | (Except.ok n, s) => (Except.ok (some n), s.root)
  | (Except.error (Err.thrown _), s) => (Except.ok none, s.root)
  | (Except.error Err.assertion, s) => (Except.error Err.assertion, s.root)

/-! ### `PelibGen` -/

/-- `PelibGen::Imp`: the tree (`root` is node 0) and the stack `level`. -/
structure Imp where
  root : Tree
  level : List Nat
  deriving DecidableEq, Repr

/-- `Imp(moduleName)`: the root holds the working assembly and has the name of
the module; `mscorlib`, `System`, `Object`, `ValueType` and `Enum` are
entered (the objects `Find` yields are taken as found). -/
def Imp.init (moduleName : String) : Imp :=
  { root :=
      [ { name := moduleName, thing := some (Thing.AssemblyDef (cstr moduleName)), parent := none,
          subs := [("mscorlib", 1)] },
        { name := "mscorlib", thing := some (Thing.AssemblyDef "mscorlib"), parent := some 0,
          subs := [("System", 2)] },
        { name := "System", thing := some (Thing.Namespace "System"), parent := some 1,
          subs := [("Enum", 5), ("ValueType", 4), ("Object", 3)] },
        { name := "Object", thing := some (Thing.Class "Object" none), parent := some 2,
          subs := [] },
        { name := "ValueType", thing := some (Thing.Class "ValueType" none), parent := some 2,
          subs := [] },
        { name := "Enum", thing := some (Thing.Class "Enum" none), parent := some 2,
          subs := [] } ],
    level := [] }

/-- `Imp::find`. -/
def Imp.find (isPrimitive : String → Bool) (imp : Imp) (hint : MemberHint) (ref : String) :
    Except Err (Option Nat) × Imp :=
  let r := parse isPrimitive hint ref imp.root
  (r.1, { imp with root := r.2 })

/-- `unescape`: `name.mid(1, name.size() - 2)` when the name starts with a
quote. The `Q_ASSERT( name.endsWith('\'') )` of that branch is a precondition
on the caller and is not checked here. -/
def unescape (name : String) : String :=
  if name.toList.head? = some '\'' then
    String.mk (mid name.toList 1 ((name.toList.length : Int) - 2))
  else name

/-- `PelibGen::beginModule` (the imports and the source file are not used). -/
def beginModule (moduleName : String) : Imp :=
  let name := unescape moduleName
  let imp := Imp.init name
  let r := imp.root.newNode (some 0) name (some (Thing.Class (cstr name) none))
  { root := r.2.insert 0 name r.1, level := [r.1] }

/-- `PelibGen::beginClass` without a super class (`superClassRef` empty). -/
def beginClass (imp : Imp) (className : String) : Except Err Imp :=
  let name := unescape className
  match imp.level.getLast? with
  | none => Except.error Err.assertion
  | some top =>
    match imp.root.value top name with
    | none =>
      match imp.root.thing top with
      | some x =>
        if x.isDataContainer then
          let r := imp.root.newNode (some top) name (some (Thing.Class (cstr name) none))
          Except.ok { root := r.2.insert top name r.1, level := imp.level ++ [r.1] }
        else Except.error Err.assertion
      | none => Except.error Err.assertion
    | some me =>
      match imp.root.thing me with
      | some (Thing.Class _ _) => Except.ok { imp with level := imp.level ++ [me] }
      | _ => Except.error Err.assertion

/-- `PelibGen::endClass`. -/
def endClass (imp : Imp) : Imp := { imp with level := imp.level.dropLast }

/-- `PelibGen::addField`. -/
def addField (isPrimitive : String → Bool) (imp : Imp) (fieldName typeRef : String)
    (isStatic : Bool) : Except Err (Option Nat) × Imp :=
  match imp.level.getLast? with
  | none => (Except.error Err.assertion, imp)
  | some top =>
    let r := imp.find isPrimitive MemberHint.TypeRef typeRef
    match r.1 with
    | Except.ok (some ty) =>
      let hint := if isStatic then MemberHint.Static else MemberHint.Instance
      match findOrCreateField top (unescape fieldName) ty hint
          { lex := SignatureLexer.init "", root := r.2.root } with
      | (Except.ok n, s) => (Except.ok (some n), { r.2 with root := s.root })
      | (Except.error e, s) => (Except.error e, { r.2 with root := s.root })
    | Except.ok none => (Except.error Err.assertion, r.2)
    | Except.error e => (Except.error e, r.2)

/-- The names of the nodes on the path from the root to a node, the root
first (for display). -/
def Tree.pathOf (t : Tree) : Nat → Nat → List String
  | 0, _ => []
  | fuel + 1, n =>
    match t.parent n with
    | some p => Tree.pathOf t fuel p ++ [t.name n]
    | none => [t.name n]

/-! ### Example inputs -/

/-- The tree after `beginModule("'M'")`: nodes 0 to 5 are the root, `mscorlib`,
`System`, `Object`, `ValueType` and `Enum`; node 6 is the class of the module. -/
def exRoot : Tree :=
  [{ name := "M", thing := some (Thing.AssemblyDef "M"), parent := none, subs := [("M", 6), ("mscorlib", 1)] },
   { name := "mscorlib", thing := some (Thing.AssemblyDef "mscorlib"), parent := some 0, subs := [("System", 2)] },
   { name := "System",
     thing := some (Thing.Namespace "System"),
     parent := some 1,
     subs := [("Enum", 5), ("ValueType", 4), ("Object", 3)] },
   { name := "Object", thing := some (Thing.Class "Object" none), parent := some 2, subs := [] },
   { name := "ValueType", thing := some (Thing.Class "ValueType" none), parent := some 2, subs := [] },
   { name := "Enum", thing := some (Thing.Class "Enum" none), parent := some 2, subs := [] },
   { name := "M", thing := some (Thing.Class "M" none), parent := some 0, subs := [] }]

/-- The tree `exRoot` after the reference `void 'M'::'f'()` has entered the method
`f` in the class of the module. -/
def exRootMethod : Tree :=
  [{ name := "M",
     thing := some (Thing.AssemblyDef "M"),
     parent := none,
     subs := [("", 7), ("M", 6), ("mscorlib", 1)] },
   { name := "mscorlib", thing := some (Thing.AssemblyDef "mscorlib"), parent := some 0, subs := [("System", 2)] },
   { name := "System",
     thing := some (Thing.Namespace "System"),
     parent := some 1,
     subs := [("Enum", 5), ("ValueType", 4), ("Object", 3)] },
   { name := "Object", thing := some (Thing.Class "Object" none), parent := some 2, subs := [] },
   { name := "ValueType", thing := some (Thing.Class "ValueType" none), parent := some 2, subs := [] },
   { name := "Enum", thing := some (Thing.Class "Enum" none), parent := some 2, subs := [] },
   { name := "M", thing := some (Thing.Class "M" none), parent := some 0, subs := [("f", 9)] },
   { name := "<all primitive types>", thing := none, parent := none, subs := [("void", 8)] },
   { name := "void", thing := some (Thing.Type (BasicType.Void) none 0 false), parent := some 7, subs := [] },
   { name := "f",
     thing := some (Thing.Method "f" 6 (some 8) [] (MemberHint.Static) false),
     parent := some 6,
     subs := [] }]

/-- The tree `exRoot` after the reference `int32 'M'::'x'` has entered the field
`x` in the class of the module. -/
def exRootField : Tree :=
  [{ name := "M",
     thing := some (Thing.AssemblyDef "M"),
     parent := none,
     subs := [("", 7), ("M", 6), ("mscorlib", 1)] },
   { name := "mscorlib", thing := some (Thing.AssemblyDef "mscorlib"), parent := some 0, subs := [("System", 2)] },
   { name := "System",
     thing := some (Thing.Namespace "System"),
     parent := some 1,
     subs := [("Enum", 5), ("ValueType", 4), ("Object", 3)] },
   { name := "Object", thing := some (Thing.Class "Object" none), parent := some 2, subs := [] },
   { name := "ValueType", thing := some (Thing.Class "ValueType" none), parent := some 2, subs := [] },
   { name := "Enum", thing := some (Thing.Class "Enum" none), parent := some 2, subs := [] },
   { name := "M", thing := some (Thing.Class "M" none), parent := some 0, subs := [("x", 9)] },
   { name := "<all primitive types>", thing := none, parent := none, subs := [("int32", 8)] },
   { name := "int32", thing := some (Thing.Type (BasicType.i32) none 0 false), parent := some 7, subs := [] },
   { name := "x", thing := some (Thing.Field "x" (some 8) true), parent := some 6, subs := [] }]

/-- The tree `exRoot` after the reference `void 'M'::'f'(int32&)`. -/
def exRootF : Tree :=
  [{ name := "M",
     thing := some (Thing.AssemblyDef "M"),
     parent := none,
     subs := [("", 7), ("M", 6), ("mscorlib", 1)] },
   { name := "mscorlib", thing := some (Thing.AssemblyDef "mscorlib"), parent := some 0, subs := [("System", 2)] },
   { name := "System",
     thing := some (Thing.Namespace "System"),
     parent := some 1,
     subs := [("Enum", 5), ("ValueType", 4), ("Object", 3)] },
   { name := "Object", thing := some (Thing.Class "Object" none), parent := some 2, subs := [] },
   { name := "ValueType", thing := some (Thing.Class "ValueType" none), parent := some 2, subs := [] },
   { name := "Enum", thing := some (Thing.Class "Enum" none), parent := some 2, subs := [] },
   { name := "M", thing := some (Thing.Class "M" none), parent := some 0, subs := [("f", 11)] },
   { name := "<all primitive types>", thing := none, parent := none, subs := [("int32", 9), ("void", 8)] },
   { name := "void", thing := some (Thing.Type (BasicType.Void) none 0 false), parent := some 7, subs := [] },
   { name := "int32",
     thing := some (Thing.Type (BasicType.i32) none 0 false),
     parent := some 7,
     subs := [("&", 10)] },
   { name := "&", thing := some (Thing.Type (BasicType.i32) none 0 true), parent := some 9, subs := [] },
   { name := "f",
     thing := some (Thing.Method
                "f"
                6
                (some 8)
                [{ name := "", type := some 10, index := 0, typeCompare := "int32&" }]
                (MemberHint.Static)
                false),
     parent := some 6,
     subs := [] }]

/-- The tree `exRoot` after the reference `void 'M'::'g'(char[])`. -/
def exRootG : Tree :=
  [{ name := "M",
     thing := some (Thing.AssemblyDef "M"),
     parent := none,
     subs := [("", 7), ("M", 6), ("mscorlib", 1)] },
   { name := "mscorlib", thing := some (Thing.AssemblyDef "mscorlib"), parent := some 0, subs := [("System", 2)] },
   { name := "System",
     thing := some (Thing.Namespace "System"),
     parent := some 1,
     subs := [("Enum", 5), ("ValueType", 4), ("Object", 3)] },
   { name := "Object", thing := some (Thing.Class "Object" none), parent := some 2, subs := [] },
   { name := "ValueType", thing := some (Thing.Class "ValueType" none), parent := some 2, subs := [] },
   { name := "Enum", thing := some (Thing.Class "Enum" none), parent := some 2, subs := [] },
   { name := "M", thing := some (Thing.Class "M" none), parent := some 0, subs := [("g", 11)] },
   { name := "<all primitive types>", thing := none, parent := none, subs := [("char", 9), ("void", 8)] },
   { name := "void", thing := some (Thing.Type (BasicType.Void) none 0 false), parent := some 7, subs := [] },
   { name := "char",
     thing := some (Thing.Type (BasicType.Char) none 0 false),
     parent := some 7,
     subs := [("[]", 10)] },
   { name := "[]", thing := some (Thing.Type (BasicType.Char) none 1 false), parent := some 9, subs := [] },
   { name := "g",
     thing := some (Thing.Method
                "g"
                6
                (some 8)
                [{ name := "", type := some 10, index := 0, typeCompare := "char[]" }]
                (MemberHint.Static)
                false),
     parent := some 6,
     subs := [] }]

/-- The node a resolution returns, if it returns one. -/
def nodeOf (r : Except Err (Option Nat) × Tree) : Option Nat :=
  match r.1 with
  | Except.ok (some n) => some n
  | _ => none

/-- What a type reference resolves to on the tree `root`: the name of the
parent of the node and the object the node holds. -/
def resolved (isPrimitive : String → Bool) (ref : String) (root : Tree) :
    Option (String × Option Thing) :=
  let r := parse isPrimitive MemberHint.TypeRef ref root
  match nodeOf r with
  | some n =>
    match r.2.parent n with
    | some p => some (r.2.name p, r.2.thing n)
    | none => some ("", r.2.thing n)
  | none => none

/-- The primitive spellings of the output convention. -/
def exPrimitiveSpellings : List String :=
  ["void", "bool", "char", "int8", "int16", "int32", "int64", "uint8", "uint16", "uint32",
   "uint64", "float32", "float64", "native int", "native unsigned int", "object", "string"]

/-- The basic types the spellings of `exPrimitiveSpellings` name, in the same
order. -/
def exPrimitiveTypes : List BasicType :=
  [BasicType.Void, BasicType.Bool, BasicType.Char, BasicType.i8, BasicType.i16, BasicType.i32,
   BasicType.i64, BasicType.u8, BasicType.u16, BasicType.u32, BasicType.u64, BasicType.r32,
   BasicType.r64, BasicType.inative, BasicType.unative, BasicType.object, BasicType.string]

/-- A record type `R` declared inside procedure `P` of module `M`. -/
def exNestedDecl : Obx.Named :=
  { tag := Obx.Tag.T_NamedType, d_name := "R", d_visibility := Obx.Visibility.Private,
    d_scope := Obx.Scope.decl Obx.Tag.T_Procedure "P" (Obx.Scope.module Obx.exM),
    getModule := Obx.exM }

/-- A type reference is resolved, then `beginClass(className)` is called at
module level: the stack `level` afterwards and the nodes the class of the
module has under `key`. -/
def refThenBeginClass (isPrimitive : String → Bool) (moduleName ref className key : String) :
    Option (List Nat × List Nat × Option Nat) :=
  let imp := beginModule moduleName
  let r := imp.find isPrimitive MemberHint.TypeRef ref
  match beginClass r.2 className with
  | Except.ok imp1 =>
    some (imp1.level, imp1.root.values 6 key,
      nodeOf (parse isPrimitive MemberHint.TypeRef ref imp1.root))
  | Except.error _ => none

/-! ### Predicates used in the statements -/

/-- The text has no `]` and no such token has been read ahead. -/
def LexOk (l : SignatureLexer) : Prop :=
  ']' ∉ l.d_in ∧ l.d_tmp.d_tt ≠ TokenType.RBRACK

/-- The tree `t1` extends `t`: every node of `t` is a node of `t1` with the
same name and parent, a `thing` that is set stays as it is, and a key that has
an entry keeps this entry as the one `value` finds. -/
def Ext (t t1 : Tree) : Prop :=
  ∀ (i : Nat) (nd : Node), t[i]? = some nd →
    ∃ nd1, t1[i]? = some nd1 ∧ nd1.name = nd.name ∧ nd1.parent = nd.parent ∧
      (∀ x, nd.thing = some x → nd1.thing = some x) ∧
      (∀ k v, subsValue nd.subs k = some v → subsValue nd1.subs k = some v)

/-- From state `s` the function `m` only extends the tree. -/
def MonoAt {α : Type} (s : PState) (m : P α) : Prop :=
  ∀ r s1, m s = (r, s1) → Ext s.root s1.root

/-- The function `m` only extends the tree. -/
def Mono {α : Type} (m : P α) : Prop := ∀ s, MonoAt s m

/-- The tokens the lexer hands out between two of its states: `Reads l ts l1`
holds when calls of `peek` and `next` lead from the lexer `l` to the lexer `l1`
and `ts` are the tokens the calls of `next` returned, in order. -/
inductive Reads : SignatureLexer → List Token → SignatureLexer → Prop
  | done (l : SignatureLexer) : Reads l [] l
  | peek (l : SignatureLexer) (ts : List Token) (l1 : SignatureLexer) :
      Reads l.peek.2 ts l1 → Reads l ts l1
  | next (l : SignatureLexer) (ts : List Token) (l1 : SignatureLexer) :
      Reads l.next.2 ts l1 → Reads l (l.next.1 :: ts) l1

/-- The number of brackets that are open after the tokens, when `d` are open
before: `[` opens one, `]` closes one; `none` when a `]` comes and no bracket
is open. The token `[]` is no bracket. -/
def bracketScan : Nat → List Token → Option Nat
  | d, [] => some d
  | d, t :: ts =>
    if t.d_tt = TokenType.LBRACK then bracketScan (d + 1) ts
    else if t.d_tt = TokenType.RBRACK then
      if d = 0 then none else bracketScan (d - 1) ts
    else bracketScan d ts

/-- The brackets among the tokens balance. -/
def Balanced (ts : List Token) : Prop := bracketScan 0 ts = some 0

instance (ts : List Token) : Decidable (Balanced ts) := by unfold Balanced; infer_instance

/-- None of the tokens is a bracket. -/
def BracketFree (ts : List Token) : Prop :=
  ∀ t ∈ ts, t.d_tt ≠ TokenType.LBRACK ∧ t.d_tt ≠ TokenType.RBRACK

/-- The lexer at the end of the run of `parse`. -/
def parseEnd (isPrimitive : String → Bool) (hint : MemberHint) (ref : String) (root : Tree) :
    SignatureLexer :=
  let s0 : PState := { lex := SignatureLexer.init ref, root := root }
  (if hint ≠ MemberHint.TypeRef then memberRef isPrimitive hint s0
   else typeRef isPrimitive s0).2.lex

/-- Case `IL_ldstr` of `PelibGen::addMethod`: the string of the operand made
from the argument text `d_arg`. `mid(1, size - 3)` drops the first and the last
two bytes; from `constData()` the `std::string` takes the bytes before the
first NUL; its last character is then overwritten with NUL (for an empty
string there is none, the result is `none`). -/
def ldstrOperand (d_arg : String) : Option (List Char) :=
  let str := (mid d_arg.toList 1 ((d_arg.toList.length : Int) - 2 - 1)).takeWhile
    (fun c => c ≠ '\x00')
  if str.isEmpty then none else some (str.dropLast ++ ['\x00'])

/-! ### Reachable trees -/

/-- The node holds a member of a class: `dynamic_cast<Method*>` or
`dynamic_cast<Field*>` succeeds. -/
def Thing.isMember (x : Thing) : Bool := x.isMethod || x.isField

/-- The node `n` of the tree holds a member of a class. -/
def Tree.isMember (t : Tree) (n : Nat) : Bool :=
  match t.thing n with
  | some x => x.isMember
  | none => false

/-- The tree after `new Node(parent, name)` with `thing` set as given, followed
by `scope->subs.insert(key, node)`. -/
def Tree.addChild (t : Tree) (scope : Nat) (parent : Option Nat) (key name : String)
    (thing : Option Thing) : Tree :=
  (t.newNode parent name thing).2.insert scope key (t.newNode parent name thing).1

/-- The node lies below a member of a class: it holds a method or a field, or
its parent lies below one. -/
inductive Dead (t : Tree) : Nat → Prop
  | member (v : Nat) : t.isMember v = true → Dead t v
  | child (v p : Nat) : t.parent v = some p → Dead t p → Dead t v

/-- What holds of every tree the program builds: the root holds an assembly and
has an entry for its own name; an entry of `subs` leads to a node of the tree
whose parent is the node with the entry (the node for the primitive types, an
entry of the root, has no parent); a parent is a node of the tree; a method or
field is the child of a class; a node that holds an assembly, a namespace, a
class or a type does not lie below a member; an entry of `subs` leads to a
node allocated later than the node with the entry. -/
structure Inv (t : Tree) : Prop where
  root_thing : ∃ nm, t.thing 0 = some (Thing.AssemblyDef nm)
  root_parent : t.parent 0 = none
  own : (t.value 0 (t.name 0)).isSome = true
  link : ∀ s k v, t.value s k = some v →
    v < t.length ∧ (t.parent v = some s ∨ (s = 0 ∧ t.parent v = none))
  closed : ∀ v p, t.parent v = some p → p < t.length
  member_parent : ∀ v, t.isMember v = true →
    ∃ p x, t.parent v = some p ∧ t.thing p = some x ∧ x.isClass = true
  solid : ∀ v x, t.thing v = some x → x.isMember = false → ¬ Dead t v
  above : ∀ s k v, t.value s k = some v → s < v

/-- The tree `t2` extends `t` as `Ext` says, except that, when `w` holds, the
entry `value` finds for a key may be another one, provided both nodes hold
members in `t2` (a method shadowed by a later overload). -/
def Rel (w : Prop) (t t2 : Tree) : Prop :=
  ∀ (i : Nat) (nd : Node), t[i]? = some nd →
    ∃ nd1, t2[i]? = some nd1 ∧ nd1.name = nd.name ∧ nd1.parent = nd.parent ∧
      (∀ x, nd.thing = some x → nd1.thing = some x) ∧
      (∀ k v, subsValue nd.subs k = some v →
        ∃ v1, subsValue nd1.subs k = some v1 ∧
          (v1 = v ∨ (w ∧ t2.isMember v = true ∧ t2.isMember v1 = true)))

/-- Two results of a lookup as `Rel` relates them. -/
def Sim (w : Prop) (t2 : Tree) (a a1 : Nat) : Prop :=
  a1 = a ∨ (w ∧ t2.isMember a = true ∧ t2.isMember a1 = true)

/-- Two parameter lists with the same texts and names whose type nodes are
related by `Sim`. -/
def SimPars (w : Prop) (t2 : Tree) (l l1 : List (Nat × String × String)) : Prop :=
  List.Forall₂ (fun p p1 => Sim w t2 p.1 p1.1 ∧ p1.2 = p.2) l l1

/-- The function reads and moves the lexer only: it neither reads nor changes
the tree. -/
def LexOnly {α : Type} (m : P α) : Prop :=
  ∀ (l : SignatureLexer) (t t1 : Tree),
    m { lex := l, root := t1 } =
      ((m { lex := l, root := t }).1, { lex := (m { lex := l, root := t }).2.lex, root := t1 })

/-- From state `s` the function `m` leaves a tree for which `Inv` holds, and a
result for which `q` holds. -/
def HoareAt {α : Type} (s : PState) (m : P α) (q : α → PState → Prop) : Prop :=
  ∀ r s1, m s = (r, s1) → Inv s1.root ∧ ∀ a, r = Except.ok a → q a s1

/-- `PelibGen::addMethod` as far as it changes the tree: the call
`findOrCreateMethod(level.back(), name, pars, ret, hint)`. It follows the calls
of `find` for the return type and for the type of each parameter; `ret` and the
nodes in `pars` stand for what these calls returned (a null pointer is a number
that is no node), the texts in `pars` for the simplified parameter types. -/
def addMethodNode (imp : Imp) (d_name : String) (pars : List (Nat × String × String))
    (ret : Nat) (hint : MemberHint) : Except Err Nat × Imp :=
  match imp.level.getLast? with
  | none => (Except.error Err.assertion, imp)
  | some top =>
    let r := findOrCreateMethod top (unescape d_name) pars ret hint
      { lex := SignatureLexer.init "", root := imp.root }
    (r.1, { imp with root := r.2.root })

/-- Every node on the stack `level` holds a class. -/
def LevelOk (imp : Imp) : Prop :=
  ∀ n, n ∈ imp.level → ∃ c, imp.root.thing n = some c ∧ c.isClass = true

/-- The states of `PelibGen` the calls can lead to: the one after
`beginModule`, and from such a state the one after `find` has resolved a
reference (to a node or to none; a failed `Q_ASSERT` ends the run), after
`beginClass` (without a super class), after `endClass`, after `addField`,
after the call of `findOrCreateMethod` in `addMethod` (for any parameters and
return type), and after `cls->Extends(scls)` in `beginClass` has given a class
without a super class one (the class of any node `c`). -/
inductive Reach : Imp → Prop
  | init (moduleName : String) : Reach (beginModule moduleName)
  | find (imp : Imp) (isPrimitive : String → Bool) (hint : MemberHint) (ref : String) :
      Reach imp → (imp.find isPrimitive hint ref).1 ≠ Except.error Err.assertion →
      Reach (imp.find isPrimitive hint ref).2
  | openClass (imp imp1 : Imp) (className : String) :
      Reach imp → beginClass imp className = Except.ok imp1 → Reach imp1
  | closeClass (imp : Imp) : Reach imp → Reach (endClass imp)
  | field (imp : Imp) (isPrimitive : String → Bool) (fieldName typeRef : String)
      (isStatic : Bool) (n : Option Nat) :
      Reach imp → (addField isPrimitive imp fieldName typeRef isStatic).1 = Except.ok n →
      Reach (addField isPrimitive imp fieldName typeRef isStatic).2
  | method (imp : Imp) (d_name : String) (pars : List (Nat × String × String)) (ret : Nat)
      (hint : MemberHint) (n : Nat) :
      Reach imp → (addMethodNode imp d_name pars ret hint).1 = Except.ok n →
      Reach (addMethodNode imp d_name pars ret hint).2
  | extend (imp : Imp) (me c : Nat) (nm : String) :
      Reach imp → imp.root.thing me = some (Thing.Class nm none) →
      Reach { imp with root := imp.root.setThing me (Thing.Class nm (some c)) }

end Pelib

/-! # Theorems -/

namespace Ob

/-! ## Token catalog -/

theorem leafOk_ite {str : List Char} {i : Nat} {c : Prop} [Decidable c] {a b : TokenType × Nat}
    (ha : c → LeafOk str i a) (hb : ¬ c → LeafOk str i b) :
    LeafOk str i (if c then a else b) := by
  by_cases h : c
  · rw [if_pos h]; exact ha h
  · rw [if_neg h]; exact hb h

set_option maxHeartbeats 4000000 in
theorem tokenTypeSwitch_leafOk (str : List Char) (i : Nat) :
    LeafOk str i (tokenTypeSwitch str i) := by
  unfold tokenTypeSwitch
  repeat' (refine leafOk_ite ?_ ?_ <;> intro _)
  all_goals first
    | exact Or.inl ⟨rfl, rfl⟩
    | (refine Or.inr ⟨rfl, ?_, rfl⟩
       repeat' (first | exact trivial | assumption | refine ⟨?_, ?_⟩))

theorem charAt_eq_of_ne_zero {str : List Char} {p : Nat} {c : Char}
    (h : charAt str p = c) (hc : c ≠ Char.ofNat 0) : ∃ hp : p < str.length, str[p] = c := by
  unfold charAt at h
  split at h
  · exact ⟨‹_›, h⟩
  · exact absurd h.symm hc

theorem spelledAt_take (str : List Char) (w : List Char) :
    ∀ p : Nat, spelledAt str p w → (∀ c ∈ w, c ≠ Char.ofNat 0) →
      (str.drop p).take w.length = w := by
  induction w with
  | nil => intro p _ _; simp
  | cons c w ih =>
    intro p h hz
    obtain ⟨hc, hw⟩ := h
    obtain ⟨hp, hget⟩ := charAt_eq_of_ne_zero hc (hz c (by simp))
    rw [List.drop_eq_getElem_cons hp, List.length_cons, List.take_succ_cons, hget,
      ih (p + 1) hw (fun d hd => hz d (by simp [hd]))]

theorem spelling_clean (t : TokenType)
    (h : (tokenTypeIsLiteral t || tokenTypeIsKeyword t) = true) :
    (tokenTypeString t).toList ≠ [] ∧ ∀ c ∈ (tokenTypeString t).toList, c ≠ Char.ofNat 0 := by
  cases t <;> first | (exfalso; revert h; decide) | decide

/-- C1: for every literal or keyword tag `t`, matching the bytes of its own
spelling with the cursor at 0 returns `t` and leaves the cursor at the length
of the spelling. -/
theorem tokenTypeFromString_spelling (t : TokenType)
    (h : (tokenTypeIsLiteral t || tokenTypeIsKeyword t) = true) :
    tokenTypeFromString (tokenTypeString t).toList (some 0)
      = (t, some (tokenTypeString t).length) := by
  cases t <;> first | rfl | (exfalso; revert h; decide)

theorem tokenTypeFromString_spelling_witness :
    tokenTypeFromString "PROCEDURE".toList (some 0) = (TokenType.Tok_PROCEDURE, some 9) :=
  tokenTypeFromString_spelling TokenType.Tok_PROCEDURE (by decide)

/-- C2 (the code at the failing inputs): at `MODUX` the spelling of `Tok_MOD`
is a prefix of the input and at `PROCEX` that of `Tok_PROC` is, yet the matcher
returns `Tok_Invalid` and leaves the cursor where it was. -/
theorem tokenTypeFromString_MODU_PROCE :
    ("MODUX".toList.take (tokenTypeString TokenType.Tok_MOD).length
        = (tokenTypeString TokenType.Tok_MOD).toList ∧
      tokenTypeFromString "MODUX".toList (some 0) = (TokenType.Tok_Invalid, some 0)) ∧
    ("PROCEX".toList.take (tokenTypeString TokenType.Tok_PROC).length
        = (tokenTypeString TokenType.Tok_PROC).toList ∧
      tokenTypeFromString "PROCEX".toList (some 0) = (TokenType.Tok_Invalid, some 0)) := by
  decide

/-- C3: if the matcher, started at cursor `p`, returns a tag `t` other than
`Tok_Invalid` and the cursor `j`, then the input bytes from `p` on are exactly
the spelling of `t`, all of them inside the input, and `j` is `p` plus the
length of that spelling. -/
theorem tokenTypeFromString_sound (str : List Char) (p : Nat) (t : TokenType) (j : Nat)
    (h : tokenTypeFromString str (some p) = (t, some j)) (ht : t ≠ TokenType.Tok_Invalid) :
    (str.drop p).take (tokenTypeString t).length = (tokenTypeString t).toList ∧
    p + (tokenTypeString t).length ≤ str.length ∧
    j = p + (tokenTypeString t).length := by
  have hg := tokenTypeSwitch_leafOk str p
  have h1 : (tokenTypeSwitch str p).1 = t := congrArg Prod.fst h
  have h2 : (tokenTypeSwitch str p).2 = j := Option.some.inj (congrArg Prod.snd h)
  rcases hg with ⟨hinv, _⟩ | ⟨hk, hs, hj⟩
  · exact absurd (h1 ▸ hinv) ht
  · rw [h1] at hk hs hj
    rw [h2] at hj
    obtain ⟨hne, hz⟩ := spelling_clean t hk
    have htake := spelledAt_take str _ p hs hz
    refine ⟨htake, ?_, hj⟩
    have hlen := congrArg List.length htake
    rw [List.length_take, List.length_drop] at hlen
    have hpos : 0 < (tokenTypeString t).toList.length := List.length_pos.mpr hne
    have : (tokenTypeString t).length = (tokenTypeString t).toList.length := rfl
    omega

theorem tokenTypeFromString_sound_witness :
    ("x := MODULE".toList.drop 5).take (tokenTypeString TokenType.Tok_MODULE).length
        = (tokenTypeString TokenType.Tok_MODULE).toList ∧
    5 + (tokenTypeString TokenType.Tok_MODULE).length ≤ "x := MODULE".toList.length ∧
    11 = 5 + (tokenTypeString TokenType.Tok_MODULE).length :=
  tokenTypeFromString_sound "x := MODULE".toList 5 TokenType.Tok_MODULE 11 (by decide) (by decide)

theorem covers_ite {str : List Char} {p n : Nat} {c : Prop} [Decidable c]
    {a b : TokenType × Nat}
    (ha : c → Covers str p n a) (hb : ¬ c → Covers str p n b) :
    Covers str p n (if c then a else b) := by
  by_cases h : c
  · rw [if_pos h]; exact ha h
  · rw [if_neg h]; exact hb h

set_option maxHeartbeats 4000000 in
/-- Completeness of the decision tree, token by token: when the spelling of a
literal or keyword `t` stands at `p`, the result is a tag that moves the index
by at least the length of that spelling, unless the input is stuck after `MOD`
or `PROC`. -/
theorem tokenTypeSwitch_covers (str : List Char) (p : Nat) (t : TokenType)
    (hk : (tokenTypeIsLiteral t || tokenTypeIsKeyword t) = true)
    (hs : spelledAt str p (tokenTypeString t).toList) :
    Covers str p (tokenTypeString t).length (tokenTypeSwitch str p) := by
  cases t <;> first
    | (exfalso; revert hk; decide)
    | (obtain ⟨h0, h1, h2, h3, h4, h5, h6, h7, h8, h9, _⟩ := hs
       simp only [tokenTypeSwitch, *, Char.reduceEq, ↓reduceIte]
       repeat' (refine covers_ite ?_ ?_ <;> intro _)
       all_goals first
         | exact Or.inl ⟨fun h => TokenType.noConfusion h, Nat.add_le_add_left (by decide) p⟩
         | exact Or.inr (Or.inl ⟨‹_›, ‹_›, ‹_›, ‹_›, fun h => absurd h.1 ‹_›⟩)
         | exact Or.inr (Or.inl ⟨‹_›, ‹_›, ‹_›, ‹_›, fun h => absurd h.2 ‹_›⟩)
         | exact Or.inr (Or.inr ⟨‹_›, ‹_›, ‹_›, ‹_›, ‹_›, fun h => absurd h.1 ‹_›⟩)
         | exact Or.inr (Or.inr ⟨‹_›, ‹_›, ‹_›, ‹_›, ‹_›, fun h => absurd h.2.1 ‹_›⟩)
         | exact Or.inr (Or.inr ⟨‹_›, ‹_›, ‹_›, ‹_›, ‹_›, fun h => absurd h.2.2.1 ‹_›⟩)
         | exact Or.inr (Or.inr ⟨‹_›, ‹_›, ‹_›, ‹_›, ‹_›, fun h => absurd h.2.2.2 ‹_›⟩))

theorem tokenTypeSwitch_stuckAfterMOD (str : List Char) (p : Nat) (h : stuckAfterMOD str p) :
    tokenTypeSwitch str p = (TokenType.Tok_Invalid, p) := by
  obtain ⟨h0, h1, h2, h3, hn⟩ := h
  simp only [tokenTypeSwitch, h0, h1, h2, h3, Char.reduceEq, ↓reduceIte]
  by_cases h4 : charAt str (p + 4) = 'L'
  · by_cases h5 : charAt str (p + 5) = 'E'
    · exact absurd ⟨h4, h5⟩ hn
    · rw [if_pos h4, if_neg h5]
  · rw [if_neg h4]

theorem tokenTypeSwitch_stuckAfterPROC (str : List Char) (p : Nat) (h : stuckAfterPROC str p) :
    tokenTypeSwitch str p = (TokenType.Tok_Invalid, p) := by
  obtain ⟨h0, h1, h2, h3, h4, hn⟩ := h
  simp only [tokenTypeSwitch, h0, h1, h2, h3, h4, Char.reduceEq, ↓reduceIte]
  by_cases h5 : charAt str (p + 5) = 'D'
  · by_cases h6 : charAt str (p + 6) = 'U'
    · by_cases h7 : charAt str (p + 7) = 'R'
      · by_cases h8 : charAt str (p + 8) = 'E'
        · exact absurd ⟨h5, h6, h7, h8⟩ hn
        · rw [if_pos h5, if_pos h6, if_pos h7, if_neg h8]
      · rw [if_pos h5, if_pos h6, if_neg h7]
    · rw [if_pos h5, if_neg h6]
  · rw [if_neg h5]

theorem charAt_of_getElem {str : List Char} {i : Nat} (h : i < str.length) :
    charAt str i = str[i] := by
  unfold charAt
  rw [dif_pos h]

theorem spelledAt_of_prefix (str : List Char) (w : List Char) :
    ∀ p : Nat, w <+: str.drop p → spelledAt str p w := by
  induction w with
  | nil => intro p _; trivial
  | cons c w ih =>
    intro p h
    obtain ⟨s, hs⟩ := h
    have hp : p < str.length := by
      by_contra hlt
      rw [List.drop_of_length_le (by omega)] at hs
      exact List.cons_ne_nil _ _ hs
    rw [List.drop_eq_getElem_cons hp] at hs
    have h1 : c = str[p] := (List.cons.inj hs).1
    have h2 : w ++ s = str.drop (p + 1) := (List.cons.inj hs).2
    exact ⟨by rw [charAt_of_getElem hp, h1], ih (p + 1) ⟨s, h2⟩⟩

theorem prefix_of_spelledAt (str : List Char) (w : List Char) (p : Nat)
    (h : spelledAt str p w) (hz : ∀ c ∈ w, c ≠ Char.ofNat 0) : w <+: str.drop p := by
  have := spelledAt_take str w p h hz
  rw [← this]
  exact List.take_prefix _ _

/-- The matcher returns the longest literal or keyword spelling that is a
prefix of the input at the cursor, except when the input continues `MOD` with
`U` without spelling `MODULE`, or `PROC` with `E` without spelling `PROCEDURE`;
then it returns `Tok_Invalid` and leaves the cursor. -/
theorem tokenTypeFromString_longest_unless_stuck (str : List Char) (p : Nat) (t : TokenType)
    (hk : (tokenTypeIsLiteral t || tokenTypeIsKeyword t) = true)
    (hp : (tokenTypeString t).toList <+: str.drop p) :
    (∃ r j, tokenTypeFromString str (some p) = (r, some j) ∧
        (tokenTypeIsLiteral r || tokenTypeIsKeyword r) = true ∧
        (tokenTypeString r).toList <+: str.drop p ∧
        j = p + (tokenTypeString r).length ∧
        (tokenTypeString t).length ≤ (tokenTypeString r).length) ∨
    (tokenTypeFromString str (some p) = (TokenType.Tok_Invalid, some p) ∧
      (("MODU".toList <+: str.drop p ∧ ¬ "MODULE".toList <+: str.drop p) ∨
       ("PROCE".toList <+: str.drop p ∧ ¬ "PROCEDURE".toList <+: str.drop p))) := by
  have hs := spelledAt_of_prefix str _ p hp
  have hfs : tokenTypeFromString str (some p)
      = ((tokenTypeSwitch str p).1, some (tokenTypeSwitch str p).2) := rfl
  rcases tokenTypeSwitch_covers str p t hk hs with ⟨hne, hle⟩ | hm | hq
  · left
    rcases tokenTypeSwitch_leafOk str p with ⟨hinv, _⟩ | ⟨hk2, hs2, hj⟩
    · exact absurd hinv hne
    · refine ⟨_, _, hfs, hk2, prefix_of_spelledAt str _ p hs2 (spelling_clean _ hk2).2, hj, ?_⟩
      rw [hj] at hle
      exact Nat.le_of_add_le_add_left hle
  · right
    refine ⟨by rw [hfs, tokenTypeSwitch_stuckAfterMOD str p hm], Or.inl ⟨?_, ?_⟩⟩
    · obtain ⟨h0, h1, h2, h3, _⟩ := hm
      exact prefix_of_spelledAt str _ p ⟨h0, h1, h2, h3, trivial⟩ (by decide)
    · intro hpre
      obtain ⟨_, _, _, _, h4, h5, _⟩ := spelledAt_of_prefix str _ p hpre
      exact hm.2.2.2.2 ⟨h4, h5⟩
  · right
    refine ⟨by rw [hfs, tokenTypeSwitch_stuckAfterPROC str p hq], Or.inr ⟨?_, ?_⟩⟩
    · obtain ⟨h0, h1, h2, h3, h4, _⟩ := hq
      exact prefix_of_spelledAt str _ p ⟨h0, h1, h2, h3, h4, trivial⟩ (by decide)
    · intro hpre
      obtain ⟨_, _, _, _, _, h5, h6, h7, h8, _⟩ := spelledAt_of_prefix str _ p hpre
      exact hq.2.2.2.2.2 ⟨h5, h6, h7, h8⟩

end Ob

namespace OBX

/-! ## Runtime helpers: DIV and MOD -/

theorem tmod_neg_left (y b : Int) : Int.tmod (-y) b = -(Int.tmod y b) := by
  rw [Int.tmod_def, Int.tmod_def, Int.neg_tdiv]; ring

/-- Unwrapped quotient and remainder of the negative branch, positive divisor. -/
theorem tdiv_tmod_shifted (a b : Int) (hb : 0 < b) (ha : a < 0) :
    Int.tdiv (a - b + 1) b = a / b ∧ (b - 1) + Int.tmod (a - b + 1) b = a % b ∧
    -b < Int.tmod (a - b + 1) b ∧ Int.tmod (a - b + 1) b ≤ 0 := by
  have hy : 0 ≤ -(a - b + 1) := by omega
  have hx : a - b + 1 = -(-(a - b + 1)) := by ring
  have h1 : 0 ≤ Int.tmod (-(a - b + 1)) b := Int.tmod_nonneg b hy
  have h2 : Int.tmod (-(a - b + 1)) b < b := Int.tmod_lt_of_pos _ hb
  have h3 : Int.tmod (a - b + 1) b = -(Int.tmod (-(a - b + 1)) b) := by
    conv_lhs => rw [hx]
    exact tmod_neg_left _ _
  have h4 := Int.tmod_add_tdiv (a - b + 1) b
  have hu : a / b = Int.tdiv (a - b + 1) b ∧ a % b = (b - 1) + Int.tmod (a - b + 1) b := by
    rw [Int.ediv_emod_unique hb]
    refine ⟨by linarith, by omega, by omega⟩
  exact ⟨hu.1.symm, hu.2.symm, by omega, by omega⟩

theorem ediv_bounds_neg (a b : Int) (hb : 0 < b) (ha : a < 0) : a ≤ a / b ∧ a / b < 0 := by
  have h1 : a / b < 0 := Int.ediv_neg' ha hb
  have h2 := Int.emod_add_ediv a b
  have h3 := Int.emod_nonneg a (ne_of_gt hb)
  have h4 := Int.emod_lt_of_pos a hb
  refine ⟨?_, h1⟩
  by_contra hlt
  push_neg at hlt
  have : b * (a / b + 1) ≤ 1 * (a / b + 1) := by
    apply Int.mul_le_mul_of_nonpos_right <;> omega
  nlinarith

theorem tdiv_bounds_nonneg (a b : Int) (ha : 0 ≤ a) : -a ≤ Int.tdiv a b ∧ Int.tdiv a b ≤ a := by
  rcases le_or_lt 0 b with hb | hb
  · rw [Int.tdiv_eq_ediv ha hb]
    have := Int.ediv_le_self b ha
    have := Int.ediv_nonneg ha hb
    omega
  · have h : Int.tdiv a b = -(Int.tdiv a (-b)) := by rw [Int.tdiv_neg, neg_neg]
    rw [h, Int.tdiv_eq_ediv ha (by omega)]
    have := Int.ediv_le_self (-b) ha
    have := Int.ediv_nonneg ha (show 0 ≤ -b by omega)
    omega

theorem tmod_bounds_nonneg (a b : Int) (ha : 0 ≤ a) (hb : b ≠ 0) :
    0 ≤ Int.tmod a b ∧ Int.tmod a b < |b| := by
  refine ⟨Int.tmod_nonneg b ha, ?_⟩
  rcases lt_or_gt_of_ne hb with h | h
  · rw [abs_of_neg h, ← Int.tmod_neg a b]
    exact Int.tmod_lt_of_pos a (by omega)
  · rw [abs_of_pos h]
    exact Int.tmod_lt_of_pos a h

theorem int32_ok (ov : Overflow) {x : Int} (h : isInt32 x) : int32 ov x = Except.ok x := by
  unfold int32; rw [if_pos h]

theorem int64_ok (ov : Overflow) {x : Int} (h : isInt64 x) : int64 ov x = Except.ok x := by
  unfold int64; rw [if_pos h]

theorem ok_bind {α β : Type} (a : α) (f : α → Except Fault β) :
    (Except.ok a >>= f) = f a := rfl

theorem tdiv_abs_le (x y : Int) : |Int.tdiv x y| ≤ |x| := by
  rcases le_or_lt 0 x with hx | hx
  · have := tdiv_bounds_nonneg x y hx
    rw [abs_of_nonneg hx, abs_le]
    exact this
  · have h := tdiv_bounds_nonneg (-x) y (by omega)
    rw [Int.neg_tdiv] at h
    rw [abs_of_neg hx, abs_le]
    constructor <;> omega

theorem tmod_abs_lt (x y : Int) (hy : y ≠ 0) : |Int.tmod x y| < |y| := by
  rcases le_or_lt 0 x with hx | hx
  · have := tmod_bounds_nonneg x y hx hy
    rw [abs_of_nonneg this.1]; exact this.2
  · have h := tmod_bounds_nonneg (-x) y (by omega) hy
    rw [tmod_neg_left] at h
    rw [abs_of_nonpos (by omega)]
    exact h.2

/-- The identity of truncated division for the values the negative branch
computes. -/
theorem shifted_identity (a b : Int) :
    a = Int.tdiv (a - b + 1) b * b + ((b - 1) + Int.tmod (a - b + 1) b) := by
  have := Int.tmod_add_tdiv (a - b + 1) b
  linarith [mul_comm (Int.tdiv (a - b + 1) b) b]

/-- Negative dividend, 32 bit: when the intermediate values are representable
the helpers return the values of the formulas. -/
theorem div32_mod32_neg (ov : Overflow) (a b : Int) (ha : isInt32 a) (hb : isInt32 b)
    (hne : b ≠ 0) (hneg : a < 0)
    (h1 : isInt32 (a - b)) (h2 : isInt32 (a - b + 1)) (h3 : isInt32 (b - 1))
    (h4 : isInt32 ((b - 1) + Int.tmod (a - b + 1) b)) :
    OBX_Div32 ov a b = Except.ok (Int.tdiv (a - b + 1) b) ∧
    OBX_Mod32 ov a b = Except.ok ((b - 1) + Int.tmod (a - b + 1) b) := by
  have hq : isInt32 (Int.tdiv (a - b + 1) b) := by
    have hq1 := tdiv_abs_le (a - b + 1) b
    rcases lt_or_gt_of_ne hne with hb0 | hb0
    · have : |a - b + 1| ≤ 2147483647 := by
        unfold isInt32 at *
        rw [abs_le]; constructor <;> omega
      have := abs_le.mp (le_trans hq1 this)
      unfold isInt32; constructor <;> omega
    · obtain ⟨e1, _, _, _⟩ := tdiv_tmod_shifted a b hb0 hneg
      have := ediv_bounds_neg a b hb0 hneg
      rw [e1]; unfold isInt32 at *; constructor <;> omega
  have hr : isInt32 (Int.tmod (a - b + 1) b) := by
    have := abs_lt.mp (tmod_abs_lt (a - b + 1) b hne)
    have hbb : |b| ≤ 2147483648 := by
      unfold isInt32 at hb; rw [abs_le]; constructor <;> omega
    unfold isInt32; constructor <;> omega
  unfold OBX_Div32 OBX_Mod32 rem32
  rw [if_neg hne, if_neg hne, if_pos hneg, if_pos hneg]
  simp only [int32_ok ov h1, int32_ok ov h2, int32_ok ov h3, ok_bind, int32_ok ov hq,
    int32_ok ov hr, int32_ok ov h4, and_self]

/-- Negative dividend, 64 bit. -/
theorem div64_mod64_neg (ov : Overflow) (a b : Int) (ha : isInt64 a) (hb : isInt64 b)
    (hne : b ≠ 0) (hneg : a < 0)
    (h1 : isInt64 (a - b)) (h2 : isInt64 (a - b + 1)) (h3 : isInt64 (b - 1))
    (h4 : isInt64 ((b - 1) + Int.tmod (a - b + 1) b)) :
    OBX_Div64 ov a b = Except.ok (Int.tdiv (a - b + 1) b) ∧
    OBX_Mod64 ov a b = Except.ok ((b - 1) + Int.tmod (a - b + 1) b) := by
  have hq : isInt64 (Int.tdiv (a - b + 1) b) := by
    have hq1 := tdiv_abs_le (a - b + 1) b
    rcases lt_or_gt_of_ne hne with hb0 | hb0
    · have : |a - b + 1| ≤ 9223372036854775807 := by
        unfold isInt64 at *
        rw [abs_le]; constructor <;> omega
      have := abs_le.mp (le_trans hq1 this)
      unfold isInt64; constructor <;> omega
    · obtain ⟨e1, _, _, _⟩ := tdiv_tmod_shifted a b hb0 hneg
      have := ediv_bounds_neg a b hb0 hneg
      rw [e1]; unfold isInt64 at *; constructor <;> omega
  have hr : isInt64 (Int.tmod (a - b + 1) b) := by
    have := abs_lt.mp (tmod_abs_lt (a - b + 1) b hne)
    have hbb : |b| ≤ 9223372036854775808 := by
      unfold isInt64 at hb; rw [abs_le]; constructor <;> omega
    unfold isInt64; constructor <;> omega
  unfold OBX_Div64 OBX_Mod64 rem64
  rw [if_neg hne, if_neg hne, if_pos hneg, if_pos hneg]
  simp only [int64_ok ov h1, int64_ok ov h2, int64_ok ov h3, ok_bind, int64_ok ov hq,
    int64_ok ov hr, int64_ok ov h4, and_self]

/-- Non-negative dividend, 32 bit: the helpers are the truncating `/` and `%`. -/
theorem div32_mod32_nonneg (ov : Overflow) (a b : Int) (ha : isInt32 a) (hne : b ≠ 0)
    (h0 : 0 ≤ a) :
    OBX_Div32 ov a b = Except.ok (Int.tdiv a b) ∧ OBX_Mod32 ov a b = Except.ok (Int.tmod a b) := by
  have hq := tdiv_bounds_nonneg a b h0
  have hr := tmod_bounds_nonneg a b h0 hne
  have hr2 := abs_lt.mp (tmod_abs_lt a b hne)
  have hr3 : Int.tmod a b ≤ a := by
    have := Int.tmod_add_tdiv a b
    rcases le_or_lt 0 b with hb | hb
    · have := Int.tdiv_nonneg h0 hb
      nlinarith
    · have : Int.tdiv a b ≤ 0 := by
        have h : Int.tdiv a b = -(Int.tdiv a (-b)) := by rw [Int.tdiv_neg, neg_neg]
        have := Int.tdiv_nonneg h0 (show 0 ≤ -b by omega)
        omega
      nlinarith
  have hqi : isInt32 (Int.tdiv a b) := by unfold isInt32 at *; omega
  have hri : isInt32 (Int.tmod a b) := by unfold isInt32 at *; omega
  unfold OBX_Div32 OBX_Mod32 rem32
  rw [if_neg hne, if_neg hne, if_neg (by omega), if_neg (by omega)]
  simp only [int32_ok ov hqi, int32_ok ov hri, ok_bind, and_self]

/-- Non-negative dividend, 64 bit. -/
theorem div64_mod64_nonneg (ov : Overflow) (a b : Int) (ha : isInt64 a) (hne : b ≠ 0)
    (h0 : 0 ≤ a) :
    OBX_Div64 ov a b = Except.ok (Int.tdiv a b) ∧ OBX_Mod64 ov a b = Except.ok (Int.tmod a b) := by
  have hq := tdiv_bounds_nonneg a b h0
  have hr := tmod_bounds_nonneg a b h0 hne
  have hr3 : Int.tmod a b ≤ a := by
    have := Int.tmod_add_tdiv a b
    rcases le_or_lt 0 b with hb | hb
    · have := Int.tdiv_nonneg h0 hb
      nlinarith
    · have : Int.tdiv a b ≤ 0 := by
        have h : Int.tdiv a b = -(Int.tdiv a (-b)) := by rw [Int.tdiv_neg, neg_neg]
        have := Int.tdiv_nonneg h0 (show 0 ≤ -b by omega)
        omega
      nlinarith
  have hqi : isInt64 (Int.tdiv a b) := by unfold isInt64 at *; omega
  have hri : isInt64 (Int.tmod a b) := by unfold isInt64 at *; omega
  unfold OBX_Div64 OBX_Mod64 rem64
  rw [if_neg hne, if_neg hne, if_neg (by omega), if_neg (by omega)]
  simp only [int64_ok ov hqi, int64_ok ov hri, ok_bind, and_self]

/-- What the values of the formulas satisfy, for any width. -/
theorem euclid_facts (a b : Int) (hne : b ≠ 0) :
    (a < 0 →
      a = Int.tdiv (a - b + 1) b * b + ((b - 1) + Int.tmod (a - b + 1) b) ∧
      (0 < b → 0 ≤ (b - 1) + Int.tmod (a - b + 1) b ∧ (b - 1) + Int.tmod (a - b + 1) b < |b|) ∧
      (b < 0 → (b - 1) + Int.tmod (a - b + 1) b < 0)) ∧
    (0 ≤ a →
      a = Int.tdiv a b * b + Int.tmod a b ∧ 0 ≤ Int.tmod a b ∧ Int.tmod a b < |b|) := by
  constructor
  · intro hneg
    refine ⟨shifted_identity a b, ?_, ?_⟩
    · intro hpos
      obtain ⟨_, e2, _, _⟩ := tdiv_tmod_shifted a b hpos hneg
      rw [e2, abs_of_pos hpos]
      exact ⟨Int.emod_nonneg a hne, Int.emod_lt_of_pos a hpos⟩
    · intro hb0
      have := abs_lt.mp (tmod_abs_lt (a - b + 1) b hne)
      rw [abs_of_neg hb0] at this
      omega
  · intro h0
    have := Int.tmod_add_tdiv a b
    have hb := tmod_bounds_nonneg a b h0 hne
    exact ⟨by linarith [mul_comm (Int.tdiv a b) b], hb.1, hb.2⟩

/-- C4 as stated fails: for `a = -2147483648` and `b = 1` the value `a - b + 1`
is `a`, which is representable, but the helpers compute `a - b = -2147483649`
first, which is not an `int32_t`: the subtraction overflows, so C gives neither
call a result. The same holds for `a = -2147483646` and `b = 3`. Where the
subtraction wraps, the addition wraps back and the results are the floor
quotient and the remainder. -/
theorem OBX_Div32_difference_overflows :
    (isInt32 (-2147483648) ∧ isInt32 1 ∧ (0 : Int) < 1 ∧ isInt32 (-2147483648 - 1 + 1) ∧
      ¬ isInt32 (-2147483648 - 1) ∧
      OBX_Div32 Overflow.undefined (-2147483648) 1 = Except.error Fault.overflow ∧
      OBX_Mod32 Overflow.undefined (-2147483648) 1 = Except.error Fault.overflow ∧
      OBX_Div32 Overflow.wraps (-2147483648) 1 = Except.ok (-2147483648) ∧
      OBX_Mod32 Overflow.wraps (-2147483648) 1 = Except.ok 0) ∧
    (isInt32 (-2147483646) ∧ isInt32 3 ∧ (0 : Int) < 3 ∧ isInt32 (-2147483646 - 3 + 1) ∧
      ¬ isInt32 (-2147483646 - 3) ∧
      OBX_Div32 Overflow.undefined (-2147483646) 3 = Except.error Fault.overflow ∧
      OBX_Mod32 Overflow.undefined (-2147483646) 3 = Except.error Fault.overflow) := by
  decide

/-- C4 (amended): for 32-bit `a` and `b > 0` with `a - b` and `a - b + 1`
representable, `OBX$Div32` returns `q = floor(a / b)` and `OBX$Mod32` returns
`r` with `0 <= r < b` and `a = q*b + r`, whatever an overflow would do; in
particular `OBX$Div32(-7, 2) = -4` and `OBX$Mod32(-7, 2) = 1`. -/
theorem OBX_Div32_Mod32_floor (ov : Overflow) (a b : Int) (ha : isInt32 a) (hb : isInt32 b)
    (hpos : 0 < b) (hsub : isInt32 (a - b)) (hrep : isInt32 (a - b + 1)) :
    (∃ q r, OBX_Div32 ov a b = Except.ok q ∧ OBX_Mod32 ov a b = Except.ok r ∧
      q = Int.fdiv a b ∧ 0 ≤ r ∧ r < b ∧ a = q * b + r) ∧
    OBX_Div32 ov (-7) 2 = Except.ok (-4) ∧ OBX_Mod32 ov (-7) 2 = Except.ok 1 := by
  have hne : b ≠ 0 := ne_of_gt hpos
  have hm1 := Int.emod_nonneg a hne
  have hm2 := Int.emod_lt_of_pos a hpos
  have hid : a = a / b * b + a % b := by
    have := Int.emod_add_ediv a b
    linarith [mul_comm (a / b) b]
  have hex : (OBX_Div32 ov (-7) 2 = Except.ok (-4) ∧ OBX_Mod32 ov (-7) 2 = Except.ok 1) := by
    cases ov <;> decide
  refine ⟨?_, hex.1, hex.2⟩
  by_cases hneg : a < 0
  · obtain ⟨e1, e2, _, _⟩ := tdiv_tmod_shifted a b hpos hneg
    have h3 : isInt32 (b - 1) := by unfold isInt32 at *; omega
    have h4 : isInt32 ((b - 1) + Int.tmod (a - b + 1) b) := by
      rw [e2]; unfold isInt32 at *; omega
    obtain ⟨hd, hm⟩ := div32_mod32_neg ov a b ha hb hne hneg hsub hrep h3 h4
    rw [e1] at hd
    rw [e2] at hm
    exact ⟨a / b, a % b, hd, hm, (Int.fdiv_eq_ediv a (le_of_lt hpos)).symm, hm1, hm2, hid⟩
  · have h0 : 0 ≤ a := by omega
    obtain ⟨hd, hm⟩ := div32_mod32_nonneg ov a b ha hne h0
    rw [Int.tdiv_eq_ediv h0 (le_of_lt hpos)] at hd
    rw [Int.tmod_eq_emod h0 (le_of_lt hpos)] at hm
    exact ⟨a / b, a % b, hd, hm, (Int.fdiv_eq_ediv a (le_of_lt hpos)).symm, hm1, hm2, hid⟩

theorem OBX_Div32_Mod32_floor_witness :
    (∃ q r, OBX_Div32 Overflow.undefined (-2147483645) 3 = Except.ok q ∧
      OBX_Mod32 Overflow.undefined (-2147483645) 3 = Except.ok r ∧
      q = Int.fdiv (-2147483645) 3 ∧ 0 ≤ r ∧ r < 3 ∧ -2147483645 = q * 3 + r) ∧
    OBX_Div32 Overflow.undefined (-7) 2 = Except.ok (-4) ∧
    OBX_Mod32 Overflow.undefined (-7) 2 = Except.ok 1 :=
  OBX_Div32_Mod32_floor Overflow.undefined (-2147483645) 3 (by decide) (by decide) (by decide)
    (by decide) (by decide)

/-- C5 as stated fails: for `a = -7`, `b = -2` the helpers return `q = 2` and
`r = -3`, and `r` is negative (32 bit and 64 bit alike, no operation
overflows). -/
theorem OBX_Mod_negative_divisor :
    (OBX_Div32 Overflow.undefined (-7) (-2) = Except.ok 2 ∧
      OBX_Mod32 Overflow.undefined (-7) (-2) = Except.ok (-3) ∧
      ¬ ∃ q r, OBX_Div32 Overflow.undefined (-7) (-2) = Except.ok q ∧
        OBX_Mod32 Overflow.undefined (-7) (-2) = Except.ok r ∧
        -7 = q * (-2) + r ∧ 0 ≤ r ∧ r < |(-2 : Int)|) ∧
    (OBX_Div64 Overflow.undefined (-7) (-2) = Except.ok 2 ∧
      OBX_Mod64 Overflow.undefined (-7) (-2) = Except.ok (-3) ∧
      ¬ ∃ q r, OBX_Div64 Overflow.undefined (-7) (-2) = Except.ok q ∧
        OBX_Mod64 Overflow.undefined (-7) (-2) = Except.ok r ∧
        -7 = q * (-2) + r ∧ 0 ≤ r ∧ r < |(-2 : Int)|) := by
  have h32 : OBX_Mod32 Overflow.undefined (-7) (-2) = Except.ok (-3) := by decide
  have h64 : OBX_Mod64 Overflow.undefined (-7) (-2) = Except.ok (-3) := by decide
  refine ⟨⟨by decide, h32, ?_⟩, ⟨by decide, h64, ?_⟩⟩
  · rintro ⟨q, r, _, hr, _, h0, _⟩
    rw [h32] at hr
    have := Except.ok.inj hr
    omega
  · rintro ⟨q, r, _, hr, _, h0, _⟩
    rw [h64] at hr
    have := Except.ok.inj hr
    omega

/-- C5 (amended): for `b != 0`, when for a negative `a` the intermediate values
`a - b`, `a - b + 1`, `b - 1` and `(b - 1) + (a - b + 1) % b` are representable
(for `b > 0` this asks only for `a - b`), the helpers return `q` and `r` with
`a = q*b + r`, whatever an overflow would do; `0 <= r < |b|` holds when the
divisor is positive or the dividend is not negative, and `r` is negative when
both are negative. `a`, `b` are the 32-bit operands of `OBX$Div32` /
`OBX$Mod32`, `c`, `d` the 64-bit operands of `OBX$Div64` / `OBX$Mod64`. -/
theorem OBX_Div_Mod_euclid (ov : Overflow) (a b c d : Int)
    (ha : isInt32 a) (hb : isInt32 b) (hne : b ≠ 0)
    (hrep : a < 0 → isInt32 (a - b) ∧ isInt32 (a - b + 1) ∧ isInt32 (b - 1) ∧
      isInt32 ((b - 1) + Int.tmod (a - b + 1) b))
    (hc : isInt64 c) (hd : isInt64 d) (hne64 : d ≠ 0)
    (hrep64 : c < 0 → isInt64 (c - d) ∧ isInt64 (c - d + 1) ∧ isInt64 (d - 1) ∧
      isInt64 ((d - 1) + Int.tmod (c - d + 1) d)) :
    (∃ q r, OBX_Div32 ov a b = Except.ok q ∧ OBX_Mod32 ov a b = Except.ok r ∧
        a = q * b + r ∧ (0 < b ∨ 0 ≤ a → 0 ≤ r ∧ r < |b|) ∧ (a < 0 → b < 0 → r < 0)) ∧
    (∃ q r, OBX_Div64 ov c d = Except.ok q ∧ OBX_Mod64 ov c d = Except.ok r ∧
        c = q * d + r ∧ (0 < d ∨ 0 ≤ c → 0 ≤ r ∧ r < |d|) ∧ (c < 0 → d < 0 → r < 0)) := by
  constructor
  · by_cases hneg : a < 0
    · obtain ⟨h1, h2, h3, h4⟩ := hrep hneg
      obtain ⟨hd1, hm1⟩ := div32_mod32_neg ov a b ha hb hne hneg h1 h2 h3 h4
      obtain ⟨f1, f2, f3⟩ := (euclid_facts a b hne).1 hneg
      refine ⟨_, _, hd1, hm1, f1, ?_, fun _ hb0 => f3 hb0⟩
      rintro (hp | hp)
      · exact f2 hp
      · omega
    · have h0 : 0 ≤ a := by omega
      obtain ⟨hd1, hm1⟩ := div32_mod32_nonneg ov a b ha hne h0
      obtain ⟨f1, f2, f3⟩ := (euclid_facts a b hne).2 h0
      exact ⟨_, _, hd1, hm1, f1, fun _ => ⟨f2, f3⟩, fun h => absurd h hneg⟩
  · by_cases hneg : c < 0
    · obtain ⟨h1, h2, h3, h4⟩ := hrep64 hneg
      obtain ⟨hd1, hm1⟩ := div64_mod64_neg ov c d hc hd hne64 hneg h1 h2 h3 h4
      obtain ⟨f1, f2, f3⟩ := (euclid_facts c d hne64).1 hneg
      refine ⟨_, _, hd1, hm1, f1, ?_, fun _ hb0 => f3 hb0⟩
      rintro (hp | hp)
      · exact f2 hp
      · omega
    · have h0 : 0 ≤ c := by omega
      obtain ⟨hd1, hm1⟩ := div64_mod64_nonneg ov c d hc hne64 h0
      obtain ⟨f1, f2, f3⟩ := (euclid_facts c d hne64).2 h0
      exact ⟨_, _, hd1, hm1, f1, fun _ => ⟨f2, f3⟩, fun h => absurd h hneg⟩

theorem OBX_Div_Mod_euclid_witness :
    (∃ q r, OBX_Div32 Overflow.undefined (-8) (-3) = Except.ok q ∧
        OBX_Mod32 Overflow.undefined (-8) (-3) = Except.ok r ∧
        -8 = q * (-3) + r ∧ (0 < (-3 : Int) ∨ 0 ≤ (-8 : Int) → 0 ≤ r ∧ r < |(-3 : Int)|) ∧
        ((-8 : Int) < 0 → (-3 : Int) < 0 → r < 0)) ∧
    (∃ q r, OBX_Div64 Overflow.undefined (-5000000000) 3 = Except.ok q ∧
        OBX_Mod64 Overflow.undefined (-5000000000) 3 = Except.ok r ∧
        -5000000000 = q * 3 + r ∧
        (0 < (3 : Int) ∨ 0 ≤ (-5000000000 : Int) → 0 ≤ r ∧ r < |(3 : Int)|) ∧
        ((-5000000000 : Int) < 0 → (3 : Int) < 0 → r < 0)) :=
  OBX_Div_Mod_euclid Overflow.undefined (-8) (-3) (-5000000000) 3 (by decide) (by decide)
    (by decide) (fun _ => by decide) (by decide) (by decide) (by decide) (fun _ => by decide)

/-! ## Runtime helpers: overflow of the intermediate value -/

/-- C38: the intermediate value leaves the range. For `a = -2147483648` and
`b = 2`, a negative and a positive `int32_t`, `a - b + 1 = -2147483649` is not
an `int32_t` (nor is `a - b`); with two's complement wrapping `OBX$Div32`
returns `1073741823` (the floor quotient is `-1073741824`) and `OBX$Mod32`
returns `2`, which is not below `b`; where overflow is undefined the calls have
no result. The 64-bit helpers behave alike for `a = -9223372036854775808`. -/
theorem OBX_Div_Mod_intermediate_overflow :
    (isInt32 (-2147483648) ∧ (-2147483648 : Int) < 0 ∧ isInt32 2 ∧
      ¬ isInt32 (-2147483648 - 2 + 1) ∧
      OBX_Div32 Overflow.wraps (-2147483648) 2 = Except.ok 1073741823 ∧
      Int.fdiv (-2147483648) 2 = -1073741824 ∧
      OBX_Mod32 Overflow.wraps (-2147483648) 2 = Except.ok 2 ∧
      OBX_Div32 Overflow.undefined (-2147483648) 2 = Except.error Fault.overflow ∧
      OBX_Mod32 Overflow.undefined (-2147483648) 2 = Except.error Fault.overflow) ∧
    (isInt64 (-9223372036854775808) ∧ (-9223372036854775808 : Int) < 0 ∧ isInt64 2 ∧
      ¬ isInt64 (-9223372036854775808 - 2 + 1) ∧
      OBX_Div64 Overflow.wraps (-9223372036854775808) 2 = Except.ok 4611686018427387903 ∧
      Int.fdiv (-9223372036854775808) 2 = -4611686018427387904 ∧
      OBX_Mod64 Overflow.wraps (-9223372036854775808) 2 = Except.ok 2 ∧
      OBX_Div64 Overflow.undefined (-9223372036854775808) 2 = Except.error Fault.overflow ∧
      OBX_Mod64 Overflow.undefined (-9223372036854775808) 2 = Except.error Fault.overflow) := by
  decide

/-! ## Runtime helpers: UTF-8 -/

theorem lor_eq_add (n a b : Nat) (ha : 2 ^ n ∣ a) (hb : b < 2 ^ n) : a ||| b = a + b := by
  obtain ⟨k, rfl⟩ := ha
  exact (Nat.mul_add_lt_is_or hb k).symm

theorem and_63 (x : Nat) : x &&& 0x3f = x % 64 := Nat.and_pow_two_sub_one_eq_mod x 6

theorem and_31 (x : Nat) : x &&& 0x1f = x % 32 := Nat.and_pow_two_sub_one_eq_mod x 5

theorem and_15 (x : Nat) : x &&& 0xf = x % 16 := Nat.and_pow_two_sub_one_eq_mod x 4

theorem and_7 (x : Nat) : x &&& 0x7 = x % 8 := Nat.and_pow_two_sub_one_eq_mod x 3

/-- The bytes of the encoding, in arithmetic. -/
theorem utf8Encode_eq (c : Nat) (h : c ≤ 0x10FFFF) :
    specUtf8Encode c =
      if c < 0x80 then [c]
      else if c < 0x800 then [192 + c / 64, 128 + c % 64]
      else if c < 0x10000 then [224 + c / 4096, 128 + c / 64 % 64, 128 + c % 64]
      else [240 + c / 262144, 128 + c / 4096 % 64, 128 + c / 64 % 64, 128 + c % 64] := by
  unfold specUtf8Encode
  simp only [and_63, Nat.shiftRight_eq_div_pow]
  have e6 : ∀ x, 0x80 ||| x % 64 = 128 + x % 64 := fun x =>
    lor_eq_add 6 _ _ (by decide) (Nat.mod_lt _ (by decide))
  simp only [e6]
  split
  · rfl
  · split
    · rw [lor_eq_add 5 0xc0 (c / 2 ^ 6) (by decide) (by norm_num; omega)]
    · split
      · rw [lor_eq_add 4 0xe0 (c / 2 ^ 12) (by decide) (by norm_num; omega)]
      · rw [lor_eq_add 3 0xf0 (c / 2 ^ 18) (by decide) (by norm_num; omega)]

/-- The value `decode` computes from two, three and four bytes, in arithmetic. -/
theorem decode_bits (b0 b1 b2 b3 : Nat) :
    ((b0 &&& 0x1f) <<< 6) ||| (b1 &&& 0x3f) = b0 % 32 * 64 + b1 % 64 ∧
    (((b0 &&& 0xf) <<< 12) ||| ((b1 &&& 0x3f) <<< 6)) ||| (b2 &&& 0x3f) =
      b0 % 16 * 4096 + b1 % 64 * 64 + b2 % 64 ∧
    ((((b0 &&& 0x7) <<< 18) ||| ((b1 &&& 0x3f) <<< 12)) ||| ((b2 &&& 0x3f) <<< 6)) |||
        (b3 &&& 0x3f) =
      b0 % 8 * 262144 + b1 % 64 * 4096 + b2 % 64 * 64 + b3 % 64 := by
  simp only [and_63, and_31, and_15, and_7, Nat.shiftLeft_eq]
  have m1 := Nat.mod_lt b1 (show 0 < 64 by decide)
  have m2 := Nat.mod_lt b2 (show 0 < 64 by decide)
  have m3 := Nat.mod_lt b3 (show 0 < 64 by decide)
  refine ⟨?_, ?_, ?_⟩
  · exact lor_eq_add 6 _ _ (Dvd.intro_left _ rfl) m1
  · rw [lor_eq_add 12 (b0 % 16 * 2 ^ 12) (b1 % 64 * 2 ^ 6) (Dvd.intro_left _ rfl)
      (by norm_num; omega)]
    rw [lor_eq_add 6 _ (b2 % 64) (by norm_num; omega) m2]
    norm_num
  · rw [lor_eq_add 18 (b0 % 8 * 2 ^ 18) (b1 % 64 * 2 ^ 12) (Dvd.intro_left _ rfl)
      (by norm_num; omega)]
    rw [lor_eq_add 12 _ (b2 % 64 * 2 ^ 6) (by norm_num; omega) (by norm_num; omega)]
    rw [lor_eq_add 6 _ (b3 % 64) (by norm_num; omega) m3]
    norm_num

theorem decode_one (b0 : Nat) (h : b0 ≤ 0x7f) : decode [b0] = some (b0, 1) := by
  have e : b0 % 256 = b0 := by omega
  simp only [decode, byteAt, List.getElem?_cons_zero, e]
  rw [if_pos h]

theorem decode_two (b0 b1 : Nat) (l0 : 0x7f < b0) (h0 : b0 ≤ 0xdf) (h1 : b1 < 256) :
    decode [b0, b1] = some (b0 % 32 * 64 + b1 % 64, 2) := by
  have e0 : b0 % 256 = b0 := by omega
  have e1 : b1 % 256 = b1 := by omega
  simp only [decode, byteAt, List.getElem?_cons_zero, List.getElem?_cons_succ, e0, e1,
    (decode_bits _ _ 0 0).1]
  rw [if_neg (by omega), if_pos h0]

theorem decode_three (b0 b1 b2 : Nat) (l0 : 0xdf < b0) (h0 : b0 ≤ 0xef) (h1 : b1 < 256)
    (h2 : b2 < 256) :
    decode [b0, b1, b2] = some (b0 % 16 * 4096 + b1 % 64 * 64 + b2 % 64, 3) := by
  have e0 : b0 % 256 = b0 := by omega
  have e1 : b1 % 256 = b1 := by omega
  have e2 : b2 % 256 = b2 := by omega
  simp only [decode, byteAt, List.getElem?_cons_zero, List.getElem?_cons_succ, e0, e1, e2,
    (decode_bits _ _ _ 0).2.1]
  rw [if_neg (by omega), if_neg (by omega), if_pos h0]

theorem decode_four (b0 b1 b2 b3 : Nat) (l0 : 0xef < b0) (h0 : b0 ≤ 0xf7) (h1 : b1 < 256)
    (h2 : b2 < 256) (h3 : b3 < 256) :
    decode [b0, b1, b2, b3] =
      some (b0 % 8 * 262144 + b1 % 64 * 4096 + b2 % 64 * 64 + b3 % 64, 4) := by
  have e0 : b0 % 256 = b0 := by omega
  have e1 : b1 % 256 = b1 := by omega
  have e2 : b2 % 256 = b2 := by omega
  have e3 : b3 % 256 = b3 := by omega
  simp only [decode, byteAt, List.getElem?_cons_zero, List.getElem?_cons_succ, e0, e1, e2, e3,
    (decode_bits _ _ _ _).2.2]
  rw [if_neg (by omega), if_neg (by omega), if_neg (by omega), if_pos h0]

/-- C39: for every code point `c` from 0 to `0x10FFFF`, `decode` applied to
the bytes of the standard UTF-8 encoding of `c` returns `c` and stores as
length the number of bytes of the encoding, which is 1 to 4 (for example the
three bytes `E2 82 AC` of `U+20AC`). -/
theorem decode_utf8Encode (c : Nat) (h : c ≤ 0x10FFFF) :
    decode (specUtf8Encode c) = some (c, (specUtf8Encode c).length) ∧
    1 ≤ (specUtf8Encode c).length ∧ (specUtf8Encode c).length ≤ 4 ∧
    specUtf8Encode 0x20AC = [0xE2, 0x82, 0xAC] := by
  refine ⟨?_, ?_, ?_, by decide⟩
  · rw [utf8Encode_eq c h]
    by_cases h1 : c < 0x80
    · rw [if_pos h1, decode_one c (by omega)]; rfl
    · rw [if_neg h1]
      by_cases h2 : c < 0x800
      · rw [if_pos h2, decode_two _ _ (by omega) (by omega) (by omega)]
        simp only [List.length_cons, List.length_nil]
        congr 2
        omega
      · rw [if_neg h2]
        by_cases h3 : c < 0x10000
        · rw [if_pos h3, decode_three _ _ _ (by omega) (by omega) (by omega) (by omega)]
          simp only [List.length_cons, List.length_nil]
          congr 2
          omega
        · rw [if_neg h3, decode_four _ _ _ _ (by omega) (by omega) (by omega) (by omega) (by omega)]
          simp only [List.length_cons, List.length_nil]
          congr 2
          omega
  · unfold specUtf8Encode; split_ifs <;> simp
  · unfold specUtf8Encode; split_ifs <;> simp

theorem decode_utf8Encode_witness :
    decode (specUtf8Encode 0x10FFFF) = some (0x10FFFF, (specUtf8Encode 0x10FFFF).length) ∧
    1 ≤ (specUtf8Encode 0x10FFFF).length ∧ (specUtf8Encode 0x10FFFF).length ≤ 4 ∧
    specUtf8Encode 0x20AC = [0xE2, 0x82, 0xAC] :=
  decode_utf8Encode 0x10FFFF (by decide)

/-! ## Runtime helpers: string relations -/

theorem cstring_cons (a : Nat) (as : List Nat) :
    cstring (a :: as) = if a = 0 then [] else a :: cstring as := by
  unfold cstring
  by_cases h : a = 0
  · simp [h]
  · simp [h]

/-- The sign of `strcmp` is that of the lexicographic comparison of the two
zero-terminated strings. -/
theorem strcmp_spec : ∀ (l r : List Nat), 0 ∈ l → 0 ∈ r →
    ∃ c, strcmp l r = some c ∧ (c = 0 ↔ cstring l = cstring r) ∧
      (c < 0 ↔ List.Lex (· < ·) (cstring l) (cstring r)) ∧
      (0 < c ↔ List.Lex (· < ·) (cstring r) (cstring l))
  | [], _, h, _ => by simp at h
  | _ :: _, [], _, h => by simp at h
  | a :: as, b :: bs, hl, hr => by
    rw [strcmp, cstring_cons, cstring_cons]
    by_cases hab : a = b
    · subst hab
      rw [if_neg (by simp)]
      by_cases ha : a = 0
      · subst ha
        simp [List.Lex.not_nil_right]
      · simp only [ha, ↓reduceIte]
        have hl2 : 0 ∈ as := by
          rcases List.mem_cons.mp hl with h | h
          · exact absurd h.symm ha
          · exact h
        have hr2 : 0 ∈ bs := by
          rcases List.mem_cons.mp hr with h | h
          · exact absurd h.symm ha
          · exact h
        obtain ⟨c, h1, h2, h3, h4⟩ := strcmp_spec as bs hl2 hr2
        refine ⟨c, h1, ?_, ?_, ?_⟩
        · rw [h2]; simp
        · rw [h3, List.Lex.cons_iff]
        · rw [h4, List.Lex.cons_iff]
    · rw [if_pos hab]
      refine ⟨_, rfl, ?_, ?_, ?_⟩
      · constructor
        · intro h; exact absurd (by omega) hab
        · intro h
          exfalso
          by_cases ha : a = 0
          · by_cases hb : b = 0
            · exact hab (ha.trans hb.symm)
            · simp [ha, hb] at h
          · by_cases hb : b = 0
            · simp [ha, hb] at h
            · simp [ha, hb] at h
              exact hab h.1
      · by_cases ha : a = 0
        · have hb : b ≠ 0 := fun hb => hab (ha.trans hb.symm)
          simp only [ha, hb, if_true, if_false]
          constructor
          · intro _; exact List.Lex.nil
          · intro _; omega
        · by_cases hb : b = 0
          · simp only [ha, hb, if_true, if_false]
            constructor
            · intro h; omega
            · intro h; exact absurd h (List.Lex.not_nil_right _ _)
          · simp only [ha, hb, if_false]
            constructor
            · intro h; exact List.Lex.rel (by omega)
            · intro h
              cases h with
              | cons h => exact absurd rfl hab
              | rel h => omega
      · by_cases ha : a = 0
        · have hb : b ≠ 0 := fun hb => hab (ha.trans hb.symm)
          simp only [ha, hb, if_true, if_false]
          constructor
          · intro h; omega
          · intro h; exact absurd h (List.Lex.not_nil_right _ _)
        · by_cases hb : b = 0
          · simp only [ha, hb, if_true, if_false]
            constructor
            · intro _; exact List.Lex.nil
            · intro _; omega
          · simp only [ha, hb, if_false]
            constructor
            · intro h; exact List.Lex.rel (by omega)
            · intro h
              cases h with
              | cons h => exact absurd rfl hab
              | rel h => omega

/-- A narrow string of bytes, widened, is the same zero-terminated string. -/
theorem widen_spec : ∀ (l : List Nat), 0 ∈ l → (∀ x ∈ l, x < 256) →
    ∃ w, widen l = some w ∧ 0 ∈ w ∧ cstring w = cstring l
  | [], h, _ => by simp at h
  | a :: as, h, hb => by
    by_cases ha : a = 0
    · subst ha
      exact ⟨[0], by simp [widen, strlen], by simp, by simp [cstring]⟩
    · have h2 : 0 ∈ as := by
        rcases List.mem_cons.mp h with h | h
        · exact absurd h.symm ha
        · exact h
      obtain ⟨w, hw, h0, hc⟩ := widen_spec as h2 (fun x hx => hb x (List.mem_cons_of_mem _ hx))
      have ha2 : a % 256 = a := Nat.mod_eq_of_lt (hb a (List.mem_cons_self _ _))
      unfold widen at hw ⊢
      cases hs : strlen as with
      | none => rw [hs] at hw; simp at hw
      | some n =>
        rw [hs] at hw
        simp only [Option.map_some', Option.some.injEq] at hw
        refine ⟨a :: w, ?_, List.mem_cons_of_mem _ h0, ?_⟩
        · simp [strlen, ha, hs, ha2, ← hw]
        · rw [cstring_cons, cstring_cons, if_neg ha, if_neg ha, hc]

end OBX

namespace Obx

/-! ## Code generator -/

theorem emit_out (g : Gen) (e : Emit) : (g.emit e).out = g.out ++ [e] := rfl

theorem appends_refl (P : Emit → Prop) (g : Gen) : Appends P g g :=
  ⟨[], by simp, by simp⟩

theorem appends_trans {P : Emit → Prop} {g1 g2 g3 : Gen}
    (h1 : Appends P g1 g2) (h2 : Appends P g2 g3) : Appends P g1 g3 := by
  obtain ⟨l1, e1, p1⟩ := h1
  obtain ⟨l2, e2, p2⟩ := h2
  refine ⟨l1 ++ l2, by rw [e2, e1, List.append_assoc], ?_⟩
  intro e he
  rcases List.mem_append.mp he with h | h
  · exact p1 e h
  · exact p2 e h

/-- A formatted operand followed by `line(loc).op_(...)` extends the output by
at most one line marker and the instruction. -/
theorem appends_step {P : Emit → Prop} (hline : ∀ loc, P (Emit.line_ loc))
    {g1 g2 : Gen} (h : Appends P g1 g2) (s : FmtState) (loc : RowCol) (x : Emit) (hx : P x) :
    Appends P g1 ((line { g2 with fmt := s } loc).emit x) := by
  refine appends_trans h ?_
  unfold line
  split
  · exact ⟨[Emit.line_ loc, x], by simp [Gen.emit], by
      intro e he
      simp only [List.mem_cons, List.mem_singleton, List.not_mem_nil, or_false] at he
      rcases he with rfl | rfl
      · exact hline loc
      · exact hx⟩
  · exact ⟨[x], by simp [Gen.emit], by simpa using hx⟩

theorem copyField_appends {P : Emit → Prop} (hline : ∀ loc, P (Emit.line_ loc))
    (harg : ∀ n, P (Emit.ldarg_ n)) (hld : ∀ s, P (Emit.ldfld_ s)) (hst : ∀ s, P (Emit.stfld_ s))
    (hcv : ∀ s a b, P (Emit.callvirt_ s a b)) (hc : ∀ s a b, P (Emit.call_ s a b none))
    (env : Env) (r : Record) (g : Gen) (f : Field) :
    Appends P g (emitRecordDecl_copyField env r g f) := by
  unfold emitRecordDecl_copyField
  split
  · exact appends_step hline (appends_step hline (appends_step hline (appends_step hline
      (appends_step hline (appends_refl P g) _ _ _ (harg 0)) _ _ _ (hld _)) _ _ _ (harg 1))
      _ _ _ (hld _)) _ _ _ (hcv _ _ _)
  · exact appends_step hline (appends_step hline (appends_step hline (appends_step hline
      (appends_step hline (appends_refl P g) _ _ _ (harg 0)) _ _ _ (hld _)) _ _ _ (harg 1))
      _ _ _ (hld _)) _ _ _ (hc _ _ _)
  · exact appends_refl P g
  · exact appends_step hline (appends_step hline (appends_step hline
      (appends_step hline (appends_refl P g) _ _ _ (harg 0)) _ _ _ (harg 1)) _ _ _ (hld _))
      _ _ _ (hst _)
  · exact appends_refl P g

theorem copyFields_appends {P : Emit → Prop} (hline : ∀ loc, P (Emit.line_ loc))
    (harg : ∀ n, P (Emit.ldarg_ n)) (hld : ∀ s, P (Emit.ldfld_ s)) (hst : ∀ s, P (Emit.stfld_ s))
    (hcv : ∀ s a b, P (Emit.callvirt_ s a b)) (hc : ∀ s a b, P (Emit.call_ s a b none))
    (env : Env) (r : Record) (fs : List Field) :
    ∀ g : Gen, Appends P g (fs.foldl (emitRecordDecl_copyField env r) g) := by
  induction fs with
  | nil => intro g; exact appends_refl P g
  | cons f fs ih =>
    intro g
    exact appends_trans (copyField_appends hline harg hld hst hcv hc env r g f) (ih _)

theorem foldl_addLocal_appends {P : Emit → Prop} (hl : ∀ s n, P (Emit.addLocal s n))
    (mk : Nat → Emit) (hmk : ∀ i, ∃ s n, mk i = Emit.addLocal s n) (is : List Nat) :
    ∀ g : Gen, Appends P g (is.foldl (fun h i => h.emit (mk i)) g) := by
  induction is with
  | nil => intro g; exact appends_refl P g
  | cons i is ih =>
    intro g
    refine appends_trans ⟨[mk i], rfl, ?_⟩ (ih _)
    intro e he
    obtain ⟨s, n, h⟩ := hmk i
    rw [List.mem_singleton.mp he, h]
    exact hl s n

theorem emitLocalVars_appends {P : Emit → Prop} (hl : ∀ s n, P (Emit.addLocal s n))
    (g : Gen) : Appends P g (emitLocalVars g) :=
  foldl_addLocal_appends hl _ (fun _ => ⟨_, _, rfl⟩) _ g

/-- After the base call block the `#copy` method only appends: field copies,
`ret`, locals, `endMethod`. -/
theorem copy_tail_appends {P : Emit → Prop} (hline : ∀ loc, P (Emit.line_ loc))
    (harg : ∀ n, P (Emit.ldarg_ n)) (hld : ∀ s, P (Emit.ldfld_ s)) (hst : ∀ s, P (Emit.stfld_ s))
    (hcv : ∀ s a b, P (Emit.callvirt_ s a b)) (hc : ∀ s a b, P (Emit.call_ s a b none))
    (hret : ∀ b, P (Emit.ret_ b)) (hl : ∀ s n, P (Emit.addLocal s n)) (hend : P Emit.endMethod)
    (env : Env) (r : Record) (g4 : Gen) :
    Appends P g4
      ((emitLocalVars
        ((line (r.getOrderedFields.foldl (emitRecordDecl_copyField env r) g4) r.d_loc).emit
          (Emit.ret_ none))).emit Emit.endMethod) := by
  have h1 : Appends P g4 (r.getOrderedFields.foldl (emitRecordDecl_copyField env r) g4) :=
    copyFields_appends hline harg hld hst hcv hc env r r.getOrderedFields g4
  have h2 : Appends P (r.getOrderedFields.foldl (emitRecordDecl_copyField env r) g4)
      ((line (r.getOrderedFields.foldl (emitRecordDecl_copyField env r) g4) r.d_loc).emit
        (Emit.ret_ none)) :=
    appends_step hline (appends_refl P _)
      (r.getOrderedFields.foldl (emitRecordDecl_copyField env r) g4).fmt r.d_loc _ (hret none)
  have h3 := emitLocalVars_appends hl
    ((line (r.getOrderedFields.foldl (emitRecordDecl_copyField env r) g4) r.d_loc).emit
      (Emit.ret_ none))
  have h4 : ∀ x : Gen, Appends P x (x.emit Emit.endMethod) :=
    fun x => ⟨[Emit.endMethod], rfl, by simpa using hend⟩
  exact appends_trans h1 (appends_trans h2 (appends_trans h3 (h4 _)))

theorem nonLine_append (l1 l2 : List Emit) : nonLine (l1 ++ l2) = nonLine l1 ++ nonLine l2 := by
  simp [nonLine]

/-- A step `line(loc).op_(...)` adds exactly the instruction, line markers aside. -/
theorem step_nonLine (g : Gen) (s : FmtState) (loc : RowCol) (x : Emit)
    (hx : x.isLine = false) :
    ∃ l, ((line { g with fmt := s } loc).emit x).out = g.out ++ l ∧ nonLine l = [x] ∧
      ((line { g with fmt := s } loc).emit x).fmt = s := by
  unfold line
  split
  · have hl : (Emit.line_ loc).isLine = true := rfl
    exact ⟨[Emit.line_ loc, x], by simp [Gen.emit], by simp [nonLine, hl, hx], rfl⟩
  · exact ⟨[x], by simp [Gen.emit], by simp [nonLine, hx], rfl⟩


theorem line_fmt (g : Gen) (loc : RowCol) : (line g loc).fmt = g.fmt := by
  unfold line; split <;> rfl

theorem emit_fmt (g : Gen) (e : Emit) : (g.emit e).fmt = g.fmt := rfl

theorem formatType_Record (env : Env) (s : FmtState) (r : RecordRef) :
    formatType env s (Ty.Record r) = (formatRecordType env s r, s) := by
  simp [formatType]

theorem step_nonLine_same (g : Gen) (loc : RowCol) (x : Emit) (hx : x.isLine = false) :
    ∃ l, ((line g loc).emit x).out = g.out ++ l ∧ nonLine l = [x] := by
  obtain ⟨l, h1, h2, _⟩ := step_nonLine g g.fmt loc x hx
  exact ⟨l, h1, h2⟩

/-- The base call block emits, line markers aside, `ldarg 0`, `ldarg 1` and
the non-virtual call of the base record's `#copy`. -/
theorem copyBase_out (env : Env) (r : Record) (g : Gen) (b : RecordRef)
    (hB : r.d_baseRec = some b) :
    ∃ pre, (emitRecordDecl_copyBase env r g).out = g.out ++ pre ∧
      nonLine pre =
        [Emit.ldarg_ 0, Emit.ldarg_ 1,
         Emit.call_
           ("void class " ++ classRef env g.fmt b ++ formatMetaActuals ++ "::'#copy'(" ++
             ((if r.ref.d_byValue then formatRecordType env g.fmt b ++ "&"
               else formatRecordType env g.fmt b) ++ ")"))
           (some 1) (some false) (some true)] := by
  unfold emitRecordDecl_copyBase
  rw [hB]
  simp only [formatType_Record, emit_fmt, line_fmt]
  obtain ⟨l1, e1, n1⟩ := step_nonLine_same g r.d_loc (Emit.ldarg_ 0) rfl
  obtain ⟨l2, e2, n2⟩ :=
    step_nonLine_same ((line g r.d_loc).emit (Emit.ldarg_ 0)) r.d_loc (Emit.ldarg_ 1) rfl
  obtain ⟨l3, e3, n3, _⟩ :=
    step_nonLine ((line ((line g r.d_loc).emit (Emit.ldarg_ 0)) r.d_loc).emit (Emit.ldarg_ 1))
      g.fmt r.d_loc
      (Emit.call_
           ("void class " ++ classRef env g.fmt b ++ formatMetaActuals ++ "::'#copy'(" ++
             ((if r.ref.d_byValue then formatRecordType env g.fmt b ++ "&"
               else formatRecordType env g.fmt b) ++ ")"))
           (some 1) (some false) (some true)) rfl
  refine ⟨l1 ++ l2 ++ l3, ?_, ?_⟩
  · rw [e3, e2, e1, List.append_assoc, List.append_assoc, List.append_assoc]
  · rw [nonLine_append, nonLine_append, n1, n2, n3]; rfl

/-- C9: in the `#copy` method synthesized for a record with base record `b`
the emitter calls are, line markers aside, `beginMethod`, `addArgument`, then
`ldarg 0`, `ldarg 1` and the non-virtual instance call of `b`'s `#copy` taking
`b`'s type, and only then the rest (field copies, `ret`); for a record without
base record no non-virtual instance call is emitted at all. -/
theorem emitRecordDecl_copy_base_first (env : Env) (g : Gen) (r : Record) :
    match r.d_baseRec with
    | some b =>
      ∃ rest, nonLine ((emitRecordDecl_copy env g r).out.drop g.out.length) =
        [Emit.beginMethod "'#copy'" true (some MethodKind.Virtual) none,
         Emit.addArgument
           (if r.ref.d_byValue then formatRecordType env g.fmt r.ref ++ "&"
            else formatRecordType env g.fmt r.ref) "rhs",
         Emit.ldarg_ 0, Emit.ldarg_ 1,
         Emit.call_
           ("void class " ++ classRef env g.fmt b ++ formatMetaActuals ++ "::'#copy'(" ++
             ((if r.ref.d_byValue then formatRecordType env g.fmt b ++ "&"
               else formatRecordType env g.fmt b) ++ ")"))
           (some 1) (some false) (some true)] ++ rest ∧
        ∀ e ∈ rest, e.isInstanceCall = false
    | none =>
      ∀ e ∈ (emitRecordDecl_copy env g r).out.drop g.out.length, e.isInstanceCall = false := by
  have tail := fun g4 => copy_tail_appends (P := fun e => e.isInstanceCall = false)
    (fun _ => rfl) (fun _ => rfl) (fun _ => rfl) (fun _ => rfl) (fun _ _ _ => rfl)
    (fun _ _ _ => rfl) (fun _ => rfl) (fun _ _ => rfl) rfl env r g4
  cases hB : r.d_baseRec with
  | some b =>
    simp only
    obtain ⟨pre, hpre, npre⟩ := copyBase_out env r
      (beginBody ({ g.emit (Emit.beginMethod "'#copy'" true (some MethodKind.Virtual) none) with
          fmt := g.fmt }.emit
        (Emit.addArgument
           (if r.ref.d_byValue then formatRecordType env g.fmt r.ref ++ "&"
            else formatRecordType env g.fmt r.ref) "rhs")) 0) b hB
    obtain ⟨l, hl, pl⟩ := tail (emitRecordDecl_copyBase env r
      (beginBody ({ g.emit (Emit.beginMethod "'#copy'" true (some MethodKind.Virtual) none) with
          fmt := g.fmt }.emit
        (Emit.addArgument
           (if r.ref.d_byValue then formatRecordType env g.fmt r.ref ++ "&"
            else formatRecordType env g.fmt r.ref) "rhs")) 0))
    refine ⟨nonLine l, ?_, ?_⟩
    · have hout : (emitRecordDecl_copy env g r).out =
          g.out ++ ([Emit.beginMethod "'#copy'" true (some MethodKind.Virtual) none,
            Emit.addArgument
              (if r.ref.d_byValue then formatRecordType env g.fmt r.ref ++ "&"
               else formatRecordType env g.fmt r.ref) "rhs"] ++ pre ++ l) := by
        unfold emitRecordDecl_copy
        simp only [formatType_Record, emit_fmt]
        rw [hl, hpre]
        simp [beginBody, Gen.emit]
      rw [hout, List.drop_left, nonLine_append, nonLine_append, npre]
      rfl
    · intro e he
      exact pl e (List.mem_of_mem_filter he)
  | none =>
    simp only
    obtain ⟨l, hl, pl⟩ := tail (emitRecordDecl_copyBase env r
      (beginBody ({ g.emit (Emit.beginMethod "'#copy'" true (some MethodKind.Virtual) none) with
          fmt := g.fmt }.emit
        (Emit.addArgument
           (if r.ref.d_byValue then formatRecordType env g.fmt r.ref ++ "&"
            else formatRecordType env g.fmt r.ref) "rhs")) 0))
    have hout : (emitRecordDecl_copy env g r).out =
        g.out ++ ([Emit.beginMethod "'#copy'" true (some MethodKind.Virtual) none,
          Emit.addArgument
            (if r.ref.d_byValue then formatRecordType env g.fmt r.ref ++ "&"
             else formatRecordType env g.fmt r.ref) "rhs"] ++ l) := by
      unfold emitRecordDecl_copy
      simp only [formatType_Record, emit_fmt]
      rw [hl]
      simp [emitRecordDecl_copyBase, hB, beginBody, Gen.emit]
    rw [hout, List.drop_left]
    intro e he
    rcases List.mem_append.mp he with h | h
    · simp only [List.mem_cons, List.mem_singleton, List.not_mem_nil, or_false] at h
      rcases h with rfl | rfl <;> rfl
    · exact pl e h


theorem emitRecordDecl_copy_base_first_witness :
    ∃ rest, nonLine ((emitRecordDecl_copy exEnv exG exDerived).out.drop exG.out.length) =
      [Emit.beginMethod "'#copy'" true (some MethodKind.Virtual) none,
       Emit.addArgument "class 'M'/'Derived'" "rhs",
       Emit.ldarg_ 0, Emit.ldarg_ 1,
       Emit.call_ "void class 'M'/'Base'::'#copy'(class 'M'/'Base')"
         (some 1) (some false) (some true)] ++ rest ∧
      ∀ e ∈ rest, e.isInstanceCall = false :=
  emitRecordDecl_copy_base_first exEnv exG exDerived

/-- When `passByRef` holds, the dereferenced type of the formal exists and is
not structured. -/
theorem passByRef_iff (p : Parameter) :
    passByRef p = true ↔
      (p.d_var = true ∧ p.d_const = false ∧
        ∃ td, derefed p.d_type = some td ∧ td.isStructured = false) := by
  unfold passByRef
  cases hv : p.d_var <;> cases hc : p.d_const <;> cases ht : derefed p.d_type <;> simp

/-- C6 (the code at the failing input): for a formal `VAR a: ARRAY OF BYTE`
and an actual of type INTEGER the loop in `emitCall` emits the value of the
argument and posts no error; and no formal and actual ever reach the branch
that posts the error, because `passByRef` is false for every array formal. -/
theorem emitCall_byteArrayTrick_unreachable :
    emitCall_argActions exEnv [exByteArrayFormal] [exIntActual]
      = [ArgAction.acceptAndPrepareRhs] ∧
    ∀ (env : Env) (p : Parameter) (arg : Expression) (e : GenError),
      emitCall_argAction env p arg ≠ ArgAction.error e := by
  refine ⟨by decide, ?_⟩
  intro env p arg e
  unfold emitCall_argAction
  by_cases h : passByRef p = true
  · obtain ⟨_, _, td, htd, hs⟩ := (passByRef_iff p).mp h
    rw [if_pos h, htd]
    cases td <;> simp [Ty.isStructured] at hs ⊢
  · rw [if_neg h]
    simp

/-- C7 (the code at the failing inputs): for a module flagged had-errors
`translate` returns false, and for a definition-only module without errors it
returns true, whatever the error counts are. -/
theorem translate_early_returns :
    translate { exM with d_hasErrors := true } 0 0 = false ∧
    translate { exM with d_isDef := true } 0 0 = true ∧
    (∀ (m : Module) (errCount posted : Nat),
      m.d_hasErrors = true → translate m errCount posted = false) ∧
    (∀ (m : Module) (errCount posted : Nat),
      m.d_hasErrors = false → m.d_isValidated = true → m.d_isDef = true →
        translate m errCount posted = true) := by
  refine ⟨by decide, by decide, ?_, ?_⟩
  · intro m c k h
    simp [translate, h]
  · intro m c k h1 h2 h3
    simp [translate, h1, h2, h3]

/-- C8 as stated fails: the formal `IN x: INTEGER` is a var parameter whose
dereferenced type INTEGER is not structured, and `passByRef` is false for it. -/
theorem passByRef_in_parameter :
    exInFormal.d_var = true ∧
    (∃ td, derefed exInFormal.d_type = some td ∧ td.isStructured = false) ∧
    passByRef exInFormal = false ∧
    ¬ (passByRef exInFormal = true ↔
        (exInFormal.d_var = true ∧
          ∃ td, derefed exInFormal.d_type = some td ∧ td.isStructured = false)) := by
  have h1 : exInFormal.d_var = true := rfl
  have h2 : ∃ td, derefed exInFormal.d_type = some td ∧ td.isStructured = false :=
    ⟨Ty.BaseType BaseTypeTag.INTEGER, rfl, rfl⟩
  have h3 : passByRef exInFormal = false := rfl
  refine ⟨h1, h2, h3, ?_⟩
  intro h
  have := h.mpr ⟨h1, h2⟩
  rw [h3] at this
  exact Bool.noConfusion this

/-- C8 (amended): `passByRef(p)` is true if and only if `p` is a var parameter
that is not const and its dereferenced type (which exists) is not structured. -/
theorem passByRef_var_not_const (p : Parameter) :
    passByRef p = true ↔
      (p.d_var = true ∧ p.d_const = false ∧
        ∃ td, derefed p.d_type = some td ∧ td.isStructured = false) :=
  passByRef_iff p

/-- C10 (the code at the failing input): for the anonymous record of
`VAR v: RECORD (Base) END` the class is opened with an empty superclass
reference, while the constructor and the copy method call `.ctor` and `#copy`
of class `'M'/'Base'`; the named record `Derived` with the same base is opened
with superclass `class 'M'/'Base'`.  Every record that is not declared by a
named type is opened with an empty superclass reference. -/
theorem emitRecordDecl_anonymous_superclass :
    (emitRecordDecl_beginClass exEnv exG exAnon).1.out = [Emit.beginClass "'#1'" false ""] ∧
    (emitRecordDecl_ctorCall exEnv exG exAnon).out =
      [Emit.beginMethod ".ctor" true none none, Emit.line_ ⟨7, 5⟩, Emit.ldarg_ 0,
       Emit.call_ "void class 'M'/'Base'::.ctor()" (some 1) (some false) (some true)] ∧
    (emitRecordDecl_copy exEnv exG exAnon).out =
      [Emit.beginMethod "'#copy'" true (some MethodKind.Virtual) none,
       Emit.addArgument "class 'M'/'#1'" "rhs", Emit.line_ ⟨7, 5⟩, Emit.ldarg_ 0, Emit.ldarg_ 1,
       Emit.call_ "void class 'M'/'Base'::'#copy'(class 'M'/'Base')"
         (some 1) (some false) (some true),
       Emit.ret_ none, Emit.endMethod] ∧
    (emitRecordDecl_beginClass exEnv exG exDerived).1.out =
      [Emit.beginClass "'Derived'" false "class 'M'/'Base'"] ∧
    ∀ (env : Env) (g : Gen) (r : Record), r.d_slotAllocated = false →
      (∀ n, r.ref.findDecl = some n → n.tag ≠ Tag.T_NamedType) →
      (emitRecordDecl_beginClass env g r).1.out =
        g.out ++ [Emit.beginClass ("'#" ++ toString r.ref.d_slot ++ "'") false ""] := by
  refine ⟨by decide, by decide, by decide, by decide, ?_⟩
  intro env g r ha hn
  unfold emitRecordDecl_beginClass
  rw [ha]
  cases hd : r.ref.findDecl with
  | none => simp [hd, Gen.emit]
  | some n => simp [hd, hn n hd, Gen.emit]

/-! ## Temporary pool -/

theorem find_range_some (f : Nat → Bool) (n i : Nat)
    (h : (List.range n).find? f = some i) : i < n ∧ f i = true ∧ ∀ j, j < i → f j = false := by
  induction n with
  | zero => simp at h
  | succ n ih =>
    rw [List.range_succ, List.find?_append] at h
    cases hf : (List.range n).find? f with
    | some k =>
      rw [hf] at h
      simp at h
      subst h
      obtain ⟨h1, h2, h3⟩ := ih hf
      exact ⟨by omega, h2, h3⟩
    | none =>
      rw [hf] at h
      simp at h
      obtain ⟨h1, h2⟩ := h
      subst h2
      refine ⟨by omega, h1, ?_⟩
      intro j hj
      have := List.find?_eq_none.mp hf j (List.mem_range.mpr hj)
      simpa using this

theorem find_range_none (f : Nat → Bool) (n : Nat)
    (h : (List.range n).find? f = none) : ∀ j, j < n → f j = false := by
  intro j hj
  have := List.find?_eq_none.mp h j (List.mem_range.mpr hj)
  simpa using this

theorem tempRun_reset_inv (p : CilGenTempPool) (start : Nat) (hs : start < 65536) :
    TempRun.Inv start (TempRun.reset p start) := by
  refine ⟨?_, ?_, ?_, ?_, ?_, ?_, ?_, ?_⟩
  · simp [TempRun.reset, CilGenTempPool.reset]; omega
  · simp [TempRun.reset, CilGenTempPool.reset, CilGenTempPool.MAX_TEMP]
  · simp [TempRun.reset]
  · intro i hi
    have h1 : (List.replicate CilGenTempPool.MAX_TEMP false).getD i false = false := by
      rw [List.getD_eq_getElem?_getD, List.getElem?_replicate]
      split <;> rfl
    simp [TempRun.reset, CilGenTempPool.reset, h1]
  · simp [TempRun.reset]
  · intro _; rfl
  · simp [TempRun.reset]
  · simp [TempRun.reset]

theorem tempRun_buy_inv (start : Nat) (r r1 : TempRun) (hi : TempRun.Inv start r)
    (h : r.call TempCall.buy = some r1) : TempRun.Inv start r1 := by
  obtain ⟨h1, h2, h3, h4, h5, h6, h7, h8⟩ := hi
  simp only [TempRun.call, CilGenTempPool.buy] at h
  cases hf : (List.range CilGenTempPool.MAX_TEMP).find? (fun i => !(r.pool.d_slots.getD i false)) with
  | none =>
    rw [hf] at h
    simp at h
    subst h
    exact ⟨h1, h2, h3, h4, h5, h6, h7, h8⟩
  | some k =>
    rw [hf] at h
    obtain ⟨hk, hfk, hlow⟩ := find_range_some _ _ _ hf
    simp only [CilGenTempPool.MAX_TEMP] at hk
    have hne : ¬ ((k : Int) + (r.pool.d_start : Int) = -1) := by omega
    simp only [hne, ↓reduceIte, Option.some.injEq] at h
    subst h
    have hkfree : ¬ ((k : Int) + start ∈ r.bought) := by
      intro hm
      have := (h4 k hk).mpr hm
      rw [this] at hfk
      exact Bool.noConfusion hfk
    refine ⟨h1, ?_, ?_, ?_, ?_, ?_, ?_, ?_⟩
    · simp [h2]
    · rw [h1]; exact List.nodup_cons.mpr ⟨hkfree, h3⟩
    · intro i hi
      simp only [List.getD_eq_getElem?_getD, List.getElem?_set, h1, List.mem_cons]
      by_cases hik : k = i
      · subst hik; simp [h2, hk]
      · simp only [hik, ↓reduceIte]
        rw [← List.getD_eq_getElem?_getD, h4 i hi]
        constructor
        · intro hm; exact Or.inr hm
        · intro hm
          rcases hm with hm | hm
          · exfalso; apply hik; omega
          · exact hm
    · intro s hs
      simp only [List.mem_cons, h1] at hs
      rcases hs with hs | hs
      · exact ⟨k, hk, hs⟩
      · exact h5 s hs
    · intro hnil; simp at hnil
    · intro s hs
      simp only [List.mem_cons, h1] at hs
      rcases hs with hs | hs
      · refine ⟨k, hk, hs, ?_⟩
        simp only
        split <;> omega
      · obtain ⟨i, hi1, hi2, hi3⟩ := h7 s hs
        refine ⟨i, hi1, hi2, ?_⟩
        simp only
        split <;> omega
    · intro _
      simp only [List.mem_cons, h1]
      by_cases hgt : (k : Int) > r.pool.d_max
      · left; simp [hgt]
      · right
        simp only [hgt, ↓reduceIte]
        apply h8
        intro hnil
        have := h6 hnil
        omega

theorem tempRun_sell_inv (start : Nat) (s : Int) (r r1 : TempRun) (hi : TempRun.Inv start r)
    (h : r.call (TempCall.sell s) = some r1) : TempRun.Inv start r1 := by
  obtain ⟨h1, h2, h3, h4, h5, h6, h7, h8⟩ := hi
  simp only [TempRun.call] at h
  split at h
  · rename_i hmem
    simp only [Option.some.injEq] at h
    subst h
    obtain ⟨k, hk, hsk⟩ := h5 s hmem
    have hidx : s.toNat - r.pool.d_start = k := by omega
    refine ⟨h1, ?_, ?_, ?_, ?_, h6, h7, h8⟩
    · simp [CilGenTempPool.sell, h2]
    · exact h3.erase s
    · intro i hi
      simp only [CilGenTempPool.sell, hidx, List.getD_eq_getElem?_getD, List.getElem?_set,
        h3.mem_erase_iff]
      by_cases hik : k = i
      · subst hik; simp [h2, hk, hsk]
      · simp only [hik, ↓reduceIte]
        rw [← List.getD_eq_getElem?_getD, h4 i hi]
        constructor
        · intro hm
          refine ⟨?_, hm⟩
          intro he; apply hik; omega
        · intro hm; exact hm.2
    · intro t ht
      exact h5 t (List.mem_of_mem_erase ht)
  · exact Option.noConfusion h

theorem tempRun_calls_inv (start : Nat) (cs : List TempCall) :
    ∀ (r r1 : TempRun), TempRun.Inv start r → r.calls cs = some r1 → TempRun.Inv start r1 := by
  induction cs with
  | nil =>
    intro r r1 hi h
    simp only [TempRun.calls, Option.some.injEq] at h
    subst h; exact hi
  | cons c cs ih =>
    intro r r1 hi h
    simp only [TempRun.calls] at h
    cases hc : r.call c with
    | none => rw [hc] at h; exact Option.noConfusion h
    | some r2 =>
      rw [hc] at h
      simp only [Option.some_bind] at h
      refine ih r2 r1 ?_ h
      cases c with
      | buy => exact tempRun_buy_inv start r r2 hi hc
      | sell s => exact tempRun_sell_inv start s r r2 hi hc

/-- The slots `start`, ..., `start + 31`. -/
theorem tempRun_bought_full (start : Nat) (r : TempRun) (hi : TempRun.Inv start r)
    (hlen : 32 ≤ r.bought.length) (i : Nat) (h32 : i < 32) : ((i : Int) + start) ∈ r.bought := by
  obtain ⟨_, _, h3, _, h5, _, _, _⟩ := hi
  have hsub : r.bought ⊆ (List.range 32).map (fun i : Nat => (i : Int) + start) := by
    intro s hs
    obtain ⟨k, hk, hsk⟩ := h5 s hs
    exact List.mem_map.mpr ⟨k, List.mem_range.mpr hk, hsk.symm⟩
  have hsp := List.subperm_of_subset h3 hsub
  have hperm := hsp.perm_of_length_le (by simpa using hlen)
  exact hperm.symm.subset (List.mem_map.mpr ⟨i, List.mem_range.mpr h32, rfl⟩)

theorem tempRun_free_exists (start : Nat) (r : TempRun) (hi : TempRun.Inv start r)
    (hlen : r.bought.length < 32) :
    ∃ k, (List.range CilGenTempPool.MAX_TEMP).find? (fun i => !(r.pool.d_slots.getD i false))
      = some k := by
  obtain ⟨_, _, h3, h4, h5, _, _, _⟩ := hi
  cases hf : (List.range CilGenTempPool.MAX_TEMP).find? (fun i => !(r.pool.d_slots.getD i false)) with
  | some k => exact ⟨k, rfl⟩
  | none =>
    exfalso
    have hall := find_range_none _ _ hf
    have hsub : (List.range 32).map (fun i : Nat => (i : Int) + start) ⊆ r.bought := by
      intro s hs
      obtain ⟨k, hk, hsk⟩ := List.mem_map.mp hs
      have hk32 := List.mem_range.mp hk
      have := hall k hk32
      simp only [Bool.not_eq_false_eq_eq_true] at this
      rw [← hsk]
      exact (h4 k hk32).mp (by simpa using this)
    have hnd : ((List.range 32).map (fun i : Nat => (i : Int) + start)).Nodup := by
      refine List.Nodup.map ?_ (List.nodup_range 32)
      intro a b hab
      simp only at hab
      omega
    have := (List.subperm_of_subset hnd hsub).length_le
    simp at this
    omega

theorem foldl_emit_out (f : Nat → Emit) (l : List Nat) :
    ∀ g : Gen, (l.foldl (fun h i => h.emit (f i)) g).out = g.out ++ l.map f := by
  induction l with
  | nil => intro g; simp
  | cons a l ih =>
    intro g
    simp only [List.foldl_cons, List.map_cons]
    rw [ih]
    simp [Gen.emit]

/-- C18: after `reset(start)` and any sequence of `buy` and `sell` calls in
which `sell` is applied only to slots currently bought, the slots outstanding
are pairwise different and lie in `[start, start + 32)`; as long as fewer than
32 are outstanding `buy` returns `start + i` for the lowest index `i` not
currently bought, and when all 32 are outstanding `buy` returns `-1` (the
failed assertion), not a slot, and leaves the pool as it is. -/
theorem tempPool_buy_lowest_free (p : CilGenTempPool) (start : Nat) (cs : List TempCall)
    (r : TempRun) (hs : start < 65536) (h : (TempRun.reset p start).calls cs = some r) :
    r.bought.Nodup ∧
    (∀ s ∈ r.bought, (start : Int) ≤ s ∧ s < start + 32) ∧
    (r.bought.length < 32 →
      ∃ i : Nat, i < 32 ∧ r.pool.buy.1 = start + i ∧ ((start : Int) + i) ∉ r.bought ∧
        ∀ j : Nat, j < i → ((start : Int) + j) ∈ r.bought) ∧
    (r.bought.length = 32 → r.pool.buy = (-1, r.pool)) := by
  have hi := tempRun_calls_inv start cs _ r (tempRun_reset_inv p start hs) h
  have hi0 := hi
  obtain ⟨h1, h2, h3, h4, h5, h6, h7, h8⟩ := hi
  refine ⟨h3, ?_, ?_, ?_⟩
  · intro s hs
    obtain ⟨k, hk, hsk⟩ := h5 s hs
    omega
  · intro hlen
    obtain ⟨k, hf⟩ := tempRun_free_exists start r hi0 hlen
    obtain ⟨hk, hfk, hlow⟩ := find_range_some _ _ _ hf
    simp only [CilGenTempPool.MAX_TEMP] at hk
    refine ⟨k, hk, ?_, ?_, ?_⟩
    · simp only [CilGenTempPool.buy, hf, h1]; omega
    · intro hm
      have hm2 : ((k : Int) + start) ∈ r.bought := by
        rw [Int.add_comm]; exact hm
      have := (h4 k hk).mpr hm2
      rw [this] at hfk
      exact Bool.noConfusion hfk
    · intro j hj
      have hjf := hlow j hj
      have hj32 : j < 32 := by omega
      have : r.pool.d_slots.getD j false = true := by
        cases hb : r.pool.d_slots.getD j false with
        | true => rfl
        | false => rw [hb] at hjf; exact Bool.noConfusion hjf
      have := (h4 j hj32).mp this
      rw [Int.add_comm]; exact this
  · intro hlen
    have hnone : (List.range CilGenTempPool.MAX_TEMP).find?
        (fun i => !(r.pool.d_slots.getD i false)) = none := by
      apply List.find?_eq_none.mpr
      intro i hi
      have hi32 : i < 32 := List.mem_range.mp hi
      have hm := tempRun_bought_full start r hi0 (by omega) i hi32
      have := (h4 i hi32).mpr hm
      rw [this]
      decide
    simp only [CilGenTempPool.buy, hnone]

theorem tempPool_buy_lowest_free_witness :
    ∃ r, (TempRun.reset ⟨[], 0, 0⟩ 3).calls exTempCalls = some r ∧
      r.bought = [5, 3, 4] ∧ r.pool.buy.1 = 6 ∧
      r.bought.Nodup ∧
      (∀ s ∈ r.bought, ((3 : Nat) : Int) ≤ s ∧ s < (3 : Nat) + 32) ∧
      (r.bought.length < 32 →
        ∃ i : Nat, i < 32 ∧ r.pool.buy.1 = (3 : Nat) + i ∧ (((3 : Nat) : Int) + i) ∉ r.bought ∧
          ∀ j : Nat, j < i → (((3 : Nat) : Int) + j) ∈ r.bought) ∧
      (r.bought.length = 32 → r.pool.buy = (-1, r.pool)) :=
  ⟨_, rfl, rfl, rfl, tempPool_buy_lowest_free ⟨[], 0, 0⟩ 3 exTempCalls _ (by decide) rfl⟩

/-- C19: after `reset(start)` and any sequence of `buy` and `sell` calls,
`d_max` is `-1` if `buy` has returned no slot, and otherwise the largest index
(slot minus `start`) `buy` has returned; `emitLocalVars` then declares exactly
the `d_max + 1` temporaries `#temp0`, ..., `#temp<d_max>`, in this order. -/
theorem tempPool_d_max_largest (p : CilGenTempPool) (start : Nat) (cs : List TempCall)
    (r : TempRun) (hs : start < 65536) (h : (TempRun.reset p start).calls cs = some r) :
    (r.returned = [] → r.pool.d_max = -1) ∧
    (r.returned ≠ [] →
      (r.pool.d_max + start) ∈ r.returned ∧ ∀ s ∈ r.returned, s - start ≤ r.pool.d_max) ∧
    ∀ g : Gen, g.temps = r.pool →
      (emitLocalVars g).out = g.out ++ (List.range (r.pool.d_max + 1).toNat).map
        (fun i => Emit.addLocal "int32" (escape ("#temp" ++ toString i))) := by
  obtain ⟨h1, h2, h3, h4, h5, h6, h7, h8⟩ :=
    tempRun_calls_inv start cs _ r (tempRun_reset_inv p start hs) h
  refine ⟨h6, ?_, ?_⟩
  · intro hne
    refine ⟨h8 hne, ?_⟩
    intro s hs
    obtain ⟨i, _, hi2, hi3⟩ := h7 s hs
    omega
  · intro g hg
    unfold emitLocalVars
    rw [foldl_emit_out, hg]

theorem tempPool_d_max_largest_witness :
    ∃ r, (TempRun.reset ⟨[], 0, 0⟩ 3).calls exTempCalls2 = some r ∧
      r.returned = [3, 4, 3] ∧ r.pool.d_max = 1 ∧
      (r.returned = [] → r.pool.d_max = -1) ∧
      (r.returned ≠ [] →
        (r.pool.d_max + (3 : Nat)) ∈ r.returned ∧ ∀ s ∈ r.returned, s - (3 : Nat) ≤ r.pool.d_max) ∧
      ∀ g : Gen, g.temps = r.pool →
        (emitLocalVars g).out = g.out ++ (List.range (r.pool.d_max + 1).toNat).map
          (fun i => Emit.addLocal "int32" (escape ("#temp" ++ toString i))) :=
  ⟨_, rfl, rfl, rfl, tempPool_d_max_largest ⟨[], 0, 0⟩ 3 exTempCalls2 _ (by decide) rfl⟩

/-! ## Anonymous record slots -/

theorem mem_of_getElem?_some {l : List Nat} {k r : Nat} (h : l[k]? = some r) : r ∈ l := by
  obtain ⟨hlt, he⟩ := List.getElem?_eq_some_iff.mp h
  rw [← he]
  exact List.getElem_mem _

theorem foldl_filter_eq (p : Nat → Bool) (f : List Nat → Nat → List Nat) (l : List Nat) :
    ∀ acc : List Nat, (l.filter p).foldl f acc
      = l.foldl (fun acc r => if p r = true then f acc r else acc) acc := by
  induction l with
  | nil => intro acc; rfl
  | cons a l ih =>
    intro acc
    by_cases h : p a = true
    · simp only [List.filter_cons, h, ↓reduceIte, List.foldl_cons, ih]
    · simp only [List.filter_cons, h, ↓reduceIte, List.foldl_cons, ih, Bool.false_eq_true]

theorem allocInv_step (records : List RecordRef) (st : AllocState) (acc : List Nat) (a : Nat)
    (rec0 : RecordRef) (hinv : AllocInv records st acc) (ha : records[a]? = some rec0)
    (hfresh : rec0.d_slotValid = false) (hbound : acc.length + 2 < 4294967296) :
    AllocInv records (allocRecordDecl st a)
      (if rec0.isAnonymous then (if a ∈ acc then acc else acc ++ [a]) else acc) := by
  obtain ⟨h1, h2, h3⟩ := hinv
  by_cases hmem : a ∈ acc
  · -- the record has its slot already
    obtain ⟨k, hk⟩ := List.getElem?_of_mem hmem
    obtain ⟨rec, hr1, hr2⟩ := h2 k a hk
    have : allocRecordDecl st a = st := by
      simp only [allocRecordDecl, hr2, ↓reduceIte]
    rw [this]
    simp only [hmem, ↓reduceIte, ite_self]
    exact ⟨h1, h2, h3⟩
  · have hst : st.records[a]? = some rec0 := by rw [h3 a hmem]; exact ha
    by_cases hanon : rec0.isAnonymous = true
    · simp only [hanon, hmem, ↓reduceIte]
      have hstep : allocRecordDecl st a =
          { anonymousDeclNr := (st.anonymousDeclNr + 1) % 4294967296,
            records := st.records.set a
              { rec0 with d_slot := st.anonymousDeclNr, d_slotValid := true } } := by
        simp only [allocRecordDecl, hst, hfresh, hanon, ↓reduceIte, Bool.false_eq_true]
      rw [hstep]
      have halt : a < st.records.length := by
        by_contra hn
        rw [List.getElem?_eq_none (by omega)] at hst
        exact Option.noConfusion hst
      refine ⟨?_, ?_, ?_⟩
      · simp only [List.length_append, List.length_singleton, h1]
        omega
      · intro k r hk
        simp only
        by_cases hkl : k < acc.length
        · rw [List.getElem?_append_left hkl] at hk
          obtain ⟨rec, hr1, hr2⟩ := h2 k r hk
          have hne : a ≠ r := by
            intro he; subst he
            exact hmem (mem_of_getElem?_some hk)
          exact ⟨rec, hr1, by rw [List.getElem?_set_ne hne]; exact hr2⟩
        · have hkeq : k = acc.length := by
            have := List.getElem?_eq_some_iff.mp hk
            obtain ⟨hlt, _⟩ := this
            simp at hlt
            omega
          subst hkeq
          simp at hk
          subst hk
          refine ⟨rec0, ha, ?_⟩
          rw [List.getElem?_set_self halt, h1]
      · intro r hr
        simp only [List.mem_append, List.mem_singleton, not_or] at hr
        simp only
        rw [List.getElem?_set_ne (fun h => hr.2 h.symm)]
        exact h3 r hr.1
    · have hstep : allocRecordDecl st a = st := by
        simp only [allocRecordDecl, hst, hfresh, hanon, ↓reduceIte, Bool.false_eq_true]
      rw [hstep]
      simp only [hanon, ↓reduceIte, Bool.false_eq_true]
      exact ⟨h1, h2, h3⟩

theorem allocInv_foldl (records : List RecordRef) (l : List Nat) :
    ∀ (st : AllocState) (acc : List Nat), AllocInv records st acc →
      (∀ r ∈ l, ∃ rec : RecordRef, records[r]? = some rec ∧ rec.d_slotValid = false) →
      acc.length + l.length + 1 < 4294967296 →
      AllocInv records (l.foldl allocRecordDecl st)
        (l.foldl (fun acc r =>
          if (match records[r]? with
              | some rec => rec.isAnonymous
              | none => false) = true
          then (if r ∈ acc then acc else acc ++ [r]) else acc) acc) := by
  induction l with
  | nil => intro st acc h _ _; exact h
  | cons a l ih =>
    intro st acc hinv hfresh hbound
    obtain ⟨rec0, ha, hf⟩ := hfresh a (List.mem_cons_self _ _)
    simp only [List.foldl_cons, ha]
    have hstep := allocInv_step records st acc a rec0 hinv ha hf
      (by simp only [List.length_cons] at hbound; omega)
    refine ih _ _ hstep (fun r hr => hfresh r (List.mem_cons_of_mem _ hr)) ?_
    simp only [List.length_cons] at hbound
    split
    · split
      · omega
      · simp only [List.length_append, List.length_singleton]; omega
    · omega

theorem firstOccurrences_nodup_aux (l : List Nat) :
    ∀ acc : List Nat, acc.Nodup →
      (l.foldl (fun acc r => if r ∈ acc then acc else acc ++ [r]) acc).Nodup := by
  induction l with
  | nil => intro acc h; exact h
  | cons a l ih =>
    intro acc h
    simp only [List.foldl_cons]
    apply ih
    split
    · exact h
    · rename_i hn
      exact List.Nodup.append h (List.nodup_singleton a)
        (by simpa [List.disjoint_singleton] using hn)

/-- C20: let no record of the collected list have a slot yet (`d_slotValid`
false) and let the list have fewer than 2^32 - 2 entries. After the loop of
`allocRecordDecl` over the list, with the counter starting at 1, the `k`-th
anonymous record in the order of first occurrence (counted from 0) has slot
`k + 1` and is otherwise unchanged, every record of the list that is declared
by a named type is unchanged and has no slot, and the counter is the number of
anonymous records plus 1. The anonymous records in that order are pairwise
different, so their slots are, and no slot is 0. -/
theorem allocRecordDecl_slots (records : List RecordRef) (allRecords : List Nat)
    (hfresh : ∀ r ∈ allRecords, ∃ rec : RecordRef, records[r]? = some rec ∧ rec.d_slotValid = false)
    (hlen : allRecords.length + 2 < 4294967296) :
    (∀ k r, (anonymousOrder records allRecords)[k]? = some r →
      ∃ rec : RecordRef, records[r]? = some rec ∧ rec.isAnonymous = true ∧
        (allocRecordDecls records allRecords).records[r]?
          = some { rec with d_slot := k + 1, d_slotValid := true }) ∧
    (∀ r ∈ allRecords, ∀ rec, records[r]? = some rec → rec.isAnonymous = false →
      (allocRecordDecls records allRecords).records[r]? = some rec) ∧
    (allocRecordDecls records allRecords).anonymousDeclNr
      = (anonymousOrder records allRecords).length + 1 ∧
    (anonymousOrder records allRecords).Nodup := by
  have h0 : AllocInv records { anonymousDeclNr := 1, records := records } [] :=
    ⟨rfl, fun k r hk => by simp at hk, fun r _ => rfl⟩
  have hmain := allocInv_foldl records allRecords _ [] h0 hfresh (by simp; omega)
  have horder : anonymousOrder records allRecords
      = allRecords.foldl (fun acc r =>
          if (match records[r]? with
              | some rec => rec.isAnonymous
              | none => false) = true
          then (if r ∈ acc then acc else acc ++ [r]) else acc) [] := by
    simp only [anonymousOrder, firstOccurrences]
    exact foldl_filter_eq _ _ _ _
  rw [← horder] at hmain
  obtain ⟨h1, h2, h3⟩ := hmain
  have hmemAnon : ∀ r ∈ anonymousOrder records allRecords,
      ∃ rec : RecordRef, records[r]? = some rec ∧ rec.isAnonymous = true := by
    intro r hr
    simp only [anonymousOrder, firstOccurrences] at hr
    have : ∀ (l acc : List Nat), r ∈ l.foldl (fun acc r => if r ∈ acc then acc else acc ++ [r]) acc
        → r ∈ acc ∨ r ∈ l := by
      intro l
      induction l with
      | nil => intro acc h; exact Or.inl h
      | cons a l ih =>
        intro acc h
        simp only [List.foldl_cons] at h
        rcases ih _ h with h1 | h1
        · split at h1
          · exact Or.inl h1
          · simp only [List.mem_append, List.mem_singleton] at h1
            rcases h1 with h1 | h1
            · exact Or.inl h1
            · exact Or.inr (by rw [h1]; exact List.mem_cons_self _ _)
        · exact Or.inr (List.mem_cons_of_mem _ h1)
    rcases this _ _ hr with h | h
    · simp at h
    · have := (List.mem_filter.mp h).2
      cases hrec : records[r]? with
      | none => rw [hrec] at this; exact Bool.noConfusion this
      | some rec => rw [hrec] at this; exact ⟨rec, rfl, this⟩
  refine ⟨?_, ?_, h1, ?_⟩
  · intro k r hk
    obtain ⟨rec, hr1, hr2⟩ := h2 k r hk
    obtain ⟨rec', hr1', hr2'⟩ := hmemAnon r (mem_of_getElem?_some hk)
    rw [hr1] at hr1'
    have := Option.some.inj hr1'
    subst this
    exact ⟨rec, hr1, hr2', hr2⟩
  · intro r _ rec hrec hna
    have hnot : r ∉ anonymousOrder records allRecords := by
      intro hm
      obtain ⟨rec', hr1', hr2'⟩ := hmemAnon r hm
      rw [hrec] at hr1'
      have := Option.some.inj hr1'
      subst this
      rw [hna] at hr2'
      exact Bool.noConfusion hr2'
    unfold allocRecordDecls
    rw [h3 r hnot, hrec]
  · simp only [anonymousOrder, firstOccurrences]
    exact firstOccurrences_nodup_aux _ [] List.nodup_nil

theorem allocRecordDecl_slots_witness :
    anonymousOrder exRecords exAllRecords = [2, 0] ∧
    ((allocRecordDecls exRecords exAllRecords).records.map (fun r => (r.d_slot, r.d_slotValid))
      = [(2, true), (0, false), (1, true)]) ∧
    (∀ k r, (anonymousOrder exRecords exAllRecords)[k]? = some r →
      ∃ rec : RecordRef, exRecords[r]? = some rec ∧ rec.isAnonymous = true ∧
        (allocRecordDecls exRecords exAllRecords).records[r]?
          = some { rec with d_slot := k + 1, d_slotValid := true }) ∧
    (∀ r ∈ exAllRecords, ∀ rec, exRecords[r]? = some rec → rec.isAnonymous = false →
      (allocRecordDecls exRecords exAllRecords).records[r]? = some rec) ∧
    (allocRecordDecls exRecords exAllRecords).anonymousDeclNr
      = (anonymousOrder exRecords exAllRecords).length + 1 ∧
    (anonymousOrder exRecords exAllRecords).Nodup :=
  ⟨by decide, by decide, allocRecordDecl_slots exRecords exAllRecords (by decide) (by decide)⟩

/-! ## Entry point -/

/-- C27: `generateMain(e, "Main", "M", "F")` emits the call
`void [''Main'']''Main''::'F'()`: the reference is built from the escaped
`name`, quoted a second time, and `module` is used only for the test that it is
not empty, so the same calls result for module `N`. With an empty function the
call is `void [''Main'']''Main''::'ping#'()`. -/
theorem generateMain_calls_name :
    generateMain "Main" "M" "F" =
      (true,
        [Emit.beginModule "'Main'" ["'Main'"] "" (some ModuleKind.ConsoleApp),
         Emit.beginMethod "main" false (some MethodKind.Primary) none,
         Emit.call_ "void [''Main'']''Main''::'F'()" none none none,
         Emit.ret_ none, Emit.endMethod, Emit.endModule]) ∧
    generateMain "Main" "N" "F" = generateMain "Main" "M" "F" ∧
    generateMain "Main" "M" "" =
      (true,
        [Emit.beginModule "'Main'" ["'Main'"] "" (some ModuleKind.ConsoleApp),
         Emit.beginMethod "main" false (some MethodKind.Primary) none,
         Emit.call_ "void [''Main'']''Main''::'ping#'()" none none none,
         Emit.ret_ none, Emit.endMethod, Emit.endModule]) := by
  decide

theorem foldl_append_map {α β : Type} (f : α → β) (l : List α) :
    ∀ acc : List β, l.foldl (fun a x => a ++ [f x]) acc = acc ++ l.map f := by
  induction l with
  | nil => intro acc; simp
  | cons x l ih => intro acc; simp [ih]

/-- C28: with a non-empty list of modules `generateMain(e, name, modules)`
returns true and its calls are: begin of module `'name'` (a console
application that imports the listed modules), begin of the primary method
`main`, one call `void ['m']'m'::'ping#'()` per listed module `m` in list
order, `ret`, end of method, end of module. With an empty list it returns
false and makes no call. -/
theorem generateMainModules_pings (name : String) (modules : List String) :
    (modules ≠ [] →
      generateMainModules name modules =
        (true,
          [Emit.beginModule (escape name) (modules.map escape) "" (some ModuleKind.ConsoleApp),
           Emit.beginMethod "main" false (some MethodKind.Primary) none]
          ++ modules.map (fun m =>
              Emit.call_ ("void ['" ++ m ++ "']'" ++ m ++ "'::'ping#'()") none none none)
          ++ [Emit.ret_ none, Emit.endMethod, Emit.endModule])) ∧
    generateMainModules name [] = (false, []) := by
  constructor
  · intro h
    cases modules with
    | nil => exact absurd rfl h
    | cons m ms =>
      simp only [generateMainModules, List.isEmpty_cons, Bool.false_eq_true, ↓reduceIte]
      rw [foldl_append_map escape, foldl_append_map]
      simp
  · rfl

theorem generateMainModules_pings_witness :
    generateMainModules "Main" ["A", "B"] =
      (true,
        [Emit.beginModule "'Main'" ["'A'", "'B'"] "" (some ModuleKind.ConsoleApp),
         Emit.beginMethod "main" false (some MethodKind.Primary) none,
         Emit.call_ "void ['A']'A'::'ping#'()" none none none,
         Emit.call_ "void ['B']'B'::'ping#'()" none none none,
         Emit.ret_ none, Emit.endMethod, Emit.endModule]) :=
  (generateMainModules_pings "Main" ["A", "B"]).1 (by decide)

/-! ## `visit(Module)` -/

theorem emitLocalVars_none (g : Gen) (h : g.temps.d_max = -1) : emitLocalVars g = g := by
  simp [emitLocalVars, h]

theorem nonLine_line_emit (g : Gen) (loc : RowCol) (e : Emit) (he : e.isLine = false) :
    nonLine ((line g loc).emit e).out = nonLine g.out ++ [e] := by
  have hl : (Emit.line_ loc).isLine = true := rfl
  unfold line
  split
  · simp [nonLine, Gen.emit, hl, he]
  · simp [nonLine, Gen.emit, he]

theorem nonLine_line (g : Gen) (loc : RowCol) : nonLine (line g loc).out = nonLine g.out := by
  have hl : (Emit.line_ loc).isLine = true := rfl
  unfold line
  split
  · simp [nonLine, Gen.emit, hl]
  · rfl

theorem emit_temps (g : Gen) (e : Emit) : (g.emit e).temps = g.temps := rfl

theorem line_temps (g : Gen) (loc : RowCol) : (line g loc).temps = g.temps := by
  unfold line; split <;> rfl

theorem emitCopiers_none (env : Env) (first : List (String × Ty) → Nat) (loc : RowCol)
    (fuel : Nat) (done : List String) (g : Gen) (h : g.fmt.copiers = []) :
    emitCopiers env first loc fuel done g = g := by
  cases fuel with
  | zero => rfl
  | succ n => simp only [emitCopiers, h]

/-- C29: for a module without imported modules, procedure types, records,
variables, procedures and statements, on the state a new generator has and
whatever the visitors not embedded do, the calls of the emitter are, line
markers aside: begin of module `'M'` (importing `mscorlib` and `OBX.Runtime`); a
non-public static `.cctor` with the one instruction `ret`; a public static
`'ping#'` with the one instruction `ret`; end of module. No class, field,
argument or local is declared and no other method. -/
theorem visitModule_empty (env : Env) (v : Visitors) (m : ModuleVisit)
    (h1 : m.imports = []) (h2 : m.allProcTypes = []) (h3 : m.allRecords = [])
    (h4 : m.vars = []) (h5 : m.allProcs = []) (h6 : m.d_body = []) :
    nonLine (visitModule env v m Gen.init).out =
      [Emit.beginModule (escape m.me.name) ["'mscorlib'", "'OBX.Runtime'"] env.thisMod.d_file none,
       Emit.beginMethod ".cctor" false (some MethodKind.Static) none,
       Emit.ret_ (some false),
       Emit.endMethod,
       Emit.beginMethod "'ping#'" true (some MethodKind.Static) none,
       Emit.ret_ none,
       Emit.endMethod,
       Emit.endModule] := by
  simp only [visitModule, h1, h2, h3, h4, h5, h6, List.foldl_nil, List.map_nil, List.append_nil]
  rw [emitLocalVars_none _ (by simp only [emit_temps, line_temps]; rfl)]
  rw [emitCopiers_none _ _ _ _ _ _ (by simp only [emit_fmt, line_fmt]; rfl)]
  have hd : ∀ g : Gen, g.fmt.delegates = [] →
      emitDelegDecls v.emitDelegDecl m.delegatesNext g.fmt.delegates.length g.fmt.delegates g =
        g := by
    intro g hg; rw [hg]; rfl
  rw [hd _ (by simp only [emit_fmt, line_fmt]; rfl)]
  simp only [emit_out, nonLine_append, nonLine_line]
  simp [nonLine, Gen.init, Gen.emit, Emit.isLine, beginBody, escape]

theorem visitModule_empty_witness :
    nonLine (visitModule exEnv ⟨fun g _ => g, fun g _ => g, fun g _ => g, fun g _ => g,
        fun g _ => g, fun g _ _ => g⟩ exEmptyModule Gen.init).out =
      [Emit.beginModule "'M'" ["'mscorlib'", "'OBX.Runtime'"] "M.obx" none,
       Emit.beginMethod ".cctor" false (some MethodKind.Static) none,
       Emit.ret_ (some false),
       Emit.endMethod,
       Emit.beginMethod "'ping#'" true (some MethodKind.Static) none,
       Emit.ret_ none,
       Emit.endMethod,
       Emit.endModule] :=
  visitModule_empty exEnv _ exEmptyModule rfl rfl rfl rfl rfl rfl

/-! ## Expressions -/

theorem line_labels (g : Gen) (loc : RowCol) : (line g loc).labels = g.labels := by
  unfold line; split <;> rfl

theorem emit_labels (g : Gen) (e : Emit) : (g.emit e).labels = g.labels := rfl

theorem visitSetParts_eq (env : Env) (isArithRelation : BinOp → Bool) (d_loc : RowCol) :
    ∀ (d_parts : List Expr) (g : Gen),
      visitSetParts env isArithRelation d_loc d_parts g =
        d_parts.foldl
          (fun h p =>
            match p with
            | .BinExpr .Range lo hi _ _ _ =>
              (line (visitExpr env isArithRelation hi (visitExpr env isArithRelation lo h))
                d_loc).emit
                (Emit.call_ "int32 [OBX.Runtime]OBX.Runtime::addRangeToSet(int32, int32, int32)"
                  (some 3) (some true) none)
            | _ =>
              (line (visitExpr env isArithRelation p h) d_loc).emit
                (Emit.call_ "int32 [OBX.Runtime]OBX.Runtime::addElemToSet(int32, int32)" (some 2)
                  (some true) none))
          g
  | [], g => by simp [visitSetParts]
  | p :: ps, g => by
    have ih := visitSetParts_eq env isArithRelation d_loc ps
    cases p with
    | other v t l => simp only [visitSetParts, List.foldl_cons, ih]
    | SetExpr ps2 t l => simp only [visitSetParts, List.foldl_cons, ih]
    | BinExpr op a b t bt l => cases op <;> simp only [visitSetParts, List.foldl_cons, ih]

theorem visitExpr_setExpr (env : Env) (isArithRelation : BinOp → Bool) (d_parts : List Expr)
    (d_type : Option Ty) (d_loc : RowCol) (g : Gen) :
    visitExpr env isArithRelation (Expr.SetExpr d_parts d_type d_loc) g =
      specSetExpr (visitExpr env isArithRelation) d_parts d_loc g := by
  rw [visitExpr, visitSetParts_eq]
  rfl

theorem convertTo_same (bt : Option BaseTypeTag) (t : Option Ty) (ty : Ty) (loc : RowCol)
    (g : Gen) (ht : derefed t = some ty) (hb : bt = ty.getBaseType) :
    convertTo bt t loc g = g := by
  simp [convertTo, ht, hb]

theorem set_not_numeric (ty : Ty) (h : ty.getBaseType = some BaseTypeTag.SET) :
    ty.isNumeric = false ∧ ty.isSet = true ∧ ty.getTag = TypeTag.T_BaseType := by
  cases ty <;> simp_all [Ty.getBaseType, Ty.isNumeric, Ty.isInteger, Ty.isReal, Ty.isSet, Ty.getTag]

/-- A binary expression on two sets, done on SET, with an operator other than
`AND` and `OR`: both operands are visited, no conversion is emitted, then the
switch on the operator is run. -/
theorem visitExpr_set_operands (env : Env) (isArithRelation : BinOp → Bool) (d_op : BinOp)
    (a b : Expr) (ta tb : Ty) (d_type : Option Ty) (d_loc : RowCol) (g : Gen)
    (hop : d_op ≠ BinOp.AND ∧ d_op ≠ BinOp.OR)
    (hta : derefed a.d_type = some ta) (hsa : ta.getBaseType = some BaseTypeTag.SET)
    (htb : derefed b.d_type = some tb) (hsb : tb.getBaseType = some BaseTypeTag.SET) :
    visitExpr env isArithRelation
        (Expr.BinExpr d_op a b d_type (some BaseTypeTag.SET) d_loc) g =
      visitBinExpr_op env d_op ta tb d_loc (visitExpr env isArithRelation b)
        (visitExpr env isArithRelation b (visitExpr env isArithRelation a g)) := by
  rw [visitExpr]
  simp only [visitBinExpr, hta, htb]
  rw [convertTo_same _ _ ta _ _ hta hsa.symm, convertTo_same _ _ tb _ _ htb hsb.symm]
  simp [hop]

/-- C23: a set constructor is visited as `ldc.i4 0` followed, for each part in
order, by the visit of the part and a call of `addElemToSet(int32, int32)`, or,
for a range, by the visits of the lower and of the upper bound and a call of
`addRangeToSet(int32, int32, int32)`; the product of two constructors, done on
SET, is the first constructor, the second constructor, then `and`. -/
theorem visitExpr_set_constructor (env : Env) (isArithRelation : BinOp → Bool)
    (p1 p2 : List Expr) (t1 t2 : Option Ty) (ty1 ty2 : Ty) (l1 l2 : RowCol) (d_type : Option Ty)
    (d_loc : RowCol) (g : Gen)
    (h1 : derefed t1 = some ty1) (hs1 : ty1.getBaseType = some BaseTypeTag.SET)
    (h2 : derefed t2 = some ty2) (hs2 : ty2.getBaseType = some BaseTypeTag.SET) :
    visitExpr env isArithRelation (Expr.SetExpr p1 t1 l1) g =
        specSetExpr (visitExpr env isArithRelation) p1 l1 g ∧
    visitExpr env isArithRelation
        (Expr.BinExpr BinOp.MUL (Expr.SetExpr p1 t1 l1) (Expr.SetExpr p2 t2 l2) d_type
          (some BaseTypeTag.SET) d_loc) g =
      (line
        (specSetExpr (visitExpr env isArithRelation) p2 l2
          (specSetExpr (visitExpr env isArithRelation) p1 l1 g)) d_loc).emit Emit.and_ := by
  refine ⟨visitExpr_setExpr _ _ _ _ _ _, ?_⟩
  rw [visitExpr_set_operands env isArithRelation BinOp.MUL (Expr.SetExpr p1 t1 l1)
    (Expr.SetExpr p2 t2 l2) ty1 ty2 d_type d_loc g (by decide) h1 hs1 h2 hs2]
  rw [visitExpr_setExpr, visitExpr_setExpr]
  obtain ⟨ha1, ha2, _⟩ := set_not_numeric ty1 hs1
  obtain ⟨hb1, hb2, _⟩ := set_not_numeric ty2 hs2
  simp [visitBinExpr_op, ha1, ha2, hb1, hb2]

theorem visitExpr_set_constructor_witness :
    (visitExpr exEnv (fun _ => true) exSet024 Gen.init =
        specSetExpr (visitExpr exEnv (fun _ => true))
          [exIntLit 0 1 2,
           Expr.BinExpr BinOp.Range (exIntLit 2 1 5) (exIntLit 4 1 8) none none ⟨1, 6⟩]
          ⟨1, 1⟩ Gen.init ∧
      visitExpr exEnv (fun _ => true)
          (Expr.BinExpr BinOp.MUL exSet024 exSet3 exSetType (some BaseTypeTag.SET) ⟨1, 11⟩)
          Gen.init =
        (line
          (specSetExpr (visitExpr exEnv (fun _ => true)) [exIntLit 3 1 14] ⟨1, 13⟩
            (specSetExpr (visitExpr exEnv (fun _ => true))
              [exIntLit 0 1 2,
               Expr.BinExpr BinOp.Range (exIntLit 2 1 5) (exIntLit 4 1 8) none none ⟨1, 6⟩]
              ⟨1, 1⟩ Gen.init)) ⟨1, 11⟩).emit Emit.and_) ∧
    nonLine (visitExpr exEnv (fun _ => true)
        (Expr.BinExpr BinOp.MUL exSet024 exSet3 exSetType (some BaseTypeTag.SET) ⟨1, 11⟩)
        Gen.init).out =
      [Emit.ldc_i4 0, Emit.ldc_i4 0,
       Emit.call_ "int32 [OBX.Runtime]OBX.Runtime::addElemToSet(int32, int32)" (some 2)
         (some true) none,
       Emit.ldc_i4 2, Emit.ldc_i4 4,
       Emit.call_ "int32 [OBX.Runtime]OBX.Runtime::addRangeToSet(int32, int32, int32)" (some 3)
         (some true) none,
       Emit.ldc_i4 0, Emit.ldc_i4 3,
       Emit.call_ "int32 [OBX.Runtime]OBX.Runtime::addElemToSet(int32, int32)" (some 2)
         (some true) none,
       Emit.and_] :=
  ⟨visitExpr_set_constructor exEnv (fun _ => true) _ _ exSetType exSetType
      (Ty.BaseType BaseTypeTag.SET) (Ty.BaseType BaseTypeTag.SET) ⟨1, 1⟩ ⟨1, 13⟩ exSetType
      ⟨1, 11⟩ Gen.init rfl rfl rfl rfl,
    by decide⟩

theorem testBit_high (x i : Nat) (hx : x < 4294967296) (hi : 32 ≤ i) : x.testBit i = false := by
  apply Nat.testBit_lt_two_pow
  calc x < 2 ^ 32 := hx
    _ ≤ 2 ^ i := Nat.pow_le_pow_right (by decide) hi

theorem not32_testBit (x i : Nat) (hx : x < 4294967296) :
    (not32 x).testBit i = (decide (i < 32) && !x.testBit i) := by
  unfold not32
  rw [Nat.mod_eq_of_lt hx]
  exact Nat.testBit_two_pow_sub_succ (n := 32) hx i

theorem setDiv_xor (l r : Nat) (hl : l < 4294967296) (hr : r < 4294967296) :
    not32 (l &&& r) &&& (l ||| r) = l ^^^ r := by
  have hlr : l &&& r < 4294967296 := lt_of_le_of_lt Nat.and_le_left hl
  apply Nat.eq_of_testBit_eq
  intro i
  rw [Nat.testBit_and, not32_testBit _ _ hlr, Nat.testBit_and, Nat.testBit_or, Nat.testBit_xor]
  by_cases hi : i < 32
  · cases l.testBit i <;> cases r.testBit i <;> simp [hi]
  · rw [testBit_high l i hl (by omega), testBit_high r i hr (by omega)]
    simp

theorem run_append (l1 l2 : List Emit) :
    ∀ m : Machine, m.run (l1 ++ l2) = (m.run l1).bind (fun m1 => m1.run l2) := by
  induction l1 with
  | nil => intro m; rfl
  | cons e es ih =>
    intro m
    simp only [List.cons_append, Machine.run]
    cases m.step e with
    | none => rfl
    | some m1 => exact ih m1

theorem buy_free (p : CilGenTempPool)
    (hfree : ∃ i, i < 32 ∧ p.d_slots.getD i false = false) :
    ∃ a, a < 32 ∧ p.d_slots.getD a false = false ∧ p.buy.1 = (a : Int) + p.d_start ∧
      p.buy.2.d_slots = p.d_slots.set a true ∧ p.buy.2.d_start = p.d_start := by
  obtain ⟨i, hi, fi⟩ := hfree
  unfold CilGenTempPool.buy
  simp only [CilGenTempPool.MAX_TEMP]
  cases h1 : (List.range 32).find? (fun k => !(p.d_slots.getD k false)) with
  | none =>
    have h := find_range_none _ _ h1 i hi
    beta_reduce at h
    rw [fi] at h
    exact Bool.noConfusion h
  | some a =>
    obtain ⟨ha, hfa, _⟩ := find_range_some _ _ _ h1
    refine ⟨a, ha, ?_, rfl, rfl, rfl⟩
    cases hg : p.d_slots.getD a false with
    | false => rfl
    | true => rw [hg] at hfa; exact Bool.noConfusion hfa

theorem buy_two_distinct (p : CilGenTempPool) (hlen : p.d_slots.length = 32)
    (hfree : ∃ i j, i < 32 ∧ j < 32 ∧ i ≠ j ∧ p.d_slots.getD i false = false ∧
      p.d_slots.getD j false = false) :
    p.buy.1 ≠ p.buy.2.buy.1 := by
  obtain ⟨i, j, hi, hj, hij, fi, fj⟩ := hfree
  obtain ⟨a, ha, hfa, h1, h2, h3⟩ := buy_free p ⟨i, hi, fi⟩
  have hget : ∀ k, k ≠ a → (p.d_slots.set a true).getD k false = p.d_slots.getD k false := by
    intro k hk
    simp [List.getD_eq_getElem?_getD, List.getElem?_set, Ne.symm hk]
  have hga : (p.d_slots.set a true).getD a false = true := by
    simp [List.getD_eq_getElem?_getD, List.getElem?_set, hlen, ha]
  have hfree2 : ∃ k, k < 32 ∧ p.buy.2.d_slots.getD k false = false := by
    rw [h2]
    by_cases hia : i = a
    · have hja : j ≠ a := fun h => hij (hia.trans h.symm)
      exact ⟨j, hj, by rw [hget j hja]; exact fj⟩
    · exact ⟨i, hi, by rw [hget i hia]; exact fi⟩
  obtain ⟨b, hb, hfb, h4, _, _⟩ := buy_free p.buy.2 hfree2
  rw [h1, h4, h3]
  intro heq
  have hab : a = b := by omega
  subst hab
  rw [h2, hga] at hfb
  exact Bool.noConfusion hfb

theorem nonLine_single (e : Emit) (he : e.isLine = false) : nonLine [e] = [e] := by
  simp [nonLine, he]

theorem set_op_code (env : Env) (ta tb : Ty) (d_loc : RowCol) (v : Gen → Gen) (g : Gen)
    (hsa : ta.getBaseType = some BaseTypeTag.SET) (hsb : tb.getBaseType = some BaseTypeTag.SET) :
    nonLine (visitBinExpr_op env BinOp.ADD ta tb d_loc v g).out = nonLine g.out ++ [Emit.or_] ∧
    nonLine (visitBinExpr_op env BinOp.MUL ta tb d_loc v g).out = nonLine g.out ++ [Emit.and_] ∧
    nonLine (visitBinExpr_op env BinOp.SUB ta tb d_loc v g).out =
      nonLine g.out ++ [Emit.not_, Emit.and_] ∧
    nonLine (visitBinExpr_op env BinOp.FDIV ta tb d_loc v g).out =
      nonLine g.out ++
        [Emit.stloc_ g.temps.buy.1, Emit.stloc_ g.temps.buy.2.buy.1,
         Emit.ldloc_ g.temps.buy.2.buy.1, Emit.ldloc_ g.temps.buy.1, Emit.and_, Emit.not_,
         Emit.ldloc_ g.temps.buy.2.buy.1, Emit.ldloc_ g.temps.buy.1, Emit.or_, Emit.and_] := by
  obtain ⟨ha1, ha2, ha3⟩ := set_not_numeric ta hsa
  obtain ⟨hb1, hb2, hb3⟩ := set_not_numeric tb hsb
  refine ⟨?_, ?_, ?_, ?_⟩ <;>
    simp [visitBinExpr_op, ha1, ha2, ha3, hb1, hb2, hb3, emit_out, nonLine_append, nonLine_line,
      Gen.buy, Gen.sell, line_temps, emit_temps] <;> rfl

theorem run_set_ops (m2 : Machine) (st : List Nat) (l r : Nat) (rhs lhs : Int)
    (hl : l < 4294967296) (hr : r < 4294967296) (hne : rhs ≠ lhs)
    (hs : m2.stack = r :: l :: st) :
    (∃ m3, m2.run [Emit.or_] = some m3 ∧ m3.stack = (l ||| r) :: st) ∧
    (∃ m3, m2.run [Emit.and_] = some m3 ∧ m3.stack = (l &&& r) :: st) ∧
    (∃ m3, m2.run [Emit.not_, Emit.and_] = some m3 ∧ m3.stack = (l &&& not32 r) :: st) ∧
    (∃ m3, m2.run [Emit.stloc_ rhs, Emit.stloc_ lhs, Emit.ldloc_ lhs, Emit.ldloc_ rhs, Emit.and_,
        Emit.not_, Emit.ldloc_ lhs, Emit.ldloc_ rhs, Emit.or_, Emit.and_] = some m3 ∧
      m3.stack = (l ^^^ r) :: st) := by
  obtain ⟨stack, locals⟩ := m2
  simp only at hs
  subst hs
  refine ⟨⟨_, rfl, rfl⟩, ⟨_, rfl, rfl⟩, ⟨_, rfl, rfl⟩, ?_⟩
  refine ⟨_, rfl, ?_⟩
  simp only [hne, ↓reduceIte]
  rw [setDiv_xor l r hl hr]

/-- C22: for operands of type SET whose code, run one after the other, leaves
the 32-bit masks `l` and `r` on the stack, the code emitted for `+` is the
operand code and `or` and computes `l ||| r`; for `*` it ends in `and` and
computes `l &&& r`; for `-` it ends in `not`, `and` and computes
`l &&& not32 r`; for `/` it ends in `stloc`, `stloc`, `ldloc`, `ldloc`, `and`,
`not`, `ldloc`, `ldloc`, `or`, `and` over two different temporaries and
computes `l ^^^ r`, provided the pool has two free temporaries; and
`OBX$SetDiv(l, r)` is `l ^^^ r`. -/
theorem visitExpr_set_operators (env : Env) (isArithRelation : BinOp → Bool) (a b : Expr)
    (ta tb : Ty) (d_type : Option Ty) (d_loc : RowCol) (g : Gen) (la lb : List Emit)
    (m m2 : Machine) (l r : Nat)
    (hta : derefed a.d_type = some ta) (hsa : ta.getBaseType = some BaseTypeTag.SET)
    (htb : derefed b.d_type = some tb) (hsb : tb.getBaseType = some BaseTypeTag.SET)
    (ha : nonLine (visitExpr env isArithRelation a g).out = nonLine g.out ++ la)
    (hb : nonLine (visitExpr env isArithRelation b (visitExpr env isArithRelation a g)).out =
      nonLine (visitExpr env isArithRelation a g).out ++ lb)
    (hlen : (visitExpr env isArithRelation b
      (visitExpr env isArithRelation a g)).temps.d_slots.length = 32)
    (hfree : ∃ i j, i < 32 ∧ j < 32 ∧ i ≠ j ∧
      (visitExpr env isArithRelation b
        (visitExpr env isArithRelation a g)).temps.d_slots.getD i false = false ∧
      (visitExpr env isArithRelation b
        (visitExpr env isArithRelation a g)).temps.d_slots.getD j false = false)
    (hl : l < 4294967296) (hr : r < 4294967296)
    (hrun : m.run (la ++ lb) = some m2) (hs : m2.stack = r :: l :: m.stack) :
    (∃ m3,
      nonLine (visitExpr env isArithRelation
        (Expr.BinExpr BinOp.ADD a b d_type (some BaseTypeTag.SET) d_loc) g).out =
        nonLine g.out ++ (la ++ lb ++ [Emit.or_]) ∧
      m.run (la ++ lb ++ [Emit.or_]) = some m3 ∧ m3.stack = (l ||| r) :: m.stack) ∧
    (∃ m3,
      nonLine (visitExpr env isArithRelation
        (Expr.BinExpr BinOp.MUL a b d_type (some BaseTypeTag.SET) d_loc) g).out =
        nonLine g.out ++ (la ++ lb ++ [Emit.and_]) ∧
      m.run (la ++ lb ++ [Emit.and_]) = some m3 ∧ m3.stack = (l &&& r) :: m.stack) ∧
    (∃ m3,
      nonLine (visitExpr env isArithRelation
        (Expr.BinExpr BinOp.SUB a b d_type (some BaseTypeTag.SET) d_loc) g).out =
        nonLine g.out ++ (la ++ lb ++ [Emit.not_, Emit.and_]) ∧
      m.run (la ++ lb ++ [Emit.not_, Emit.and_]) = some m3 ∧
      m3.stack = (l &&& not32 r) :: m.stack) ∧
    (∃ rhs lhs m3, rhs ≠ lhs ∧
      nonLine (visitExpr env isArithRelation
        (Expr.BinExpr BinOp.FDIV a b d_type (some BaseTypeTag.SET) d_loc) g).out =
        nonLine g.out ++ (la ++ lb ++
          [Emit.stloc_ rhs, Emit.stloc_ lhs, Emit.ldloc_ lhs, Emit.ldloc_ rhs, Emit.and_,
           Emit.not_, Emit.ldloc_ lhs, Emit.ldloc_ rhs, Emit.or_, Emit.and_]) ∧
      m.run (la ++ lb ++
          [Emit.stloc_ rhs, Emit.stloc_ lhs, Emit.ldloc_ lhs, Emit.ldloc_ rhs, Emit.and_,
           Emit.not_, Emit.ldloc_ lhs, Emit.ldloc_ rhs, Emit.or_, Emit.and_]) = some m3 ∧
      m3.stack = (l ^^^ r) :: m.stack) ∧
    OBX.OBX_SetDiv l r = l ^^^ r := by
  have hne := buy_two_distinct _ hlen hfree
  obtain ⟨c1, c2, c3, c4⟩ := set_op_code env ta tb d_loc (visitExpr env isArithRelation b)
    (visitExpr env isArithRelation b (visitExpr env isArithRelation a g)) hsa hsb
  obtain ⟨r1, r2, r3, r4⟩ := run_set_ops m2 m.stack l r _ _ hl hr hne hs
  have hout : ∀ op, op ≠ BinOp.AND ∧ op ≠ BinOp.OR →
      visitExpr env isArithRelation (Expr.BinExpr op a b d_type (some BaseTypeTag.SET) d_loc) g =
        visitBinExpr_op env op ta tb d_loc (visitExpr env isArithRelation b)
          (visitExpr env isArithRelation b (visitExpr env isArithRelation a g)) :=
    fun op hop => visitExpr_set_operands env isArithRelation op a b ta tb d_type d_loc g hop
      hta hsa htb hsb
  have hrun2 : ∀ ops, m.run (la ++ lb ++ ops) = m2.run ops := by
    intro ops
    rw [run_append, hrun]
    rfl
  refine ⟨?_, ?_, ?_, ?_, ?_⟩
  · obtain ⟨m3, h1, h2⟩ := r1
    refine ⟨m3, ?_, by rw [hrun2]; exact h1, h2⟩
    rw [hout _ (by decide), c1, hb, ha]
    simp
  · obtain ⟨m3, h1, h2⟩ := r2
    refine ⟨m3, ?_, by rw [hrun2]; exact h1, h2⟩
    rw [hout _ (by decide), c2, hb, ha]
    simp
  · obtain ⟨m3, h1, h2⟩ := r3
    refine ⟨m3, ?_, by rw [hrun2]; exact h1, h2⟩
    rw [hout _ (by decide), c3, hb, ha]
    simp
  · obtain ⟨m3, h1, h2⟩ := r4
    refine ⟨_, _, m3, hne, ?_, by rw [hrun2]; exact h1, h2⟩
    rw [hout _ (by decide), c4, hb, ha]
    simp
  · exact setDiv_xor l r hl hr

theorem visitExpr_set_operators_witness :
    (∃ m3,
      nonLine (visitExpr exEnv (fun _ => true)
        (Expr.BinExpr BinOp.ADD (exSetLit 5 1) (exSetLit 3 5) exSetType (some BaseTypeTag.SET)
          ⟨1, 3⟩) Gen.init).out =
        nonLine Gen.init.out ++ ([Emit.ldc_i4 5] ++ [Emit.ldc_i4 3] ++ [Emit.or_]) ∧
      exMachine.run ([Emit.ldc_i4 5] ++ [Emit.ldc_i4 3] ++ [Emit.or_]) = some m3 ∧
      m3.stack = (5 ||| 3) :: exMachine.stack) ∧
    (∃ m3,
      nonLine (visitExpr exEnv (fun _ => true)
        (Expr.BinExpr BinOp.MUL (exSetLit 5 1) (exSetLit 3 5) exSetType (some BaseTypeTag.SET)
          ⟨1, 3⟩) Gen.init).out =
        nonLine Gen.init.out ++ ([Emit.ldc_i4 5] ++ [Emit.ldc_i4 3] ++ [Emit.and_]) ∧
      exMachine.run ([Emit.ldc_i4 5] ++ [Emit.ldc_i4 3] ++ [Emit.and_]) = some m3 ∧
      m3.stack = (5 &&& 3) :: exMachine.stack) ∧
    (∃ m3,
      nonLine (visitExpr exEnv (fun _ => true)
        (Expr.BinExpr BinOp.SUB (exSetLit 5 1) (exSetLit 3 5) exSetType (some BaseTypeTag.SET)
          ⟨1, 3⟩) Gen.init).out =
        nonLine Gen.init.out ++ ([Emit.ldc_i4 5] ++ [Emit.ldc_i4 3] ++ [Emit.not_, Emit.and_]) ∧
      exMachine.run ([Emit.ldc_i4 5] ++ [Emit.ldc_i4 3] ++ [Emit.not_, Emit.and_]) = some m3 ∧
      m3.stack = (5 &&& not32 3) :: exMachine.stack) ∧
    (∃ rhs lhs m3, rhs ≠ lhs ∧
      nonLine (visitExpr exEnv (fun _ => true)
        (Expr.BinExpr BinOp.FDIV (exSetLit 5 1) (exSetLit 3 5) exSetType (some BaseTypeTag.SET)
          ⟨1, 3⟩) Gen.init).out =
        nonLine Gen.init.out ++ ([Emit.ldc_i4 5] ++ [Emit.ldc_i4 3] ++
          [Emit.stloc_ rhs, Emit.stloc_ lhs, Emit.ldloc_ lhs, Emit.ldloc_ rhs, Emit.and_,
           Emit.not_, Emit.ldloc_ lhs, Emit.ldloc_ rhs, Emit.or_, Emit.and_]) ∧
      exMachine.run ([Emit.ldc_i4 5] ++ [Emit.ldc_i4 3] ++
          [Emit.stloc_ rhs, Emit.stloc_ lhs, Emit.ldloc_ lhs, Emit.ldloc_ rhs, Emit.and_,
           Emit.not_, Emit.ldloc_ lhs, Emit.ldloc_ rhs, Emit.or_, Emit.and_]) = some m3 ∧
      m3.stack = (5 ^^^ 3) :: exMachine.stack) ∧
    OBX.OBX_SetDiv 5 3 = 5 ^^^ 3 :=
  visitExpr_set_operators exEnv (fun _ => true) (exSetLit 5 1) (exSetLit 3 5)
    (Ty.BaseType BaseTypeTag.SET) (Ty.BaseType BaseTypeTag.SET) exSetType ⟨1, 3⟩ Gen.init
    [Emit.ldc_i4 5] [Emit.ldc_i4 3] exMachine
    { stack := [3, 5], locals := fun _ => 0 } 5 3 rfl rfl rfl rfl (by decide) (by decide)
    (by decide) ⟨0, 1, by decide, by decide, by decide, by decide, by decide⟩ (by decide)
    (by decide) rfl rfl

/-! ## Labels of emitted code -/

theorem code_refl (g : Gen) : Code g g [] := ⟨by simp, Nat.le_refl _, by simp⟩

theorem code_trans {g g1 g2 : Gen} {l1 l2 : List Emit} (h1 : Code g g1 l1)
    (h2 : Code g1 g2 l2) : Code g g2 (l1 ++ l2) := by
  obtain ⟨a1, b1, c1⟩ := h1
  obtain ⟨a2, b2, c2⟩ := h2
  refine ⟨by rw [a2, a1, List.append_assoc], Nat.le_trans b1 b2, ?_⟩
  intro n hn
  rcases List.mem_append.mp hn with h | h
  · have := c1 n h; omega
  · have := c2 n h; omega

theorem code_same {g h : Gen} (ho : h.out = g.out) (hl : h.labels = g.labels) : Code g h [] :=
  ⟨by rw [ho]; simp, by rw [hl], by simp⟩

theorem code_lineEmit (g : Gen) (loc : RowCol) (e : Emit) (he : e.isLine = false)
    (hlab : e.isLabel = false) : Code g ((line g loc).emit e) [e] := by
  refine ⟨nonLine_line_emit g loc e he, by rw [emit_labels, line_labels], ?_⟩
  intro n hn
  rw [List.mem_singleton] at hn
  subst hn
  exact Bool.noConfusion hlab

theorem step_code {g h : Gen} (loc : RowCol) (e : Emit) (he : e.isLine = false)
    (hlab : e.isLabel = false) (hp : ∃ l, Code g h l) :
    ∃ l, Code g ((line h loc).emit e) l := by
  obtain ⟨l, hl⟩ := hp
  exact ⟨_, code_trans hl (code_lineEmit h loc e he hlab)⟩

theorem step_same {g h h2 : Gen} (ho : h2.out = h.out) (hl : h2.labels = h.labels)
    (hp : ∃ l, Code g h l) : ∃ l, Code g h2 l := by
  obtain ⟨l, hc⟩ := hp
  exact ⟨_, code_trans hc (code_same ho hl)⟩

theorem step_adds {g h : Gen} {v : Gen → Gen} (hv : Adds v) (hp : ∃ l, Code g h l) :
    ∃ l, Code g (v h) l := by
  obtain ⟨l, hc⟩ := hp
  obtain ⟨l2, hc2⟩ := hv h
  exact ⟨_, code_trans hc hc2⟩

theorem adds_of_step {v : Gen → Gen} (h : ∀ g h : Gen, (∃ l, Code g h l) → ∃ l, Code g (v h) l) :
    Adds v := fun g => h g g ⟨[], code_refl g⟩

theorem adds_convertTo (bt : Option BaseTypeTag) (t : Option Ty) (loc : RowCol) :
    Adds (convertTo bt t loc) := by
  intro g
  unfold convertTo
  split
  · exact ⟨[], code_refl g⟩
  · split
    · exact ⟨[], code_refl g⟩
    · split <;> first
        | exact ⟨_, code_lineEmit g loc _ rfl rfl⟩
        | exact ⟨[], code_refl g⟩

theorem adds_stringOp (lc rc : Bool) (op : Int) (loc : RowCol) : Adds (stringOp lc rc op loc) := by
  apply adds_of_step
  intro g h hp
  unfold stringOp
  simp only
  split_ifs <;> exact step_code _ _ rfl rfl (step_code _ _ rfl rfl hp)

/-- The code of `AND` and `OR` after the left operand: two labels are taken,
the conditional jump to the second is emitted, the right operand is visited,
then `br` to the first label, the second label, the constant, the first
label. -/
theorem code_short_circuit (visitRhs : Gen → Gen) (d_loc : RowCol) (g : Gen) (lb : List Emit)
    (jump : Nat → Emit) (c : Int) (hj : ∀ n, (jump n).isLine = false)
    (hj2 : ∀ n, (jump n).isLabel = false)
    (hb : Code ((line { g with labels := g.labels + 1 + 1 } d_loc).emit (jump (g.labels + 1)))
      (visitRhs ((line { g with labels := g.labels + 1 + 1 } d_loc).emit (jump (g.labels + 1))))
      lb) :
    Code g
      ((line ((line ((line ((line
        (visitRhs ((line { g with labels := g.labels + 1 + 1 } d_loc).emit (jump (g.labels + 1))))
        d_loc).emit (Emit.br_ g.labels)) d_loc).emit (Emit.label_ (g.labels + 1))) d_loc).emit
        (Emit.ldc_i4 c)) d_loc).emit (Emit.label_ g.labels))
      ([jump (g.labels + 1)] ++ lb ++
        [Emit.br_ g.labels, Emit.label_ (g.labels + 1), Emit.ldc_i4 c, Emit.label_ g.labels]) := by
  obtain ⟨h1, h2, h3⟩ := hb
  simp only [emit_labels, line_labels] at h2 h3
  refine ⟨?_, ?_, ?_⟩
  · simp only [emit_out, nonLine_append, nonLine_line, h1]
    have e1 : nonLine [jump (g.labels + 1)] = [jump (g.labels + 1)] := by
      simp [nonLine, hj]
    rw [e1]
    simp [nonLine, Emit.isLine]
  · simp only [emit_labels, line_labels]
    omega
  · intro n hn
    simp only [emit_labels, line_labels]
    simp only [List.mem_append, List.mem_singleton, List.mem_cons, List.mem_nil_iff,
      or_false] at hn
    rcases hn with (hn | hn) | hn
    · have := hj2 (g.labels + 1)
      rw [← hn] at this
      exact Bool.noConfusion this
    · have := h3 n hn
      omega
    · rcases hn with hn | hn | hn | hn
      · exact Emit.noConfusion hn
      · injection hn with hn; omega
      · exact Emit.noConfusion hn
      · injection hn with hn; omega

theorem adds_short_circuit (visitRhs : Gen → Gen) (d_loc : RowCol) (jump : Nat → Emit) (c : Int)
    (hj : ∀ n, (jump n).isLine = false) (hj2 : ∀ n, (jump n).isLabel = false)
    (hv : Adds visitRhs) :
    Adds (fun g =>
      (line ((line ((line ((line
        (visitRhs ((line { g with labels := g.labels + 1 + 1 } d_loc).emit (jump (g.labels + 1))))
        d_loc).emit (Emit.br_ g.labels)) d_loc).emit (Emit.label_ (g.labels + 1))) d_loc).emit
        (Emit.ldc_i4 c)) d_loc).emit (Emit.label_ g.labels)) := by
  intro g
  obtain ⟨lb, hb⟩ :=
    hv ((line { g with labels := g.labels + 1 + 1 } d_loc).emit (jump (g.labels + 1)))
  exact ⟨_, code_short_circuit visitRhs d_loc g lb jump c hj hj2 hb⟩

theorem adds_visitBinExpr_op (env : Env) (d_op : BinOp) (lhsT rhsT : Ty) (d_loc : RowCol)
    (visitRhs : Gen → Gen) (hv : Adds visitRhs) :
    Adds (visitBinExpr_op env d_op lhsT rhsT d_loc visitRhs) := by
  have hs := adds_stringOp
  cases d_op
  case AND =>
    intro g
    simp only [visitBinExpr_op]
    split_ifs
    · exact adds_short_circuit visitRhs d_loc Emit.brfalse_ 0 (fun _ => rfl) (fun _ => rfl) hv g
    · exact ⟨[], code_same rfl rfl⟩
  case OR =>
    intro g
    simp only [visitBinExpr_op]
    split_ifs
    · exact adds_short_circuit visitRhs d_loc Emit.brtrue_ 1 (fun _ => rfl) (fun _ => rfl) hv g
    · exact ⟨[], code_same rfl rfl⟩
  all_goals
    apply adds_of_step
    intro g h hp
    simp only [visitBinExpr_op, Gen.buy, Gen.sell]
    (try split_ifs) <;>
      repeat' first
        | exact hp
        | exact step_adds (hs _ _ _ _) hp
        | refine step_code _ _ rfl rfl ?_

theorem adds_visitBinExpr (env : Env) (isArithRelation : BinOp → Bool) (d_op : BinOp)
    (lhsType rhsType : Option Ty) (lhsLoc rhsLoc : RowCol) (d_baseType : Option BaseTypeTag)
    (d_loc : RowCol) (visitLhs visitRhs : Gen → Gen) (hl : Adds visitLhs) (hr : Adds visitRhs) :
    Adds (visitBinExpr env isArithRelation d_op lhsType rhsType lhsLoc rhsLoc d_baseType d_loc
      visitLhs visitRhs) := by
  apply adds_of_step
  intro g h hp
  unfold visitBinExpr
  split
  · simp only
    refine step_adds (adds_visitBinExpr_op env d_op _ _ d_loc visitRhs hr) ?_
    split_ifs <;>
      repeat' first
        | exact hp
        | refine step_adds (adds_convertTo _ _ _) ?_
        | refine step_adds hl ?_
        | refine step_adds hr ?_
  · exact hp

mutual
theorem adds_visitExpr (env : Env) (isArithRelation : BinOp → Bool) :
    ∀ (e : Expr), e.LeavesFresh → Adds (visitExpr env isArithRelation e)
  | .other visit _ _, h => by
    intro g
    rw [visitExpr]
    exact h g
  | .BinExpr d_op d_lhs d_rhs _ d_baseType d_loc, h => by
    have ha := adds_visitExpr env isArithRelation d_lhs h.1
    have hb := adds_visitExpr env isArithRelation d_rhs h.2
    intro g
    rw [visitExpr]
    exact adds_visitBinExpr env isArithRelation d_op _ _ _ _ d_baseType d_loc _ _ ha hb g
  | .SetExpr d_parts _ d_loc, h => by
    have hp := adds_visitSetParts env isArithRelation d_loc d_parts h
    intro g
    rw [visitExpr]
    obtain ⟨l, hl⟩ := hp ((line g d_loc).emit (Emit.ldc_i4 0))
    exact ⟨_, code_trans (code_lineEmit g d_loc (Emit.ldc_i4 0) rfl rfl) hl⟩
termination_by structural e => e
theorem adds_visitSetParts (env : Env) (isArithRelation : BinOp → Bool) (d_loc : RowCol) :
    ∀ (ps : List Expr), Expr.LeavesFreshAll ps →
      Adds (visitSetParts env isArithRelation d_loc ps)
  | [], _ => fun g => ⟨[], by rw [visitSetParts]; exact code_refl g⟩
  | .BinExpr d_op lo hi d_type d_baseType loc :: ps, h => by
    have h1 := adds_visitExpr env isArithRelation lo h.1.1
    have h2 := adds_visitExpr env isArithRelation hi h.1.2
    have h3 := adds_visitSetParts env isArithRelation d_loc ps h.2
    have h4 := adds_visitExpr env isArithRelation (.BinExpr d_op lo hi d_type d_baseType loc) h.1
    apply adds_of_step
    intro g k hp
    cases d_op
    case Range =>
      rw [visitSetParts]
      exact step_adds h3 (step_code _ _ rfl rfl (step_adds h2 (step_adds h1 hp)))
    all_goals
      rw [visitSetParts_eq, List.foldl_cons, ← visitSetParts_eq]
      exact step_adds h3 (step_code _ _ rfl rfl (step_adds h4 hp))
  | .other visit d_type loc :: ps, h => by
    have h1 := adds_visitExpr env isArithRelation (.other visit d_type loc) h.1
    have h3 := adds_visitSetParts env isArithRelation d_loc ps h.2
    apply adds_of_step
    intro g k hp
    rw [visitSetParts_eq, List.foldl_cons, ← visitSetParts_eq]
    exact step_adds h3 (step_code _ _ rfl rfl (step_adds h1 hp))
  | .SetExpr d_parts d_type loc :: ps, h => by
    have h1 := adds_visitExpr env isArithRelation (.SetExpr d_parts d_type loc) h.1
    have h3 := adds_visitSetParts env isArithRelation d_loc ps h.2
    apply adds_of_step
    intro g k hp
    rw [visitSetParts_eq, List.foldl_cons, ← visitSetParts_eq]
    exact step_adds h3 (step_code _ _ rfl rfl (step_adds h1 hp))
termination_by structural l => l
end

theorem convertTo_boolean (bt : Option BaseTypeTag) (t : Option Ty) (ty : Ty) (loc : RowCol)
    (g : Gen) (ht : derefed t = some ty) (hb : ty.getBaseType = some BaseTypeTag.BOOLEAN)
    (hbt : bt = some BaseTypeTag.BOOLEAN ∨ bt = none) : convertTo bt t loc g = g := by
  rcases hbt with h | h
  · exact convertTo_same bt t ty loc g ht (by rw [h, hb])
  · subst h
    simp [convertTo, ht, hb]

/-- The shape of the code of `a AND b` (`jump` is `brfalse`, `c` is 0) and of
`a OR b` (`jump` is `brtrue`, `c` is 1). -/
theorem short_circuit_shape (env : Env) (isArithRelation : BinOp → Bool) (d_op : BinOp)
    (jump : Nat → Emit) (c : Int) (a b : Expr) (ta tb : Ty) (d_type : Option Ty)
    (d_baseType : Option BaseTypeTag) (d_loc : RowCol) (g : Gen)
    (hop : (d_op = BinOp.AND ∧ jump = Emit.brfalse_ ∧ c = 0) ∨
      (d_op = BinOp.OR ∧ jump = Emit.brtrue_ ∧ c = 1))
    (hfa : a.LeavesFresh) (hfb : b.LeavesFresh)
    (hta : derefed a.d_type = some ta) (hba : ta.getBaseType = some BaseTypeTag.BOOLEAN)
    (htb : derefed b.d_type = some tb) (hbb : tb.getBaseType = some BaseTypeTag.BOOLEAN)
    (hbt : d_baseType = some BaseTypeTag.BOOLEAN ∨ d_baseType = none) :
    ∃ la lb g1,
      Code g (visitExpr env isArithRelation a g) la ∧
      nonLine g1.out =
        nonLine g.out ++ la ++ [jump ((visitExpr env isArithRelation a g).labels + 1)] ∧
      Code g1 (visitExpr env isArithRelation b g1) lb ∧
      nonLine (visitExpr env isArithRelation
          (Expr.BinExpr d_op a b d_type d_baseType d_loc) g).out =
        nonLine g.out ++
          (la ++ [jump ((visitExpr env isArithRelation a g).labels + 1)] ++ lb ++
            [Emit.br_ (visitExpr env isArithRelation a g).labels,
             Emit.label_ ((visitExpr env isArithRelation a g).labels + 1), Emit.ldc_i4 c,
             Emit.label_ (visitExpr env isArithRelation a g).labels]) ∧
      (la ++ [jump ((visitExpr env isArithRelation a g).labels + 1)] ++ lb ++
            [Emit.br_ (visitExpr env isArithRelation a g).labels,
             Emit.label_ ((visitExpr env isArithRelation a g).labels + 1), Emit.ldc_i4 c,
             Emit.label_ (visitExpr env isArithRelation a g).labels]).count
          (Emit.label_ (visitExpr env isArithRelation a g).labels) = 1 ∧
      (la ++ [jump ((visitExpr env isArithRelation a g).labels + 1)] ++ lb ++
            [Emit.br_ (visitExpr env isArithRelation a g).labels,
             Emit.label_ ((visitExpr env isArithRelation a g).labels + 1), Emit.ldc_i4 c,
             Emit.label_ (visitExpr env isArithRelation a g).labels]).count
          (Emit.label_ ((visitExpr env isArithRelation a g).labels + 1)) = 1 := by
  obtain ⟨la, hla⟩ := adds_visitExpr env isArithRelation a hfa g
  generalize hga : visitExpr env isArithRelation a g = ga at hla ⊢
  have hjl : ∀ n, (jump n).isLine = false := by
    rcases hop with ⟨_, h, _⟩ | ⟨_, h, _⟩ <;> subst h <;> intro n <;> rfl
  have hjb : ∀ n, (jump n).isLabel = false := by
    rcases hop with ⟨_, h, _⟩ | ⟨_, h, _⟩ <;> subst h <;> intro n <;> rfl
  obtain ⟨lb, hlb⟩ := adds_visitExpr env isArithRelation b hfb
    ((line { ga with labels := ga.labels + 1 + 1 } d_loc).emit (jump (ga.labels + 1)))
  have hsc := code_short_circuit (visitExpr env isArithRelation b) d_loc ga lb jump c hjl hjb hlb
  have hvis : visitExpr env isArithRelation (Expr.BinExpr d_op a b d_type d_baseType d_loc) g =
      (line ((line ((line ((line
        (visitExpr env isArithRelation b
          ((line { ga with labels := ga.labels + 1 + 1 } d_loc).emit (jump (ga.labels + 1))))
        d_loc).emit (Emit.br_ ga.labels)) d_loc).emit (Emit.label_ (ga.labels + 1))) d_loc).emit
        (Emit.ldc_i4 c)) d_loc).emit (Emit.label_ ga.labels) := by
    rw [visitExpr]
    simp only [visitBinExpr, hta, htb, hga]
    rw [convertTo_boolean _ _ ta _ _ hta hba hbt]
    rcases hop with ⟨h1, h2, h3⟩ | ⟨h1, h2, h3⟩ <;> subst h1 <;> subst h2 <;> subst h3 <;>
      simp [visitBinExpr_op, hba, hbb, newLabel]
  have hfull := code_trans hla hsc
  refine ⟨la, lb, _, hla, ?_, hlb, ?_, ?_, ?_⟩
  · rw [emit_out, nonLine_append, nonLine_line]
    have : nonLine [jump (ga.labels + 1)] = [jump (ga.labels + 1)] := by simp [nonLine, hjl]
    rw [this]
    show nonLine ga.out ++ _ = _
    rw [hla.1]
  · rw [hvis, hfull.1]
    simp
  · have h1 : la.count (Emit.label_ ga.labels) = 0 := by
      apply List.count_eq_zero_of_not_mem
      intro hm
      have := hla.2.2 _ hm
      omega
    have h2 : lb.count (Emit.label_ ga.labels) = 0 := by
      apply List.count_eq_zero_of_not_mem
      intro hm
      have := hlb.2.2 _ hm
      simp only [emit_labels, line_labels] at this
      omega
    have h3 : [jump (ga.labels + 1)].count (Emit.label_ ga.labels) = 0 := by
      apply List.count_eq_zero_of_not_mem
      intro hm
      rw [List.mem_singleton] at hm
      have := hjb (ga.labels + 1)
      rw [← hm] at this
      exact Bool.noConfusion this
    simp only [List.count_append, h1, h2, h3]
    simp [List.count_cons]
  · have h1 : la.count (Emit.label_ (ga.labels + 1)) = 0 := by
      apply List.count_eq_zero_of_not_mem
      intro hm
      have := hla.2.2 _ hm
      omega
    have h2 : lb.count (Emit.label_ (ga.labels + 1)) = 0 := by
      apply List.count_eq_zero_of_not_mem
      intro hm
      have := hlb.2.2 _ hm
      simp only [emit_labels, line_labels] at this
      omega
    have h3 : [jump (ga.labels + 1)].count (Emit.label_ (ga.labels + 1)) = 0 := by
      apply List.count_eq_zero_of_not_mem
      intro hm
      rw [List.mem_singleton] at hm
      have := hjb (ga.labels + 1)
      rw [← hm] at this
      exact Bool.noConfusion this
    simp only [List.count_append, h1, h2, h3]
    simp [List.count_cons]

/-- C24: for Boolean operands `a` and `b` whose leaves only add calls and only
place labels they have taken, the code of `a AND b` is the code of `a`,
`brfalse F`, the code of `b` (visited once, in the state after the jump),
`br E`, `label F`, `ldc.i4 0`, `label E`, where `E` and `F = E + 1` are the two
labels taken after `a`; in this code `label E` and `label F` occur exactly
once. The code of `a OR b` is the same with `brtrue` and `ldc.i4 1`. -/
theorem visitExpr_and_or (env : Env) (isArithRelation : BinOp → Bool) (a b : Expr) (ta tb : Ty)
    (d_type : Option Ty) (d_baseType : Option BaseTypeTag) (d_loc : RowCol) (g : Gen)
    (hfa : a.LeavesFresh) (hfb : b.LeavesFresh)
    (hta : derefed a.d_type = some ta) (hba : ta.getBaseType = some BaseTypeTag.BOOLEAN)
    (htb : derefed b.d_type = some tb) (hbb : tb.getBaseType = some BaseTypeTag.BOOLEAN)
    (hbt : d_baseType = some BaseTypeTag.BOOLEAN ∨ d_baseType = none) :
    (∃ la lb g1 E F,
      E = (visitExpr env isArithRelation a g).labels ∧ F = E + 1 ∧
      Code g (visitExpr env isArithRelation a g) la ∧
      nonLine g1.out = nonLine g.out ++ la ++ [Emit.brfalse_ F] ∧
      Code g1 (visitExpr env isArithRelation b g1) lb ∧
      nonLine (visitExpr env isArithRelation
          (Expr.BinExpr BinOp.AND a b d_type d_baseType d_loc) g).out =
        nonLine g.out ++
          (la ++ [Emit.brfalse_ F] ++ lb ++
            [Emit.br_ E, Emit.label_ F, Emit.ldc_i4 0, Emit.label_ E]) ∧
      (la ++ [Emit.brfalse_ F] ++ lb ++
          [Emit.br_ E, Emit.label_ F, Emit.ldc_i4 0, Emit.label_ E]).count (Emit.label_ E) = 1 ∧
      (la ++ [Emit.brfalse_ F] ++ lb ++
          [Emit.br_ E, Emit.label_ F, Emit.ldc_i4 0, Emit.label_ E]).count (Emit.label_ F) = 1) ∧
    (∃ la lb g1 E T,
      E = (visitExpr env isArithRelation a g).labels ∧ T = E + 1 ∧
      Code g (visitExpr env isArithRelation a g) la ∧
      nonLine g1.out = nonLine g.out ++ la ++ [Emit.brtrue_ T] ∧
      Code g1 (visitExpr env isArithRelation b g1) lb ∧
      nonLine (visitExpr env isArithRelation
          (Expr.BinExpr BinOp.OR a b d_type d_baseType d_loc) g).out =
        nonLine g.out ++
          (la ++ [Emit.brtrue_ T] ++ lb ++
            [Emit.br_ E, Emit.label_ T, Emit.ldc_i4 1, Emit.label_ E]) ∧
      (la ++ [Emit.brtrue_ T] ++ lb ++
          [Emit.br_ E, Emit.label_ T, Emit.ldc_i4 1, Emit.label_ E]).count (Emit.label_ E) = 1 ∧
      (la ++ [Emit.brtrue_ T] ++ lb ++
          [Emit.br_ E, Emit.label_ T, Emit.ldc_i4 1, Emit.label_ E]).count (Emit.label_ T) = 1) := by
  constructor
  · obtain ⟨la, lb, g1, h1, h2, h3, h4, h5, h6⟩ :=
      short_circuit_shape env isArithRelation BinOp.AND Emit.brfalse_ 0 a b ta tb d_type
        d_baseType d_loc g (Or.inl ⟨rfl, rfl, rfl⟩) hfa hfb hta hba htb hbb hbt
    exact ⟨la, lb, g1, _, _, rfl, rfl, h1, h2, h3, h4, h5, h6⟩
  · obtain ⟨la, lb, g1, h1, h2, h3, h4, h5, h6⟩ :=
      short_circuit_shape env isArithRelation BinOp.OR Emit.brtrue_ 1 a b ta tb d_type
        d_baseType d_loc g (Or.inr ⟨rfl, rfl, rfl⟩) hfa hfb hta hba htb hbb hbt
    exact ⟨la, lb, g1, _, _, rfl, rfl, h1, h2, h3, h4, h5, h6⟩

theorem visitExpr_and_or_witness :
    ((∃ la lb g1 E F,
      E = (visitExpr exEnv (fun _ => false) (exBoolVar 0 1) Gen.init).labels ∧ F = E + 1 ∧
      Code Gen.init (visitExpr exEnv (fun _ => false) (exBoolVar 0 1) Gen.init) la ∧
      nonLine g1.out = nonLine Gen.init.out ++ la ++ [Emit.brfalse_ F] ∧
      Code g1 (visitExpr exEnv (fun _ => false) (exBoolVar 1 1) g1) lb ∧
      nonLine (visitExpr exEnv (fun _ => false)
          (Expr.BinExpr BinOp.AND (exBoolVar 0 1) (exBoolVar 1 1)
            (some (Ty.BaseType BaseTypeTag.BOOLEAN)) none ⟨1, 1⟩) Gen.init).out =
        nonLine Gen.init.out ++
          (la ++ [Emit.brfalse_ F] ++ lb ++
            [Emit.br_ E, Emit.label_ F, Emit.ldc_i4 0, Emit.label_ E]) ∧
      (la ++ [Emit.brfalse_ F] ++ lb ++
          [Emit.br_ E, Emit.label_ F, Emit.ldc_i4 0, Emit.label_ E]).count (Emit.label_ E) = 1 ∧
      (la ++ [Emit.brfalse_ F] ++ lb ++
          [Emit.br_ E, Emit.label_ F, Emit.ldc_i4 0, Emit.label_ E]).count (Emit.label_ F) = 1) ∧
    (∃ la lb g1 E T,
      E = (visitExpr exEnv (fun _ => false) (exBoolVar 0 1) Gen.init).labels ∧ T = E + 1 ∧
      Code Gen.init (visitExpr exEnv (fun _ => false) (exBoolVar 0 1) Gen.init) la ∧
      nonLine g1.out = nonLine Gen.init.out ++ la ++ [Emit.brtrue_ T] ∧
      Code g1 (visitExpr exEnv (fun _ => false) (exBoolVar 1 1) g1) lb ∧
      nonLine (visitExpr exEnv (fun _ => false)
          (Expr.BinExpr BinOp.OR (exBoolVar 0 1) (exBoolVar 1 1)
            (some (Ty.BaseType BaseTypeTag.BOOLEAN)) none ⟨1, 1⟩) Gen.init).out =
        nonLine Gen.init.out ++
          (la ++ [Emit.brtrue_ T] ++ lb ++
            [Emit.br_ E, Emit.label_ T, Emit.ldc_i4 1, Emit.label_ E]) ∧
      (la ++ [Emit.brtrue_ T] ++ lb ++
          [Emit.br_ E, Emit.label_ T, Emit.ldc_i4 1, Emit.label_ E]).count (Emit.label_ E) = 1 ∧
      (la ++ [Emit.brtrue_ T] ++ lb ++
          [Emit.br_ E, Emit.label_ T, Emit.ldc_i4 1, Emit.label_ E]).count
            (Emit.label_ T) = 1)) ∧
    nonLine (visitExpr exEnv (fun _ => false)
        (Expr.BinExpr BinOp.AND (exBoolVar 0 1) (exBoolVar 1 1)
          (some (Ty.BaseType BaseTypeTag.BOOLEAN)) none ⟨1, 1⟩) Gen.init).out =
      [Emit.ldloc_ 0, Emit.brfalse_ 1, Emit.ldloc_ 1, Emit.br_ 0, Emit.label_ 1, Emit.ldc_i4 0,
       Emit.label_ 0] ∧
    nonLine (visitExpr exEnv (fun _ => false)
        (Expr.BinExpr BinOp.OR (exBoolVar 0 1) (exBoolVar 1 1)
          (some (Ty.BaseType BaseTypeTag.BOOLEAN)) none ⟨1, 1⟩) Gen.init).out =
      [Emit.ldloc_ 0, Emit.brtrue_ 1, Emit.ldloc_ 1, Emit.br_ 0, Emit.label_ 1, Emit.ldc_i4 1,
       Emit.label_ 0] :=
  ⟨visitExpr_and_or exEnv (fun _ => false) (exBoolVar 0 1) (exBoolVar 1 1)
      (Ty.BaseType BaseTypeTag.BOOLEAN) (Ty.BaseType BaseTypeTag.BOOLEAN)
      (some (Ty.BaseType BaseTypeTag.BOOLEAN)) none ⟨1, 1⟩ Gen.init
      (fun g => ⟨_, code_lineEmit g _ _ rfl rfl⟩) (fun g => ⟨_, code_lineEmit g _ _ rfl rfl⟩)
      rfl rfl rfl rfl (Or.inr rfl),
    by decide, by decide⟩

/-! ## Statements -/

/-- C25: for `LOOP IF a THEN EXIT END; LOOP IF b THEN EXIT END END END` both
`EXIT`s emit `br 2`, and label 2 is placed once, after the back-branch `br 4` of
the inner loop and before the back-branch `br 0` of the outer loop, after which
no label is placed; two assertions fail on the way (`exitJump == -1` at the
inner loop and `Q_ASSERT(false)` at its `EXIT`). For
`LOOP IF a THEN EXIT END; IF b THEN EXIT END END` the second `EXIT` fails its
assertion. -/
theorem visitStmt_exit_label_shared :
    nonLine (visitStmt exEnv (fun _ => false) exLoopExitLoop Gen.init).out =
      [Emit.label_ 0, Emit.ldloc_ 0, Emit.brfalse_ 1, Emit.br_ 2, Emit.br_ 3, Emit.label_ 1,
       Emit.label_ 3, Emit.label_ 4, Emit.ldloc_ 1, Emit.brfalse_ 5, Emit.br_ 2, Emit.br_ 6,
       Emit.label_ 5, Emit.label_ 6, Emit.br_ 4, Emit.label_ 2, Emit.br_ 0] ∧
    (visitStmt exEnv (fun _ => false) exLoopExitLoop Gen.init).failedAsserts = 2 ∧
    (visitStmt exEnv (fun _ => false) exLoopTwoExits Gen.init).failedAsserts = 1 := by
  decide

theorem buy_sell_slots (p : CilGenTempPool)
    (hfree : ∃ i, i < 32 ∧ p.d_slots.getD i false = false) :
    0 ≤ p.buy.1 ∧ (p.buy.2.sell p.buy.1.toNat).d_slots = p.d_slots := by
  obtain ⟨a, ha, hfa, h1, h2, h3⟩ := buy_free p hfree
  refine ⟨by rw [h1]; omega, ?_⟩
  simp only [CilGenTempPool.sell, h1, h2, h3]
  have : ((a : Int) + (p.d_start : Int)).toNat - p.d_start = a := by omega
  rw [this, List.set_set]
  apply List.ext_getElem
  · simp
  · intro n hn1 hn2
    rw [List.getElem_set]
    split
    · rename_i h
      subst h
      have : p.d_slots.getD a false = p.d_slots[a] := by
        simp [List.getD_eq_getElem?_getD, List.getElem?_eq_getElem hn2]
      rw [← this, hfa]
    · rfl

theorem moduleRef_flag (env : Env) (s1 s2 : FmtState) (m : Module)
    (h : s1.forceAssemblyPrefix = s2.forceAssemblyPrefix) :
    moduleRef env s1 m = moduleRef env s2 m := by
  simp [moduleRef, h]

theorem line_failedAsserts (g : Gen) (loc : RowCol) :
    (line g loc).failedAsserts = g.failedAsserts := by
  unfold line; split <;> rfl

theorem emit_failedAsserts (g : Gen) (e : Emit) : (g.emit e).failedAsserts = g.failedAsserts :=
  rfl

theorem emitVarToStack_parameter (env : Env) (me : VarDecl) (loc : RowCol) (g : Gen)
    (htag : me.member.named.tag = Tag.T_Parameter) :
    emitVarToStack env me loc g = (line g loc).emit (Emit.ldarg_ me.d_slot) := by
  simp only [emitVarToStack, htag]

theorem emitStackToVar_parameter (env : Env) (me : VarDecl) (loc : RowCol) (g : Gen)
    (htag : me.member.named.tag = Tag.T_Parameter) (hvalid : me.d_slotValid = true) :
    emitStackToVar env me loc g = (line g loc).emit (Emit.starg_ me.d_slot) := by
  simp only [emitStackToVar, htag, hvalid, ↓reduceIte]

theorem emitCalcLengths_open_char (env : Env) (loc : RowCol) (g : Gen) :
    (emitCalcLengths env (Ty.Array (some (Ty.BaseType BaseTypeTag.CHAR)) none) [] loc g).1 =
      [g.temps.buy.1] ∧
    nonLine (emitCalcLengths env (Ty.Array (some (Ty.BaseType BaseTypeTag.CHAR)) none) [] loc
        g).2.out =
      nonLine g.out ++
        [Emit.dup_, Emit.ldlen_, Emit.stloc_ g.temps.buy.1, Emit.ldc_i4 0, Emit.ldelem_ "char",
         Emit.pop_] ∧
    (emitCalcLengths env (Ty.Array (some (Ty.BaseType BaseTypeTag.CHAR)) none) [] loc
        g).2.temps = g.temps.buy.2 ∧
    (emitCalcLengths env (Ty.Array (some (Ty.BaseType BaseTypeTag.CHAR)) none) [] loc
        g).2.fmt = g.fmt ∧
    (emitCalcLengths env (Ty.Array (some (Ty.BaseType BaseTypeTag.CHAR)) none) [] loc
        g).2.failedAsserts = g.failedAsserts := by
  refine ⟨?_, ?_, ?_, ?_, ?_⟩ <;>
    simp [emitCalcLengths, emitCalcLengths_loop, formatType, formatBaseType, Gen.buy,
      line_temps, emit_temps, line_fmt, emit_fmt, emit_out, nonLine_append, nonLine_line,
      line_failedAsserts, emit_failedAsserts] <;> rfl

theorem emitInitializer_open_char (env : Env) (loc : RowCol) (l : Int) (g : Gen) (hl : 0 ≤ l) :
    (emitInitializer env (Ty.Array (some (Ty.BaseType BaseTypeTag.CHAR)) none) false loc [l]
        g).1 = true ∧
    nonLine (emitInitializer env (Ty.Array (some (Ty.BaseType BaseTypeTag.CHAR)) none) false loc
        [l] g).2.out = nonLine g.out ++ [Emit.ldloc_ l, Emit.newarr_ "char"] ∧
    (emitInitializer env (Ty.Array (some (Ty.BaseType BaseTypeTag.CHAR)) none) false loc [l]
        g).2.temps = g.temps.sell l.toNat ∧
    (emitInitializer env (Ty.Array (some (Ty.BaseType BaseTypeTag.CHAR)) none) false loc [l]
        g).2.fmt = g.fmt ∧
    (emitInitializer env (Ty.Array (some (Ty.BaseType BaseTypeTag.CHAR)) none) false loc [l]
        g).2.failedAsserts = g.failedAsserts := by
  have hge : l ≥ 0 := hl
  refine ⟨?_, ?_, ?_, ?_, ?_⟩ <;>
    simp [emitInitializer, Ty.derefed, Ty.isStructured, formatType, formatBaseType, hge,
      Gen.sell, line_temps, emit_temps, line_fmt, emit_fmt, emit_out, nonLine_append,
      nonLine_line, line_failedAsserts, emit_failedAsserts] <;> rfl

theorem formatArrayCopierRef_open_char (env : Env) (s : FmtState) :
    (formatArrayCopierRef env s (Ty.Array (some (Ty.BaseType BaseTypeTag.CHAR)) none)).1 =
      "void " ++ moduleRef env s env.thisMod ++ "::'#copy'(char[], char[])" := by
  simp only [formatArrayCopierRef, formatType, formatBaseType]
  rw [moduleRef_flag env _ s env.thisMod (by split <;> rfl)]
  simp only [String.append_assoc]
  rfl

/-- C30: for a parameter passed by value whose type is `ARRAY OF CHAR`, with a
valid slot `s`, in a state whose pool has a free temporary `t` (the one `buy`
yields), the calls of the prologue are, line markers aside: `ldarg s`, `dup`,
`ldlen`, `stloc t` (the length of the actual), `ldc.i4 0`, `ldelem char`,
`pop`, `ldloc t`, `newarr char`, `dup`, `ldarg s`, the call of
`'#copy'(char[], char[])` of the module with two arguments (the new array, the
actual), `starg s`; afterwards the slots of the pool are as before (the
temporary is sold) and no assertion has failed. -/
theorem emitInitializerNamed_open_array (env : Env) (me : VarDecl) (g : Gen)
    (htag : me.member.named.tag = Tag.T_Parameter) (hvar : me.d_var = false)
    (htype : me.member.d_type = some (Ty.Array (some (Ty.BaseType BaseTypeTag.CHAR)) none))
    (hvalid : me.d_slotValid = true)
    (hfree : ∃ i, i < 32 ∧ g.temps.d_slots.getD i false = false) :
    nonLine (emitInitializerNamed env me g).out =
      nonLine g.out ++
        [Emit.ldarg_ me.d_slot, Emit.dup_, Emit.ldlen_, Emit.stloc_ g.temps.buy.1,
         Emit.ldc_i4 0, Emit.ldelem_ "char", Emit.pop_, Emit.ldloc_ g.temps.buy.1,
         Emit.newarr_ "char", Emit.dup_, Emit.ldarg_ me.d_slot,
         Emit.call_ ("void " ++ moduleRef env g.fmt env.thisMod ++ "::'#copy'(char[], char[])")
           (some 2) none none,
         Emit.starg_ me.d_slot] ∧
    (emitInitializerNamed env me g).temps.d_slots = g.temps.d_slots ∧
    (emitInitializerNamed env me g).failedAsserts = g.failedAsserts := by
  obtain ⟨hpos, hslots⟩ := buy_sell_slots g.temps hfree
  have hvis : emitInitializerNamed env me g =
      emitStackToVar env me me.member.d_loc
        ((fun g4 : Gen =>
          (line { g4 with fmt := (formatArrayCopierRef env g4.fmt
              (Ty.Array (some (Ty.BaseType BaseTypeTag.CHAR)) none)).2 } me.member.d_loc).emit
            (Emit.call_ (formatArrayCopierRef env g4.fmt
              (Ty.Array (some (Ty.BaseType BaseTypeTag.CHAR)) none)).1 (some 2) none none))
          (emitVarToStack env me me.member.d_loc
            ((line (emitInitializer env (Ty.Array (some (Ty.BaseType BaseTypeTag.CHAR)) none)
                false me.member.d_loc
                (emitCalcLengths env (Ty.Array (some (Ty.BaseType BaseTypeTag.CHAR)) none) []
                  me.member.d_loc (emitVarToStack env me me.member.d_loc g)).1
                (emitCalcLengths env (Ty.Array (some (Ty.BaseType BaseTypeTag.CHAR)) none) []
                  me.member.d_loc (emitVarToStack env me me.member.d_loc g)).2).2
              me.member.d_loc).emit Emit.dup_))) := by
    simp only [emitInitializerNamed, htag, htype, hvar, derefed, Ty.derefed, Ty.isStructured,
      Bool.not_false, Bool.and_self, ↓reduceIte]
  rw [hvis, emitStackToVar_parameter env me _ _ htag hvalid,
    emitVarToStack_parameter env me _ _ htag, emitVarToStack_parameter env me _ _ htag]
  obtain ⟨c1, c2, c3, c4, c5⟩ := emitCalcLengths_open_char env me.member.d_loc
    ((line g me.member.d_loc).emit (Emit.ldarg_ me.d_slot))
  simp only [emit_temps, line_temps] at c1 c2 c3
  rw [c1]
  obtain ⟨i1, i2, i3, i4, i5⟩ := emitInitializer_open_char env me.member.d_loc g.temps.buy.1
    (emitCalcLengths env (Ty.Array (some (Ty.BaseType BaseTypeTag.CHAR)) none) []
      me.member.d_loc ((line g me.member.d_loc).emit (Emit.ldarg_ me.d_slot))).2 hpos
  refine ⟨?_, ?_, ?_⟩
  · simp only [emit_out, nonLine_append, nonLine_line, i2, c2, formatArrayCopierRef_open_char,
      line_fmt, emit_fmt, i4, c4]
    simp [nonLine, Emit.isLine]
  · simp only [emit_temps, line_temps, i3, c3]
    exact hslots
  · simp only [emit_failedAsserts, line_failedAsserts, i5, c5]

theorem emitInitializerNamed_open_array_witness :
    nonLine (emitInitializerNamed exEnv exOpenArrayParam Gen.init).out =
      nonLine Gen.init.out ++
        [Emit.ldarg_ 0, Emit.dup_, Emit.ldlen_, Emit.stloc_ 0, Emit.ldc_i4 0,
         Emit.ldelem_ "char", Emit.pop_, Emit.ldloc_ 0, Emit.newarr_ "char", Emit.dup_,
         Emit.ldarg_ 0,
         Emit.call_ "void 'M'::'#copy'(char[], char[])" (some 2) none none,
         Emit.starg_ 0] ∧
    (emitInitializerNamed exEnv exOpenArrayParam Gen.init).temps.d_slots =
      Gen.init.temps.d_slots ∧
    (emitInitializerNamed exEnv exOpenArrayParam Gen.init).failedAsserts =
      Gen.init.failedAsserts :=
  emitInitializerNamed_open_array exEnv exOpenArrayParam Gen.init rfl rfl rfl rfl
    ⟨0, by decide, by decide⟩

/-! ## Copiers -/

theorem classRefNamed_flag (env : Env) (s1 s2 : FmtState) (n : Named)
    (h : s1.forceAssemblyPrefix = s2.forceAssemblyPrefix) :
    classRefNamed env s1 n = classRefNamed env s2 n := by
  simp only [classRefNamed, moduleRef_flag env s1 s2 _ h]

theorem classRef_flag (env : Env) (s1 s2 : FmtState) (r : RecordRef)
    (h : s1.forceAssemblyPrefix = s2.forceAssemblyPrefix) :
    classRef env s1 r = classRef env s2 r := by
  simp only [classRef, moduleRef_flag env s1 s2 _ h, classRefNamed_flag env s1 s2 _ h]

theorem formatRecordType_flag (env : Env) (s1 s2 : FmtState) (r : RecordRef)
    (h : s1.forceAssemblyPrefix = s2.forceAssemblyPrefix) :
    formatRecordType env s1 r = formatRecordType env s2 r := by
  simp only [formatRecordType, classRef_flag env s1 s2 _ h]

mutual
theorem formatType_keeps (env : Env) :
    ∀ (t : Ty) (s : FmtState), FmtKeeps s (formatType env s t)
  | .Array (some t) _, s => by
    have ih := formatType_keeps env t s
    rw [formatType]
    exact ih
  | .Array none _, s => by rw [formatType]; exact ⟨rfl, id⟩
  | .BaseType b, s => by rw [formatType]; exact ⟨rfl, id⟩
  | .Enumeration, s => by rw [formatType]; exact ⟨rfl, id⟩
  | .Pointer (some t), s => by
    have ih := formatType_keeps env t s
    rw [formatType]
    exact ih
  | .Pointer none, s => by rw [formatType]; exact ⟨rfl, id⟩
  | .ProcType pt, s => by
    have ih := delegateRef_keeps env pt s
    rw [formatType]
    exact ih
  | .QualiType _ none, s => by rw [formatType]; exact ⟨rfl, id⟩
  | .QualiType d_selfRef (some t), s => by
    have ih := formatType_keeps env t s
    rw [formatType]
    split
    · split <;> exact ⟨rfl, id⟩
    · exact ih
  | .Record r, s => by rw [formatType]; exact ⟨rfl, id⟩
termination_by structural t => t
theorem formatTypeOpt_keeps (env : Env) :
    ∀ (t : Option Ty) (s : FmtState), FmtKeeps s (formatTypeOpt env s t)
  | none, s => by rw [formatTypeOpt]; exact ⟨rfl, id⟩
  | some t, s => by
    have ih := formatType_keeps env t s
    rw [formatTypeOpt]
    exact ih
termination_by structural t => t
theorem delegateRef_keeps (env : Env) :
    ∀ (pt : ProcType) (s : FmtState), FmtKeeps s (delegateRef env s pt)
  | .mk d_formals d_return d_typeBound declaredIn, s => by
    have ih1 := formatTypeOpt_keeps env d_return { s with forceAssemblyPrefix := true }
    have ih2 := formatFormalsFrom_keeps env d_formals
      (formatTypeOpt env { s with forceAssemblyPrefix := true } d_return).2 false 0
    simp only [delegateRef]
    refine ⟨?_, fun _ => rfl⟩
    split <;> simp [ih2.1, ih1.1]
termination_by structural pt => pt
theorem formatFormal_keeps (env : Env) :
    ∀ (p : Parameter) (s : FmtState) (withName : Bool),
      FmtKeeps s (formatFormal env s withName p)
  | .mk d_name d_var d_const d_type, s, withName => by
    have ih := formatTypeOpt_keeps env d_type s
    rw [formatFormal]
    exact ih
termination_by structural p => p
theorem formatFormalsFrom_keeps (env : Env) :
    ∀ (ps : List Parameter) (s : FmtState) (withName : Bool) (i : Nat),
      FmtKeeps s (formatFormalsFrom env s withName i ps)
  | [], s, withName, i => by rw [formatFormalsFrom]; exact ⟨rfl, id⟩
  | p :: ps, s, withName, i => by
    have ih1 := formatFormal_keeps env p s withName
    have ih2 := formatFormalsFrom_keeps env ps (formatFormal env s withName p).2 withName (i + 1)
    rw [formatFormalsFrom]
    exact ⟨by rw [ih2.1, ih1.1], fun h => ih2.2 (ih1.2 h)⟩
termination_by structural ps => ps
end

mutual
theorem formatType_det (env : Env) :
    ∀ (t : Ty) (s1 s2 : FmtState), s1.forceAssemblyPrefix = s2.forceAssemblyPrefix →
      FmtAgree (formatType env s1 t) (formatType env s2 t)
  | .Array (some t) _, s1, s2, h => by
    have ih := formatType_det env t s1 s2 h
    rw [formatType, formatType]
    exact ⟨by rw [ih.1], ih.2⟩
  | .Array none _, s1, s2, h => by rw [formatType, formatType]; exact ⟨rfl, h⟩
  | .BaseType b, s1, s2, h => by rw [formatType, formatType]; exact ⟨rfl, h⟩
  | .Enumeration, s1, s2, h => by rw [formatType, formatType]; exact ⟨rfl, h⟩
  | .Pointer (some t), s1, s2, h => by
    have ih := formatType_det env t s1 s2 h
    rw [formatType, formatType]
    exact ih
  | .Pointer none, s1, s2, h => by rw [formatType, formatType]; exact ⟨rfl, h⟩
  | .ProcType pt, s1, s2, h => by
    have ih := delegateRef_det env pt s1 s2 h
    rw [formatType, formatType]
    exact ⟨by rw [ih.1], ih.2⟩
  | .QualiType _ none, s1, s2, h => by rw [formatType, formatType]; exact ⟨rfl, h⟩
  | .QualiType d_selfRef (some t), s1, s2, h => by
    have ih := formatType_det env t s1 s2 h
    rw [formatType, formatType]
    split
    · split
      · exact ⟨formatRecordType_flag env s1 s2 _ h, h⟩
      · exact ⟨rfl, h⟩
    · exact ih
  | .Record r, s1, s2, h => by
    rw [formatType, formatType]
    exact ⟨formatRecordType_flag env s1 s2 _ h, h⟩
termination_by structural t => t
theorem formatTypeOpt_det (env : Env) :
    ∀ (t : Option Ty) (s1 s2 : FmtState), s1.forceAssemblyPrefix = s2.forceAssemblyPrefix →
      FmtAgree (formatTypeOpt env s1 t) (formatTypeOpt env s2 t)
  | none, s1, s2, h => by rw [formatTypeOpt, formatTypeOpt]; exact ⟨rfl, h⟩
  | some t, s1, s2, h => by
    have ih := formatType_det env t s1 s2 h
    rw [formatTypeOpt, formatTypeOpt]
    exact ih
termination_by structural t => t
theorem delegateRef_det (env : Env) :
    ∀ (pt : ProcType) (s1 s2 : FmtState), s1.forceAssemblyPrefix = s2.forceAssemblyPrefix →
      FmtAgree (delegateRef env s1 pt) (delegateRef env s2 pt)
  | .mk d_formals d_return d_typeBound declaredIn, s1, s2, _ => by
    have ih1 := formatTypeOpt_det env d_return { s1 with forceAssemblyPrefix := true }
      { s2 with forceAssemblyPrefix := true } rfl
    have ih2 := formatFormalsFrom_det env d_formals
      (formatTypeOpt env { s1 with forceAssemblyPrefix := true } d_return).2
      (formatTypeOpt env { s2 with forceAssemblyPrefix := true } d_return).2 false 0 ih1.2
    simp only [delegateRef]
    refine ⟨?_, rfl⟩
    rw [ih1.1, ih2.1]
    by_cases hd : declaredIn = some env.thisMod
    · simp only [hd, ↓reduceIte, moduleRef, ih2.2]
    · simp only [hd, ↓reduceIte, moduleRef, ih2.2]
termination_by structural pt => pt
theorem formatFormal_det (env : Env) :
    ∀ (p : Parameter) (s1 s2 : FmtState) (withName : Bool),
      s1.forceAssemblyPrefix = s2.forceAssemblyPrefix →
      FmtAgree (formatFormal env s1 withName p) (formatFormal env s2 withName p)
  | .mk d_name d_var d_const d_type, s1, s2, withName, h => by
    have ih := formatTypeOpt_det env d_type s1 s2 h
    rw [formatFormal, formatFormal]
    exact ⟨by rw [ih.1], ih.2⟩
termination_by structural p => p
theorem formatFormalsFrom_det (env : Env) :
    ∀ (ps : List Parameter) (s1 s2 : FmtState) (withName : Bool) (i : Nat),
      s1.forceAssemblyPrefix = s2.forceAssemblyPrefix →
      FmtAgree (formatFormalsFrom env s1 withName i ps) (formatFormalsFrom env s2 withName i ps)
  | [], s1, s2, withName, i, h => by rw [formatFormalsFrom, formatFormalsFrom]; exact ⟨rfl, h⟩
  | p :: ps, s1, s2, withName, i, h => by
    have ih1 := formatFormal_det env p s1 s2 withName h
    have ih2 := formatFormalsFrom_det env ps (formatFormal env s1 withName p).2
      (formatFormal env s2 withName p).2 withName (i + 1) ih1.2
    rw [formatFormalsFrom, formatFormalsFrom]
    exact ⟨by rw [ih1.1, ih2.1], ih2.2⟩
termination_by structural ps => ps
end

theorem copierSigsOf_append (l1 l2 : List Emit) :
    copierSigsOf (l1 ++ l2) = copierSigsOf l1 ++ copierSigsOf l2 := by
  simp [copierSigsOf]

theorem copierSigsOf_none (l : List Emit) (h : ∀ e ∈ l, e.isArgument = false) :
    copierSigsOf l = [] := by
  induction l with
  | nil => rfl
  | cons e es ih =>
    have h1 := h e (List.mem_cons_self _ _)
    have h2 := ih (fun x hx => h x (List.mem_cons_of_mem _ hx))
    have : e :: es = [e] ++ es := rfl
    rw [this, copierSigsOf_append, h2, List.append_nil]
    cases e <;> first | rfl | exact Bool.noConfusion h1

theorem copierSigsOf_appends {g1 g2 : Gen} (h : Appends (fun e => e.isArgument = false) g1 g2) :
    copierSigsOf g2.out = copierSigsOf g1.out := by
  obtain ⟨l, hl, hp⟩ := h
  rw [hl, copierSigsOf_append, copierSigsOf_none l hp, List.append_nil]

theorem app_emit {P : Emit → Prop} {g x : Gen} (e : Emit) (he : P e) (h : Appends P g x) :
    Appends P g (x.emit e) :=
  appends_trans h ⟨[e], rfl, by simpa using he⟩

theorem app_emits {g x : Gen} (l : List Emit) (hl : l.all (fun e => !e.isArgument) = true)
    (h : Appends (fun e => e.isArgument = false) g x) :
    Appends (fun e => e.isArgument = false) g (x.emits l) := by
  refine appends_trans h ⟨l, rfl, ?_⟩
  intro e he
  have := List.all_eq_true.mp hl e he
  simpa using this

theorem app_fmt {P : Emit → Prop} {g x : Gen} (s : FmtState) (h : Appends P g x) :
    Appends P g { x with fmt := s } :=
  appends_trans h ⟨[], by simp, by simp⟩

theorem app_temps {P : Emit → Prop} {g x : Gen} (p : CilGenTempPool) (h : Appends P g x) :
    Appends P g { x with temps := p } :=
  appends_trans h ⟨[], by simp, by simp⟩

theorem app_labels {P : Emit → Prop} {g x : Gen} (n : Nat) (h : Appends P g x) :
    Appends P g { x with labels := n } :=
  appends_trans h ⟨[], by simp, by simp⟩

theorem app_line {g x : Gen} (loc : RowCol) (h : Appends (fun e => e.isArgument = false) g x) :
    Appends (fun e => e.isArgument = false) g (line x loc) := by
  refine appends_trans h ?_
  unfold line
  split
  · exact ⟨[Emit.line_ loc], rfl, by simp [Emit.isArgument]⟩
  · exact appends_refl _ x

theorem emitLocalVars_fmt (g : Gen) : (emitLocalVars g).fmt = g.fmt := by
  unfold emitLocalVars
  generalize List.range (g.temps.d_max + 1).toNat = is
  induction is generalizing g with
  | nil => rfl
  | cons i is ih => rw [List.foldl_cons, ih]; rfl

/-- The calls of the element copy in a copier are no arguments of a method. -/
theorem emitArrayCopier_element_appends (env : Env) (g : Gen) (et : Ty) (idx : Int)
    (addLbl : Nat) :
    Appends (fun e => e.isArgument = false) g (emitArrayCopier_element env g et idx addLbl) := by
  unfold emitArrayCopier_element
  split <;> (try dsimp only) <;>
    repeat' first
      | exact appends_refl _ g
      | refine app_emit _ rfl ?_
      | refine app_emits _ rfl ?_

theorem emitLocalVars_app {g x : Gen} (h : Appends (fun e => e.isArgument = false) g x) :
    Appends (fun e => e.isArgument = false) g (emitLocalVars x) :=
  appends_trans h (@emitLocalVars_appends (fun e => e.isArgument = false) (fun _ _ => rfl) x)

theorem app_buy {P : Emit → Prop} {g x : Gen} (h : Appends P g x) : Appends P g x.buy.2 :=
  appends_trans h ⟨[], by simp [Gen.buy], by simp⟩

theorem app_sell {P : Emit → Prop} {g x : Gen} (i : Int) (h : Appends P g x) :
    Appends P g (x.sell i) :=
  appends_trans h ⟨[], by simp [Gen.sell], by simp⟩

theorem app_newLabel {P : Emit → Prop} {g x : Gen} (h : Appends P g x) :
    Appends P g (newLabel x).2 :=
  appends_trans h ⟨[], by simp [newLabel], by simp⟩

theorem app_beginBody {P : Emit → Prop} {g x : Gen} (n : Nat) (h : Appends P g x) :
    Appends P g (beginBody x n) :=
  appends_trans h ⟨[], by simp [beginBody], by simp⟩

/-- The state of `emitArrayCopier` after the head of the copier. -/
theorem emitArrayCopier_appends (env : Env) (g : Gen) (d : Ty) (len : Option Nat)
    (loc : RowCol) :
    Appends (fun e => e.isArgument = false)
      ({ g.emit (Emit.beginMethod "'#copy'" true (some MethodKind.Static) none) with
          fmt := (formatType env g.fmt (Ty.Array (some d) len)).2 }.emits
        [Emit.addArgument (formatType env g.fmt (Ty.Array (some d) len)).1 "lhs",
         Emit.addArgument (formatType env g.fmt (Ty.Array (some d) len)).1 "rhs"])
      (emitArrayCopier env g (Ty.Array (some d) len) loc) := by
  unfold emitArrayCopier
  dsimp only
  exact app_emit _ (by rfl) (emitLocalVars_app (app_emit _ (by rfl) (app_sell _ (app_sell _
    (app_emits _ (by rfl) (appends_trans
      (app_emit _ (by rfl) (app_newLabel (app_emits _ (by rfl) (app_newLabel (app_newLabel
        (app_emits _ (by rfl) (app_buy (app_emits _ (by rfl) (app_newLabel (app_newLabel
          (app_emits _ (by rfl) (app_buy (app_line loc (app_beginBody 0
            (appends_refl _ _)))))))))))))))
      (emitArrayCopier_element_appends env _ _ _ _)))))))

/-- The calls of `emitArrayCopier`: the head of the copier for the signature
of the array type, then calls that declare no argument. -/
theorem emitArrayCopier_out (env : Env) (g : Gen) (d : Ty) (len : Option Nat) (loc : RowCol) :
    ∃ rest, (emitArrayCopier env g (Ty.Array (some d) len) loc).out =
        g.out ++ copierHead (formatType env g.fmt (Ty.Array (some d) len)).1 ++ rest ∧
      ∀ e ∈ rest, e.isArgument = false := by
  obtain ⟨rest, h1, h2⟩ := emitArrayCopier_appends env g d len loc
  refine ⟨rest, ?_, h2⟩
  rw [h1]
  simp only [Gen.emits, Gen.emit, copierHead, List.append_assoc, List.singleton_append,
    List.cons_append, List.nil_append]

theorem formatArrayCopierRef_fmt (env : Env) (s : FmtState) (a : Ty) :
    (formatArrayCopierRef env s a).2 =
      if (formatType env s a).2.copiers.any (fun e => e.1 == (formatType env s a).1) then
        (formatType env s a).2
      else
        { (formatType env s a).2 with
          copiers := (formatType env s a).2.copiers ++ [((formatType env s a).1, a)] } := rfl

/-- What the element copy of a copier does to the formatter state: the flag
stays unset, and a copier for the element type is requested if that is an
array. -/
theorem emitArrayCopier_element_fmt (env : Env) (g : Gen) (et : Ty) (idx : Int) (addLbl : Nat)
    (s0 : FmtState) (h0 : s0.forceAssemblyPrefix = false) (hk : g.fmt.copiers = s0.copiers)
    (hf : g.fmt.forceAssemblyPrefix = false) :
    (emitArrayCopier_element env g et idx addLbl).fmt.forceAssemblyPrefix = false ∧
    (emitArrayCopier_element env g et idx addLbl).fmt.copiers =
      match et with
      | .Array e l =>
        if s0.copiers.any (fun x => x.1 == (formatType env s0 (.Array e l)).1) then s0.copiers
        else s0.copiers ++ [((formatType env s0 (.Array e l)).1, .Array e l)]
      | _ => s0.copiers := by
  have k1 := formatType_keeps env et g.fmt
  have k2 := formatType_keeps env et (formatType env g.fmt et).2
  have k3 := formatType_keeps env et (formatType env (formatType env g.fmt et).2 et).2
  have d3 := formatType_det env et (formatType env (formatType env g.fmt et).2 et).2 s0
    ((k2.2 (k1.2 hf)).trans h0.symm)
  cases et with
  | Array e l =>
    simp only [emitArrayCopier_element, emit_fmt, Gen.emits, formatArrayCopierRef_fmt]
    rw [d3.1, k3.1, k2.1, k1.1, hk]
    split
    · exact ⟨k3.2 (k2.2 (k1.2 hf)), by rw [k3.1, k2.1, k1.1, hk]⟩
    · exact ⟨k3.2 (k2.2 (k1.2 hf)), rfl⟩
  | Record r =>
    simp only [emitArrayCopier_element, emit_fmt, Gen.emits]
    exact ⟨k3.2 (k2.2 (k1.2 hf)), by rw [k3.1, k2.1, k1.1, hk]⟩
  | QualiType a b =>
    simp only [emitArrayCopier_element]
    exact ⟨hf, hk⟩
  | BaseType b =>
    simp only [emitArrayCopier_element, emit_fmt, Gen.emits]
    exact ⟨k2.2 (k1.2 hf), by rw [k2.1, k1.1, hk]⟩
  | Enumeration =>
    simp only [emitArrayCopier_element, emit_fmt, Gen.emits]
    exact ⟨k2.2 (k1.2 hf), by rw [k2.1, k1.1, hk]⟩
  | Pointer p =>
    simp only [emitArrayCopier_element, emit_fmt, Gen.emits]
    exact ⟨k2.2 (k1.2 hf), by rw [k2.1, k1.1, hk]⟩
  | ProcType p =>
    simp only [emitArrayCopier_element, emit_fmt, Gen.emits]
    exact ⟨k2.2 (k1.2 hf), by rw [k2.1, k1.1, hk]⟩

theorem sell_fmt (g : Gen) (i : Int) : (g.sell i).fmt = g.fmt := rfl

theorem buy_fmt (g : Gen) : g.buy.2.fmt = g.fmt := rfl

theorem newLabel_fmt (g : Gen) : (newLabel g).2.fmt = g.fmt := rfl

theorem emits_fmt (g : Gen) (l : List Emit) : (g.emits l).fmt = g.fmt := rfl

theorem beginBody_fmt (g : Gen) (n : Nat) : (beginBody g n).fmt = g.fmt := rfl

/-- What `emitArrayCopier` does to the formatter state of a state whose flag
is unset: the flag stays unset, and the table `copiers` gets an entry for the
element type if that is an array whose signature has no entry. -/
theorem emitArrayCopier_fmt (env : Env) (g : Gen) (d : Ty) (len : Option Nat) (loc : RowCol)
    (hf : g.fmt.forceAssemblyPrefix = false) :
    (emitArrayCopier env g (Ty.Array (some d) len) loc).fmt.forceAssemblyPrefix = false ∧
    (emitArrayCopier env g (Ty.Array (some d) len) loc).fmt.copiers =
      match d.derefed with
      | .Array e l =>
        if g.fmt.copiers.any (fun x => x.1 == (formatType env g.fmt (.Array e l)).1) then
          g.fmt.copiers
        else g.fmt.copiers ++ [((formatType env g.fmt (.Array e l)).1, .Array e l)]
      | _ => g.fmt.copiers := by
  have k := formatType_keeps env (Ty.Array (some d) len) g.fmt
  simp only [emitArrayCopier, emit_fmt, emitLocalVars_fmt, sell_fmt, emits_fmt]
  apply emitArrayCopier_element_fmt env _ d.derefed _ _ g.fmt hf
  · simp only [emit_fmt, newLabel_fmt, emits_fmt, buy_fmt, line_fmt, beginBody_fmt]
    exact k.1
  · simp only [emit_fmt, newLabel_fmt, emits_fmt, buy_fmt, line_fmt, beginBody_fmt]
    exact k.2 hf

theorem derefed_arrayDepth : ∀ t : Ty, t.derefed.arrayDepth = t.arrayDepth
  | .QualiType _ (some t) => by
    rw [Ty.derefed, Ty.arrayDepth]
    exact derefed_arrayDepth t
  | .QualiType _ none => rfl
  | .Array _ _ => rfl
  | .BaseType _ => rfl
  | .Enumeration => rfl
  | .Pointer _ => rfl
  | .ProcType _ => rfl
  | .Record _ => rfl

theorem derefed_elemsPresent : ∀ t : Ty, t.derefed.elemsPresent = t.elemsPresent
  | .QualiType _ (some t) => by
    rw [Ty.derefed, Ty.elemsPresent]
    exact derefed_elemsPresent t
  | .QualiType _ none => rfl
  | .Array _ _ => rfl
  | .BaseType _ => rfl
  | .Enumeration => rfl
  | .Pointer _ => rfl
  | .ProcType _ => rfl
  | .Record _ => rfl

theorem getD_mem {α : Type} (l : List α) (i : Nat) (d : α) (hd : d ∈ l) : l.getD i d ∈ l := by
  rw [List.getD_eq_getElem?_getD]
  cases h : l[i]? with
  | none => simpa using hd
  | some x =>
    obtain ⟨hlt, he⟩ := List.getElem?_eq_some_iff.mp h
    simp only [Option.getD_some]
    rw [← he]
    exact List.getElem_mem _

theorem sum_filter_le (l : List (String × Ty)) (e : String × Ty) (he : e ∈ l) :
    copierFuelFor (l.filter (fun x => x.1 != e.1)) + (e.2.arrayDepth + 1) ≤ copierFuelFor l := by
  induction l with
  | nil => simp at he
  | cons x xs ih =>
    rcases List.mem_cons.mp he with h | h
    · subst h
      have : copierFuelFor (List.filter (fun x => x.1 != e.1) xs) ≤ copierFuelFor xs := by
        clear ih he
        induction xs with
        | nil => simp
        | cons y ys ih2 =>
          simp only [List.filter_cons]
          split
          · simp only [copierFuelFor, List.map_cons, List.sum_cons] at ih2 ⊢
            omega
          · simp only [copierFuelFor, List.map_cons, List.sum_cons] at ih2 ⊢
            omega
      simp only [List.filter_cons, bne_self_eq_false, Bool.false_eq_true, ↓reduceIte]
      simp only [copierFuelFor, List.map_cons, List.sum_cons] at this ⊢
      omega
    · have := ih h
      simp only [List.filter_cons]
      split
      · simp only [copierFuelFor, List.map_cons, List.sum_cons] at this ⊢
        omega
      · simp only [copierFuelFor, List.map_cons, List.sum_cons] at this ⊢
        omega

theorem copierFuelFor_pos (l : List (String × Ty)) (h : l ≠ []) : 0 < copierFuelFor l := by
  cases l with
  | nil => exact absurd rfl h
  | cons x xs =>
    simp only [copierFuelFor, List.map_cons, List.sum_cons]
    omega

theorem keys_filter (l : List (String × Ty)) (t t2 : String) (h : t2 ∈ l.map Prod.fst)
    (hne : t2 ≠ t) : t2 ∈ (l.filter (fun x => x.1 != t)).map Prod.fst := by
  obtain ⟨x, hx, rfl⟩ := List.mem_map.mp h
  exact List.mem_map.mpr ⟨x, List.mem_filter.mpr ⟨hx, by simpa using hne⟩, rfl⟩

theorem keep_or (l : List (String × Ty)) (done : List String) (t t2 : String)
    (h : t2 ∈ done ∨ t2 ∈ l.map Prod.fst) (ht : t ∈ done) :
    t2 ∈ done ∨ t2 ∈ (l.filter (fun x => x.1 != t)).map Prod.fst := by
  rcases h with h | h
  · exact Or.inl h
  · by_cases hne : t2 = t
    · exact Or.inl (hne ▸ ht)
    · exact Or.inr (keys_filter l t t2 h hne)

/-- An entry whose signature is in `done` is removed: the invariant stays. -/
theorem copierInv_skip (env : Env) (s0 : FmtState) (base : List Emit)
    (init emitted : List (String × Ty)) (done : List String) (g : Gen) (t : String)
    (h : CopierInv env s0 base init emitted done g) (ht : t ∈ done) :
    CopierInv env s0 base init emitted done
      { g with fmt := { g.fmt with copiers := g.fmt.copiers.filter (fun x => x.1 != t) } } := by
  obtain ⟨h1, h2, h3, h4, h5, h6, h7, h8, h9⟩ := h
  refine ⟨h1, h2, h3, ?_, h5, h6, h7, ?_, ?_⟩
  · intro e he
    exact h4 e (List.mem_filter.mp he).1
  · intro e he
    exact keep_or _ _ _ _ (h8 e he) ht
  · intro e he t2 h2'
    exact keep_or _ _ _ _ (h9 e he t2 h2') ht

theorem keys_append_or (l : List (String × Ty)) (done : List String) (t t2 : String)
    (h : t2 ∈ done ∨ t2 ∈ l.map Prod.fst) :
    t2 ∈ done ++ [t] ∨ t2 ∈ (l.filter (fun x => x.1 != t)).map Prod.fst := by
  rcases h with h | h
  · exact Or.inl (List.mem_append_left _ h)
  · by_cases hne : t2 = t
    · exact Or.inl (List.mem_append_right _ (by simp [hne]))
    · exact Or.inr (keys_filter l t t2 h hne)

/-- A copier is emitted for an entry whose signature is not in `done`: the
invariant holds for the lists extended by the entry. -/
theorem copierInv_emit (env : Env) (s0 : FmtState) (hs0 : s0.forceAssemblyPrefix = false)
    (base : List Emit) (init emitted : List (String × Ty)) (done : List String) (g : Gen)
    (e : String × Ty) (loc : RowCol)
    (h : CopierInv env s0 base init emitted done g) (he : e ∈ g.fmt.copiers)
    (ht : e.1 ∉ done) :
    CopierInv env s0 base init (emitted ++ [e]) (done ++ [e.1])
      (emitArrayCopier env
        { g with fmt := { g.fmt with copiers := g.fmt.copiers.filter (fun x => x.1 != e.1) } }
        e.2 loc) := by
  obtain ⟨h1, h2, h3, h4, h5, h6, h7, h8, h9⟩ := h
  obtain ⟨hv1, ⟨d, len, hv2⟩, hv3⟩ := h4 e he
  obtain ⟨t, a⟩ := e
  simp only at hv1 hv2 hv3 ht ⊢
  subst hv2
  have hf1 : ({ g with fmt := { g.fmt with
      copiers := g.fmt.copiers.filter (fun x => x.1 != t) } } : Gen).fmt.forceAssemblyPrefix =
        false := h3
  obtain ⟨f1, f2⟩ := emitArrayCopier_fmt env
    { g with fmt := { g.fmt with copiers := g.fmt.copiers.filter (fun x => x.1 != t) } }
    d len loc hf1
  obtain ⟨rest, o1, o2⟩ := emitArrayCopier_out env
    { g with fmt := { g.fmt with copiers := g.fmt.copiers.filter (fun x => x.1 != t) } }
    d len loc
  have hdet : ∀ ty : Ty, (formatType env
      ({ g with fmt := { g.fmt with
        copiers := g.fmt.copiers.filter (fun x => x.1 != t) } } : Gen).fmt ty).1 =
      (formatType env s0 ty).1 := fun ty =>
    (formatType_det env ty _ s0 (hf1.trans hs0.symm)).1
  rw [hdet] at o1
  simp only [hdet] at f2
  rw [← hv3] at o1
  have hsub : ∀ x, x ∈ (g.fmt.copiers.filter (fun x => x.1 != t)).map Prod.fst →
      x ∈ (emitArrayCopier env
        { g with fmt := { g.fmt with copiers := g.fmt.copiers.filter (fun x => x.1 != t) } }
        (Ty.Array (some d) len) loc).fmt.copiers.map Prod.fst := by
    intro x hx
    rw [f2]
    split
    · split
      · exact hx
      · exact List.mem_map.mpr (by
          obtain ⟨y, hy, rfl⟩ := List.mem_map.mp hx
          exact ⟨y, List.mem_append_left _ hy, rfl⟩)
    · exact hx
  refine ⟨by rw [h1]; simp, ?_, f1, ?_, ?_, ?_, ?_, ?_, ?_⟩
  · exact List.nodup_append.mpr ⟨h2, List.nodup_singleton _, by
      intro x hx hx2
      rw [List.mem_singleton] at hx2
      exact ht (hx2 ▸ hx)⟩
  · intro x hx
    rw [f2] at hx
    have hold : ∀ y, y ∈ g.fmt.copiers.filter (fun x => x.1 != t) → ValidEntry env s0 y :=
      fun y hy => h4 y (List.mem_filter.mp hy).1
    split at hx
    · rename_i e2 l2 hde
      split at hx
      · exact hold x hx
      · rcases List.mem_append.mp hx with hx | hx
        · exact hold x hx
        · rw [List.mem_singleton] at hx
          subst hx
          have hp : (Ty.Array e2 l2).elemsPresent = true := by
            rw [← hde, derefed_elemsPresent]
            simpa [Ty.elemsPresent] using hv1
          refine ⟨hp, ?_, rfl⟩
          cases e2 with
          | none => simp [Ty.elemsPresent] at hp
          | some d2 => exact ⟨d2, l2, rfl⟩
    · exact hold x hx
  · intro x hx
    rcases List.mem_append.mp hx with hx | hx
    · exact h5 x hx
    · rw [List.mem_singleton] at hx
      subst hx
      exact ⟨hv1, ⟨d, len, rfl⟩, hv3⟩
  · rw [o1, List.append_assoc, copierSigsOf_append, copierSigsOf_append, copierSigsOf_none rest o2]
    show copierSigsOf g.out ++ _ = _
    rw [h6, List.append_assoc]
    rfl
  · intro x hx
    rw [o1]
    rcases List.mem_append.mp hx with hx | hx
    · obtain ⟨p, q, hpq⟩ := h7 x hx
      refine ⟨p, q ++ (copierHead t ++ rest), ?_⟩
      show _ = g.out ++ copierHead t ++ rest
      rw [← hpq]
      simp only [List.append_assoc]
    · rw [List.mem_singleton] at hx
      subst hx
      exact ⟨g.out, rest, rfl⟩
  · intro x hx
    rcases keys_append_or g.fmt.copiers done t x.1 (h8 x hx) with h | h
    · exact Or.inl h
    · exact Or.inr (hsub _ h)
  · intro x hx t2 ht2
    rcases List.mem_append.mp hx with hx | hx
    · rcases keys_append_or g.fmt.copiers done t t2 (h9 x hx t2 ht2) with h | h
      · exact Or.inl h
      · exact Or.inr (hsub _ h)
    · rw [List.mem_singleton] at hx
      subst hx
      right
      rw [f2]
      simp only [elementCopierSig] at ht2
      split at ht2
      · rename_i e2 l2 hde
        simp only [Option.some.injEq] at ht2
        subst ht2
        try simp only [hde]
        split
        · rename_i hany
          obtain ⟨y, hy, hy2⟩ := List.any_eq_true.mp hany
          exact List.mem_map.mpr ⟨y, hy, by simpa using hy2⟩
        · exact List.mem_map.mpr ⟨_, List.mem_append_right _ (List.mem_singleton.mpr rfl), rfl⟩
      · exact Option.noConfusion ht2

theorem copierFuelFor_append (l : List (String × Ty)) (e : String × Ty) :
    copierFuelFor (l ++ [e]) = copierFuelFor l + (e.2.arrayDepth + 1) := by
  simp [copierFuelFor]

/-- The measure of the worklist after a copier has been emitted for one of its
entries. -/
theorem copierFuelFor_emit (env : Env) (g : Gen) (e : String × Ty) (d : Ty) (len : Option Nat)
    (loc : RowCol) (he : e ∈ g.fmt.copiers) (ha : e.2 = Ty.Array (some d) len)
    (hf : g.fmt.forceAssemblyPrefix = false) :
    copierFuelFor (emitArrayCopier env
        { g with fmt := { g.fmt with copiers := g.fmt.copiers.filter (fun x => x.1 != e.1) } }
        e.2 loc).fmt.copiers + 1 ≤ copierFuelFor g.fmt.copiers := by
  have hs := sum_filter_le g.fmt.copiers e he
  rw [ha] at hs ⊢
  obtain ⟨_, f2⟩ := emitArrayCopier_fmt env
    { g with fmt := { g.fmt with copiers := g.fmt.copiers.filter (fun x => x.1 != e.1) } }
    d len loc hf
  rw [f2]
  have hd : (Ty.Array (some d) len).arrayDepth = d.derefed.arrayDepth + 1 := by
    rw [derefed_arrayDepth]; rfl
  rw [hd] at hs
  split
  · rename_i e2 l2 hde
    rw [hde] at hs
    split
    · show copierFuelFor (g.fmt.copiers.filter (fun x => x.1 != e.1)) + 1 ≤ _
      omega
    · rw [copierFuelFor_append]
      show copierFuelFor (g.fmt.copiers.filter (fun x => x.1 != e.1)) +
        ((Ty.Array e2 l2).arrayDepth + 1) + 1 ≤ _
      omega
  · show copierFuelFor (g.fmt.copiers.filter (fun x => x.1 != e.1)) + 1 ≤ _
    omega

/-- The copier loop with enough fuel, from a state in which the invariant
holds: the loop ends with an empty table, and the invariant holds for the
copiers emitted. -/
theorem emitCopiers_inv (env : Env) (first : List (String × Ty) → Nat) (loc : RowCol)
    (s0 : FmtState) (hs0 : s0.forceAssemblyPrefix = false) (base : List Emit)
    (init : List (String × Ty)) :
    ∀ (fuel : Nat) (emitted : List (String × Ty)) (done : List String) (g : Gen),
      CopierInv env s0 base init emitted done g → copierFuelFor g.fmt.copiers ≤ fuel →
      ∃ emitted2 done2,
        CopierInv env s0 base init emitted2 done2 (emitCopiers env first loc fuel done g) ∧
        (emitCopiers env first loc fuel done g).fmt.copiers = [] := by
  intro fuel
  induction fuel with
  | zero =>
    intro emitted done g h hfuel
    have : g.fmt.copiers = [] := by
      by_contra hne
      have := copierFuelFor_pos _ hne
      omega
    exact ⟨emitted, done, h, this⟩
  | succ n ih =>
    intro emitted done g h hfuel
    rw [emitCopiers]
    cases hc : g.fmt.copiers with
    | nil => exact ⟨emitted, done, h, hc⟩
    | cons e0 rest =>
      simp only
      have hmem : (e0 :: rest).getD (first (e0 :: rest)) e0 ∈ g.fmt.copiers := by
        rw [hc]
        exact getD_mem _ _ _ (List.mem_cons_self _ _)
      generalize (e0 :: rest).getD (first (e0 :: rest)) e0 = e at hmem ⊢
      rw [← hc]
      split
      · rename_i hd
        have hd2 : e.1 ∈ done := by simpa using hd
        apply ih emitted done _ (copierInv_skip env s0 base init emitted done g e.1 h hd2)
        have := sum_filter_le g.fmt.copiers e hmem
        show copierFuelFor (g.fmt.copiers.filter (fun x => x.1 != e.1)) ≤ n
        omega
      · rename_i hd
        have hd2 : e.1 ∉ done := by simpa using hd
        obtain ⟨_, ⟨d, len, ha⟩, _⟩ := h.2.2.2.1 e hmem
        apply ih (emitted ++ [e]) (done ++ [e.1]) _
          (copierInv_emit env s0 hs0 base init emitted done g e loc h hmem hd2)
        have := copierFuelFor_emit env g e d len loc hmem ha h.2.2.1
        omega

/-- C21: the copier loop of `visit(Module)`, started in a state in which the
flag `forceAssemblyPrefix` is unset and every entry of `copiers` is as
`formatArrayCopierRef` makes it, with at least `copierFuelFor` iterations
allowed and whatever entry `begin()` yields, ends with an empty table; the
copiers it emits have pairwise different signatures; each has the head of a
public static method `'#copy'` with the arguments `lhs` and `rhs` of its
signature; every signature requested before the loop has exactly one of them,
and so has the signature of the element type of every emitted copier whose
element type is an array (the request made while that copier is emitted). -/
theorem emitCopiers_complete (env : Env) (first : List (String × Ty) → Nat) (loc : RowCol)
    (g : Gen) (fuel : Nat) (hflag : g.fmt.forceAssemblyPrefix = false)
    (hvalid : ∀ e ∈ g.fmt.copiers, ValidEntry env g.fmt e)
    (hfuel : copierFuelFor g.fmt.copiers ≤ fuel) :
    ∃ emitted : List (String × Ty),
      (emitCopiers env first loc fuel [] g).fmt.copiers = [] ∧
      copierSigsOf (emitCopiers env first loc fuel [] g).out =
        copierSigsOf g.out ++ emitted.map Prod.fst ∧
      (emitted.map Prod.fst).Nodup ∧
      (∀ e ∈ emitted, copierHead e.1 <:+: (emitCopiers env first loc fuel [] g).out) ∧
      (∀ e ∈ g.fmt.copiers, (emitted.map Prod.fst).count e.1 = 1) ∧
      (∀ e ∈ emitted, ValidEntry env g.fmt e ∧
        ∀ t, elementCopierSig env g.fmt e.2 = some t → (emitted.map Prod.fst).count t = 1) := by
  have h0 : CopierInv env g.fmt g.out g.fmt.copiers [] [] g := by
    refine ⟨rfl, List.nodup_nil, hflag, hvalid, ?_, by simp, ?_, ?_, ?_⟩
    · intro e he; simp at he
    · intro e he; simp at he
    · intro e he
      exact Or.inr (List.mem_map.mpr ⟨e, he, rfl⟩)
    · intro e he; simp at he
  obtain ⟨emitted, done, ⟨h1, h2, _, _, h5, h6, h7, h8, h9⟩, hempty⟩ :=
    emitCopiers_inv env first loc g.fmt hflag g.out g.fmt.copiers fuel [] [] g h0 hfuel
  subst h1
  rw [hempty] at h8 h9
  refine ⟨emitted, hempty, h6, h2, h7, ?_, ?_⟩
  · intro e he
    rcases h8 e he with h | h
    · exact List.count_eq_one_of_mem h2 h
    · simp at h
  · intro e he
    refine ⟨h5 e he, ?_⟩
    intro t ht
    rcases h9 e he t ht with h | h
    · exact List.count_eq_one_of_mem h2 h
    · simp at h

theorem emitCopiers_complete_witness :
    (∃ emitted : List (String × Ty),
      (emitCopiers exEnv (fun _ => 0) ⟨9, 1⟩ 5 [] exCopiersRequested).fmt.copiers = [] ∧
      copierSigsOf (emitCopiers exEnv (fun _ => 0) ⟨9, 1⟩ 5 [] exCopiersRequested).out =
        copierSigsOf exCopiersRequested.out ++ emitted.map Prod.fst ∧
      (emitted.map Prod.fst).Nodup ∧
      (∀ e ∈ emitted,
        copierHead e.1 <:+: (emitCopiers exEnv (fun _ => 0) ⟨9, 1⟩ 5 [] exCopiersRequested).out) ∧
      (∀ e ∈ exCopiersRequested.fmt.copiers, (emitted.map Prod.fst).count e.1 = 1) ∧
      (∀ e ∈ emitted, ValidEntry exEnv exCopiersRequested.fmt e ∧
        ∀ t, elementCopierSig exEnv exCopiersRequested.fmt e.2 = some t →
          (emitted.map Prod.fst).count t = 1)) ∧
    exCopiersRequested.fmt.copiers.map Prod.fst = ["char[][]", "int32[]"] ∧
    copierSigsOf (emitCopiers exEnv (fun _ => 0) ⟨9, 1⟩ 5 [] exCopiersRequested).out =
      ["char[][]", "int32[]", "char[]"] :=
  ⟨emitCopiers_complete exEnv (fun _ => 0) ⟨9, 1⟩ exCopiersRequested 5 rfl
      (by
        intro e he
        have hc : exCopiersRequested.fmt.copiers =
            [("char[][]", Ty.Array (some (Ty.Array (some (Ty.BaseType BaseTypeTag.CHAR))
                (some 3))) (some 2)),
             ("int32[]", Ty.Array (some (Ty.BaseType BaseTypeTag.INTEGER)) (some 4))] := rfl
        rw [hc] at he
        simp only [List.mem_cons, List.mem_singleton, List.mem_nil_iff, or_false] at he
        rcases he with rfl | rfl
        · exact ⟨rfl, ⟨_, _, rfl⟩, by decide⟩
        · exact ⟨rfl, ⟨_, _, rfl⟩, by decide⟩)
      (by decide),
    by decide, by decide⟩

/-! ## String relations -/

theorem nonLine_stringOp (lc rc : Bool) :
    ∃ sig, sig ∈ ["bool [OBX.Runtime]OBX.Runtime::relOp(char,char,int32)",
        "bool [OBX.Runtime]OBX.Runtime::relOp(char,char[],int32)",
        "bool [OBX.Runtime]OBX.Runtime::relOp(char[],char,int32)",
        "bool [OBX.Runtime]OBX.Runtime::relOp(char[],char[],int32)"] ∧
      ∀ (op : Int) (loc : RowCol) (g : Gen),
        nonLine (stringOp lc rc op loc g).out =
          nonLine g.out ++ [Emit.ldc_i4 op, Emit.call_ sig (some 3) (some true) none] := by
  cases lc <;> cases rc
  · refine ⟨"bool [OBX.Runtime]OBX.Runtime::relOp(char[],char[],int32)", by simp, ?_⟩
    intro op loc g
    simp only [stringOp, Bool.false_and, Bool.and_false, Bool.not_false, Bool.and_true,
      Bool.false_eq_true, ↓reduceIte]
    rw [nonLine_line_emit _ _ _ (by rfl), nonLine_line_emit _ _ _ (by rfl), List.append_assoc]
    rfl
  · refine ⟨"bool [OBX.Runtime]OBX.Runtime::relOp(char[],char,int32)", by simp, ?_⟩
    intro op loc g
    simp only [stringOp, Bool.false_and, Bool.and_false, Bool.not_false, Bool.and_true,
      Bool.not_true, Bool.true_and, Bool.false_eq_true, ↓reduceIte]
    rw [nonLine_line_emit _ _ _ (by rfl), nonLine_line_emit _ _ _ (by rfl), List.append_assoc]
    rfl
  · refine ⟨"bool [OBX.Runtime]OBX.Runtime::relOp(char,char[],int32)", by simp, ?_⟩
    intro op loc g
    simp only [stringOp, Bool.false_and, Bool.and_false, Bool.not_false, Bool.and_true,
      Bool.not_true, Bool.true_and, Bool.false_eq_true, ↓reduceIte]
    rw [nonLine_line_emit _ _ _ (by rfl), nonLine_line_emit _ _ _ (by rfl), List.append_assoc]
    rfl
  · refine ⟨"bool [OBX.Runtime]OBX.Runtime::relOp(char,char,int32)", by simp, ?_⟩
    intro op loc g
    simp only [stringOp, Bool.and_self, ↓reduceIte]
    rw [nonLine_line_emit _ _ _ (by rfl), nonLine_line_emit _ _ _ (by rfl), List.append_assoc]
    rfl

/-- `OBX$StrOp` on two zero-terminated strings (a narrow one consists of
bytes): the result for each operator. -/
theorem OBX_StrOp_spec (lhs rhs : List Nat) (lwide rwide : Bool)
    (hl : 0 ∈ lhs) (hr : 0 ∈ rhs)
    (hlb : lwide = false → ∀ x ∈ lhs, x < 256) (hrb : rwide = false → ∀ x ∈ rhs, x < 256) :
    ∃ c : Int, (∀ op, OBX.OBX_StrOp lhs lwide rhs rwide op =
        some (if 1 ≤ op ∧ op ≤ 6 then OBX.strOpSwitch op c else 0)) ∧
      (c = 0 ↔ OBX.cstring lhs = OBX.cstring rhs) ∧
      (c < 0 ↔ List.Lex (· < ·) (OBX.cstring lhs) (OBX.cstring rhs)) ∧
      (0 < c ↔ List.Lex (· < ·) (OBX.cstring rhs) (OBX.cstring lhs)) := by
  have hw : ∃ l r, (if lwide then some lhs else OBX.widen lhs) = some l ∧
      (if rwide then some rhs else OBX.widen rhs) = some r ∧ 0 ∈ l ∧ 0 ∈ r ∧
      OBX.cstring l = OBX.cstring lhs ∧ OBX.cstring r = OBX.cstring rhs := by
    have h1 : ∃ l, (if lwide then some lhs else OBX.widen lhs) = some l ∧ 0 ∈ l ∧
        OBX.cstring l = OBX.cstring lhs := by
      cases lwide with
      | true => exact ⟨lhs, rfl, hl, rfl⟩
      | false =>
        obtain ⟨w, a, b, c⟩ := OBX.widen_spec lhs hl (hlb rfl)
        exact ⟨w, by simpa using a, b, c⟩
    have h2 : ∃ r, (if rwide then some rhs else OBX.widen rhs) = some r ∧ 0 ∈ r ∧
        OBX.cstring r = OBX.cstring rhs := by
      cases rwide with
      | true => exact ⟨rhs, rfl, hr, rfl⟩
      | false =>
        obtain ⟨w, a, b, c⟩ := OBX.widen_spec rhs hr (hrb rfl)
        exact ⟨w, by simpa using a, b, c⟩
    obtain ⟨l, a1, a2, a3⟩ := h1
    obtain ⟨r, b1, b2, b3⟩ := h2
    exact ⟨l, r, a1, b1, a2, b2, a3, b3⟩
  by_cases hn : (!lwide && !rwide) = true
  · obtain ⟨c, h1, h2, h3, h4⟩ := OBX.strcmp_spec lhs rhs hl hr
    refine ⟨c, ?_, h2, h3, h4⟩
    intro op
    unfold OBX.OBX_StrOp
    rw [if_pos hn, h1]
    split <;> rfl
  · obtain ⟨l, r, e1, e2, m1, m2, c1, c2⟩ := hw
    obtain ⟨c, h1, h2, h3, h4⟩ := OBX.strcmp_spec l r m1 m2
    rw [c1, c2] at h2 h3 h4
    refine ⟨c, ?_, h2, h3, h4⟩
    intro op
    unfold OBX.OBX_StrOp
    rw [if_neg hn, e1, e2]
    simp only [OBX.wcscmp, h1]
    split <;> rfl

/-- C32: the relation codes of the generator and of the runtime agree. For
two text operands that are not compared by an instruction, the relations `=`,
`#`, `<`, `<=`, `>`, `>=` emit, line markers aside, `ldc.i4` with 1, 2, 3, 4, 5,
6 and then the call of `relOp`; and `OBX$StrOp` on two zero-terminated strings
(narrow strings of bytes or wide strings) returns for `op` 1 to 6 whether the
first string is equal to, different from, lexicographically below, not above,
above, not below the second (1 or 0), and 0 for every other `op`. -/
theorem relOp_code_agrees (env : Env) (lhsT rhsT : Ty) (d_loc : RowCol) (v : Gen → Gen)
    (g : Gen) (lhs rhs : List Nat) (lwide rwide : Bool)
    (htext : (lhsT.isText && rhsT.isText) = true)
    (heq : eqComparable lhsT rhsT = false) (hord : ordComparable lhsT rhsT = false)
    (hl : 0 ∈ lhs) (hr : 0 ∈ rhs)
    (hlb : lwide = false → ∀ x ∈ lhs, x < 256) (hrb : rwide = false → ∀ x ∈ rhs, x < 256) :
    (∃ sig, sig ∈ ["bool [OBX.Runtime]OBX.Runtime::relOp(char,char,int32)",
        "bool [OBX.Runtime]OBX.Runtime::relOp(char,char[],int32)",
        "bool [OBX.Runtime]OBX.Runtime::relOp(char[],char,int32)",
        "bool [OBX.Runtime]OBX.Runtime::relOp(char[],char[],int32)"] ∧
      ∀ x ∈ [(BinOp.EQ, (1 : Int)), (BinOp.NEQ, 2), (BinOp.LT, 3), (BinOp.LEQ, 4),
          (BinOp.GT, 5), (BinOp.GEQ, 6)],
        nonLine (visitBinExpr_op env x.1 lhsT rhsT d_loc v g).out =
          nonLine g.out ++ [Emit.ldc_i4 x.2, Emit.call_ sig (some 3) (some true) none]) ∧
    OBX.OBX_StrOp lhs lwide rhs rwide 1 = some (if OBX.cstring lhs = OBX.cstring rhs then 1 else 0) ∧
    OBX.OBX_StrOp lhs lwide rhs rwide 2 = some (if OBX.cstring lhs ≠ OBX.cstring rhs then 1 else 0) ∧
    OBX.OBX_StrOp lhs lwide rhs rwide 3 =
      some (if List.Lex (· < ·) (OBX.cstring lhs) (OBX.cstring rhs) then 1 else 0) ∧
    OBX.OBX_StrOp lhs lwide rhs rwide 4 =
      some (if ¬ List.Lex (· < ·) (OBX.cstring rhs) (OBX.cstring lhs) then 1 else 0) ∧
    OBX.OBX_StrOp lhs lwide rhs rwide 5 =
      some (if List.Lex (· < ·) (OBX.cstring rhs) (OBX.cstring lhs) then 1 else 0) ∧
    OBX.OBX_StrOp lhs lwide rhs rwide 6 =
      some (if ¬ List.Lex (· < ·) (OBX.cstring lhs) (OBX.cstring rhs) then 1 else 0) ∧
    ∀ op : Int, ¬ (1 ≤ op ∧ op ≤ 6) → OBX.OBX_StrOp lhs lwide rhs rwide op = some 0 := by
  obtain ⟨sig, hsig, hcode⟩ := nonLine_stringOp lhsT.isChar rhsT.isChar
  obtain ⟨c, hc, h0, hlt, hgt⟩ := OBX_StrOp_spec lhs rhs lwide rwide hl hr hlb hrb
  refine ⟨⟨sig, hsig, ?_⟩, ?_, ?_, ?_, ?_, ?_, ?_, ?_⟩
  · intro x hx
    simp only [List.mem_cons, List.mem_singleton, List.mem_nil_iff, or_false] at hx
    rcases hx with rfl | rfl | rfl | rfl | rfl | rfl <;>
      simp only [visitBinExpr_op, heq, hord, htext, Bool.false_eq_true, ↓reduceIte, hcode]
  · have e : (if 1 ≤ (1 : Int) ∧ (1 : Int) ≤ 6 then OBX.strOpSwitch 1 c else 0) =
        if c = 0 then 1 else 0 := by simp [OBX.strOpSwitch]
    rw [hc, e]; exact congrArg some (if_congr h0 rfl rfl)
  · have e : (if 1 ≤ (2 : Int) ∧ (2 : Int) ≤ 6 then OBX.strOpSwitch 2 c else 0) =
        if c ≠ 0 then 1 else 0 := by simp [OBX.strOpSwitch]
    rw [hc, e]; exact congrArg some (if_congr (not_congr h0) rfl rfl)
  · have e : (if 1 ≤ (3 : Int) ∧ (3 : Int) ≤ 6 then OBX.strOpSwitch 3 c else 0) =
        if c < 0 then 1 else 0 := by simp [OBX.strOpSwitch]
    rw [hc, e]; exact congrArg some (if_congr hlt rfl rfl)
  · have e : (if 1 ≤ (4 : Int) ∧ (4 : Int) ≤ 6 then OBX.strOpSwitch 4 c else 0) =
        if c ≤ 0 then 1 else 0 := by simp [OBX.strOpSwitch]
    rw [hc, e]; exact congrArg some (if_congr (not_lt.symm.trans (not_congr hgt)) rfl rfl)
  · have e : (if 1 ≤ (5 : Int) ∧ (5 : Int) ≤ 6 then OBX.strOpSwitch 5 c else 0) =
        if c > 0 then 1 else 0 := by simp [OBX.strOpSwitch]
    rw [hc, e]; exact congrArg some (if_congr hgt rfl rfl)
  · have e : (if 1 ≤ (6 : Int) ∧ (6 : Int) ≤ 6 then OBX.strOpSwitch 6 c else 0) =
        if c ≥ 0 then 1 else 0 := by simp [OBX.strOpSwitch]
    rw [hc, e]; exact congrArg some (if_congr (not_lt.symm.trans (not_congr hlt)) rfl rfl)
  · intro op hop
    rw [hc, if_neg hop]

theorem relOp_code_agrees_witness :
    (∃ sig, sig ∈ ["bool [OBX.Runtime]OBX.Runtime::relOp(char,char,int32)",
        "bool [OBX.Runtime]OBX.Runtime::relOp(char,char[],int32)",
        "bool [OBX.Runtime]OBX.Runtime::relOp(char[],char,int32)",
        "bool [OBX.Runtime]OBX.Runtime::relOp(char[],char[],int32)"] ∧
      ∀ x ∈ [(BinOp.EQ, (1 : Int)), (BinOp.NEQ, 2), (BinOp.LT, 3), (BinOp.LEQ, 4),
          (BinOp.GT, 5), (BinOp.GEQ, 6)],
        nonLine (visitBinExpr_op exEnv x.1 (Ty.BaseType BaseTypeTag.STRING)
            (Ty.BaseType BaseTypeTag.STRING) ⟨3, 7⟩ id Gen.init).out =
          nonLine Gen.init.out ++ [Emit.ldc_i4 x.2, Emit.call_ sig (some 3) (some true) none]) ∧
    OBX.OBX_StrOp [97, 98, 0] false [98, 0] true 1 =
      some (if OBX.cstring [97, 98, 0] = OBX.cstring [98, 0] then 1 else 0) ∧
    OBX.OBX_StrOp [97, 98, 0] false [98, 0] true 2 =
      some (if OBX.cstring [97, 98, 0] ≠ OBX.cstring [98, 0] then 1 else 0) ∧
    OBX.OBX_StrOp [97, 98, 0] false [98, 0] true 3 =
      some (if List.Lex (· < ·) (OBX.cstring [97, 98, 0]) (OBX.cstring [98, 0]) then 1 else 0) ∧
    OBX.OBX_StrOp [97, 98, 0] false [98, 0] true 4 =
      some (if ¬ List.Lex (· < ·) (OBX.cstring [98, 0]) (OBX.cstring [97, 98, 0]) then 1 else 0) ∧
    OBX.OBX_StrOp [97, 98, 0] false [98, 0] true 5 =
      some (if List.Lex (· < ·) (OBX.cstring [98, 0]) (OBX.cstring [97, 98, 0]) then 1 else 0) ∧
    OBX.OBX_StrOp [97, 98, 0] false [98, 0] true 6 =
      some (if ¬ List.Lex (· < ·) (OBX.cstring [97, 98, 0]) (OBX.cstring [98, 0]) then 1 else 0) ∧
    ∀ op : Int, ¬ (1 ≤ op ∧ op ≤ 6) → OBX.OBX_StrOp [97, 98, 0] false [98, 0] true op = some 0 :=
  relOp_code_agrees exEnv (Ty.BaseType BaseTypeTag.STRING) (Ty.BaseType BaseTypeTag.STRING)
    ⟨3, 7⟩ id Gen.init [97, 98, 0] [98, 0] false true (by decide) (by decide) (by decide)
    (by decide) (by decide) (by decide) (by decide)

/-! ## Order of delegates and copiers -/

/-- C33: the operand of `ldc.i8` is the value truncated to 32 bits. For a
LONGINT constant with 64-bit value `v`, `emitConst` passes `val.toInt()`, an
`int`, to `ldc_i8`: the call emitted is `ldc.i8` with the low 32 bits of `v`
(sign extended), which is a 32-bit value whatever `v` is. For
`v = 5000000000`, a 64-bit value outside the 32-bit range, the operand is
`705032704`; for `v = -2147483649` it is `2147483647`. -/
theorem emitConst_longint_operand (loc : RowCol) (g : Gen) :
    (∀ v : Int, nonLine (emitConst BaseTypeTag.LONGINT (QVariant.ofLongLong v) loc g).out =
      nonLine g.out ++ [Emit.ldc_i8 (OBX.wrap32 v)]) ∧
    (∀ v : Int, OBX.isInt32 (OBX.wrap32 v)) ∧
    OBX.isInt64 5000000000 ∧ ¬ OBX.isInt32 5000000000 ∧
    nonLine (emitConst BaseTypeTag.LONGINT (QVariant.ofLongLong 5000000000) loc g).out =
      nonLine g.out ++ [Emit.ldc_i8 705032704] ∧
    nonLine (emitConst BaseTypeTag.LONGINT (QVariant.ofLongLong (-2147483649)) loc g).out =
      nonLine g.out ++ [Emit.ldc_i8 2147483647] := by
  have h : ∀ v : Int, nonLine (emitConst BaseTypeTag.LONGINT (QVariant.ofLongLong v) loc g).out =
      nonLine g.out ++ [Emit.ldc_i8 (OBX.wrap32 v)] := by
    intro v
    simp only [emitConst]
    rw [nonLine_line_emit _ _ _ (by rfl)]
    rfl
  refine ⟨h, ?_, by decide, by decide, ?_, ?_⟩
  · intro v
    unfold OBX.isInt32 OBX.wrap32
    omega
  · rw [h]; rfl
  · rw [h]; rfl

/-! ## Termination of the copier loop -/

/-- What `emitArrayCopier` adds to the table `copiers`: nothing, or one entry
for the element type, an array type of smaller nesting depth. -/
theorem emitArrayCopier_adds (env : Env) (g : Gen) (d : Ty) (len : Option Nat) (loc : RowCol)
    (hf : g.fmt.forceAssemblyPrefix = false) :
    (emitArrayCopier env g (Ty.Array (some d) len) loc).fmt.copiers = g.fmt.copiers ∨
    ∃ e2 l2, d.derefed = Ty.Array e2 l2 ∧
      (emitArrayCopier env g (Ty.Array (some d) len) loc).fmt.copiers =
        g.fmt.copiers ++ [((formatType env g.fmt (Ty.Array e2 l2)).1, Ty.Array e2 l2)] ∧
      (Ty.Array e2 l2).arrayDepth < (Ty.Array (some d) len).arrayDepth := by
  obtain ⟨_, h⟩ := emitArrayCopier_fmt env g d len loc hf
  rw [h]
  have hd : (Ty.Array (some d) len).arrayDepth = d.derefed.arrayDepth + 1 := by
    rw [derefed_arrayDepth]; rfl
  split
  · rename_i e2 l2 hde
    split
    · exact Or.inl rfl
    · refine Or.inr ⟨e2, l2, hde, rfl, ?_⟩
      rw [hd, hde]
      omega
  · exact Or.inl rfl

/-- The flag `forceAssemblyPrefix` after `emitArrayCopier`. -/
theorem emitArrayCopier_flag (env : Env) (g : Gen) (a : Ty) (loc : RowCol)
    (hf : g.fmt.forceAssemblyPrefix = false) :
    (emitArrayCopier env g a loc).fmt.forceAssemblyPrefix = false := by
  cases a with
  | Array t len =>
    cases t with
    | some d => exact (emitArrayCopier_fmt env g d len loc hf).1
    | none => exact hf
  | _ => exact hf

/-- The measure of the worklist after the iteration for the entry `e`. -/
theorem copierFuelFor_step (env : Env) (g : Gen) (e : String × Ty) (loc : RowCol)
    (he : e ∈ g.fmt.copiers) (hf : g.fmt.forceAssemblyPrefix = false) :
    copierFuelFor (emitArrayCopier env
        { g with fmt := { g.fmt with copiers := g.fmt.copiers.filter (fun x => x.1 != e.1) } }
        e.2 loc).fmt.copiers + 1 ≤ copierFuelFor g.fmt.copiers := by
  have hs := sum_filter_le g.fmt.copiers e he
  cases ha : e.2 with
  | Array t len =>
    cases t with
    | some d => rw [← ha]; exact copierFuelFor_emit env g e d len loc he ha hf
    | none =>
      show copierFuelFor (g.fmt.copiers.filter (fun x => x.1 != e.1)) + 1 ≤ _
      omega
  | _ =>
    show copierFuelFor (g.fmt.copiers.filter (fun x => x.1 != e.1)) + 1 ≤ _
    omega

/-- The copier loop with two bounds that both suffice: the same result, with
an empty table. -/
theorem emitCopiers_stable (env : Env) (first : List (String × Ty) → Nat) (loc : RowCol) :
    ∀ (n m : Nat) (done : List String) (g : Gen), g.fmt.forceAssemblyPrefix = false →
      copierFuelFor g.fmt.copiers ≤ n → copierFuelFor g.fmt.copiers ≤ m →
      emitCopiers env first loc n done g = emitCopiers env first loc m done g ∧
      (emitCopiers env first loc n done g).fmt.copiers = [] := by
  intro n
  induction n with
  | zero =>
    intro m done g _ hn _
    have hc : g.fmt.copiers = [] := by
      by_contra hne
      have := copierFuelFor_pos _ hne
      omega
    rw [emitCopiers_none env first loc m done g hc]
    exact ⟨rfl, hc⟩
  | succ n ih =>
    intro m done g hf hn hm
    cases hc : g.fmt.copiers with
    | nil =>
      rw [emitCopiers_none env first loc m done g hc,
        emitCopiers_none env first loc (n + 1) done g hc]
      exact ⟨rfl, hc⟩
    | cons e0 rest =>
      have hpos := copierFuelFor_pos g.fmt.copiers (by rw [hc]; simp)
      obtain ⟨m2, rfl⟩ : ∃ m2, m = m2 + 1 := ⟨m - 1, by omega⟩
      rw [emitCopiers, emitCopiers]
      simp only [hc]
      have hmem : (e0 :: rest).getD (first (e0 :: rest)) e0 ∈ g.fmt.copiers := by
        rw [hc]
        exact getD_mem _ _ _ (List.mem_cons_self _ _)
      generalize (e0 :: rest).getD (first (e0 :: rest)) e0 = e at hmem ⊢
      rw [← hc]
      have hs := sum_filter_le g.fmt.copiers e hmem
      have hstep := copierFuelFor_step env g e loc hmem hf
      split
      · apply ih
        · exact hf
        · show copierFuelFor (g.fmt.copiers.filter (fun x => x.1 != e.1)) ≤ n
          omega
        · show copierFuelFor (g.fmt.copiers.filter (fun x => x.1 != e.1)) ≤ m2
          omega
      · apply ih
        · exact emitArrayCopier_flag env _ e.2 loc hf
        · exact Nat.le_of_succ_le_succ (Nat.le_trans hstep hn)
        · exact Nat.le_of_succ_le_succ (Nat.le_trans hstep hm)

/-- C36: the copier loop of `visit(Module)` terminates. From every state in
which the flag `forceAssemblyPrefix` is unset, whatever the table `copiers`
holds, whatever entry `begin()` yields and whatever the set `done` holds, the
loop ends with an empty table after at most `copierFuelFor` iterations (the sum
of nesting depth + 1 over the entries): every larger bound gives the same
result. An iteration removes the entries of one signature, and emitting a
copier adds nothing or one entry, that of the element type, an array type of
smaller nesting depth; the sum falls with each iteration. -/
theorem emitCopiers_terminates (env : Env) (first : List (String × Ty) → Nat) (loc : RowCol)
    (done : List String) (g : Gen) (fuel : Nat) (hflag : g.fmt.forceAssemblyPrefix = false)
    (hfuel : copierFuelFor g.fmt.copiers ≤ fuel) :
    (emitCopiers env first loc fuel done g).fmt.copiers = [] ∧
    emitCopiers env first loc fuel done g =
      emitCopiers env first loc (copierFuelFor g.fmt.copiers) done g ∧
    (∀ e ∈ g.fmt.copiers,
      copierFuelFor (emitArrayCopier env
        { g with fmt := { g.fmt with copiers := g.fmt.copiers.filter (fun x => x.1 != e.1) } }
        e.2 loc).fmt.copiers < copierFuelFor g.fmt.copiers ∧
      copierFuelFor (g.fmt.copiers.filter (fun x => x.1 != e.1)) < copierFuelFor g.fmt.copiers) ∧
    (∀ (d : Ty) (len : Option Nat),
      (emitArrayCopier env g (Ty.Array (some d) len) loc).fmt.copiers = g.fmt.copiers ∨
      ∃ e2 l2, d.derefed = Ty.Array e2 l2 ∧
        (emitArrayCopier env g (Ty.Array (some d) len) loc).fmt.copiers =
          g.fmt.copiers ++ [((formatType env g.fmt (Ty.Array e2 l2)).1, Ty.Array e2 l2)] ∧
        (Ty.Array e2 l2).arrayDepth < (Ty.Array (some d) len).arrayDepth) := by
  obtain ⟨h1, h2⟩ := emitCopiers_stable env first loc fuel (copierFuelFor g.fmt.copiers) done g
    hflag hfuel (le_refl _)
  refine ⟨h2, h1, ?_, ?_⟩
  · intro e he
    have := copierFuelFor_step env g e loc he hflag
    have := sum_filter_le g.fmt.copiers e he
    exact ⟨by omega, by omega⟩
  · intro d len
    exact emitArrayCopier_adds env g d len loc hflag

theorem emitCopiers_terminates_witness :
    (emitCopiers exEnv (fun _ => 1) ⟨9, 1⟩ 7 ["x"] exCopiersRequested).fmt.copiers = [] ∧
    emitCopiers exEnv (fun _ => 1) ⟨9, 1⟩ 7 ["x"] exCopiersRequested =
      emitCopiers exEnv (fun _ => 1) ⟨9, 1⟩ (copierFuelFor exCopiersRequested.fmt.copiers) ["x"]
        exCopiersRequested ∧
    (∀ e ∈ exCopiersRequested.fmt.copiers,
      copierFuelFor (emitArrayCopier exEnv
        { exCopiersRequested with
          fmt := { exCopiersRequested.fmt with
            copiers := exCopiersRequested.fmt.copiers.filter (fun x => x.1 != e.1) } }
        e.2 ⟨9, 1⟩).fmt.copiers < copierFuelFor exCopiersRequested.fmt.copiers ∧
      copierFuelFor (exCopiersRequested.fmt.copiers.filter (fun x => x.1 != e.1)) <
        copierFuelFor exCopiersRequested.fmt.copiers) ∧
    (∀ (d : Ty) (len : Option Nat),
      (emitArrayCopier exEnv exCopiersRequested (Ty.Array (some d) len) ⟨9, 1⟩).fmt.copiers =
        exCopiersRequested.fmt.copiers ∨
      ∃ e2 l2, d.derefed = Ty.Array e2 l2 ∧
        (emitArrayCopier exEnv exCopiersRequested (Ty.Array (some d) len) ⟨9, 1⟩).fmt.copiers =
          exCopiersRequested.fmt.copiers ++
            [((formatType exEnv exCopiersRequested.fmt (Ty.Array e2 l2)).1, Ty.Array e2 l2)] ∧
        (Ty.Array e2 l2).arrayDepth < (Ty.Array (some d) len).arrayDepth) ∧
    copierFuelFor exCopiersRequested.fmt.copiers = 5 :=
  ⟨(emitCopiers_terminates exEnv (fun _ => 1) ⟨9, 1⟩ ["x"] exCopiersRequested 7 rfl
      (by decide)).1,
    (emitCopiers_terminates exEnv (fun _ => 1) ⟨9, 1⟩ ["x"] exCopiersRequested 7 rfl
      (by decide)).2.1,
    (emitCopiers_terminates exEnv (fun _ => 1) ⟨9, 1⟩ ["x"] exCopiersRequested 7 rfl
      (by decide)).2.2.1,
    (emitCopiers_terminates exEnv (fun _ => 1) ⟨9, 1⟩ ["x"] exCopiersRequested 7 rfl
      (by decide)).2.2.2,
    by decide⟩

/-! ## `CASE` without arms -/

/-- C40: a value `CASE` with zero arms reaches `emitIf` with an empty
condition list. For such a statement `visit( CaseStmt* )` builds an `IF` whose
lists `d_if` and `d_then` are empty and visits it; `emitIf` starts with
`me->d_if[0]`, an index out of range (counted as a failed assertion; nothing
is emitted). A type `CASE` with zero arms returns at once and leaves the
generator as it is. -/
theorem visitStmt_case_without_arms (env : Env) (isArithRelation : BinOp → Bool) (d_exp : Expr)
    (d_loc : RowCol) (g : Gen) :
    caseConds (caseCond d_exp) (([] : List Case).map Case.d_labels) = some [] ∧
    emitIf (visitExpr env isArithRelation) [] [] [] d_loc g = g.assertFailed ∧
    visitStmt env isArithRelation (Stmt.CaseStmt false d_exp [] d_loc) g = g.assertFailed ∧
    (visitStmt env isArithRelation (Stmt.CaseStmt false d_exp [] d_loc) g).failedAsserts =
      g.failedAsserts + 1 ∧
    (visitStmt env isArithRelation (Stmt.CaseStmt false d_exp [] d_loc) g).out = g.out ∧
    visitStmt env isArithRelation (Stmt.CaseStmt true d_exp [] d_loc) g = g :=
  ⟨rfl, rfl, rfl, rfl, rfl, rfl⟩

end Obx

namespace Pelib


/-! ## Example trees -/

theorem exRoot_eq : (beginModule "'M'").root = exRoot := rfl

theorem exRootMethod_eq :
    (parse primitivesContains MemberHint.Static "void 'M'::'f'()" exRoot).2 = exRootMethod := rfl

theorem exRootField_eq :
    (parse primitivesContains MemberHint.Static "int32 'M'::'x'" exRoot).2 = exRootField := rfl

theorem exRootF_eq :
    (parse primitivesContains MemberHint.Static "void 'M'::'f'(int32&)" exRoot).2 = exRootF := by
  decide!

theorem exRootG_eq :
    (parse primitivesContains MemberHint.Static "void 'M'::'g'(char[])" exRoot).2 = exRootG := by
  decide!


/-! ## Signature resolver -/

theorem cstr_idem (s : String) : cstr (cstr s) = cstr s := by
  simp only [cstr]
  congr 1
  exact List.takeWhile_idem

theorem equalParams_iff (sig : List Param) (pars : List (Nat × String × String)) :
    equalParams sig pars = true ↔
      sig.map (fun p => cstr p.typeCompare) = pars.map (fun p => cstr p.2.1) := by
  induction sig generalizing pars with
  | nil =>
    cases pars with
    | nil => simp [equalParams]
    | cons b l => simp [equalParams]
  | cons a sig ih =>
    cases pars with
    | nil => simp [equalParams]
    | cons b l =>
      have := ih l
      simp only [equalParams, List.length_cons, List.zip_cons_cons, List.all_cons,
        Bool.and_eq_true, decide_eq_true_eq, List.map_cons, List.cons.injEq] at this ⊢
      constructor
      · rintro ⟨h1, h2, h3⟩
        exact ⟨h2, this.mp ⟨by omega, h3⟩⟩
      · rintro ⟨h2, h3⟩
        have := this.mpr h3
        exact ⟨by omega, h2, this.2⟩

theorem findMethod_congr (t : Tree) (pars pars' : List (Nat × String × String))
    (hp : pars.map (fun p => cstr p.2.1) = pars'.map (fun p => cstr p.2.1)) (ms : List Nat) :
    findMethod t pars' ms = findMethod t pars ms := by
  induction ms with
  | nil => rfl
  | cons m rest ih =>
    simp only [findMethod]
    split
    · rename_i _ _ _ sig _ _ _
      have : equalParams sig pars' = equalParams sig pars := by
        rw [Bool.eq_iff_iff, equalParams_iff, equalParams_iff, hp]
      rw [this, ih]
    · rfl

theorem tree_values_newChild (t : Tree) (cls : Nat) (par : Option Nat) (key name : String)
    (x : Option Thing) (h : cls < t.length) :
    Tree.values ((t.newNode par name x).2.insert cls key (t.newNode par name x).1) cls key
      = t.length :: t.values cls key := by
  simp only [Tree.newNode, Tree.insert, Tree.values]
  have h1 : (t ++ [({ name := name, thing := x, parent := par, subs := [] } : Node)])[cls]?
      = some t[cls] := by
    rw [List.getElem?_append_left h]; exact List.getElem?_eq_getElem h
  rw [h1]
  simp only
  rw [List.getElem?_set_self (by simp; omega)]
  simp [subsValues, List.getElem?_eq_getElem h]

theorem tree_thing_newChild (t : Tree) (cls : Nat) (par : Option Nat) (key name : String)
    (x : Option Thing) (h : cls < t.length) :
    Tree.thing ((t.newNode par name x).2.insert cls key (t.newNode par name x).1) t.length = x := by
  simp only [Tree.newNode, Tree.insert, Tree.thing]
  have h1 : (t ++ [({ name := name, thing := x, parent := par, subs := [] } : Node)])[cls]?
      = some t[cls] := by
    rw [List.getElem?_append_left h]; exact List.getElem?_eq_getElem h
  rw [h1]
  simp only
  rw [List.getElem?_set_ne (by omega)]
  simp

theorem tree_thing_lt (t : Tree) (n : Nat) (x : Thing) (h : t.thing n = some x) :
    n < t.length := by
  simp only [Tree.thing] at h
  by_contra hn
  rw [List.getElem?_eq_none (by omega)] at h
  exact Option.noConfusion h



/-- The signature `createMethod` builds from the parameters. -/
theorem createMethod_sig_typeStr (f : Nat → Option Nat) (l : List (Nat × String × String)) :
    ∀ k : Nat, List.map (fun p : Param => cstr p.typeCompare)
      (List.map (fun p : Nat × Nat × String × String =>
        ({ name := cstr p.2.2.2, type := f p.2.1, index := p.1, typeCompare := cstr p.2.2.1 }
          : Param)) (l.enumFrom k))
      = l.map (fun p => cstr p.2.1) := by
  induction l with
  | nil => intro k; rfl
  | cons a l ih =>
    intro k
    simp only [List.enumFrom_cons, List.map_cons, cstr_idem, ih]

theorem createMethod_ok (cls : Nat) (name : String) (pars : List (Nat × String × String))
    (ret : Nat) (hint : MemberHint) (s s1 : PState) (n : Nat)
    (h : createMethod cls name pars ret hint s = (Except.ok n, s1)) :
    cls < s.root.length ∧ n = s.root.length ∧ s1.lex = s.lex ∧
    s1.root.values cls name = n :: s.root.values cls name ∧
    ∃ nm c r sig hn sp, s1.root.thing n = some (Thing.Method nm c r sig hn sp) ∧
      equalParams sig pars = true := by
  simp only [createMethod, bind, P.bind, getTree, newChild, assertP, pure, P.pure] at h
  cases ht : s.root.thing cls with
  | none => simp [ht] at h
  | some x =>
    have hlt := tree_thing_lt _ _ x ht
    by_cases hx : x.isDataContainer = true
    · simp only [ht, hx, ↓reduceIte, Prod.mk.injEq, Except.ok.injEq] at h
      obtain ⟨h1, h2⟩ := h
      subst h2
      refine ⟨hlt, ?_, rfl, ?_, ?_⟩
      · rw [← h1]; rfl
      · simp only
        rw [tree_values_newChild _ _ _ _ _ _ hlt, ← h1]; rfl
      · simp only
        have h3 : n = s.root.length := by rw [← h1]; rfl
        rw [h3, tree_thing_newChild _ _ _ _ _ _ hlt]
        refine ⟨_, _, _, _, _, _, rfl, ?_⟩
        rw [equalParams_iff]
        exact createMethod_sig_typeStr (fun n => match s.root.thing n with
          | some x => if x.isType = true then some n else none
          | none => none) pars 0
    · simp [ht, hx] at h

theorem bind_eq {α β : Type} (m : P α) (f : α → P β) : (m >>= f) = P.bind m f := rfl

theorem bind_ok {α β : Type} {m : P α} {f : α → P β} {s s1 : PState} {a : α}
    (h : m s = (Except.ok a, s1)) : P.bind m f s = f a s1 := by
  simp only [P.bind, h]

theorem bind_err {α β : Type} {m : P α} {f : α → P β} {s s1 : PState} {e : Err}
    (h : m s = (Except.error e, s1)) : P.bind m f s = (Except.error e, s1) := by
  simp only [P.bind, h]

theorem nextP_apply (s : PState) :
    nextP s = (Except.ok s.lex.next.1, { s with lex := s.lex.next.2 }) := rfl

theorem peekP_apply (s : PState) :
    peekP s = (Except.ok s.lex.peek.1, { s with lex := s.lex.peek.2 }) := rfl

theorem fuelP_apply (s : PState) : fuelP s = (Except.ok (s.lex.d_in.length + 1), s) := rfl

theorem getTree_apply (s : PState) : getTree s = (Except.ok s.root, s) := rfl

theorem pure_apply {α : Type} (a : α) (s : PState) : (pure a : P α) s = (Except.ok a, s) := rfl

theorem throwP_apply {α : Type} (msg : String) (s : PState) :
    (throwP msg : P α) s = (Except.error (Err.thrown msg), s) := rfl

theorem ident_tt (d_in : List Char) (ch : Char) (off : Nat) :
    (ident d_in ch off).1.d_tt ≠ TokenType.RBRACK := by
  unfold ident
  simp only
  split
  · exact fun h => TokenType.noConfusion h
  · split
    · exact fun h => TokenType.noConfusion h
    · exact fun h => TokenType.noConfusion h

theorem tt_ite {c : Prop} [Decidable c] {a b : Token × Nat}
    (ha : c → a.1.d_tt ≠ TokenType.RBRACK) (hb : ¬ c → b.1.d_tt ≠ TokenType.RBRACK) :
    (if c then a else b).1.d_tt ≠ TokenType.RBRACK := by
  split
  · exact ha ‹_›
  · exact hb ‹_›

theorem nextImp_no_rbrack (d_in : List Char) (d_off : Nat) (h : ']' ∉ d_in) :
    (nextImp d_in d_off).1.d_tt ≠ TokenType.RBRACK := by
  unfold nextImp
  simp only
  split
  · exact fun h => TokenType.noConfusion h
  · rename_i ch rest heq
    have hmem : ch ∈ d_in := by
      have h1 : ch ∈ List.dropWhile isspace (List.drop d_off d_in) := by
        rw [heq]; exact List.mem_cons_self _ _
      exact List.mem_of_mem_drop ((List.dropWhile_sublist _).subset h1)
    have hne : ch ≠ ']' := by
      intro he; rw [he] at hmem; exact h hmem
    refine tt_ite (fun _ => ident_tt _ _ _) (fun _ => ?_)
    refine tt_ite (fun _ => fun h => TokenType.noConfusion h) (fun _ => ?_)
    refine tt_ite (fun _ => tt_ite (fun _ => fun h => TokenType.noConfusion h)
      (fun _ => fun h => TokenType.noConfusion h)) (fun _ => ?_)
    refine tt_ite (fun hc => absurd hc hne) (fun _ => ?_)
    refine tt_ite (fun _ => ?_) (fun _ => ?_)
    · split
      · exact tt_ite (fun _ => fun h => TokenType.noConfusion h)
          (fun _ => fun h => TokenType.noConfusion h)
      · exact fun h => TokenType.noConfusion h
    refine tt_ite (fun _ => fun h => TokenType.noConfusion h) (fun _ => ?_)
    refine tt_ite (fun _ => fun h => TokenType.noConfusion h) (fun _ => ?_)
    refine tt_ite (fun _ => fun h => TokenType.noConfusion h) (fun _ => ?_)
    refine tt_ite (fun _ => fun h => TokenType.noConfusion h) (fun _ => ?_)
    refine tt_ite (fun _ => fun h => TokenType.noConfusion h) (fun _ => ?_)
    refine tt_ite (fun _ => tt_ite (fun _ => ident_tt _ _ _)
      (fun _ => fun h => TokenType.noConfusion h)) (fun _ => ?_)
    exact fun h => TokenType.noConfusion h

theorem peek_lexOk (l : SignatureLexer) (h : LexOk l) :
    LexOk l.peek.2 ∧ l.peek.1.d_tt ≠ TokenType.RBRACK := by
  simp only [SignatureLexer.peek]
  split
  · exact ⟨⟨h.1, nextImp_no_rbrack _ _ h.1⟩, nextImp_no_rbrack _ _ h.1⟩
  · exact ⟨h, h.2⟩

theorem next_lexOk (l : SignatureLexer) (h : LexOk l) :
    LexOk l.next.2 ∧ l.next.1.d_tt ≠ TokenType.RBRACK := by
  simp only [SignatureLexer.next]
  split
  · exact ⟨⟨h.1, fun h => TokenType.noConfusion h⟩, h.2⟩
  · exact ⟨⟨h.1, h.2⟩, nextImp_no_rbrack _ _ h.1⟩

/-! ### The tree only grows -/

theorem ext_refl (t : Tree) : Ext t t :=
  fun _ nd h => ⟨nd, h, rfl, rfl, fun _ hx => hx, fun _ _ hv => hv⟩

theorem ext_trans {t t1 t2 : Tree} (h1 : Ext t t1) (h2 : Ext t1 t2) : Ext t t2 := by
  intro i nd h
  obtain ⟨nd1, ha, hb, hc, hd, he⟩ := h1 i nd h
  obtain ⟨nd2, ha2, hb2, hc2, hd2, he2⟩ := h2 i nd1 ha
  exact ⟨nd2, ha2, hb2.trans hb, hc2.trans hc, fun x hx => hd2 x (hd x hx),
    fun k v hv => he2 k v (he k v hv)⟩

theorem ext_length {t t1 : Tree} (h : Ext t t1) : t.length ≤ t1.length := by
  by_contra hn
  have hlt : t1.length < t.length := by omega
  obtain ⟨nd1, ha, _⟩ := h t1.length t[t1.length] (List.getElem?_eq_getElem hlt)
  rw [List.getElem?_eq_none (le_refl _)] at ha
  exact Option.noConfusion ha

theorem ext_thing {t t1 : Tree} (h : Ext t t1) (n : Nat) (x : Thing)
    (hx : t.thing n = some x) : t1.thing n = some x := by
  simp only [Tree.thing] at hx ⊢
  cases hn : t[n]? with
  | none => rw [hn] at hx; exact Option.noConfusion hx
  | some nd =>
    rw [hn] at hx
    obtain ⟨nd1, ha, _, _, hd, _⟩ := h n nd hn
    rw [ha]
    exact hd x hx

theorem ext_value {t t1 : Tree} (h : Ext t t1) (n : Nat) (k : String) (v : Nat)
    (hv : t.value n k = some v) : t1.value n k = some v := by
  simp only [Tree.value] at hv ⊢
  cases hn : t[n]? with
  | none => rw [hn] at hv; exact Option.noConfusion hv
  | some nd =>
    rw [hn] at hv
    obtain ⟨nd1, ha, _, _, _, he⟩ := h n nd hn
    rw [ha]
    exact he k v hv

theorem ext_newChild (t : Tree) (scope : Nat) (par : Option Nat) (key name : String)
    (x : Option Thing) (h : t.value scope key = none) :
    Ext t ((t.newNode par name x).2.insert scope key (t.newNode par name x).1) := by
  intro i nd hi
  have hlt : i < t.length := by
    by_contra hn
    rw [List.getElem?_eq_none (by omega)] at hi
    exact Option.noConfusion hi
  have hget : t[i] = nd := by
    rw [List.getElem?_eq_getElem hlt] at hi
    exact Option.some.inj hi
  simp only [Tree.newNode, Tree.insert]
  have happ : (t ++ [({ name := name, thing := x, parent := par, subs := [] } : Node)])[i]?
      = some nd := by
    rw [List.getElem?_append_left hlt]; exact hi
  split
  · rename_i nd0 h0
    by_cases hs : scope = i
    · subst hs
      rw [happ] at h0
      have h00 : nd0 = nd := (Option.some.inj h0).symm
      subst h00
      rw [List.getElem?_set_self (by simp; omega)]
      refine ⟨_, rfl, rfl, rfl, fun _ hx => hx, ?_⟩
      intro k v hv
      simp only [subsValue]
      split
      · rename_i hk
        subst hk
        simp only [Tree.value, hi] at h
        rw [h] at hv
        exact Option.noConfusion hv
      · exact hv
    · rw [List.getElem?_set_ne hs, happ]
      exact ⟨nd, rfl, rfl, rfl, fun _ hx => hx, fun _ _ hv => hv⟩
  · exact ⟨nd, happ, rfl, rfl, fun _ hx => hx, fun _ _ hv => hv⟩

theorem ext_setThing (t : Tree) (n : Nat) (x : Thing) (h : t.thing n = none) :
    Ext t (t.setThing n x) := by
  intro i nd hi
  simp only [Tree.setThing]
  split
  · rename_i nd0 h0
    by_cases hs : n = i
    · subst hs
      rw [hi] at h0
      have h00 : nd0 = nd := (Option.some.inj h0).symm
      subst h00
      have hlt : n < t.length := by
        by_contra hn
        rw [List.getElem?_eq_none (by omega)] at hi
        exact Option.noConfusion hi
      rw [List.getElem?_set_self hlt]
      refine ⟨_, rfl, rfl, rfl, ?_, fun _ _ hv => hv⟩
      intro y hy
      simp only [Tree.thing, hi] at h
      rw [h] at hy
      exact Option.noConfusion hy
    · rw [List.getElem?_set_ne hs]
      exact ⟨nd, hi, rfl, rfl, fun _ hx => hx, fun _ _ hv => hv⟩
  · exact ⟨nd, hi, rfl, rfl, fun _ hx => hx, fun _ _ hv => hv⟩

theorem monoAt_bind {α β : Type} {s : PState} {m : P α} {f : α → P β}
    (hm : MonoAt s m) (hf : ∀ a s1, m s = (Except.ok a, s1) → MonoAt s1 (f a)) :
    MonoAt s (P.bind m f) := by
  intro r s2 h
  cases hms : m s with
  | mk r1 s1 =>
    cases r1 with
    | ok a =>
      rw [bind_ok hms] at h
      exact ext_trans (hm _ _ hms) (hf a s1 hms _ _ h)
    | error e =>
      rw [bind_err hms] at h
      simp only [Prod.mk.injEq] at h
      rw [← h.2]
      exact hm _ _ hms

theorem monoAt_same {α : Type} {s : PState} {m : P α}
    (h : ∀ r s1, m s = (r, s1) → s1.root = s.root) : MonoAt s m := by
  intro r s1 hm
  rw [h r s1 hm]
  exact ext_refl _

theorem monoAt_pure {α : Type} (s : PState) (a : α) : MonoAt s (pure a : P α) :=
  monoAt_same (fun r s1 h => by
    simp only [pure, P.pure, Prod.mk.injEq] at h; rw [← h.2])

theorem monoAt_throw {α : Type} (s : PState) (msg : String) : MonoAt s (throwP msg : P α) :=
  monoAt_same (fun r s1 h => by
    simp only [throwP, Prod.mk.injEq] at h; rw [← h.2])

theorem monoAt_assert (s : PState) (c : Bool) : MonoAt s (assertP c) :=
  monoAt_same (fun r s1 h => by
    simp only [assertP] at h
    split at h <;> (simp only [Prod.mk.injEq] at h; rw [← h.2]))

theorem monoAt_peek (s : PState) : MonoAt s peekP :=
  monoAt_same (fun r s1 h => by
    simp only [peekP, Prod.mk.injEq] at h; rw [← h.2])

theorem monoAt_next (s : PState) : MonoAt s nextP :=
  monoAt_same (fun r s1 h => by
    simp only [nextP, Prod.mk.injEq] at h; rw [← h.2])

theorem monoAt_fuel (s : PState) : MonoAt s fuelP :=
  monoAt_same (fun r s1 h => by
    simp only [fuelP, Prod.mk.injEq] at h; rw [← h.2])

theorem monoAt_getTree (s : PState) : MonoAt s getTree :=
  monoAt_same (fun r s1 h => by
    simp only [getTree, Prod.mk.injEq] at h; rw [← h.2])

theorem monoAt_newChild (s : PState) (scope : Nat) (par : Option Nat) (key name : String)
    (x : Option Thing) (h : s.root.value scope key = none) :
    MonoAt s (newChild scope par key name x) := by
  intro r s1 hm
  simp only [newChild, Prod.mk.injEq] at hm
  rw [← hm.2]
  exact ext_newChild _ _ _ _ _ _ h

theorem monoAt_setThing (s : PState) (n : Nat) (x : Thing) (h : s.root.thing n = none) :
    MonoAt s (setTree (s.root.setThing n x)) := by
  intro r s1 hm
  simp only [setTree, Prod.mk.injEq] at hm
  rw [← hm.2]
  exact ext_setThing _ _ _ h

/-- What a step that reads the state yields. -/
theorem getTree_ok {s s1 : PState} {t : Tree} (h : getTree s = (Except.ok t, s1)) :
    t = s.root ∧ s1 = s := by
  simp only [getTree, Prod.mk.injEq, Except.ok.injEq] at h
  exact ⟨h.1.symm, h.2.symm⟩

theorem assertP_ok {s s1 : PState} {c : Bool} {u : Unit}
    (h : assertP c s = (Except.ok u, s1)) : c = true ∧ s1 = s := by
  simp only [assertP] at h
  split at h
  · simp only [Prod.mk.injEq] at h; exact ⟨‹_›, h.2.symm⟩
  · simp at h

theorem mono_createClassFor (node : Nat) : Mono (createClassFor node) := by
  intro s
  simp only [createClassFor, bind_eq]
  refine monoAt_bind (monoAt_getTree _) ?_
  intro t s1 ht
  obtain ⟨h1, h2⟩ := getTree_ok ht
  subst h1; subst h2
  refine monoAt_bind (monoAt_assert _ _) ?_
  intro u s1 ha
  obtain ⟨hc, h2⟩ := assertP_ok ha
  subst h2
  refine monoAt_bind (monoAt_assert _ _) ?_
  intro u s1 ha
  obtain ⟨_, h2⟩ := assertP_ok ha
  subst h2
  refine monoAt_bind (monoAt_assert _ _) ?_
  intro u s1 ha
  obtain ⟨_, h2⟩ := assertP_ok ha
  subst h2
  apply monoAt_setThing
  cases ht : s1.root.thing node with
  | none => rfl
  | some x => rw [ht] at hc; exact Bool.noConfusion hc


theorem getElem?_lt {t : Tree} {n : Nat} {nd : Node} (h : t[n]? = some nd) : n < t.length := by
  by_contra hn
  rw [List.getElem?_eq_none (by omega)] at h
  exact Option.noConfusion h

theorem thing_insert (t : Tree) (n : Nat) (k : String) (c i : Nat) :
    (Tree.insert t n k c).thing i = t.thing i := by
  simp only [Tree.insert]
  cases hn : t[n]? with
  | none => rfl
  | some nd =>
    simp only [Tree.thing]
    by_cases h : n = i
    · subst h
      rw [List.getElem?_set_self (getElem?_lt hn), hn]
    · rw [List.getElem?_set_ne h]

theorem thing_newNode (t : Tree) (par : Option Nat) (name : String) (x : Option Thing) :
    (t.newNode par name x).2.thing t.length = x := by
  simp [Tree.newNode, Tree.thing]

theorem newChild_ok {s s1 : PState} {scope a : Nat} {par : Option Nat} {key name : String}
    {x : Option Thing} (h : newChild scope par key name x s = (Except.ok a, s1)) :
    s1.root.thing a = x ∧ s1.lex = s.lex ∧ a = s.root.length := by
  simp only [newChild, Prod.mk.injEq, Except.ok.injEq] at h
  obtain ⟨h1, h2⟩ := h
  subst h2
  have ha : a = s.root.length := by rw [← h1]; rfl
  refine ⟨?_, rfl, ha⟩
  subst ha
  simp only
  rw [thing_insert]
  exact thing_newNode _ _ _ _

theorem mono_fetchPrimitive (name : String) : Mono (fetchPrimitive name) := by
  intro s
  simp only [fetchPrimitive, bind_eq]
  refine monoAt_bind (monoAt_getTree _) ?_
  intro t s1 ht
  obtain ⟨h1, h2⟩ := getTree_ok ht
  subst h1; subst h2
  refine monoAt_bind ?_ ?_
  · cases hv : s1.root.value 0 "" with
    | none => exact monoAt_newChild _ _ _ _ _ _ hv
    | some p => exact monoAt_pure _ _
  intro p s2 _
  refine monoAt_bind (monoAt_getTree _) ?_
  intro t s3 ht
  obtain ⟨h1, h2⟩ := getTree_ok ht
  subst h1; subst h2
  cases hv : s3.root.value p name with
  | some t => exact monoAt_pure _ _
  | none =>
    simp only
    refine monoAt_bind (monoAt_newChild _ _ _ _ _ _ hv) ?_
    intro c s4 hc
    obtain ⟨hth, _, _⟩ := newChild_ok hc
    cases basicTypeOf name with
    | none => exact monoAt_throw _ _
    | some b =>
      simp only
      refine monoAt_bind (monoAt_getTree _) ?_
      intro t s5 ht
      obtain ⟨h1, h2⟩ := getTree_ok ht
      subst h1; subst h2
      refine monoAt_bind (monoAt_setThing _ _ _ hth) ?_
      intro _ _ _
      exact monoAt_pure _ _

theorem mono_fetchAssembly (name : String) : Mono (fetchAssembly name) := by
  intro s
  simp only [fetchAssembly, bind_eq]
  refine monoAt_bind (monoAt_getTree _) ?_
  intro t s1 ht
  obtain ⟨h1, h2⟩ := getTree_ok ht
  subst h1; subst h2
  cases hv : s1.root.value 0 name with
  | some a => exact monoAt_pure _ _
  | none =>
    simp only
    split
    · exact monoAt_pure _ _
    · refine monoAt_bind ?_ ?_
      · intro r s2 hm
        simp only [setTree, Prod.mk.injEq] at hm
        rw [← hm.2]
        exact ext_newChild _ _ _ _ _ _ hv
      · intro _ _ _
        exact monoAt_pure _ _

theorem mono_dottedLoop (msg : String) (fuel : Nat) :
    ∀ name : List String, Mono (dottedLoop msg fuel name) := by
  induction fuel with
  | zero => intro name s; exact monoAt_pure _ _
  | succ fuel ih =>
    intro name s
    simp only [dottedLoop, bind_eq]
    refine monoAt_bind (monoAt_peek _) ?_
    intro pk s1 _
    split
    · refine monoAt_bind (monoAt_next _) ?_
      intro _ s2 _
      refine monoAt_bind (monoAt_next _) ?_
      intro t s3 _
      split
      · exact monoAt_throw _ _
      · exact ih _ _
    · exact monoAt_pure _ _

theorem mono_assembly : Mono assembly := by
  intro s
  simp only [assembly, bind_eq]
  refine monoAt_bind (monoAt_next _) ?_
  intro t0 s1 _
  split
  · exact monoAt_throw _ _
  · refine monoAt_bind (monoAt_next _) ?_
    intro t s2 _
    split
    · exact monoAt_throw _ _
    · refine monoAt_bind (monoAt_fuel _) ?_
      intro fuel s3 _
      refine monoAt_bind (mono_dottedLoop _ _ _ _) ?_
      intro name s4 _
      refine monoAt_bind (monoAt_next _) ?_
      intro t1 s5 _
      split
      · exact monoAt_throw _ _
      · exact mono_fetchAssembly _ _

theorem mono_pathNamespaces (names : List String) :
    ∀ scope : Nat, Mono (pathNamespaces names scope) := by
  induction names with
  | nil => intro scope s; exact monoAt_pure _ _
  | cons n rest ih =>
    intro scope s
    cases rest with
    | nil => exact monoAt_pure _ _
    | cons m rest2 =>
      simp only [pathNamespaces, bind_eq]
      refine monoAt_bind (monoAt_getTree _) ?_
      intro t s1 ht
      obtain ⟨h1, h2⟩ := getTree_ok ht
      subst h1; subst h2
      cases hv : s1.root.value scope n with
      | some node => exact ih _ _
      | none =>
        simp only
        refine monoAt_bind (monoAt_assert _ _) ?_
        intro u s2 ha
        obtain ⟨_, h2⟩ := assertP_ok ha
        subst h2
        refine monoAt_bind (monoAt_newChild _ _ _ _ _ _ hv) ?_
        intro node s3 _
        exact ih _ _

theorem mono_nestedLoop (fuel : Nat) : ∀ nested : List String, Mono (nestedLoop fuel nested) := by
  induction fuel with
  | zero => intro nested s; exact monoAt_pure _ _
  | succ fuel ih =>
    intro nested s
    simp only [nestedLoop, bind_eq]
    refine monoAt_bind (monoAt_peek _) ?_
    intro pk s1 _
    split
    · refine monoAt_bind (monoAt_next _) ?_
      intro _ s2 _
      refine monoAt_bind (monoAt_next _) ?_
      intro t s3 _
      split
      · exact monoAt_throw _ _
      · refine monoAt_bind (monoAt_fuel _) ?_
        intro f s4 _
        refine monoAt_bind (mono_dottedLoop _ _ _ _) ?_
        intro parts s5 _
        exact ih _ _
    · exact monoAt_pure _ _

theorem mono_pathNested (names : List String) : ∀ scope : Nat, Mono (pathNested names scope) := by
  induction names with
  | nil => intro scope s; exact monoAt_pure _ _
  | cons n rest ih =>
    intro scope s
    simp only [pathNested, bind_eq]
    refine monoAt_bind (monoAt_getTree _) ?_
    intro t s1 ht
    obtain ⟨h1, h2⟩ := getTree_ok ht
    subst h1; subst h2
    cases hv : s1.root.value scope n with
    | none =>
      simp only
      refine monoAt_bind (monoAt_newChild _ _ _ _ _ _ hv) ?_
      intro node s2 _
      refine monoAt_bind (mono_createClassFor _ _) ?_
      intro _ s3 _
      exact ih _ _
    | some node =>
      simp only
      split
      · exact ih _ _
      · exact monoAt_throw _ _

theorem mono_path (isPrimitive : String → Bool) (scope : Nat) : Mono (path isPrimitive scope) := by
  intro s
  simp only [path, bind_eq]
  refine monoAt_bind (monoAt_next _) ?_
  intro t s1 _
  split
  · exact monoAt_throw _ _
  · refine monoAt_bind (monoAt_fuel _) ?_
    intro fuel s2 _
    refine monoAt_bind (mono_dottedLoop _ _ _ _) ?_
    intro name s3 _
    split
    · exact mono_fetchPrimitive _ _
    · refine monoAt_bind (mono_pathNamespaces _ _ _) ?_
      intro scope1 s4 _
      refine monoAt_bind (monoAt_getTree _) ?_
      intro tr s5 ht
      obtain ⟨h1, h2⟩ := getTree_ok ht
      subst h1; subst h2
      refine monoAt_bind ?_ ?_
      · cases hv : s5.root.value scope1 (name.getLastD "") with
        | some node => exact monoAt_pure _ _
        | none => exact monoAt_newChild _ _ _ _ _ _ hv
      intro node s6 _
      refine monoAt_bind (mono_nestedLoop _ _ _) ?_
      intro nested s7 _
      split
      · exact monoAt_pure _ _
      · refine monoAt_bind (monoAt_getTree _) ?_
        intro tr1 s8 ht
        obtain ⟨h1, h2⟩ := getTree_ok ht
        subst h1; subst h2
        split
        · refine monoAt_bind (mono_createClassFor _ _) ?_
          intro _ s9 _
          exact mono_pathNested _ _ _
        · exact mono_pathNested _ _ _
        · exact monoAt_throw _ _

theorem mono_primitiveType (isPrimitive : String → Bool) : Mono (primitiveType isPrimitive) := by
  intro s
  simp only [primitiveType, bind_eq]
  refine monoAt_bind (monoAt_next _) ?_
  intro first s1 _
  refine monoAt_bind (monoAt_peek _) ?_
  intro pk s2 _
  refine monoAt_bind ?_ ?_
  · split
    · refine monoAt_bind (monoAt_next _) ?_
      intro _ _ _
      exact monoAt_pure _ _
    · exact monoAt_pure _ _
  intro str s3 _
  refine monoAt_bind (monoAt_next _) ?_
  intro t s4 _
  split
  · exact monoAt_throw _ _
  · split
    · exact monoAt_throw _ _
    · exact mono_fetchPrimitive _ _

theorem mono_arrayLoop (fuel : Nat) :
    ∀ (array : String) (level : Nat), Mono (arrayLoop fuel array level) := by
  induction fuel with
  | zero => intro array level s; exact monoAt_pure _ _
  | succ fuel ih =>
    intro array level s
    simp only [arrayLoop, bind_eq]
    refine monoAt_bind (monoAt_peek _) ?_
    intro pk s1 _
    split
    · refine monoAt_bind (monoAt_next _) ?_
      intro _ s2 _
      exact ih _ _ _
    · exact monoAt_pure _ _


theorem mono_typeRef (isPrimitive : String → Bool) : Mono (typeRef isPrimitive) := by
  intro s
  simp only [typeRef, bind_eq]
  refine monoAt_bind (monoAt_peek _) ?_
  intro t0 s1 _
  refine monoAt_bind ?_ ?_
  · split
    · refine monoAt_bind (monoAt_next _) ?_
      intro _ _ _
      exact monoAt_peek _
    · exact monoAt_pure _ _
  intro t s2 _
  refine monoAt_bind ?_ ?_
  · split
    · exact mono_primitiveType _ _
    · split
      · refine monoAt_bind (mono_assembly _) ?_
        intro ass s3 _
        exact mono_path _ _ _
      · exact mono_path _ _ _
  intro node s3 _
  refine monoAt_bind (monoAt_getTree _) ?_
  intro tr s4 ht
  obtain ⟨h1, h2⟩ := getTree_ok ht
  subst h1; subst h2
  refine monoAt_bind ?_ ?_
  · split
    · exact mono_createClassFor _ _
    · exact monoAt_pure _ _
  intro _ s5 _
  refine monoAt_bind (monoAt_fuel _) ?_
  intro fuel s6 _
  refine monoAt_bind (mono_arrayLoop _ _ _ _) ?_
  intro al s7 _
  refine monoAt_bind (monoAt_getTree _) ?_
  intro tr1 s8 ht
  obtain ⟨h1, h2⟩ := getTree_ok ht
  subst h1; subst h2
  split
  · split
    · exact monoAt_pure _ _
    · cases hv : s8.root.value node al.1 with
      | some suffix => exact monoAt_pure _ _
      | none => exact monoAt_newChild _ _ _ _ _ _ hv
  · refine monoAt_bind (monoAt_assert _ _) ?_
    intro u s9 ha
    obtain ⟨_, h2⟩ := assertP_ok ha
    subst h2
    cases hv : s9.root.value node al.1 with
    | some suffix => exact monoAt_pure _ _
    | none => exact monoAt_newChild _ _ _ _ _ _ hv

theorem mono_param (isPrimitive : String → Bool) : Mono (param isPrimitive) := by
  intro s
  simp only [param, bind_eq]
  refine monoAt_bind (monoAt_peek _) ?_
  intro pk0 s1 _
  refine monoAt_bind (mono_typeRef _ _) ?_
  intro ty s2 _
  refine monoAt_bind (monoAt_peek _) ?_
  intro pk1 s3 _
  refine monoAt_bind ?_ ?_
  · split
    · refine monoAt_bind (monoAt_next _) ?_
      intro _ s4 _
      refine monoAt_bind (monoAt_getTree _) ?_
      intro tr s5 ht
      obtain ⟨h1, h2⟩ := getTree_ok ht
      subst h1; subst h2
      split
      · split
        · split
          · exact monoAt_same (fun r s1 h => by
              simp only [Prod.mk.injEq] at h; rw [← h.2])
          · rename_i par _
            cases hv : s5.root.value par (s5.root.name ty ++ "&") with
            | some suffix => exact monoAt_pure _ _
            | none => exact monoAt_newChild _ _ _ _ _ _ hv
        · cases hv : s5.root.value ty "&" with
          | some suffix => exact monoAt_pure _ _
          | none => exact monoAt_newChild _ _ _ _ _ _ hv
      · exact monoAt_same (fun r s1 h => by
          simp only [Prod.mk.injEq] at h; rw [← h.2])
    · exact monoAt_pure _ _
  intro d_type s4 _
  refine monoAt_bind (monoAt_peek _) ?_
  intro pk2 s5 _
  refine monoAt_bind (monoAt_same (fun r s1 h => by
    simp only [Prod.mk.injEq] at h; rw [← h.2])) ?_
  intro text s6 _
  refine monoAt_bind (monoAt_peek _) ?_
  intro pk3 s7 _
  split
  · refine monoAt_bind (monoAt_next _) ?_
    intro _ _ _
    exact monoAt_pure _ _
  · exact monoAt_pure _ _

theorem mono_commaLoop (isPrimitive : String → Bool) (fuel : Nat) :
    ∀ res : List (Nat × String × String), Mono (commaLoop isPrimitive fuel res) := by
  induction fuel with
  | zero => intro res s; exact monoAt_pure _ _
  | succ fuel ih =>
    intro res s
    simp only [commaLoop, bind_eq]
    refine monoAt_bind (monoAt_peek _) ?_
    intro pk s1 _
    split
    · refine monoAt_bind (monoAt_next _) ?_
      intro _ s2 _
      refine monoAt_bind (mono_param _ _) ?_
      intro p s3 _
      exact ih _ _
    · exact monoAt_pure _ _

theorem mono_paramsLoop (isPrimitive : String → Bool) (fuel : Nat) :
    ∀ res : List (Nat × String × String), Mono (paramsLoop isPrimitive fuel res) := by
  induction fuel with
  | zero => intro res s; exact monoAt_pure _ _
  | succ fuel ih =>
    intro res s
    simp only [paramsLoop, bind_eq]
    refine monoAt_bind (monoAt_peek _) ?_
    intro pk s1 _
    split
    · refine monoAt_bind (mono_param _ _) ?_
      intro p s2 _
      refine monoAt_bind (monoAt_fuel _) ?_
      intro f s3 _
      refine monoAt_bind (mono_commaLoop _ _ _ _) ?_
      intro res1 s4 _
      exact ih _ _
    · exact monoAt_pure _ _

theorem mono_params (isPrimitive : String → Bool) : Mono (params isPrimitive) := by
  intro s
  simp only [params, bind_eq]
  refine monoAt_bind (monoAt_peek _) ?_
  intro pk s1 _
  split
  · refine monoAt_bind (monoAt_next _) ?_
    intro _ s2 _
    refine monoAt_bind (monoAt_fuel _) ?_
    intro fuel s3 _
    exact mono_paramsLoop _ _ _ _
  · exact monoAt_throw _ _

theorem mono_memberRefHead (isPrimitive : String → Bool) : Mono (memberRefHead isPrimitive) := by
  intro s
  simp only [memberRefHead, bind_eq]
  refine monoAt_bind (mono_typeRef _ _) ?_
  intro type s1 _
  refine monoAt_bind (monoAt_peek _) ?_
  intro t0 s2 _
  refine monoAt_bind ?_ ?_
  · split
    · refine monoAt_bind (monoAt_next _) ?_
      intro _ _ _
      exact monoAt_peek _
    · exact monoAt_pure _ _
  intro t s3 _
  refine monoAt_bind ?_ ?_
  · split
    · refine monoAt_bind (mono_assembly _) ?_
      intro a s4 _
      exact mono_path _ _ _
    · exact mono_path _ _ _
  intro node s4 _
  refine monoAt_bind (monoAt_next _) ?_
  intro t1 s5 _
  split
  · exact monoAt_throw _ _
  · refine monoAt_bind (monoAt_getTree _) ?_
    intro tr s6 ht
    obtain ⟨h1, h2⟩ := getTree_ok ht
    subst h1; subst h2
    refine monoAt_bind ?_ ?_
    · split
      · exact mono_createClassFor _ _
      · exact monoAt_pure _ _
      · exact monoAt_throw _ _
    intro _ s7 _
    refine monoAt_bind (monoAt_next _) ?_
    intro t2 s8 _
    split
    · exact monoAt_throw _ _
    · refine monoAt_bind (monoAt_fuel _) ?_
      intro fuel s9 _
      refine monoAt_bind (mono_dottedLoop _ _ _ _) ?_
      intro name s10 _
      exact monoAt_pure _ _

theorem mono_findOrCreateField (cls : Nat) (name : String) (type : Nat) (hint : MemberHint) :
    Mono (findOrCreateField cls name type hint) := by
  intro s
  simp only [findOrCreateField, bind_eq]
  refine monoAt_bind (monoAt_getTree _) ?_
  intro t s1 ht
  obtain ⟨h1, h2⟩ := getTree_ok ht
  subst h1; subst h2
  cases hv : s1.root.value cls name with
  | none =>
    simp only
    refine monoAt_bind (monoAt_newChild _ _ _ _ _ _ hv) ?_
    intro member s2 _
    split
    · exact monoAt_pure _ _
    · exact monoAt_throw _ _
  | some member =>
    simp only
    split
    · exact monoAt_pure _ _
    · exact monoAt_throw _ _


theorem subsValues_of_value (l : List (String × Nat)) (k : String) (v : Nat)
    (h : subsValue l k = some v) : ∃ rest, subsValues l k = v :: rest := by
  induction l with
  | nil => simp [subsValue] at h
  | cons a l ih =>
    obtain ⟨k1, v1⟩ := a
    simp only [subsValue] at h
    simp only [subsValues]
    split at h
    · rename_i hk
      simp only [Option.some.injEq] at h
      subst h
      simp [hk]
    · rename_i hk
      simp only [hk, ↓reduceIte]
      exact ih h

theorem values_of_value (t : Tree) (n : Nat) (k : String) (v : Nat)
    (h : t.value n k = some v) : ∃ rest, t.values n k = v :: rest := by
  simp only [Tree.value, Tree.values] at h ⊢
  cases hn : t[n]? with
  | none => rw [hn] at h; exact Option.noConfusion h
  | some nd =>
    rw [hn] at h
    exact subsValues_of_value _ _ _ h

theorem findOrCreateField_on_method (cls : Nat) (name : String) (type : Nat) (hint : MemberHint)
    (s : PState) (μ : Nat) (x : Thing) (hv : s.root.value cls name = some μ)
    (hx : s.root.thing μ = some x) (hm : x.isField = false) :
    findOrCreateField cls name type hint s
      = (Except.error (Err.thrown "expecting field member"), s) := by
  simp only [findOrCreateField, bind_eq]
  rw [bind_ok (getTree_apply _)]
  simp only [hv, hx]
  cases x <;> first | rfl | exact Bool.noConfusion hm

theorem findOrCreateMethod_on_field (cls : Nat) (name : String)
    (pars : List (Nat × String × String)) (ret : Nat) (hint : MemberHint)
    (s : PState) (μ : Nat) (x : Thing) (hv : s.root.value cls name = some μ)
    (hx : s.root.thing μ = some x) (hm : x.isMethod = false) :
    findOrCreateMethod cls name pars ret hint s
      = (Except.error (Err.thrown "this is not a method"), s) := by
  simp only [findOrCreateMethod, bind_eq]
  rw [bind_ok (getTree_apply _)]
  obtain ⟨rest, hr⟩ := values_of_value _ _ _ _ hv
  simp only [hr, findMethod, hx]
  cases x <;> first | rfl | exact Bool.noConfusion hm

/-- C14: let a member reference name the class `cls` and the member `name`
(the result of the part of `memberRef` before the member is looked up), and let
the class already have an entry `μ` for this name before the reference is
resolved. If `μ` is a method and the reference has no parameter list, or `μ`
is a field and the reference has one, `parse` returns no node, and afterwards
the class still has the entry `μ` with the same object. -/
theorem parse_member_kind_mismatch (isPrimitive : String → Bool) (hint : MemberHint)
    (ref : String) (root : Tree) (hh : hint ≠ MemberHint.TypeRef)
    (type cls : Nat) (name : String) (s1 : PState)
    (hhead : memberRefHead isPrimitive { lex := SignatureLexer.init ref, root := root }
      = (Except.ok (type, cls, name), s1))
    (μ : Nat) (x : Thing) (hv : root.value cls name = some μ) (hx : root.thing μ = some x)
    (hkind : (x.isMethod = true ∧ s1.lex.peek.1.d_tt ≠ TokenType.LPAR) ∨
      (x.isField = true ∧ s1.lex.peek.1.d_tt = TokenType.LPAR)) :
    (∀ n, (parse isPrimitive hint ref root).1 ≠ Except.ok (some n)) ∧
    (parse isPrimitive hint ref root).2.value cls name = some μ ∧
    (parse isPrimitive hint ref root).2.thing μ = some x := by
  have he1 : Ext root s1.root := mono_memberRefHead isPrimitive _ _ _ hhead
  have hv1 := ext_value he1 _ _ _ hv
  have hx1 := ext_thing he1 _ _ hx
  simp only [parse, hh, ne_eq, not_false_eq_true, ↓reduceIte]
  simp only [memberRef, bind_eq]
  rw [bind_ok hhead]
  simp only
  rw [bind_ok (peekP_apply _)]
  rcases hkind with ⟨hm, hp⟩ | ⟨hf, hp⟩
  · simp only [hp, ↓reduceIte]
    have hnf : x.isField = false := by cases x <;> first | rfl | exact Bool.noConfusion hm
    rw [findOrCreateField_on_method cls name type hint { lex := s1.lex.peek.2, root := s1.root } μ x hv1 hx1 hnf]
    exact ⟨fun n h => by simp at h, hv1, hx1⟩
  · simp only [hp, ↓reduceIte]
    have hnm : x.isMethod = false := by cases x <;> first | rfl | exact Bool.noConfusion hf
    cases hpar : params isPrimitive { lex := s1.lex.peek.2, root := s1.root } with
    | mk r s2 =>
      have he2 : Ext s1.root s2.root := mono_params isPrimitive { lex := s1.lex.peek.2, root := s1.root } _ _ hpar
      have hv2 := ext_value he2 _ _ _ hv1
      have hx2 := ext_thing he2 _ _ hx1
      cases r with
      | error e =>
        rw [bind_err hpar]
        cases e with
        | thrown msg => exact ⟨fun n h => by simp at h, hv2, hx2⟩
        | assertion => exact ⟨fun n h => by simp at h, hv2, hx2⟩
      | ok pars =>
        rw [bind_ok hpar, findOrCreateMethod_on_field cls name pars type hint s2 μ x hv2 hx2 hnm]
        exact ⟨fun n h => by simp at h, hv2, hx2⟩


/-- C13 (counterexample): the type reference `int32]` and the member reference
`void 'M'::'f'()]` have a `]` without a `[`, and the type reference `int32[` has
a `[` without a `]`; `parse` returns a node for each. -/
theorem parse_unbalanced_accepted :
    nodeOf (parse primitivesContains MemberHint.TypeRef "int32]" exRoot) = some 8 ∧
    nodeOf (parse primitivesContains MemberHint.Static "void 'M'::'f'()]" exRoot) = some 9 ∧
    nodeOf (parse primitivesContains MemberHint.TypeRef "int32[" exRoot) = some 8 :=
  ⟨rfl, rfl, rfl⟩

theorem parse_member_kind_mismatch_witness :
    (∀ n, (parse primitivesContains MemberHint.Static "int32 'M'::'f'" exRootMethod).1
        ≠ Except.ok (some n)) ∧
    (parse primitivesContains MemberHint.Static "int32 'M'::'f'" exRootMethod).2.value 6 "f"
      = some 9 ∧
    (parse primitivesContains MemberHint.Static "int32 'M'::'f'" exRootMethod).2.thing 9
      = some (Thing.Method "f" 6 (some 8) [] MemberHint.Static false) :=
  parse_member_kind_mismatch primitivesContains MemberHint.Static "int32 'M'::'f'" exRootMethod
    (by decide) 10 6 "f" _ rfl 9 _ rfl rfl (Or.inl ⟨rfl, by decide⟩)

/-- C15: in a module named `object` the reference `'object'/'R'` resolves to
the primitive type `object` (node 8 under the sentinel) and creates no class;
`beginClass("'R'")` then creates node 9, and the reference still resolves to
node 8. This is so when `isPrimitive` yields the value of the membership test it
evaluates. In module `M` the reference `'M'/'R'` creates the class node 7,
`beginClass` opens node 7, the module has the one child 7 named `R`, and the
reference resolves to the type node 8 of that class. -/
theorem beginClass_after_reference :
    resolved primitivesContains "'object'/'R'" (beginModule "'object'").root
      = some ("<all primitive types>", some (Thing.Type BasicType.object none 0 false)) ∧
    refThenBeginClass primitivesContains "'object'" "'object'/'R'" "'R'" "R"
      = some ([6, 9], [9], some 8) ∧
    resolved primitivesContains "'M'/'R'" (beginModule "'M'").root
      = some ("R", some (Thing.Type BasicType.cls (some 7) 0 false)) ∧
    refThenBeginClass primitivesContains "'M'" "'M'/'R'" "'R'" "R" = some ([6, 7], [7], some 8) :=
  ⟨rfl, rfl, rfl, rfl⟩

/-- C16: for the record type `R` declared in procedure `P` the generator writes
the class name `'P'.'R'`; `unescape` makes `P'.'R` of it, the parser makes
`P.R` of the same text after a `/`. After the reference `'M'/'P'.'R'` and
`beginClass("'P'.'R'")` the class of the module has the node 7 under `P.R`
(from the reference) and the node 9 under `P'.'R` (from the declaration). -/
theorem unescape_dotted_name :
    Obx.dottedName exNestedDecl true = "'P'.'R'" ∧
    unescape "'P'.'R'" = "P'.'R" ∧
    (nestedLoop 16 [] { lex := SignatureLexer.init "/'P'.'R'", root := exRoot }).1
      = Except.ok ["P.R"] ∧
    refThenBeginClass primitivesContains "'M'" "'M'/'P'.'R'" "'P'.'R'" "P.R"
      = some ([6, 9], [7], some 8) ∧
    refThenBeginClass primitivesContains "'M'" "'M'/'P'.'R'" "'P'.'R'" "P'.'R"
      = some ([6, 9], [9], some 8) :=
  ⟨rfl, rfl, rfl, rfl, rfl⟩

/-- C17: when `isPrimitive` yields the value of the membership test it
evaluates, each of the 17 spellings resolves to a node under the sentinel that
holds the basic type it names. The function has no `return` statement; when the
value it yields is `false`, `int32` resolves to the type of a class `int32`
created in the assembly, and `native int` is rejected. -/
theorem typeRef_primitive_spellings :
    exPrimitiveSpellings.map (fun n => resolved primitivesContains n exRoot)
      = exPrimitiveTypes.map
          (fun b => some ("<all primitive types>", some (Thing.Type b none 0 false))) ∧
    resolved (fun _ => false) "int32" exRoot
      = some ("int32", some (Thing.Type BasicType.cls (some 7) 0 false)) ∧
    (parse (fun _ => false) MemberHint.TypeRef "int32" exRoot).2.thing 7
      = some (Thing.Class "int32" none) ∧
    resolved (fun _ => false) "native int" exRoot = none :=
  ⟨rfl, rfl, rfl, rfl⟩

/-! ## String operands -/

/-- C34: the binary builder keeps the escapes. For the string `a\b` (three
characters) `emitConst` emits `ldstr` with the operand text `"a\\b\0"` (the
backslash doubled), which denotes `a\b` followed by NUL; `addMethod` makes of
that text the string `a\\b` followed by NUL, five characters, with both
backslashes. For a string that is one double quote the operand text is `"\"\0"`
and the string of the operand is a backslash, a double quote and NUL. For `abc`,
without backslash and double quote, it is `abc` followed by NUL. -/
theorem ldstrOperand_keeps_escapes (loc : Obx.RowCol) (g : Obx.Gen) :
    (∀ s : String, Obx.nonLine (Obx.emitConst Obx.BaseTypeTag.STRING (Obx.QVariant.ofByteArray s)
        loc g).out = Obx.nonLine g.out ++
      [Obx.Emit.ldstr_ (Obx.ldstrText s),
       Obx.Emit.callvirt_ "char[] [mscorlib]System.String::ToCharArray()" (some 0) (some true)]) ∧
    (Obx.ldstrText "a\\b").toList = ['"', 'a', '\\', '\\', 'b', '\\', '0', '"'] ∧
    ldstrOperand (Obx.ldstrText "a\\b") = some ['a', '\\', '\\', 'b', '\x00'] ∧
    ldstrOperand (Obx.ldstrText "a\\b") ≠ some ("a\\b".toList ++ ['\x00']) ∧
    (Obx.ldstrText "\"").toList = ['"', '\\', '"', '\\', '0', '"'] ∧
    ldstrOperand (Obx.ldstrText "\"") = some ['\\', '"', '\x00'] ∧
    ldstrOperand (Obx.ldstrText "\"") ≠ some ("\"".toList ++ ['\x00']) ∧
    ldstrOperand (Obx.ldstrText "abc") = some ("abc".toList ++ ['\x00']) := by
  refine ⟨?_, by decide, by decide, by decide, by decide, by decide, by decide, by decide⟩
  intro s
  simp only [Obx.emitConst]
  rw [Obx.nonLine_line_emit _ _ _ (by rfl), Obx.nonLine_line_emit _ _ _ (by rfl),
    List.append_assoc]
  rfl

/-! ## Assembly prefix -/

/-- C35: the prefix of the working assembly does not lead to the root. After
`beginModule("'M'")` the root has the class of the module under the key `M`,
and `fetchAssembly("M")` returns what the root has under that key before it
compares the name of the root. So `['M']'M'/'X'` is resolved below the class of
the module: a class `M` nested in it is created (node 7), with `X` in it (node
8), and the result is node 9 on the path `M`, `M`, `M`, `X`; the reference
`'M'/'X'` yields node 8 on the path `M`, `M`, `X`. On the tree the second
reference leaves, the two references yield the nodes 11 and 8. -/
theorem parse_own_assembly_prefix :
    (beginModule "'M'").root = exRoot ∧
    exRoot.value 0 "M" = some 6 ∧
    exRoot.thing 6 = some (Thing.Class "M" none) ∧
    nodeOf (parse primitivesContains MemberHint.TypeRef "['M']'M'/'X'" exRoot) = some 9 ∧
    (parse primitivesContains MemberHint.TypeRef "['M']'M'/'X'" exRoot).2.pathOf 10 9 =
      ["M", "M", "M", "X", ""] ∧
    nodeOf (parse primitivesContains MemberHint.TypeRef "'M'/'X'" exRoot) = some 8 ∧
    (parse primitivesContains MemberHint.TypeRef "'M'/'X'" exRoot).2.pathOf 10 8 =
      ["M", "M", "X", ""] ∧
    nodeOf (parse primitivesContains MemberHint.TypeRef "'M'/'X'"
      (parse primitivesContains MemberHint.TypeRef "'M'/'X'" exRoot).2) = some 8 ∧
    nodeOf (parse primitivesContains MemberHint.TypeRef "['M']'M'/'X'"
      (parse primitivesContains MemberHint.TypeRef "'M'/'X'" exRoot).2) = some 11 := by
  refine ⟨rfl, rfl, rfl, ?_, ?_, ?_, ?_, ?_, ?_⟩ <;> decide!

/-! ## Constructor names -/

/-- C37: a member name written `.ctor` is not lexed as `.ctor`. At the `.`
the lexer peeks the `c` without consuming it and calls `ident` with it, which
reads the same `c` again: the token for `.ctor` is the name `cctor`, the token
for `.cctor` is the name `ccctor`. So `void [mscorlib]System.Object::.ctor()`
resolves to a new method `cctor` of `Object` that is not marked as special
name. In the class of module `M`, after `void` has been resolved and
`findOrCreateMethod` has entered the method `.ctor` (node 9, special name), as
`addMethod` does, the reference `void 'M'::.ctor()` does not resolve to node 9
but creates the method `cctor` (node 10). -/
theorem nextImp_dot_ctor :
    (nextImp ".ctor()".toList 0).1 = { d_tt := TokenType.ID, d_pos := 0, d_val := "cctor" } ∧
    (nextImp ".cctor()".toList 0).1 = { d_tt := TokenType.ID, d_pos := 0, d_val := "ccctor" } ∧
    nodeOf (parse primitivesContains MemberHint.Instance "void [mscorlib]System.Object::.ctor()"
      exRoot) = some 9 ∧
    (parse primitivesContains MemberHint.Instance "void [mscorlib]System.Object::.ctor()"
      exRoot).2.thing 9 = some (Thing.Method "cctor" 3 (some 8) [] MemberHint.Instance false) ∧
    (findOrCreateMethod 6 ".ctor" [] 8 MemberHint.Instance
      { lex := SignatureLexer.init "",
        root := (parse primitivesContains MemberHint.TypeRef "void" exRoot).2 }).2.root.thing 9 =
      some (Thing.Method ".ctor" 6 (some 8) [] MemberHint.Instance true) ∧
    nodeOf (parse primitivesContains MemberHint.Instance "void 'M'::.ctor()"
      (findOrCreateMethod 6 ".ctor" [] 8 MemberHint.Instance
        { lex := SignatureLexer.init "",
          root := (parse primitivesContains MemberHint.TypeRef "void" exRoot).2 }).2.root) =
      some 10 ∧
    (parse primitivesContains MemberHint.Instance "void 'M'::.ctor()"
      (findOrCreateMethod 6 ".ctor" [] 8 MemberHint.Instance
        { lex := SignatureLexer.init "",
          root := (parse primitivesContains MemberHint.TypeRef "void" exRoot).2 }).2.root).2.thing
        10 = some (Thing.Method "cctor" 6 (some 8) [] MemberHint.Instance false) := by
  refine ⟨?_, ?_, ?_, ?_, ?_, ?_, ?_⟩ <;> decide!

/-! ## Resolving a reference again -/

/-! ### Reading a tree that has grown -/

theorem newChild_apply (s : PState) (scope : Nat) (par : Option Nat) (key name : String)
    (x : Option Thing) :
    newChild scope par key name x s
      = (Except.ok s.root.length, { s with root := s.root.addChild scope par key name x }) := rfl

theorem length_insert (t : Tree) (n : Nat) (k : String) (c : Nat) :
    (Tree.insert t n k c).length = t.length := by
  simp only [Tree.insert]
  split <;> simp

theorem length_addChild (t : Tree) (scope : Nat) (par : Option Nat) (key name : String)
    (x : Option Thing) : (t.addChild scope par key name x).length = t.length + 1 := by
  simp [Tree.addChild, length_insert, Tree.newNode]

theorem length_setThing (t : Tree) (n : Nat) (x : Thing) : (t.setThing n x).length = t.length := by
  simp only [Tree.setThing]
  split <;> simp

theorem getElem?_insert (t : Tree) (n : Nat) (k : String) (c i : Nat) :
    (Tree.insert t n k c)[i]? =
      if i = n then (t[n]?).map (fun nd => { nd with subs := (k, c) :: nd.subs }) else t[i]? := by
  simp only [Tree.insert]
  cases hn : t[n]? with
  | none =>
    simp only [Option.map_none']
    split
    · rename_i h; rw [h, hn]
    · rfl
  | some nd =>
    simp only [Option.map_some']
    rw [List.getElem?_set]
    by_cases h : n = i
    · subst h
      simp [getElem?_lt hn]
    · have h2 : ¬ i = n := fun e => h e.symm
      simp [h, h2]

theorem getElem?_addChild (t : Tree) (scope : Nat) (par : Option Nat) (key name : String)
    (x : Option Thing) (hs : scope < t.length) (i : Nat) :
    (t.addChild scope par key name x)[i]? =
      if i = t.length then some { name := name, thing := x, parent := par, subs := [] }
      else if i = scope then (t[scope]?).map (fun nd => { nd with subs := (key, t.length) :: nd.subs })
      else t[i]? := by
  simp only [Tree.addChild, Tree.newNode, getElem?_insert]
  by_cases h1 : i = t.length
  · subst h1
    have : ¬ t.length = scope := by omega
    simp [this]
  · by_cases h2 : i = scope
    · subst h2
      simp [h1, List.getElem?_append_left hs]
    · simp only [h1, h2, ↓reduceIte]
      by_cases h3 : i < t.length
      · rw [List.getElem?_append_left h3]
      · rw [List.getElem?_eq_none (by simp; omega), List.getElem?_eq_none (by omega)]

theorem thing_addChild (t : Tree) (scope : Nat) (par : Option Nat) (key name : String)
    (x : Option Thing) (hs : scope < t.length) (i : Nat) :
    (t.addChild scope par key name x).thing i = if i = t.length then x else t.thing i := by
  simp only [Tree.thing, getElem?_addChild _ _ _ _ _ _ hs]
  by_cases h1 : i = t.length
  · simp [h1]
  · by_cases h2 : i = scope
    · subst h2
      simp only [h1, ↓reduceIte]
      cases t[i]? <;> rfl
    · simp [h1, h2]

theorem parent_addChild (t : Tree) (scope : Nat) (par : Option Nat) (key name : String)
    (x : Option Thing) (hs : scope < t.length) (i : Nat) :
    (t.addChild scope par key name x).parent i = if i = t.length then par else t.parent i := by
  simp only [Tree.parent, getElem?_addChild _ _ _ _ _ _ hs]
  by_cases h1 : i = t.length
  · simp [h1]
  · by_cases h2 : i = scope
    · subst h2
      simp only [h1, ↓reduceIte]
      cases t[i]? <;> rfl
    · simp [h1, h2]

theorem name_addChild (t : Tree) (scope : Nat) (par : Option Nat) (key name : String)
    (x : Option Thing) (hs : scope < t.length) (i : Nat) :
    (t.addChild scope par key name x).name i = if i = t.length then name else t.name i := by
  simp only [Tree.name, getElem?_addChild _ _ _ _ _ _ hs]
  by_cases h1 : i = t.length
  · simp [h1]
  · by_cases h2 : i = scope
    · subst h2
      simp only [h1, ↓reduceIte]
      cases t[i]? <;> rfl
    · simp [h1, h2]

theorem value_addChild (t : Tree) (scope : Nat) (par : Option Nat) (key name : String)
    (x : Option Thing) (hs : scope < t.length) (i : Nat) (k : String) :
    (t.addChild scope par key name x).value i k =
      if i = scope ∧ k = key then some t.length else t.value i k := by
  simp only [Tree.value, getElem?_addChild _ _ _ _ _ _ hs]
  by_cases h1 : i = t.length
  · subst h1
    have h2 : ¬ t.length = scope := by omega
    simp [h2, subsValue]
  · by_cases h2 : i = scope
    · subst h2
      simp only [h1, ↓reduceIte, true_and]
      rw [List.getElem?_eq_getElem hs]
      simp only [Option.map_some', subsValue]
      by_cases h3 : key = k
      · subst h3; simp
      · have h4 : ¬ k = key := fun e => h3 e.symm
        simp [h3, h4]
    · simp [h1, h2]

theorem isMember_addChild (t : Tree) (scope : Nat) (par : Option Nat) (key name : String)
    (x : Option Thing) (hs : scope < t.length) (i : Nat) (hi : i ≠ t.length) :
    (t.addChild scope par key name x).isMember i = t.isMember i := by
  simp only [Tree.isMember, thing_addChild _ _ _ _ _ _ hs, hi, ↓reduceIte]

theorem getElem?_setThing (t : Tree) (n : Nat) (x : Thing) (i : Nat) :
    (t.setThing n x)[i]? =
      if i = n then (t[n]?).map (fun nd => { nd with thing := some x }) else t[i]? := by
  simp only [Tree.setThing]
  cases hn : t[n]? with
  | none =>
    simp only [Option.map_none']
    split
    · rename_i h; rw [h, hn]
    · rfl
  | some nd =>
    simp only [Option.map_some']
    rw [List.getElem?_set]
    by_cases h : n = i
    · subst h
      simp [getElem?_lt hn]
    · have h2 : ¬ i = n := fun e => h e.symm
      simp [h, h2]

theorem thing_setThing (t : Tree) (n : Nat) (x : Thing) (hn : n < t.length) (i : Nat) :
    (t.setThing n x).thing i = if i = n then some x else t.thing i := by
  simp only [Tree.thing, getElem?_setThing]
  by_cases h : i = n
  · subst h
    simp [List.getElem?_eq_getElem hn]
  · simp [h]

theorem parent_setThing (t : Tree) (n : Nat) (x : Thing) (i : Nat) :
    (t.setThing n x).parent i = t.parent i := by
  simp only [Tree.parent, getElem?_setThing]
  by_cases h : i = n
  · subst h
    simp only [↓reduceIte]
    cases t[i]? <;> rfl
  · simp [h]

theorem name_setThing (t : Tree) (n : Nat) (x : Thing) (i : Nat) :
    (t.setThing n x).name i = t.name i := by
  simp only [Tree.name, getElem?_setThing]
  by_cases h : i = n
  · subst h
    simp only [↓reduceIte]
    cases t[i]? <;> rfl
  · simp [h]

theorem value_setThing (t : Tree) (n : Nat) (x : Thing) (i : Nat) (k : String) :
    (t.setThing n x).value i k = t.value i k := by
  simp only [Tree.value, getElem?_setThing]
  by_cases h : i = n
  · subst h
    simp only [↓reduceIte]
    cases t[i]? <;> rfl
  · simp [h]

theorem thing_lt {t : Tree} {n : Nat} {x : Thing} (h : t.thing n = some x) : n < t.length :=
  tree_thing_lt t n x h

theorem parent_lt {t : Tree} {n p : Nat} (h : t.parent n = some p) : n < t.length := by
  simp only [Tree.parent] at h
  by_contra hn
  rw [List.getElem?_eq_none (by omega)] at h
  exact Option.noConfusion h

theorem value_lt {t : Tree} {n v : Nat} {k : String} (h : t.value n k = some v) :
    n < t.length := by
  simp only [Tree.value] at h
  by_contra hn
  rw [List.getElem?_eq_none (by omega)] at h
  exact Option.noConfusion h

theorem isMember_thing {t : Tree} {n : Nat} {x : Thing} (h : t.thing n = some x) :
    t.isMember n = x.isMember := by
  simp only [Tree.isMember, h]

theorem isMember_none {t : Tree} {n : Nat} (h : t.thing n = none) : t.isMember n = false := by
  simp only [Tree.isMember, h]

/-! ### Functions that only read the lexer -/

theorem lexOnly_pure {α : Type} (a : α) : LexOnly (pure a : P α) := fun _ _ _ => rfl

theorem lexOnly_throw {α : Type} (msg : String) : LexOnly (throwP msg : P α) := fun _ _ _ => rfl

theorem lexOnly_peek : LexOnly peekP := fun _ _ _ => rfl

theorem lexOnly_next : LexOnly nextP := fun _ _ _ => rfl

theorem lexOnly_fuel : LexOnly fuelP := fun _ _ _ => rfl

theorem lexOnly_bind {α β : Type} {m : P α} {f : α → P β} (hm : LexOnly m)
    (hf : ∀ a, LexOnly (f a)) : LexOnly (P.bind m f) := by
  intro l t t1
  have h1 := hm l t t1
  simp only [P.bind]
  rw [h1]
  cases hms : m { lex := l, root := t } with
  | mk r s1 =>
    cases r with
    | ok a =>
      simp only
      have h2 := hf a s1.lex s1.root t1
      rw [h2]
    | error e => rfl

theorem lexOnly_ite {α : Type} {c : Prop} [Decidable c] {m1 m2 : P α} (h1 : LexOnly m1)
    (h2 : LexOnly m2) : LexOnly (if c then m1 else m2) := by
  split
  · exact h1
  · exact h2

theorem lexOnly_dottedLoop (msg : String) (fuel : Nat) :
    ∀ name : List String, LexOnly (dottedLoop msg fuel name) := by
  induction fuel with
  | zero => intro name; exact lexOnly_pure _
  | succ fuel ih =>
    intro name
    simp only [dottedLoop, bind_eq]
    refine lexOnly_bind lexOnly_peek (fun pk => ?_)
    refine lexOnly_ite ?_ (lexOnly_pure _)
    refine lexOnly_bind lexOnly_next (fun _ => ?_)
    refine lexOnly_bind lexOnly_next (fun t => ?_)
    exact lexOnly_ite (lexOnly_throw _) (ih _)

theorem lexOnly_nestedLoop (fuel : Nat) :
    ∀ nested : List String, LexOnly (nestedLoop fuel nested) := by
  induction fuel with
  | zero => intro nested; exact lexOnly_pure _
  | succ fuel ih =>
    intro nested
    simp only [nestedLoop, bind_eq]
    refine lexOnly_bind lexOnly_peek (fun pk => ?_)
    refine lexOnly_ite ?_ (lexOnly_pure _)
    refine lexOnly_bind lexOnly_next (fun _ => ?_)
    refine lexOnly_bind lexOnly_next (fun t => ?_)
    refine lexOnly_ite (lexOnly_throw _) ?_
    refine lexOnly_bind lexOnly_fuel (fun f => ?_)
    exact lexOnly_bind (lexOnly_dottedLoop _ _ _) (fun parts => ih _)

theorem lexOnly_arrayLoop (fuel : Nat) :
    ∀ (array : String) (level : Nat), LexOnly (arrayLoop fuel array level) := by
  induction fuel with
  | zero => intro array level; exact lexOnly_pure _
  | succ fuel ih =>
    intro array level
    simp only [arrayLoop, bind_eq]
    refine lexOnly_bind lexOnly_peek (fun pk => ?_)
    refine lexOnly_ite ?_ (lexOnly_pure _)
    exact lexOnly_bind lexOnly_next (fun _ => ih _ _)

/-- What a function that only reads the lexer does on another tree. -/
theorem lexOnly_apply {α : Type} {m : P α} (hm : LexOnly m) {s s1 : PState}
    {r : Except Err α} (h : m s = (r, s1)) :
    s1.root = s.root ∧ ∀ t2, m { lex := s.lex, root := t2 } = (r, { lex := s1.lex, root := t2 }) := by
  have h0 := hm s.lex s.root s.root
  have hs : ({ lex := s.lex, root := s.root } : PState) = s := rfl
  rw [hs, h] at h0
  simp only [Prod.mk.injEq, true_and] at h0
  constructor
  · rw [h0]
  · intro t2
    have h2 := hm s.lex s.root t2
    rw [hs, h] at h2
    exact h2

/-! ### Nodes below a member -/

theorem dead_iff (t : Tree) (v : Nat) :
    Dead t v ↔ t.isMember v = true ∨ ∃ p, t.parent v = some p ∧ Dead t p := by
  constructor
  · intro h
    cases h with
    | member _ hm => exact Or.inl hm
    | child _ p hp hd => exact Or.inr ⟨p, hp, hd⟩
  · rintro (hm | ⟨p, hp, hd⟩)
    · exact Dead.member _ hm
    · exact Dead.child _ p hp hd

theorem not_dead_of_no_member (t : Tree) (h : ∀ v, t.isMember v = false) (v : Nat) :
    ¬ Dead t v := by
  intro hd
  induction hd with
  | member v hm => rw [h v] at hm; exact Bool.noConfusion hm
  | child _ _ _ _ ih => exact ih

theorem isDataContainer_not_member {x : Thing} (h : x.isDataContainer = true) :
    x.isMember = false := by
  cases x <;> first | rfl | exact Bool.noConfusion h

theorem isClass_not_member {x : Thing} (h : x.isClass = true) : x.isMember = false := by
  cases x <;> first | rfl | exact Bool.noConfusion h

theorem isClass_isDataContainer {x : Thing} (h : x.isClass = true) :
    x.isDataContainer = true := by
  cases x <;> first | rfl | exact Bool.noConfusion h

theorem isType_not_member {x : Thing} (h : x.isType = true) : x.isMember = false := by
  cases x <;> first | rfl | exact Bool.noConfusion h

theorem Inv.root_lt {t : Tree} (h : Inv t) : 0 < t.length := by
  obtain ⟨nm, hn⟩ := h.root_thing
  exact thing_lt hn

theorem Inv.not_dead_root {t : Tree} (h : Inv t) : ¬ Dead t 0 := by
  obtain ⟨nm, hn⟩ := h.root_thing
  exact h.solid 0 _ hn rfl

theorem Inv.not_dead_parent {t : Tree} {v p : Nat} (hp : t.parent v = some p)
    (hd : ¬ Dead t v) : ¬ Dead t p :=
  fun h => hd (Dead.child _ p hp h)

theorem Inv.not_dead_thing {t : Tree} (h : Inv t) {v : Nat} {x : Thing}
    (hx : t.thing v = some x) (hm : x.isMember = false) : ¬ Dead t v :=
  h.solid v x hx hm

/-- An entry of the root is not a member of a class. -/
theorem Inv.root_entry_not_member {t : Tree} (h : Inv t) {k : String} {v : Nat}
    (hv : t.value 0 k = some v) : t.isMember v = false := by
  cases hm : t.isMember v with
  | false => rfl
  | true =>
    exfalso
    obtain ⟨p, x, hp, hx, hc⟩ := h.member_parent v hm
    obtain ⟨nm, hr⟩ := h.root_thing
    rcases (h.link 0 k v hv).2 with h1 | ⟨_, h1⟩
    · rw [h1] at hp
      have : p = 0 := (Option.some.inj hp).symm
      subst this
      rw [hr] at hx
      have := Option.some.inj hx
      subst this
      exact Bool.noConfusion hc
    · rw [h1] at hp
      exact Option.noConfusion hp

/-- An entry of the root does not lie below a member. -/
theorem Inv.root_entry_not_dead {t : Tree} (h : Inv t) {k : String} {v : Nat}
    (hv : t.value 0 k = some v) : ¬ Dead t v := by
  intro hd
  rw [dead_iff] at hd
  rcases hd with hm | ⟨p, hp, hd⟩
  · rw [h.root_entry_not_member hv] at hm
    exact Bool.noConfusion hm
  · rcases (h.link 0 k v hv).2 with h1 | ⟨_, h1⟩
    · rw [h1] at hp
      have : p = 0 := (Option.some.inj hp).symm
      subst this
      exact h.not_dead_root hd
    · rw [h1] at hp
      exact Option.noConfusion hp

theorem dead_addChild_old (t : Tree) (hc : ∀ v p, t.parent v = some p → p < t.length)
    (scope : Nat) (par : Option Nat) (key name : String) (x : Option Thing)
    (hs : scope < t.length) (v : Nat) (hd : Dead (t.addChild scope par key name x) v) :
    v < t.length → Dead t v := by
  induction hd with
  | member v hm =>
    intro hv
    rw [isMember_addChild _ _ _ _ _ _ hs _ (by omega)] at hm
    exact Dead.member _ hm
  | child v p hp _ ih =>
    intro hv
    rw [parent_addChild _ _ _ _ _ _ hs, if_neg (by omega)] at hp
    exact Dead.child _ p hp (ih (hc _ _ hp))

theorem setThing_eq_self (t : Tree) (n : Nat) (x : Thing) (hn : ¬ n < t.length) :
    t.setThing n x = t := by
  simp only [Tree.setThing]
  rw [List.getElem?_eq_none (by omega)]

theorem isMember_setThing (t : Tree) (n : Nat) (x : Thing) (hn : t.thing n = none)
    (hx : x.isMember = false) (v : Nat) : (t.setThing n x).isMember v = t.isMember v := by
  by_cases hlt : n < t.length
  · simp only [Tree.isMember, thing_setThing _ _ _ hlt]
    by_cases hv : v = n
    · subst hv
      simp only [↓reduceIte, hx, hn]
    · simp only [hv, ↓reduceIte]
  · rw [setThing_eq_self _ _ _ hlt]

theorem dead_setThing (t : Tree) (n : Nat) (x : Thing) (hn : t.thing n = none)
    (hx : x.isMember = false) (v : Nat) (hd : Dead (t.setThing n x) v) : Dead t v := by
  induction hd with
  | member v hm =>
    rw [isMember_setThing _ _ _ hn hx] at hm
    exact Dead.member _ hm
  | child v p hp _ ih =>
    rw [parent_setThing] at hp
    exact Dead.child _ p hp ih

/-! ### The invariant is kept -/

theorem inv_addChild (t : Tree) (hI : Inv t) (scope : Nat) (par : Option Nat)
    (key name : String) (x : Option Thing) (hs : scope < t.length)
    (hpar : par = some scope ∨ (scope = 0 ∧ par = none))
    (hmem : ∀ y, x = some y → y.isMember = true →
      par = some scope ∧ ∃ c, t.thing scope = some c ∧ c.isClass = true)
    (hsolid : ∀ y, x = some y → y.isMember = false → ¬ Dead t scope) :
    Inv (t.addChild scope par key name x) := by
  have h0 := hI.root_lt
  refine ⟨?_, ?_, ?_, ?_, ?_, ?_, ?_, ?_⟩
  · obtain ⟨nm, hn⟩ := hI.root_thing
    exact ⟨nm, by rw [thing_addChild _ _ _ _ _ _ hs, if_neg (by omega)]; exact hn⟩
  · rw [parent_addChild _ _ _ _ _ _ hs, if_neg (by omega)]
    exact hI.root_parent
  · rw [name_addChild _ _ _ _ _ _ hs, if_neg (by omega), value_addChild _ _ _ _ _ _ hs]
    split
    · rfl
    · exact hI.own
  · intro s k v hv
    rw [value_addChild _ _ _ _ _ _ hs] at hv
    rw [length_addChild, parent_addChild _ _ _ _ _ _ hs]
    split at hv
    · rename_i hsk
      have hv2 : v = t.length := (Option.some.inj hv).symm
      subst hv2
      refine ⟨by omega, ?_⟩
      simp only [↓reduceIte]
      rw [hsk.1]
      exact hpar
    · obtain ⟨h1, h2⟩ := hI.link s k v hv
      refine ⟨by omega, ?_⟩
      rw [if_neg (by omega)]
      exact h2
  · intro v p hp
    rw [parent_addChild _ _ _ _ _ _ hs] at hp
    rw [length_addChild]
    split at hp
    · rcases hpar with h1 | ⟨_, h1⟩
      · rw [h1] at hp
        have : p = scope := (Option.some.inj hp).symm
        omega
      · rw [h1] at hp
        exact Option.noConfusion hp
    · have := hI.closed v p hp
      omega
  · intro v hm
    by_cases hv : v = t.length
    · subst hv
      simp only [Tree.isMember, thing_addChild _ _ _ _ _ _ hs, ↓reduceIte] at hm
      cases x with
      | none => exact Bool.noConfusion hm
      | some y =>
        simp only at hm
        obtain ⟨h1, c, hc, hcc⟩ := hmem y rfl hm
        refine ⟨scope, c, ?_, ?_, hcc⟩
        · rw [parent_addChild _ _ _ _ _ _ hs, if_pos rfl, h1]
        · rw [thing_addChild _ _ _ _ _ _ hs, if_neg (by omega)]
          exact hc
    · rw [isMember_addChild _ _ _ _ _ _ hs _ hv] at hm
      obtain ⟨p, c, hp, hc, hcc⟩ := hI.member_parent v hm
      refine ⟨p, c, ?_, ?_, hcc⟩
      · rw [parent_addChild _ _ _ _ _ _ hs, if_neg hv]
        exact hp
      · rw [thing_addChild _ _ _ _ _ _ hs, if_neg (by have := thing_lt hc; omega)]
        exact hc
  · intro v y hy hym hd
    rw [thing_addChild _ _ _ _ _ _ hs] at hy
    by_cases hv : v = t.length
    · subst hv
      simp only [↓reduceIte] at hy
      rw [dead_iff] at hd
      rcases hd with hm | ⟨p, hp, hd⟩
      · simp only [Tree.isMember, thing_addChild _ _ _ _ _ _ hs, ↓reduceIte, hy, hym] at hm
        exact Bool.noConfusion hm
      · rw [parent_addChild _ _ _ _ _ _ hs, if_pos rfl] at hp
        rcases hpar with h1 | ⟨_, h1⟩
        · rw [h1] at hp
          have : p = scope := (Option.some.inj hp).symm
          subst this
          exact hsolid y hy hym (dead_addChild_old t hI.closed _ _ _ _ _ hs _ hd hs)
        · rw [h1] at hp
          exact Option.noConfusion hp
    · rw [if_neg hv] at hy
      exact hI.solid v y hy hym
        (dead_addChild_old t hI.closed _ _ _ _ _ hs _ hd (thing_lt hy))
  · intro s k v hv
    rw [value_addChild _ _ _ _ _ _ hs] at hv
    split at hv
    · rename_i hsk
      have hv2 : v = t.length := (Option.some.inj hv).symm
      rw [hv2, hsk.1]
      exact hs
    · exact hI.above s k v hv

theorem isMember_setThing_of (t : Tree) (n : Nat) (x : Thing) (hn : t.isMember n = false)
    (hx : x.isMember = false) (v : Nat) : (t.setThing n x).isMember v = t.isMember v := by
  by_cases hlt : n < t.length
  · by_cases hv : v = n
    · subst hv
      rw [hn]
      simp only [Tree.isMember, thing_setThing _ _ _ hlt, ↓reduceIte, hx]
    · simp only [Tree.isMember, thing_setThing _ _ _ hlt, hv, ↓reduceIte]
  · rw [setThing_eq_self _ _ _ hlt]

theorem dead_setThing_of (t : Tree) (n : Nat) (x : Thing) (hn : t.isMember n = false)
    (hx : x.isMember = false) (v : Nat) (hd : Dead (t.setThing n x) v) : Dead t v := by
  induction hd with
  | member v hm =>
    rw [isMember_setThing_of _ _ _ hn hx] at hm
    exact Dead.member _ hm
  | child v p hp _ ih =>
    rw [parent_setThing] at hp
    exact Dead.child _ p hp ih

/-- The invariant is kept when a node that holds no member and is not the
root gets an object that is no member, a class if it held a class, and the
node does not lie below a member. -/
theorem inv_setThing_of (t : Tree) (hI : Inv t) (n : Nat) (x : Thing)
    (hn : t.isMember n = false) (hx : x.isMember = false) (hn0 : n ≠ 0)
    (hcls : ∀ c, t.thing n = some c → c.isClass = true → x.isClass = true)
    (hd : ¬ Dead t n) : Inv (t.setThing n x) := by
  by_cases hlt : n < t.length
  · refine ⟨?_, ?_, ?_, ?_, ?_, ?_, ?_, ?_⟩
    · obtain ⟨nm, hr⟩ := hI.root_thing
      exact ⟨nm, by rw [thing_setThing _ _ _ hlt, if_neg (fun h => hn0 h.symm)]; exact hr⟩
    · rw [parent_setThing]
      exact hI.root_parent
    · rw [name_setThing, value_setThing]
      exact hI.own
    · intro s k v hv
      rw [value_setThing] at hv
      rw [length_setThing, parent_setThing]
      exact hI.link s k v hv
    · intro v p hp
      rw [parent_setThing] at hp
      rw [length_setThing]
      exact hI.closed v p hp
    · intro v hm
      rw [isMember_setThing_of _ _ _ hn hx] at hm
      obtain ⟨p, c, hp, hc, hcc⟩ := hI.member_parent v hm
      by_cases hpn : p = n
      · subst hpn
        refine ⟨p, x, ?_, ?_, hcls c hc hcc⟩
        · rw [parent_setThing]
          exact hp
        · rw [thing_setThing _ _ _ hlt, if_pos rfl]
      · refine ⟨p, c, ?_, ?_, hcc⟩
        · rw [parent_setThing]
          exact hp
        · rw [thing_setThing _ _ _ hlt, if_neg hpn]
          exact hc
    · intro v y hy hym hdv
      have hdv2 := dead_setThing_of _ _ _ hn hx _ hdv
      rw [thing_setThing _ _ _ hlt] at hy
      by_cases hv : v = n
      · subst hv
        exact hd hdv2
      · rw [if_neg hv] at hy
        exact hI.solid v y hy hym hdv2
    · intro s k v hv
      rw [value_setThing] at hv
      exact hI.above s k v hv
  · rw [setThing_eq_self _ _ _ hlt]
    exact hI

theorem inv_setThing (t : Tree) (hI : Inv t) (n : Nat) (x : Thing) (hn : t.thing n = none)
    (hx : x.isMember = false) (hd : ¬ Dead t n) : Inv (t.setThing n x) := by
  have hn0 : n ≠ 0 := by
    intro h0
    obtain ⟨nm, hr⟩ := hI.root_thing
    rw [h0] at hn
    rw [hn] at hr
    exact Option.noConfusion hr
  refine inv_setThing_of t hI n x ?_ hx hn0 ?_ hd
  · simp only [Tree.isMember, hn]
  · intro c hc
    rw [hn] at hc
    exact Option.noConfusion hc

theorem hoare_bind {α β : Type} {s : PState} {m : P α} {f : α → P β}
    {p : α → PState → Prop} {q : β → PState → Prop} (hm : HoareAt s m p)
    (hf : ∀ a s1, m s = (Except.ok a, s1) → Inv s1.root → p a s1 → HoareAt s1 (f a) q) :
    HoareAt s (P.bind m f) q := by
  intro r s2 h
  cases hms : m s with
  | mk r1 s1 =>
    cases r1 with
    | ok a =>
      rw [bind_ok hms] at h
      obtain ⟨hI1, hq1⟩ := hm _ _ hms
      exact hf a s1 hms hI1 (hq1 a rfl) _ _ h
    | error e =>
      rw [bind_err hms] at h
      simp only [Prod.mk.injEq] at h
      obtain ⟨h1, h2⟩ := h
      subst h1; subst h2
      exact ⟨(hm _ _ hms).1, fun a ha => Except.noConfusion ha⟩

theorem hoare_same {α : Type} {s : PState} {m : P α} {q : α → PState → Prop}
    (hI : Inv s.root) (h : ∀ r s1, m s = (r, s1) → s1.root = s.root)
    (hq : ∀ a s1, m s = (Except.ok a, s1) → q a s1) : HoareAt s m q := by
  intro r s1 hm
  refine ⟨by rw [h r s1 hm]; exact hI, ?_⟩
  intro a ha
  subst ha
  exact hq a s1 hm

theorem hoare_weaken {α : Type} {s : PState} {m : P α} {q p : α → PState → Prop}
    (h : HoareAt s m q) (hq : ∀ a s1, q a s1 → p a s1) : HoareAt s m p :=
  fun r s1 hm => ⟨(h r s1 hm).1, fun a ha => hq a s1 ((h r s1 hm).2 a ha)⟩

theorem hoare_pure {α : Type} {s : PState} {a : α} {q : α → PState → Prop}
    (hI : Inv s.root) (hq : q a s) : HoareAt s (pure a : P α) q := by
  intro r s1 hm
  simp only [pure, P.pure, Prod.mk.injEq] at hm
  obtain ⟨h1, h2⟩ := hm
  subst h1; subst h2
  exact ⟨hI, fun b hb => by cases hb; exact hq⟩

theorem hoare_throw {α : Type} {s : PState} {msg : String} {q : α → PState → Prop}
    (hI : Inv s.root) : HoareAt s (throwP msg : P α) q := by
  intro r s1 hm
  simp only [throwP, Prod.mk.injEq] at hm
  obtain ⟨h1, h2⟩ := hm
  subst h1; subst h2
  exact ⟨hI, fun b hb => Except.noConfusion hb⟩

theorem hoare_fail {α : Type} {s : PState} {e : Err} {q : α → PState → Prop}
    (hI : Inv s.root) : HoareAt s (fun s => (Except.error e, s) : P α) q := by
  intro r s1 hm
  simp only [Prod.mk.injEq] at hm
  obtain ⟨h1, h2⟩ := hm
  subst h1; subst h2
  exact ⟨hI, fun b hb => Except.noConfusion hb⟩

theorem hoare_assert {s : PState} {c : Bool} (hI : Inv s.root) :
    HoareAt s (assertP c) (fun _ s1 => c = true ∧ s1 = s) := by
  intro r s1 hm
  simp only [assertP] at hm
  split at hm
  · simp only [Prod.mk.injEq] at hm
    obtain ⟨h1, h2⟩ := hm
    subst h1; subst h2
    exact ⟨hI, fun _ _ => ⟨‹_›, rfl⟩⟩
  · simp only [Prod.mk.injEq] at hm
    obtain ⟨h1, h2⟩ := hm
    subst h1; subst h2
    exact ⟨hI, fun b hb => Except.noConfusion hb⟩

theorem hoare_getTree {s : PState} (hI : Inv s.root) :
    HoareAt s getTree (fun t s1 => t = s.root ∧ s1 = s) := by
  intro r s1 hm
  simp only [getTree, Prod.mk.injEq] at hm
  obtain ⟨h1, h2⟩ := hm
  subst h1; subst h2
  exact ⟨hI, fun b hb => by cases hb; exact ⟨rfl, rfl⟩⟩

theorem hoare_lexOnly {α : Type} {s : PState} {m : P α} (hI : Inv s.root) (hl : LexOnly m) :
    HoareAt s m (fun _ s1 => s1.root = s.root) := by
  intro r s1 hm
  have h := (lexOnly_apply hl hm).1
  exact ⟨by rw [h]; exact hI, fun _ _ => h⟩

theorem hoare_newChild {s : PState} (hI : Inv s.root) (scope : Nat) (par : Option Nat)
    (key name : String) (x : Option Thing) (hs : scope < s.root.length)
    (hpar : par = some scope ∨ (scope = 0 ∧ par = none))
    (hmem : ∀ y, x = some y → y.isMember = true →
      par = some scope ∧ ∃ c, s.root.thing scope = some c ∧ c.isClass = true)
    (hsolid : ∀ y, x = some y → y.isMember = false → ¬ Dead s.root scope) :
    HoareAt s (newChild scope par key name x)
      (fun a s1 => a = s.root.length ∧ s1.root = s.root.addChild scope par key name x) := by
  intro r s1 hm
  rw [newChild_apply] at hm
  simp only [Prod.mk.injEq] at hm
  obtain ⟨h1, h2⟩ := hm
  subst h1; subst h2
  exact ⟨inv_addChild _ hI _ _ _ _ _ hs hpar hmem hsolid,
    fun b hb => by cases hb; exact ⟨rfl, rfl⟩⟩

theorem hoare_setTree {s : PState} {t : Tree} (h : Inv t) :
    HoareAt s (setTree t) (fun _ s1 => s1.root = t) := by
  intro r s1 hm
  simp only [setTree, Prod.mk.injEq] at hm
  obtain ⟨h1, h2⟩ := hm
  subst h1; subst h2
  exact ⟨h, fun _ _ => rfl⟩

theorem hoare_createClassFor (node : Nat) (s : PState) (hI : Inv s.root) :
    HoareAt s (createClassFor node)
      (fun _ s1 => ∃ c, s1.root.thing node = some c ∧ c.isClass = true) := by
  simp only [createClassFor, bind_eq]
  refine hoare_bind (hoare_getTree hI) ?_
  rintro t s1 _ hI1 ⟨h1, h2⟩
  subst h1; subst h2
  refine hoare_bind (hoare_assert hI1) ?_
  rintro _ s2 _ hI2 ⟨hc1, h2⟩
  subst h2
  refine hoare_bind (hoare_assert hI2) ?_
  rintro _ s3 _ hI3 ⟨hc2, h2⟩
  subst h2
  refine hoare_bind (hoare_assert hI3) ?_
  rintro _ s4 _ hI4 ⟨hc3, h2⟩
  subst h2
  have hn : s4.root.thing node = none := by
    cases ht : s4.root.thing node with
    | none => rfl
    | some x => rw [ht] at hc1; exact Bool.noConfusion hc1
  cases hp : s4.root.parent node with
  | none => rw [hp] at hc2; exact Bool.noConfusion hc2
  | some p =>
    rw [hp] at hc3
    simp only [Option.bind] at hc3
    cases hy : s4.root.thing p with
    | none => rw [hy] at hc3; exact Bool.noConfusion hc3
    | some y =>
      rw [hy] at hc3
      simp only at hc3
      have hd : ¬ Dead s4.root node := by
        intro hd
        rw [dead_iff] at hd
        rcases hd with hm | ⟨p2, hp2, hd2⟩
        · rw [isMember_none hn] at hm
          exact Bool.noConfusion hm
        · rw [hp] at hp2
          have : p2 = p := (Option.some.inj hp2).symm
          subst this
          exact hI4.solid p2 y hy (isDataContainer_not_member hc3) hd2
      refine hoare_weaken (hoare_setTree (inv_setThing _ hI4 node _ hn rfl hd)) ?_
      intro _ s5 h5
      rw [h5, thing_setThing _ _ _ (parent_lt hp), if_pos rfl]
      exact ⟨_, rfl, rfl⟩

theorem hoare_fetchPrimitive (name : String) (s : PState) (hI : Inv s.root) :
    HoareAt s (fetchPrimitive name) (fun _ _ => True) := by
  simp only [fetchPrimitive, bind_eq]
  refine hoare_bind (hoare_getTree hI) ?_
  rintro t s1 _ hI1 ⟨h1, h2⟩
  subst h1; subst h2
  refine hoare_bind (p := fun p s2 => p < s2.root.length ∧ ¬ Dead s2.root p) ?_ ?_
  · cases hv : s1.root.value 0 "" with
    | none =>
      simp only
      refine hoare_weaken (hoare_newChild hI1 0 none "" _ none hI1.root_lt
        (Or.inr ⟨rfl, rfl⟩) (fun y hy => Option.noConfusion hy)
        (fun y hy => Option.noConfusion hy)) ?_
      rintro p s2 ⟨hp, hr⟩
      rw [hr, length_addChild, hp]
      refine ⟨by omega, ?_⟩
      intro hd
      rw [dead_iff] at hd
      rcases hd with hm | ⟨p2, hp2, _⟩
      · simp only [Tree.isMember, thing_addChild _ _ _ _ _ _ hI1.root_lt, ↓reduceIte] at hm
        exact Bool.noConfusion hm
      · rw [parent_addChild _ _ _ _ _ _ hI1.root_lt, if_pos rfl] at hp2
        exact Option.noConfusion hp2
    | some p =>
      exact hoare_pure hI1 ⟨(hI1.link 0 "" p hv).1, hI1.root_entry_not_dead hv⟩
  rintro p s2 _ hI2 ⟨hp, hdp⟩
  refine hoare_bind (hoare_getTree hI2) ?_
  rintro t s3 _ hI3 ⟨h1, h2⟩
  subst h1; subst h2
  cases hv : s3.root.value p name with
  | some t => exact hoare_pure hI3 trivial
  | none =>
    simp only
    refine hoare_bind (hoare_newChild hI3 p (some p) name name none hp (Or.inl rfl)
      (fun y hy => Option.noConfusion hy) (fun y hy => Option.noConfusion hy)) ?_
    rintro c s4 _ hI4 ⟨hc, hr⟩
    cases basicTypeOf name with
    | none => exact hoare_throw hI4
    | some b =>
      simp only
      refine hoare_bind (hoare_getTree hI4) ?_
      rintro t s5 _ hI5 ⟨h1, h2⟩
      subst h1; subst h2
      have hcn : s5.root.thing c = none := by
        rw [hr, hc, thing_addChild _ _ _ _ _ _ hp, if_pos rfl]
      have hcd : ¬ Dead s5.root c := by
        intro hd
        rw [dead_iff] at hd
        rcases hd with hm | ⟨p2, hp2, hd2⟩
        · rw [isMember_none hcn] at hm
          exact Bool.noConfusion hm
        · rw [hr, hc, parent_addChild _ _ _ _ _ _ hp, if_pos rfl] at hp2
          have : p2 = p := (Option.some.inj hp2).symm
          subst this
          rw [hr] at hd2
          exact hdp (dead_addChild_old _ hI3.closed _ _ _ _ _ hp _ hd2 hp)
      refine hoare_bind (hoare_setTree (inv_setThing _ hI5 c _ hcn rfl hcd)) ?_
      rintro _ s6 _ hI6 _
      exact hoare_pure hI6 trivial

theorem hoare_fetchAssembly (name : String) (s : PState) (hI : Inv s.root) :
    HoareAt s (fetchAssembly name) (fun a s1 => a < s1.root.length) := by
  simp only [fetchAssembly, bind_eq]
  refine hoare_bind (hoare_getTree hI) ?_
  rintro t s1 _ hI1 ⟨h1, h2⟩
  subst h1; subst h2
  cases hv : s1.root.value 0 name with
  | some a => exact hoare_pure hI1 (hI1.link 0 name a hv).1
  | none =>
    simp only
    split
    · exact hoare_pure hI1 hI1.root_lt
    · have hI2 : Inv (s1.root.addChild 0 (some 0) name name
          (some (Thing.AssemblyDef (cstr name)))) :=
        inv_addChild _ hI1 _ _ _ _ _ hI1.root_lt (Or.inl rfl)
          (fun y hy hm => by
            have := Option.some.inj hy
            subst this
            exact Bool.noConfusion hm)
          (fun _ _ _ => hI1.not_dead_root)
      refine hoare_bind (hoare_setTree hI2) ?_
      rintro _ s2 _ hI3 hr
      refine hoare_pure hI3 ?_
      have hr2 : s2.root = s1.root.addChild 0 (some 0) name name
          (some (Thing.AssemblyDef (cstr name))) := hr
      rw [hr2, length_addChild]
      exact Nat.lt_succ_self _

theorem hoare_assembly (s : PState) (hI : Inv s.root) :
    HoareAt s assembly (fun a s1 => a < s1.root.length) := by
  simp only [assembly, bind_eq]
  refine hoare_bind (hoare_lexOnly hI lexOnly_next) ?_
  rintro t0 s1 _ hI1 _
  split
  · exact hoare_throw hI1
  · refine hoare_bind (hoare_lexOnly hI1 lexOnly_next) ?_
    rintro t s2 _ hI2 _
    split
    · exact hoare_throw hI2
    · refine hoare_bind (hoare_lexOnly hI2 lexOnly_fuel) ?_
      rintro fuel s3 _ hI3 _
      refine hoare_bind (hoare_lexOnly hI3 (lexOnly_dottedLoop _ _ _)) ?_
      rintro nm s4 _ hI4 _
      refine hoare_bind (hoare_lexOnly hI4 lexOnly_next) ?_
      rintro t1 s5 _ hI5 _
      split
      · exact hoare_throw hI5
      · exact hoare_fetchAssembly _ _ hI5

theorem hoare_pathNamespaces (names : List String) :
    ∀ (scope : Nat) (s : PState), Inv s.root → scope < s.root.length →
      HoareAt s (pathNamespaces names scope) (fun a s1 => a < s1.root.length) := by
  induction names with
  | nil => intro scope s hI hs; exact hoare_pure hI hs
  | cons n rest ih =>
    intro scope s hI hs
    cases rest with
    | nil => exact hoare_pure hI hs
    | cons m rest2 =>
      simp only [pathNamespaces, bind_eq]
      refine hoare_bind (hoare_getTree hI) ?_
      rintro t s1 _ hI1 ⟨h1, h2⟩
      subst h1; subst h2
      cases hv : s1.root.value scope n with
      | some node => exact ih _ _ hI1 (hI1.link _ _ _ hv).1
      | none =>
        simp only
        refine hoare_bind (hoare_assert hI1) ?_
        rintro _ s2 _ hI2 ⟨hc, h2⟩
        subst h2
        cases hx : s2.root.thing scope with
        | none => rw [hx] at hc; exact Bool.noConfusion hc
        | some x =>
          rw [hx] at hc
          simp only at hc
          refine hoare_bind (hoare_newChild hI2 scope (some scope) n n _ hs (Or.inl rfl)
            (fun y hy hm => by
              have := Option.some.inj hy
              subst this
              exact Bool.noConfusion hm)
            (fun _ _ _ => hI2.solid _ _ hx (isDataContainer_not_member hc))) ?_
          rintro node s3 _ hI3 ⟨hn, hr⟩
          refine ih _ _ hI3 ?_
          rw [hr, length_addChild, hn]
          exact Nat.lt_succ_self _

theorem hoare_pathNested (names : List String) :
    ∀ (scope : Nat) (s : PState), Inv s.root →
      (∃ c, s.root.thing scope = some c ∧ c.isClass = true) →
      HoareAt s (pathNested names scope) (fun _ _ => True) := by
  induction names with
  | nil => intro scope s hI hs; exact hoare_pure hI trivial
  | cons n rest ih =>
    intro scope s hI hs
    obtain ⟨c, hc, hcc⟩ := hs
    simp only [pathNested, bind_eq]
    refine hoare_bind (hoare_getTree hI) ?_
    rintro t s1 _ hI1 ⟨h1, h2⟩
    subst h1; subst h2
    cases hv : s1.root.value scope n with
    | none =>
      simp only
      refine hoare_bind (hoare_newChild hI1 scope (some scope) n n none (thing_lt hc)
        (Or.inl rfl) (fun y hy => Option.noConfusion hy)
        (fun y hy => Option.noConfusion hy)) ?_
      rintro node s2 _ hI2 _
      refine hoare_bind (hoare_createClassFor node s2 hI2) ?_
      rintro _ s3 _ hI3 hcls
      exact ih _ _ hI3 hcls
    | some node =>
      simp only
      split
      · rename_i nm ex hth
        exact ih _ _ hI1 ⟨_, hth, rfl⟩
      · exact hoare_throw hI1

theorem hoare_path (isPrimitive : String → Bool) (scope : Nat) (s : PState) (hI : Inv s.root)
    (hs : scope < s.root.length) : HoareAt s (path isPrimitive scope) (fun _ _ => True) := by
  simp only [path, bind_eq]
  refine hoare_bind (hoare_lexOnly hI lexOnly_next) ?_
  rintro t s1 _ hI1 hr1
  split
  · exact hoare_throw hI1
  · refine hoare_bind (hoare_lexOnly hI1 lexOnly_fuel) ?_
    rintro fuel s2 _ hI2 hr2
    refine hoare_bind (hoare_lexOnly hI2 (lexOnly_dottedLoop _ _ _)) ?_
    rintro name s3 _ hI3 hr3
    split
    · exact hoare_fetchPrimitive _ _ hI3
    · refine hoare_bind (hoare_pathNamespaces _ _ _ hI3
        (by rw [hr3, hr2, hr1]; exact hs)) ?_
      rintro scope1 s4 _ hI4 hs1
      refine hoare_bind (hoare_getTree hI4) ?_
      rintro tr s5 _ hI5 ⟨h1, h2⟩
      subst h1; subst h2
      refine hoare_bind (p := fun _ _ => True) ?_ ?_
      · cases hv : s5.root.value scope1 (name.getLastD "") with
        | some node => exact hoare_pure hI5 trivial
        | none =>
          exact hoare_weaken (hoare_newChild hI5 scope1 (some scope1) _ _ none hs1
            (Or.inl rfl) (fun y hy => Option.noConfusion hy)
            (fun y hy => Option.noConfusion hy)) (fun _ _ _ => trivial)
      rintro node s6 _ hI6 _
      refine hoare_bind (hoare_lexOnly hI6 (lexOnly_nestedLoop _ _)) ?_
      rintro nested s7 _ hI7 _
      split
      · exact hoare_pure hI7 trivial
      · refine hoare_bind (hoare_getTree hI7) ?_
        rintro tr1 s8 _ hI8 ⟨h1, h2⟩
        subst h1; subst h2
        split
        · refine hoare_bind (hoare_createClassFor node _ hI8) ?_
          rintro _ s9 _ hI9 hcls
          exact hoare_pathNested _ _ _ hI9 hcls
        · rename_i nm ex hth
          exact hoare_pathNested _ _ _ hI8 ⟨_, hth, rfl⟩
        · exact hoare_throw hI8

theorem hoare_primitiveType (isPrimitive : String → Bool) (s : PState) (hI : Inv s.root) :
    HoareAt s (primitiveType isPrimitive) (fun _ _ => True) := by
  simp only [primitiveType, bind_eq]
  refine hoare_bind (hoare_lexOnly hI lexOnly_next) ?_
  rintro first s1 _ hI1 _
  refine hoare_bind (hoare_lexOnly hI1 lexOnly_peek) ?_
  rintro pk s2 _ hI2 _
  refine hoare_bind (p := fun _ _ => True) ?_ ?_
  · split
    · refine hoare_bind (hoare_lexOnly hI2 lexOnly_next) ?_
      rintro _ s3 _ hI3 _
      exact hoare_pure hI3 trivial
    · exact hoare_pure hI2 trivial
  rintro str s3 _ hI3 _
  refine hoare_bind (hoare_lexOnly hI3 lexOnly_next) ?_
  rintro t s4 _ hI4 _
  split
  · exact hoare_throw hI4
  · split
    · exact hoare_throw hI4
    · exact hoare_fetchPrimitive _ _ hI4

theorem hoare_arrayLoop (fuel : Nat) (array : String) (level : Nat) (s : PState)
    (hI : Inv s.root) :
    HoareAt s (arrayLoop fuel array level) (fun _ s1 => s1.root = s.root) :=
  hoare_lexOnly hI (lexOnly_arrayLoop _ _ _)

theorem type_not_member (tp : BasicType) (r : Option Nat) (l : Nat) (b : Bool) (y : Thing)
    (hy : some (Thing.Type tp r l b) = some y) (hm : y.isMember = true) : False := by
  have := Option.some.inj hy
  subst this
  exact Bool.noConfusion hm

theorem hoare_typeRef (isPrimitive : String → Bool) (s : PState) (hI : Inv s.root) :
    HoareAt s (typeRef isPrimitive) (fun _ _ => True) := by
  simp only [typeRef, bind_eq]
  refine hoare_bind (hoare_lexOnly hI lexOnly_peek) ?_
  rintro t0 s1 _ hI1 _
  refine hoare_bind (p := fun _ _ => True) ?_ ?_
  · split
    · refine hoare_bind (hoare_lexOnly hI1 lexOnly_next) ?_
      rintro _ s2 _ hI2 _
      exact hoare_weaken (hoare_lexOnly hI2 lexOnly_peek) (fun _ _ _ => trivial)
    · exact hoare_pure hI1 trivial
  rintro t s2 _ hI2 _
  refine hoare_bind (p := fun _ _ => True) ?_ ?_
  · split
    · exact hoare_primitiveType _ _ hI2
    · split
      · refine hoare_bind (hoare_assembly _ hI2) ?_
        rintro ass s3 _ hI3 hass
        exact hoare_path _ _ _ hI3 hass
      · exact hoare_path _ _ _ hI2 hI2.root_lt
  rintro node s3 _ hI3 _
  refine hoare_bind (hoare_getTree hI3) ?_
  rintro tr s4 _ hI4 ⟨h1, h2⟩
  subst h1; subst h2
  refine hoare_bind (p := fun _ _ => True) ?_ ?_
  · split
    · exact hoare_weaken (hoare_createClassFor _ _ hI4) (fun _ _ _ => trivial)
    · exact hoare_pure hI4 trivial
  rintro _ s5 _ hI5 _
  refine hoare_bind (hoare_lexOnly hI5 lexOnly_fuel) ?_
  rintro fuel s6 _ hI6 _
  refine hoare_bind (hoare_lexOnly hI6 (lexOnly_arrayLoop _ _ _)) ?_
  rintro al s7 _ hI7 _
  refine hoare_bind (hoare_getTree hI7) ?_
  rintro tr1 s8 _ hI8 ⟨h1, h2⟩
  subst h1; subst h2
  split
  · rename_i tp r l b hth
    split
    · exact hoare_pure hI8 trivial
    · cases hv : s8.root.value node al.1 with
      | some suffix => exact hoare_pure hI8 trivial
      | none =>
        exact hoare_weaken (hoare_newChild hI8 node (some node) _ _ _ (thing_lt hth)
          (Or.inl rfl) (fun y hy hm => (type_not_member _ _ _ _ y hy hm).elim)
          (fun _ _ _ => hI8.solid _ _ hth rfl)) (fun _ _ _ => trivial)
  · refine hoare_bind (hoare_assert hI8) ?_
    rintro _ s9 _ hI9 ⟨hc, h2⟩
    subst h2
    cases hx : s9.root.thing node with
    | none => rw [hx] at hc; exact Bool.noConfusion hc
    | some x =>
      rw [hx] at hc
      simp only at hc
      cases hv : s9.root.value node al.1 with
      | some suffix => exact hoare_pure hI9 trivial
      | none =>
        exact hoare_weaken (hoare_newChild hI9 node (some node) _ _ _ (thing_lt hx)
          (Or.inl rfl) (fun y hy hm => (type_not_member _ _ _ _ y hy hm).elim)
          (fun _ _ _ => hI9.solid _ _ hx (isDataContainer_not_member hc)))
          (fun _ _ _ => trivial)

theorem hoare_param (isPrimitive : String → Bool) (s : PState) (hI : Inv s.root) :
    HoareAt s (param isPrimitive) (fun _ _ => True) := by
  simp only [param, bind_eq]
  refine hoare_bind (hoare_lexOnly hI lexOnly_peek) ?_
  rintro pk0 s1 _ hI1 _
  refine hoare_bind (hoare_typeRef _ _ hI1) ?_
  rintro ty s2 _ hI2 _
  refine hoare_bind (hoare_lexOnly hI2 lexOnly_peek) ?_
  rintro pk1 s3 _ hI3 _
  refine hoare_bind (p := fun _ _ => True) ?_ ?_
  · split
    · refine hoare_bind (hoare_lexOnly hI3 lexOnly_next) ?_
      rintro _ s4 _ hI4 _
      refine hoare_bind (hoare_getTree hI4) ?_
      rintro tr s5 _ hI5 ⟨h1, h2⟩
      subst h1; subst h2
      split
      · rename_i tp cls lvl b hth
        have hnd : ¬ Dead s5.root ty := hI5.solid _ _ hth rfl
        split
        · split
          · exact hoare_fail hI5
          · rename_i par hpar
            cases hv : s5.root.value par (s5.root.name ty ++ "&") with
            | some suffix => exact hoare_pure hI5 trivial
            | none =>
              refine hoare_weaken (hoare_newChild hI5 par (some par) _ _ _
                (hI5.closed _ _ hpar) (Or.inl rfl) ?_
                (fun _ _ _ => Inv.not_dead_parent hpar hnd)) (fun _ _ _ => trivial)
              intro y hy hm
              exfalso
              split at hy
              · exact type_not_member _ _ _ _ y hy hm
              · exact type_not_member _ _ _ _ y hy hm
        · cases hv : s5.root.value ty "&" with
          | some suffix => exact hoare_pure hI5 trivial
          | none =>
            exact hoare_weaken (hoare_newChild hI5 ty (some ty) _ _ _ (thing_lt hth)
              (Or.inl rfl) (fun y hy hm => (type_not_member _ _ _ _ y hy hm).elim)
              (fun _ _ _ => hnd)) (fun _ _ _ => trivial)
      · exact hoare_fail hI5
    · exact hoare_pure hI3 trivial
  rintro d_type s4 _ hI4 _
  refine hoare_bind (hoare_lexOnly hI4 lexOnly_peek) ?_
  rintro pk2 s5 _ hI5 _
  refine hoare_bind (p := fun _ _ => True) (hoare_same hI5 (fun r s1 h => by
    simp only [Prod.mk.injEq] at h; rw [← h.2]) (fun _ _ _ => trivial)) ?_
  rintro text s6 _ hI6 _
  refine hoare_bind (hoare_lexOnly hI6 lexOnly_peek) ?_
  rintro pk3 s7 _ hI7 _
  split
  · refine hoare_bind (hoare_lexOnly hI7 lexOnly_next) ?_
    rintro _ s8 _ hI8 _
    exact hoare_pure hI8 trivial
  · exact hoare_pure hI7 trivial

theorem hoare_commaLoop (isPrimitive : String → Bool) (fuel : Nat) :
    ∀ (res : List (Nat × String × String)) (s : PState), Inv s.root →
      HoareAt s (commaLoop isPrimitive fuel res) (fun _ _ => True) := by
  induction fuel with
  | zero => intro res s hI; exact hoare_pure hI trivial
  | succ fuel ih =>
    intro res s hI
    simp only [commaLoop, bind_eq]
    refine hoare_bind (hoare_lexOnly hI lexOnly_peek) ?_
    rintro pk s1 _ hI1 _
    split
    · refine hoare_bind (hoare_lexOnly hI1 lexOnly_next) ?_
      rintro _ s2 _ hI2 _
      refine hoare_bind (hoare_param _ _ hI2) ?_
      rintro p s3 _ hI3 _
      exact ih _ _ hI3
    · exact hoare_pure hI1 trivial

theorem hoare_paramsLoop (isPrimitive : String → Bool) (fuel : Nat) :
    ∀ (res : List (Nat × String × String)) (s : PState), Inv s.root →
      HoareAt s (paramsLoop isPrimitive fuel res) (fun _ _ => True) := by
  induction fuel with
  | zero => intro res s hI; exact hoare_pure hI trivial
  | succ fuel ih =>
    intro res s hI
    simp only [paramsLoop, bind_eq]
    refine hoare_bind (hoare_lexOnly hI lexOnly_peek) ?_
    rintro pk s1 _ hI1 _
    split
    · refine hoare_bind (hoare_param _ _ hI1) ?_
      rintro p s2 _ hI2 _
      refine hoare_bind (hoare_lexOnly hI2 lexOnly_fuel) ?_
      rintro f s3 _ hI3 _
      refine hoare_bind (hoare_commaLoop _ _ _ _ hI3) ?_
      rintro res1 s4 _ hI4 _
      exact ih _ _ hI4
    · exact hoare_pure hI1 trivial

theorem hoare_params (isPrimitive : String → Bool) (s : PState) (hI : Inv s.root) :
    HoareAt s (params isPrimitive) (fun _ _ => True) := by
  simp only [params, bind_eq]
  refine hoare_bind (hoare_lexOnly hI lexOnly_peek) ?_
  rintro pk s1 _ hI1 _
  split
  · refine hoare_bind (hoare_lexOnly hI1 lexOnly_next) ?_
    rintro _ s2 _ hI2 _
    refine hoare_bind (hoare_lexOnly hI2 lexOnly_fuel) ?_
    rintro fuel s3 _ hI3 _
    exact hoare_paramsLoop _ _ _ _ hI3
  · exact hoare_throw hI1

theorem hoare_memberRefHead (isPrimitive : String → Bool) (s : PState) (hI : Inv s.root) :
    HoareAt s (memberRefHead isPrimitive)
      (fun r s1 => ∃ c, s1.root.thing r.2.1 = some c ∧ c.isClass = true) := by
  simp only [memberRefHead, bind_eq]
  refine hoare_bind (hoare_typeRef _ _ hI) ?_
  rintro type s1 _ hI1 _
  refine hoare_bind (hoare_lexOnly hI1 lexOnly_peek) ?_
  rintro t0 s2 _ hI2 _
  refine hoare_bind (p := fun _ _ => True) ?_ ?_
  · split
    · refine hoare_bind (hoare_lexOnly hI2 lexOnly_next) ?_
      rintro _ s3 _ hI3 _
      exact hoare_weaken (hoare_lexOnly hI3 lexOnly_peek) (fun _ _ _ => trivial)
    · exact hoare_pure hI2 trivial
  rintro t s3 _ hI3 _
  refine hoare_bind (p := fun _ _ => True) ?_ ?_
  · split
    · refine hoare_bind (hoare_assembly _ hI3) ?_
      rintro a s4 _ hI4 ha
      exact hoare_path _ _ _ hI4 ha
    · exact hoare_path _ _ _ hI3 hI3.root_lt
  rintro node s4 _ hI4 _
  refine hoare_bind (hoare_lexOnly hI4 lexOnly_next) ?_
  rintro t1 s5 _ hI5 _
  split
  · exact hoare_throw hI5
  · refine hoare_bind (hoare_getTree hI5) ?_
    rintro tr s6 _ hI6 ⟨h1, h2⟩
    subst h1; subst h2
    refine hoare_bind
      (p := fun _ s7 => ∃ c, s7.root.thing node = some c ∧ c.isClass = true) ?_ ?_
    · split
      · exact hoare_createClassFor _ _ hI6
      · rename_i nm ex hth
        exact hoare_pure hI6 ⟨_, hth, rfl⟩
      · exact hoare_throw hI6
    rintro _ s7 _ hI7 hcls
    refine hoare_bind (hoare_lexOnly hI7 lexOnly_next) ?_
    rintro t2 s8 _ hI8 hr8
    split
    · exact hoare_throw hI8
    · refine hoare_bind (hoare_lexOnly hI8 lexOnly_fuel) ?_
      rintro fuel s9 _ hI9 hr9
      refine hoare_bind (hoare_lexOnly hI9 (lexOnly_dottedLoop _ _ _)) ?_
      rintro name s10 _ hI10 hr10
      refine hoare_pure hI10 ?_
      simp only
      rw [hr10, hr9, hr8]
      exact hcls

theorem hoare_createMethod (cls : Nat) (name : String) (pars : List (Nat × String × String))
    (ret : Nat) (hint : MemberHint) (s : PState) (hI : Inv s.root)
    (hc : ∃ c, s.root.thing cls = some c ∧ c.isClass = true) :
    HoareAt s (createMethod cls name pars ret hint) (fun _ _ => True) := by
  obtain ⟨c, hc, hcc⟩ := hc
  simp only [createMethod, bind_eq]
  refine hoare_bind (hoare_getTree hI) ?_
  rintro t s1 _ hI1 ⟨h1, h2⟩
  subst h1; subst h2
  refine hoare_bind (hoare_newChild hI1 cls (some cls) _ _ _ (thing_lt hc) (Or.inl rfl)
    (fun _ _ _ => ⟨rfl, c, hc, hcc⟩)
    (fun y hy hm => by
      have := Option.some.inj hy
      subst this
      exact Bool.noConfusion hm)) ?_
  rintro member s2 _ hI2 _
  refine hoare_bind (hoare_assert hI2) ?_
  rintro _ s3 _ hI3 _
  exact hoare_pure hI3 trivial

theorem hoare_findOrCreateMethod (cls : Nat) (name : String)
    (pars : List (Nat × String × String)) (ret : Nat) (hint : MemberHint) (s : PState)
    (hI : Inv s.root) (hc : ∃ c, s.root.thing cls = some c ∧ c.isClass = true) :
    HoareAt s (findOrCreateMethod cls name pars ret hint) (fun _ _ => True) := by
  simp only [findOrCreateMethod, bind_eq]
  refine hoare_bind (hoare_getTree hI) ?_
  rintro t s1 _ hI1 ⟨h1, h2⟩
  subst h1; subst h2
  split
  · exact hoare_fail hI1
  · exact hoare_pure hI1 trivial
  · exact hoare_createMethod _ _ _ _ _ _ hI1 hc

theorem hoare_findOrCreateField (cls : Nat) (name : String) (type : Nat) (hint : MemberHint)
    (s : PState) (hI : Inv s.root)
    (hc : ∃ c, s.root.thing cls = some c ∧ c.isClass = true) :
    HoareAt s (findOrCreateField cls name type hint) (fun _ _ => True) := by
  obtain ⟨c, hc, hcc⟩ := hc
  simp only [findOrCreateField, bind_eq]
  refine hoare_bind (hoare_getTree hI) ?_
  rintro t s1 _ hI1 ⟨h1, h2⟩
  subst h1; subst h2
  cases hv : s1.root.value cls name with
  | none =>
    simp only
    refine hoare_bind (hoare_newChild hI1 cls (some cls) _ _ _ (thing_lt hc) (Or.inl rfl)
      (fun _ _ _ => ⟨rfl, c, hc, hcc⟩)
      (fun y hy hm => by
        have := Option.some.inj hy
        subst this
        exact Bool.noConfusion hm)) ?_
    rintro member s2 _ hI2 _
    split
    · exact hoare_pure hI2 trivial
    · exact hoare_throw hI2
  | some member =>
    simp only
    split
    · exact hoare_pure hI1 trivial
    · exact hoare_throw hI1

theorem hoare_memberRef (isPrimitive : String → Bool) (hint : MemberHint) (s : PState)
    (hI : Inv s.root) : HoareAt s (memberRef isPrimitive hint) (fun _ _ => True) := by
  simp only [memberRef, bind_eq]
  refine hoare_bind (hoare_memberRefHead _ _ hI) ?_
  rintro ⟨type, node, name⟩ s1 _ hI1 hcls
  simp only at hcls ⊢
  refine hoare_bind (hoare_lexOnly hI1 lexOnly_peek) ?_
  rintro pk s2 _ hI2 hr2
  split
  · refine hoare_bind (p := fun _ s3 => ∃ c, s3.root.thing node = some c ∧ c.isClass = true)
      ?_ ?_
    · intro r s3 hm
      obtain ⟨hI3, _⟩ := hoare_params _ _ hI2 r s3 hm
      refine ⟨hI3, fun _ _ => ?_⟩
      obtain ⟨c, hc, hcc⟩ := hcls
      have he := mono_params isPrimitive s2 r s3 hm
      rw [← hr2] at hc
      exact ⟨c, ext_thing he _ _ hc, hcc⟩
    rintro pars s3 _ hI3 hcls3
    exact hoare_findOrCreateMethod _ _ _ _ _ _ hI3 hcls3
  · refine hoare_findOrCreateField _ _ _ _ _ hI2 ?_
    rw [hr2]
    exact hcls

theorem parse_root (isPrimitive : String → Bool) (hint : MemberHint) (ref : String)
    (root : Tree) :
    (parse isPrimitive hint ref root).2 =
      (if hint ≠ MemberHint.TypeRef then
          memberRef isPrimitive hint { lex := SignatureLexer.init ref, root := root }
        else typeRef isPrimitive { lex := SignatureLexer.init ref, root := root }).2.root := by
  simp only [parse]
  split
  · rename_i n s h; rw [h]
  · rename_i msg s h; rw [h]
  · rename_i s h; rw [h]

theorem inv_parse (isPrimitive : String → Bool) (hint : MemberHint) (ref : String)
    (root : Tree) (hI : Inv root) : Inv (parse isPrimitive hint ref root).2 := by
  rw [parse_root]
  split
  · exact (hoare_memberRef isPrimitive hint { lex := SignatureLexer.init ref, root := root }
      hI _ _ rfl).1
  · exact (hoare_typeRef isPrimitive { lex := SignatureLexer.init ref, root := root }
      hI _ _ rfl).1

theorem beginModule_root (moduleName : String) :
    (beginModule moduleName).root =
      [{ name := unescape moduleName, thing := some (Thing.AssemblyDef (cstr (unescape moduleName))),
         parent := none, subs := [(unescape moduleName, 6), ("mscorlib", 1)] },
       { name := "mscorlib", thing := some (Thing.AssemblyDef "mscorlib"), parent := some 0,
         subs := [("System", 2)] },
       { name := "System", thing := some (Thing.Namespace "System"), parent := some 1,
         subs := [("Enum", 5), ("ValueType", 4), ("Object", 3)] },
       { name := "Object", thing := some (Thing.Class "Object" none), parent := some 2,
         subs := [] },
       { name := "ValueType", thing := some (Thing.Class "ValueType" none), parent := some 2,
         subs := [] },
       { name := "Enum", thing := some (Thing.Class "Enum" none), parent := some 2, subs := [] },
       { name := unescape moduleName, thing := some (Thing.Class (cstr (unescape moduleName)) none),
         parent := some 0, subs := [] }] := rfl

theorem inv_beginModule (moduleName : String) : Inv (beginModule moduleName).root := by
  rw [beginModule_root]
  generalize unescape moduleName = nm
  refine ⟨⟨_, rfl⟩, rfl, ?_, ?_, ?_, ?_, ?_, ?_⟩
  · simp [Tree.value, Tree.name, subsValue]
  · intro s k v hv
    have hs := value_lt hv
    simp only [List.length_cons, List.length_nil] at hs
    simp only [List.length_cons, List.length_nil]
    interval_cases s <;> simp only [Tree.value, List.getElem?_cons_zero, List.getElem?_cons_succ,
      subsValue] at hv
    · split at hv
      · cases hv; exact ⟨by omega, Or.inl rfl⟩
      · split at hv
        · cases hv; exact ⟨by omega, Or.inl rfl⟩
        · exact Option.noConfusion hv
    · split at hv
      · cases hv; exact ⟨by omega, Or.inl rfl⟩
      · exact Option.noConfusion hv
    · split at hv
      · cases hv; exact ⟨by omega, Or.inl rfl⟩
      · split at hv
        · cases hv; exact ⟨by omega, Or.inl rfl⟩
        · split at hv
          · cases hv; exact ⟨by omega, Or.inl rfl⟩
          · exact Option.noConfusion hv
    · exact Option.noConfusion hv
    · exact Option.noConfusion hv
    · exact Option.noConfusion hv
    · exact Option.noConfusion hv
  · intro v p hp
    have hs := parent_lt hp
    simp only [List.length_cons, List.length_nil] at hs
    simp only [List.length_cons, List.length_nil]
    interval_cases v <;> simp only [Tree.parent, List.getElem?_cons_zero,
      List.getElem?_cons_succ] at hp <;> first
      | exact Option.noConfusion hp
      | (cases hp; omega)
  · intro v hm
    exfalso
    by_cases hs : v < 7
    · interval_cases v <;> exact Bool.noConfusion hm
    · simp only [Tree.isMember, Tree.thing] at hm
      rw [List.getElem?_eq_none (by simp; omega)] at hm
      exact Bool.noConfusion hm
  · intro v x _ _
    apply not_dead_of_no_member
    intro v
    by_cases hs : v < 7
    · interval_cases v <;> rfl
    · simp only [Tree.isMember, Tree.thing]
      rw [List.getElem?_eq_none (by simp; omega)]
  · intro s k v hv
    have hs := value_lt hv
    simp only [List.length_cons, List.length_nil] at hs
    interval_cases s <;> simp only [Tree.value, List.getElem?_cons_zero, List.getElem?_cons_succ,
      subsValue] at hv
    · split at hv
      · cases hv; omega
      · split at hv
        · cases hv; omega
        · exact Option.noConfusion hv
    · split at hv
      · cases hv; omega
      · exact Option.noConfusion hv
    · split at hv
      · cases hv; omega
      · split at hv
        · cases hv; omega
        · split at hv
          · cases hv; omega
          · exact Option.noConfusion hv
    · exact Option.noConfusion hv
    · exact Option.noConfusion hv
    · exact Option.noConfusion hv
    · exact Option.noConfusion hv

theorem inv_beginClass (imp imp1 : Imp) (className : String)
    (h : beginClass imp className = Except.ok imp1) (hI : Inv imp.root) : Inv imp1.root := by
  simp only [beginClass] at h
  split at h
  · exact Except.noConfusion h
  · rename_i top _
    split at h
    · rename_i hv
      split at h
      · rename_i x hx
        split at h
        · rename_i hdc
          simp only [Except.ok.injEq] at h
          rw [← h]
          exact inv_addChild _ hI top (some top) _ _ _ (thing_lt hx) (Or.inl rfl)
            (fun y hy hm => by
              have := Option.some.inj hy
              subst this
              exact Bool.noConfusion hm)
            (fun _ _ _ => hI.solid _ _ hx (isDataContainer_not_member hdc))
        · exact Except.noConfusion h
      · exact Except.noConfusion h
    · split at h
      · simp only [Except.ok.injEq] at h
        rw [← h]
        exact hI
      · exact Except.noConfusion h

theorem inv_findOrCreateField_ok (cls : Nat) (name : String) (type : Nat) (hint : MemberHint)
    (s s1 : PState) (a : Nat) (h : findOrCreateField cls name type hint s = (Except.ok a, s1))
    (hI : Inv s.root) : Inv s1.root := by
  by_cases hc : ∃ c, s.root.thing cls = some c ∧ c.isClass = true
  · exact (hoare_findOrCreateField cls name type hint s hI hc _ _ h).1
  · simp only [findOrCreateField, bind_eq] at h
    rw [bind_ok (getTree_apply _)] at h
    cases hv : s.root.value cls name with
    | none =>
      simp only [hv] at h
      rw [bind_ok (newChild_apply _ _ _ _ _ _)] at h
      exfalso
      cases hth : s.root.thing cls with
      | none =>
        rw [hth] at h
        simp only [throwP, Prod.mk.injEq] at h
        exact Except.noConfusion h.1
      | some x =>
        rw [hth] at h
        cases x with
        | Class nm ex => exact hc ⟨_, hth, rfl⟩
        | _ =>
          simp only [throwP, Prod.mk.injEq] at h
          exact Except.noConfusion h.1
    | some member =>
      simp only [hv] at h
      cases hth : s.root.thing member with
      | none =>
        rw [hth] at h
        simp only [throwP, Prod.mk.injEq] at h
        exact Except.noConfusion h.1
      | some x =>
        rw [hth] at h
        cases x with
        | Field nm ty st =>
          simp only [pure, P.pure, Prod.mk.injEq] at h
          rw [← h.2]
          exact hI
        | _ =>
          simp only [throwP, Prod.mk.injEq] at h
          exact Except.noConfusion h.1

theorem inv_addField (isPrimitive : String → Bool) (imp : Imp) (fieldName typeRef : String)
    (isStatic : Bool) (n : Option Nat)
    (h : (addField isPrimitive imp fieldName typeRef isStatic).1 = Except.ok n)
    (hI : Inv imp.root) : Inv (addField isPrimitive imp fieldName typeRef isStatic).2.root := by
  have hp := inv_parse isPrimitive MemberHint.TypeRef typeRef imp.root hI
  simp only [addField] at h ⊢
  split at h
  · exact Except.noConfusion h
  · rename_i top _
    have hfr : (imp.find isPrimitive MemberHint.TypeRef typeRef).2.root
        = (parse isPrimitive MemberHint.TypeRef typeRef imp.root).2 := rfl
    cases hf1 : (imp.find isPrimitive MemberHint.TypeRef typeRef).1 with
    | error e =>
      rw [hf1] at h
      exact Except.noConfusion h
    | ok o =>
      rw [hf1] at h
      cases o with
      | none => exact Except.noConfusion h
      | some ty =>
        simp only at h ⊢
        cases hfc : findOrCreateField top (unescape fieldName) ty
            (if isStatic = true then MemberHint.Static else MemberHint.Instance)
            { lex := SignatureLexer.init "",
              root := (imp.find isPrimitive MemberHint.TypeRef typeRef).2.root } with
        | mk r s =>
          rw [hfc] at h
          cases r with
          | error e => exact Except.noConfusion h
          | ok m =>
            simp only
            exact inv_findOrCreateField_ok _ _ _ _ _ _ _ hfc (by rw [hfr]; exact hp)

theorem thing_addChild_old (t : Tree) (scope : Nat) (par : Option Nat) (key name : String)
    (x : Option Thing) (i : Nat) (hi : i < t.length) :
    (t.addChild scope par key name x).thing i = t.thing i := by
  simp only [Tree.addChild, thing_insert]
  simp only [Tree.newNode, Tree.thing, List.getElem?_append_left hi]

theorem assertP_root (c : Bool) (s s1 : PState) (r : Except Err Unit)
    (h : assertP c s = (r, s1)) : s1 = s := by
  simp only [assertP] at h
  split at h <;> (simp only [Prod.mk.injEq] at h; exact h.2.symm)

theorem assert_pure_root {α : Type} (c : Bool) (a : α) (s s1 : PState) (r : Except Err α)
    (h : P.bind (assertP c) (fun _ => (pure a : P α)) s = (r, s1)) : s1 = s := by
  cases c
  · simp only [P.bind, assertP, Bool.false_eq_true, ↓reduceIte, Prod.mk.injEq] at h
    exact h.2.symm
  · simp only [P.bind, assertP, ↓reduceIte, pure, P.pure, Prod.mk.injEq] at h
    exact h.2.symm

/-- The objects the nodes hold stay as they are when a method is looked up or
created, however the call ends. -/
theorem keeps_findOrCreateMethod (cls : Nat) (name : String)
    (pars : List (Nat × String × String)) (ret : Nat) (hint : MemberHint) (s s1 : PState)
    (r : Except Err Nat) (h : findOrCreateMethod cls name pars ret hint s = (r, s1))
    (n : Nat) (c : Thing) (hc : s.root.thing n = some c) : s1.root.thing n = some c := by
  simp only [findOrCreateMethod, bind_eq] at h
  rw [bind_ok (getTree_apply _)] at h
  cases hf : findMethod s.root pars (s.root.values cls name) with
  | error e =>
    rw [hf] at h
    simp only [Prod.mk.injEq] at h
    rw [← h.2]
    exact hc
  | ok o =>
    rw [hf] at h
    cases o with
    | some m =>
      simp only [pure, P.pure, Prod.mk.injEq] at h
      rw [← h.2]
      exact hc
    | none =>
      simp only [createMethod, bind_eq] at h
      rw [bind_ok (getTree_apply _), bind_ok (newChild_apply _ _ _ _ _ _)] at h
      have hs1 := assert_pure_root _ _ _ _ _ h
      rw [hs1]
      simp only
      rw [thing_addChild_old _ _ _ _ _ _ _ (thing_lt hc)]
      exact hc

theorem keeps_memberRef (isPrimitive : String → Bool) (hint : MemberHint) (s s1 : PState)
    (r : Except Err Nat) (h : memberRef isPrimitive hint s = (r, s1))
    (n : Nat) (c : Thing) (hc : s.root.thing n = some c) : s1.root.thing n = some c := by
  simp only [memberRef, bind_eq] at h
  cases hh : memberRefHead isPrimitive s with
  | mk r1 sH =>
    have hcH := ext_thing (mono_memberRefHead _ _ _ _ hh) _ _ hc
    cases r1 with
    | error e =>
      rw [bind_err hh] at h
      simp only [Prod.mk.injEq] at h
      rw [← h.2]
      exact hcH
    | ok a =>
      obtain ⟨type, node, name⟩ := a
      rw [bind_ok hh] at h
      simp only at h
      rw [bind_ok (peekP_apply _)] at h
      by_cases hlp : sH.lex.peek.1.d_tt = TokenType.LPAR
      · rw [if_pos hlp] at h
        cases hp : params isPrimitive (PState.mk sH.lex.peek.2 sH.root) with
        | mk r2 sP =>
          have hcP := ext_thing (mono_params _ _ _ _ hp) _ _ hcH
          cases r2 with
          | error e =>
            rw [bind_err hp] at h
            simp only [Prod.mk.injEq] at h
            rw [← h.2]
            exact hcP
          | ok pars =>
            rw [bind_ok hp] at h
            exact keeps_findOrCreateMethod _ _ _ _ _ _ _ _ h n c hcP
      · rw [if_neg hlp] at h
        exact ext_thing (mono_findOrCreateField _ _ _ _ _ _ _ h) _ _ hcH

theorem parse_keeps (isPrimitive : String → Bool) (hint : MemberHint) (ref : String)
    (root : Tree) (n : Nat) (c : Thing) (hc : root.thing n = some c) :
    (parse isPrimitive hint ref root).2.thing n = some c := by
  rw [parse_root]
  split
  · exact keeps_memberRef isPrimitive hint _ _ _ rfl n c hc
  · exact ext_thing (mono_typeRef isPrimitive _ _ _ rfl) _ _ hc

theorem levelOk_beginModule (moduleName : String) : LevelOk (beginModule moduleName) := by
  intro n hn
  have hl : (beginModule moduleName).level = [6] := rfl
  rw [hl] at hn
  have : n = 6 := List.mem_singleton.mp hn
  subst this
  rw [beginModule_root]
  exact ⟨_, rfl, rfl⟩

theorem levelOk_find (imp : Imp) (isPrimitive : String → Bool) (hint : MemberHint)
    (ref : String) (h : LevelOk imp) : LevelOk (imp.find isPrimitive hint ref).2 := by
  intro n hn
  obtain ⟨c, hc, hcc⟩ := h n hn
  exact ⟨c, parse_keeps isPrimitive hint ref imp.root n c hc, hcc⟩

theorem levelOk_beginClass (imp imp1 : Imp) (className : String)
    (h : beginClass imp className = Except.ok imp1) (hl : LevelOk imp) : LevelOk imp1 := by
  simp only [beginClass] at h
  split at h
  · exact Except.noConfusion h
  · rename_i top _
    split at h
    · rename_i hv
      split at h
      · rename_i x hx
        split at h
        · simp only [Except.ok.injEq] at h
          rw [← h]
          intro n hn
          simp only [List.mem_append, List.mem_singleton] at hn
          rcases hn with hn | hn
          · obtain ⟨c, hc, hcc⟩ := hl n hn
            refine ⟨c, ?_, hcc⟩
            exact (thing_addChild_old _ _ _ _ _ _ _ (thing_lt hc)).trans hc
          · rw [hn]
            exact ⟨_, (thing_addChild _ _ _ _ _ _ (thing_lt hx) _).trans (if_pos rfl), rfl⟩
        · exact Except.noConfusion h
      · exact Except.noConfusion h
    · rename_i me hv
      cases hth : imp.root.thing me with
      | none =>
        rw [hth] at h
        exact Except.noConfusion h
      | some x =>
        rw [hth] at h
        rcases x with nm | nm | ⟨nm, ex⟩ | ⟨tp, c, lvl, b⟩ | ⟨nm, c, r, sig, hn, sp⟩ | ⟨nm, ty, st⟩
        · exact Except.noConfusion h
        · exact Except.noConfusion h
        · simp only [Except.ok.injEq] at h
          rw [← h]
          intro n hn
          simp only [List.mem_append, List.mem_singleton] at hn
          rcases hn with hn | hn
          · exact hl n hn
          · rw [hn]
            exact ⟨_, hth, rfl⟩
        · exact Except.noConfusion h
        · exact Except.noConfusion h
        · exact Except.noConfusion h

theorem levelOk_endClass (imp : Imp) (hl : LevelOk imp) : LevelOk (endClass imp) :=
  fun n hn => hl n (List.mem_of_mem_dropLast hn)

theorem levelOk_addField (isPrimitive : String → Bool) (imp : Imp) (fieldName typeRef : String)
    (isStatic : Bool) (n : Option Nat)
    (h : (addField isPrimitive imp fieldName typeRef isStatic).1 = Except.ok n)
    (hl : LevelOk imp) : LevelOk (addField isPrimitive imp fieldName typeRef isStatic).2 := by
  have hk := levelOk_find imp isPrimitive MemberHint.TypeRef typeRef hl
  simp only [addField] at h ⊢
  split at h
  · exact Except.noConfusion h
  · rename_i top _
    cases hf1 : (imp.find isPrimitive MemberHint.TypeRef typeRef).1 with
    | error e =>
      rw [hf1] at h
      exact Except.noConfusion h
    | ok o =>
      rw [hf1] at h
      cases o with
      | none => exact Except.noConfusion h
      | some ty =>
        simp only at h ⊢
        cases hfc : findOrCreateField top (unescape fieldName) ty
            (if isStatic = true then MemberHint.Static else MemberHint.Instance)
            { lex := SignatureLexer.init "",
              root := (imp.find isPrimitive MemberHint.TypeRef typeRef).2.root } with
        | mk r s =>
          rw [hfc] at h
          cases r with
          | error e => exact Except.noConfusion h
          | ok m =>
            simp only
            intro k hkl
            obtain ⟨c, hc, hcc⟩ := hk k hkl
            exact ⟨c, ext_thing (mono_findOrCreateField _ _ _ _ _ _ _ hfc) _ _ hc, hcc⟩

theorem addMethodNode_ok (imp : Imp) (d_name : String) (pars : List (Nat × String × String))
    (ret : Nat) (hint : MemberHint) (n : Nat)
    (h : (addMethodNode imp d_name pars ret hint).1 = Except.ok n) :
    ∃ top s1, top ∈ imp.level ∧
      findOrCreateMethod top (unescape d_name) pars ret hint
        { lex := SignatureLexer.init "", root := imp.root } = (Except.ok n, s1) ∧
      (addMethodNode imp d_name pars ret hint).2 = { imp with root := s1.root } := by
  simp only [addMethodNode] at h ⊢
  cases hl : imp.level.getLast? with
  | none =>
    rw [hl] at h
    exact Except.noConfusion h
  | some top =>
    rw [hl] at h
    simp only at h ⊢
    refine ⟨top, _, List.mem_of_getLast?_eq_some hl, ?_, rfl⟩
    exact Prod.ext h rfl

theorem inv_addMethodNode (imp : Imp) (d_name : String) (pars : List (Nat × String × String))
    (ret : Nat) (hint : MemberHint) (n : Nat)
    (h : (addMethodNode imp d_name pars ret hint).1 = Except.ok n)
    (hI : Inv imp.root) (hl : LevelOk imp) :
    Inv (addMethodNode imp d_name pars ret hint).2.root ∧
      LevelOk (addMethodNode imp d_name pars ret hint).2 := by
  obtain ⟨top, s1, htop, hf, he⟩ := addMethodNode_ok imp d_name pars ret hint n h
  rw [he]
  refine ⟨(hoare_findOrCreateMethod _ _ _ _ _ _ hI (hl top htop) _ _ hf).1, ?_⟩
  intro k hk
  obtain ⟨c, hc, hcc⟩ := hl k hk
  exact ⟨c, keeps_findOrCreateMethod _ _ _ _ _ _ _ _ hf k c hc, hcc⟩

theorem inv_extend (imp : Imp) (me c : Nat) (nm : String)
    (h : imp.root.thing me = some (Thing.Class nm none)) (hI : Inv imp.root)
    (hl : LevelOk imp) :
    Inv (imp.root.setThing me (Thing.Class nm (some c))) ∧
      LevelOk { imp with root := imp.root.setThing me (Thing.Class nm (some c)) } := by
  have hme0 : me ≠ 0 := by
    intro h0
    obtain ⟨a, hr⟩ := hI.root_thing
    rw [h0, hr] at h
    exact Thing.noConfusion (Option.some.inj h)
  constructor
  · exact inv_setThing_of _ hI me _ (by rw [isMember_thing h]; rfl) rfl hme0
      (fun _ _ _ => rfl) (hI.solid _ _ h rfl)
  · intro k hk
    obtain ⟨x, hx, hxc⟩ := hl k hk
    simp only
    rw [thing_setThing _ _ _ (thing_lt h)]
    by_cases hkm : k = me
    · rw [if_pos hkm]
      exact ⟨_, rfl, rfl⟩
    · rw [if_neg hkm]
      exact ⟨x, hx, hxc⟩

/-- The invariant holds in every state the calls lead to, and the nodes on
the stack hold classes. -/
theorem reach_ok (imp : Imp) (h : Reach imp) : Inv imp.root ∧ LevelOk imp := by
  induction h with
  | init moduleName => exact ⟨inv_beginModule moduleName, levelOk_beginModule moduleName⟩
  | find imp isPrimitive hint ref _ _ ih =>
    exact ⟨inv_parse isPrimitive hint ref imp.root ih.1, levelOk_find imp isPrimitive hint ref ih.2⟩
  | openClass imp imp1 className _ hb ih =>
    exact ⟨inv_beginClass imp imp1 className hb ih.1, levelOk_beginClass imp imp1 className hb ih.2⟩
  | closeClass imp _ ih => exact ⟨ih.1, levelOk_endClass imp ih.2⟩
  | field imp isPrimitive fieldName typeRef isStatic n _ hf ih =>
    exact ⟨inv_addField isPrimitive imp fieldName typeRef isStatic n hf ih.1,
      levelOk_addField isPrimitive imp fieldName typeRef isStatic n hf ih.2⟩
  | method imp d_name pars ret hint n _ hm ih =>
    exact inv_addMethodNode imp d_name pars ret hint n hm ih.1 ih.2
  | extend imp me c nm _ hth ih => exact inv_extend imp me c nm hth ih.1 ih.2

theorem reach_inv (imp : Imp) (h : Reach imp) : Inv imp.root := (reach_ok imp h).1

/-! ### Resolving a reference again -/

theorem bind_inv {α β : Type} {m : P α} {f : α → P β} {s s2 : PState} {b : β}
    (h : P.bind m f s = (Except.ok b, s2)) :
    ∃ a s1, m s = (Except.ok a, s1) ∧ f a s1 = (Except.ok b, s2) := by
  cases hms : m s with
  | mk r s1 =>
    cases r with
    | ok a =>
      rw [bind_ok hms] at h
      exact ⟨a, s1, rfl, h⟩
    | error e =>
      rw [bind_err hms] at h
      simp only [Prod.mk.injEq] at h
      exact Except.noConfusion h.1

theorem pure_inv {α : Type} {a b : α} {s s1 : PState}
    (h : (pure a : P α) s = (Except.ok b, s1)) : b = a ∧ s1 = s := by
  simp only [pure, P.pure, Prod.mk.injEq, Except.ok.injEq] at h
  exact ⟨h.1.symm, h.2.symm⟩

theorem throw_inv {α : Type} {msg : String} {b : α} {s s1 : PState}
    (h : (throwP msg : P α) s = (Except.ok b, s1)) : False := by
  simp only [throwP, Prod.mk.injEq] at h
  exact Except.noConfusion h.1

theorem rel_of_ext {w : Prop} {t t2 : Tree} (h : Ext t t2) : Rel w t t2 := by
  intro i nd hi
  obtain ⟨nd1, h1, h2, h3, h4, h5⟩ := h i nd hi
  exact ⟨nd1, h1, h2, h3, h4, fun k v hv => ⟨v, h5 k v hv, Or.inl rfl⟩⟩

theorem rel_refl (w : Prop) (t : Tree) : Rel w t t := rel_of_ext (ext_refl t)

theorem ext_rel {w : Prop} {t t1 t2 : Tree} (h1 : Ext t t1) (h2 : Rel w t1 t2) :
    Rel w t t2 := by
  intro i nd hi
  obtain ⟨nd1, ha, hb, hc, hd, he⟩ := h1 i nd hi
  obtain ⟨nd2, ha2, hb2, hc2, hd2, he2⟩ := h2 i nd1 ha
  exact ⟨nd2, ha2, hb2.trans hb, hc2.trans hc, fun x hx => hd2 x (hd x hx),
    fun k v hv => he2 k v (he k v hv)⟩

theorem rel_thing {w : Prop} {t t2 : Tree} (h : Rel w t t2) {n : Nat} {x : Thing}
    (hx : t.thing n = some x) : t2.thing n = some x := by
  simp only [Tree.thing] at hx ⊢
  cases hn : t[n]? with
  | none => rw [hn] at hx; exact Option.noConfusion hx
  | some nd =>
    rw [hn] at hx
    obtain ⟨nd1, ha, _, _, hd, _⟩ := h n nd hn
    rw [ha]
    exact hd x hx

theorem rel_value {w : Prop} {t t2 : Tree} (h : Rel w t t2) {n : Nat} {k : String} {v : Nat}
    (hv : t.value n k = some v) : ∃ v1, t2.value n k = some v1 ∧ Sim w t2 v v1 := by
  simp only [Tree.value] at hv ⊢
  cases hn : t[n]? with
  | none => rw [hn] at hv; exact Option.noConfusion hv
  | some nd =>
    rw [hn] at hv
    obtain ⟨nd1, ha, _, _, _, he⟩ := h n nd hn
    rw [ha]
    exact he k v hv

theorem rel_name {w : Prop} {t t2 : Tree} (h : Rel w t t2) {n : Nat} (hn : n < t.length) :
    t2.name n = t.name n := by
  obtain ⟨nd1, ha, hb, _⟩ := h n t[n] (List.getElem?_eq_getElem hn)
  simp only [Tree.name, ha, List.getElem?_eq_getElem hn, hb]

theorem rel_parent {w : Prop} {t t2 : Tree} (h : Rel w t t2) {n : Nat} (hn : n < t.length) :
    t2.parent n = t.parent n := by
  obtain ⟨nd1, ha, _, hc, _⟩ := h n t[n] (List.getElem?_eq_getElem hn)
  simp only [Tree.parent, ha, List.getElem?_eq_getElem hn, hc]

theorem sim_eq {w : Prop} {t2 : Tree} {a a1 : Nat} (h : Sim w t2 a a1)
    (hm : t2.isMember a = false) : a1 = a := by
  rcases h with h | ⟨_, h, _⟩
  · exact h
  · rw [hm] at h
    exact Bool.noConfusion h

theorem sim_eq_right {w : Prop} {t2 : Tree} {a a1 : Nat} (h : Sim w t2 a a1)
    (hm : t2.isMember a1 = false) : a1 = a := by
  rcases h with h | ⟨_, _, h⟩
  · exact h
  · rw [hm] at h
    exact Bool.noConfusion h

theorem sim_refl (w : Prop) (t2 : Tree) (a : Nat) : Sim w t2 a a := Or.inl rfl

/-- A lookup that found a node which holds no member finds it in the later
tree. -/
theorem rel_value_eq {w : Prop} {t t2 : Tree} (h : Rel w t t2) {n : Nat} {k : String}
    {v : Nat} (hv : t.value n k = some v) (hm : t2.isMember v = false) :
    t2.value n k = some v := by
  obtain ⟨v1, h1, h2⟩ := rel_value h hv
  rw [h1, sim_eq h2 hm]

/-- A lookup in the root finds the same node in the later tree. -/
theorem rel_value_root {w : Prop} {t t2 : Tree} (h : Rel w t t2) (hI2 : Inv t2) {k : String}
    {v : Nat} (hv : t.value 0 k = some v) : t2.value 0 k = some v := by
  obtain ⟨v1, h1, h2⟩ := rel_value h hv
  rw [h1, sim_eq_right h2 (hI2.root_entry_not_member h1)]

theorem not_member_of_thing {t : Tree} {n : Nat} {x : Thing} (hx : t.thing n = some x)
    (hm : x.isMember = false) : t.isMember n = false := by
  rw [isMember_thing hx, hm]

theorem createClassFor_ok {node : Nat} {s s1 : PState} {u : Unit}
    (h : createClassFor node s = (Except.ok u, s1)) :
    s1.lex = s.lex ∧ s.root.thing node = none ∧
      ∃ c, s1.root.thing node = some c ∧ c.isClass = true := by
  simp only [createClassFor, bind_eq] at h
  rw [bind_ok (getTree_apply _)] at h
  obtain ⟨_, s2, h1, h⟩ := bind_inv h
  obtain ⟨hc1, rfl⟩ := assertP_ok h1
  obtain ⟨_, s3, h2, h⟩ := bind_inv h
  obtain ⟨hc2, rfl⟩ := assertP_ok h2
  obtain ⟨_, s4, h3, h⟩ := bind_inv h
  obtain ⟨hc3, rfl⟩ := assertP_ok h3
  simp only [setTree, Prod.mk.injEq] at h
  obtain ⟨_, rfl⟩ := h
  have hn : s4.root.thing node = none := by
    cases ht : s4.root.thing node with
    | none => rfl
    | some x => rw [ht] at hc1; exact Bool.noConfusion hc1
  cases hp : s4.root.parent node with
  | none => rw [hp] at hc2; exact Bool.noConfusion hc2
  | some p =>
    refine ⟨rfl, hn, ?_⟩
    simp only
    rw [thing_setThing _ _ _ (parent_lt hp), if_pos rfl]
    exact ⟨_, rfl, rfl⟩

theorem fetchPrimitive_ok {name : String} {s s1 : PState} {a : Nat}
    (h : fetchPrimitive name s = (Except.ok a, s1)) (hI : Inv s.root) :
    s1.lex = s.lex ∧ ∃ p, s1.root.value 0 "" = some p ∧ s1.root.value p name = some a := by
  have h0 := hI.root_lt
  simp only [fetchPrimitive, bind_eq] at h
  rw [bind_ok (getTree_apply _)] at h
  obtain ⟨p, sA, hA, h⟩ := bind_inv h
  have hA2 : sA.lex = s.lex ∧ Inv sA.root ∧ sA.root.value 0 "" = some p := by
    cases hv : s.root.value 0 "" with
    | none =>
      rw [hv] at hA
      simp only at hA
      rw [newChild_apply] at hA
      simp only [Prod.mk.injEq, Except.ok.injEq] at hA
      obtain ⟨rfl, rfl⟩ := hA
      refine ⟨rfl, ?_, ?_⟩
      · exact inv_addChild _ hI _ _ _ _ _ h0 (Or.inr ⟨rfl, rfl⟩)
          (fun y hy => Option.noConfusion hy) (fun y hy => Option.noConfusion hy)
      · simp only
        rw [value_addChild _ _ _ _ _ _ h0]
        simp
    | some q =>
      rw [hv] at hA
      obtain ⟨rfl, rfl⟩ := pure_inv hA
      exact ⟨rfl, hI, hv⟩
  obtain ⟨hlA, hIA, hvA⟩ := hA2
  have hp : p < sA.root.length := (hIA.link _ _ _ hvA).1
  have hp0 : 0 < p := hIA.above _ _ _ hvA
  rw [bind_ok (getTree_apply _)] at h
  cases hv1 : sA.root.value p name with
  | some t =>
    rw [hv1] at h
    obtain ⟨rfl, rfl⟩ := pure_inv h
    exact ⟨hlA, p, hvA, hv1⟩
  | none =>
    rw [hv1] at h
    simp only at h
    rw [bind_ok (newChild_apply _ _ _ _ _ _)] at h
    cases hb : basicTypeOf name with
    | none =>
      rw [hb] at h
      exact (throw_inv h).elim
    | some b =>
      rw [hb] at h
      simp only at h
      rw [bind_ok (getTree_apply _)] at h
      simp only [setTree, bind_eq, P.bind, pure, P.pure, Prod.mk.injEq, Except.ok.injEq] at h
      obtain ⟨rfl, rfl⟩ := h
      refine ⟨hlA, p, ?_, ?_⟩
      · simp only
        rw [value_setThing, value_addChild _ _ _ _ _ _ hp, if_neg (by omega)]
        exact hvA
      · simp only
        rw [value_setThing, value_addChild _ _ _ _ _ _ hp, if_pos ⟨rfl, rfl⟩]

theorem rep_fetchPrimitive (w : Prop) (t2 : Tree) (hI2 : Inv t2) {name : String}
    {s s1 : PState} {a : Nat} (h : fetchPrimitive name s = (Except.ok a, s1))
    (hI : Inv s.root) (hr : Rel w s1.root t2) (hreq : t2.isMember a = false) :
    fetchPrimitive name { lex := s.lex, root := t2 }
      = (Except.ok a, { lex := s1.lex, root := t2 }) := by
  obtain ⟨hl, p, hv0, hv1⟩ := fetchPrimitive_ok h hI
  have h0 := rel_value_root hr hI2 hv0
  have h1 := rel_value_eq hr hv1 hreq
  simp only [fetchPrimitive, bind_eq]
  rw [bind_ok (getTree_apply _)]
  simp only [h0]
  rw [bind_ok (pure_apply _ _), bind_ok (getTree_apply _)]
  simp only [h1, hl]
  rfl

theorem fetchAssembly_ok {name : String} {s s1 : PState} {a : Nat}
    (h : fetchAssembly name s = (Except.ok a, s1)) (hI : Inv s.root) :
    s1.lex = s.lex ∧ s1.root.value 0 name = some a := by
  simp only [fetchAssembly, bind_eq] at h
  rw [bind_ok (getTree_apply _)] at h
  cases hv : s.root.value 0 name with
  | some q =>
    rw [hv] at h
    obtain ⟨rfl, rfl⟩ := pure_inv h
    exact ⟨rfl, hv⟩
  | none =>
    rw [hv] at h
    simp only at h
    split at h
    · rename_i hn
      have := hI.own
      rw [hn, hv] at this
      exact Bool.noConfusion this
    · simp only [setTree, bind_eq, P.bind, pure, P.pure, Prod.mk.injEq, Except.ok.injEq] at h
      obtain ⟨rfl, rfl⟩ := h
      refine ⟨rfl, ?_⟩
      exact (value_addChild _ _ _ _ _ _ hI.root_lt 0 name).trans (if_pos ⟨rfl, rfl⟩)

theorem rep_fetchAssembly (w : Prop) (t2 : Tree) (hI2 : Inv t2) {name : String}
    {s s1 : PState} {a : Nat} (h : fetchAssembly name s = (Except.ok a, s1))
    (hI : Inv s.root) (hr : Rel w s1.root t2) :
    fetchAssembly name { lex := s.lex, root := t2 }
      = (Except.ok a, { lex := s1.lex, root := t2 }) := by
  obtain ⟨hl, hv0⟩ := fetchAssembly_ok h hI
  have h0 := rel_value_root hr hI2 hv0
  simp only [fetchAssembly, bind_eq]
  rw [bind_ok (getTree_apply _)]
  simp only [h0, hl]
  rfl

theorem rep_lexOnly {α : Type} {m : P α} (hm : LexOnly m) {s s1 : PState} {a : α}
    (h : m s = (Except.ok a, s1)) (t2 : Tree) :
    m { lex := s.lex, root := t2 } = (Except.ok a, { lex := s1.lex, root := t2 }) :=
  (lexOnly_apply hm h).2 t2

theorem rep_assembly (w : Prop) (t2 : Tree) (hI2 : Inv t2) {s s1 : PState} {a : Nat}
    (h : assembly s = (Except.ok a, s1)) (hI : Inv s.root) (hr : Rel w s1.root t2) :
    assembly { lex := s.lex, root := t2 } = (Except.ok a, { lex := s1.lex, root := t2 }) := by
  simp only [assembly, bind_eq] at h ⊢
  rw [bind_ok (nextP_apply _)] at h ⊢
  split_ifs at h ⊢ with h1
  · exact (throw_inv h).elim
  · rw [bind_ok (nextP_apply _)] at h ⊢
    split_ifs at h ⊢ with h2
    · exact (throw_inv h).elim
    · rw [bind_ok (fuelP_apply _)] at h ⊢
      obtain ⟨nm, s3, hd, h⟩ := bind_inv h
      have hd2 := rep_lexOnly (lexOnly_dottedLoop _ _ _) hd t2
      have hr3 := (lexOnly_apply (lexOnly_dottedLoop _ _ _) hd).1
      simp only at hd2 hr3
      rw [bind_ok hd2]
      rw [bind_ok (nextP_apply _)] at h ⊢
      split_ifs at h ⊢ with h3
      · exact (throw_inv h).elim
      · exact rep_fetchAssembly w t2 hI2 h (by simp only; rw [hr3]; exact hI) hr

theorem dead_of_value {t2 : Tree} (hI2 : Inv t2) {scope v : Nat} {k : String}
    (hv : t2.value scope k = some v) (hd : Dead t2 scope) : Dead t2 v := by
  rcases (hI2.link _ _ _ hv).2 with h1 | ⟨h0, _⟩
  · exact Dead.child _ _ h1 hd
  · rw [h0] at hd
    exact (hI2.not_dead_root hd).elim

/-- A lookup in a node below a member leads to a node below a member. -/
theorem dead_of_rel_value {w : Prop} {t t2 : Tree} (hr : Rel w t t2) (hI2 : Inv t2)
    {scope v : Nat} {k : String} (hv : t.value scope k = some v) (hd : Dead t2 scope) :
    Dead t2 v := by
  obtain ⟨v1, h1, h2⟩ := rel_value hr hv
  rcases h2 with h2 | ⟨_, h2, _⟩
  · rw [h2] at h1
    exact dead_of_value hI2 h1 hd
  · exact Dead.member _ h2

theorem pathNamespaces_dead (w : Prop) (t2 : Tree) (hI2 : Inv t2) (names : List String) :
    ∀ (scope : Nat) (s s1 : PState) (a : Nat),
      pathNamespaces names scope s = (Except.ok a, s1) → Rel w s1.root t2 →
      Dead t2 scope → Dead t2 a := by
  induction names with
  | nil =>
    intro scope s s1 a h hr hd
    obtain ⟨rfl, rfl⟩ := pure_inv h
    exact hd
  | cons n rest ih =>
    intro scope s s1 a h hr hd
    cases rest with
    | nil =>
      obtain ⟨rfl, rfl⟩ := pure_inv h
      exact hd
    | cons m rest2 =>
      have hmono := mono_pathNamespaces (n :: m :: rest2) scope s _ _ h
      have hr0 : Rel w s.root t2 := ext_rel hmono hr
      simp only [pathNamespaces, bind_eq] at h
      rw [bind_ok (getTree_apply _)] at h
      cases hv : s.root.value scope n with
      | some node =>
        rw [hv] at h
        exact ih node s s1 a h hr (dead_of_rel_value hr0 hI2 hv hd)
      | none =>
        rw [hv] at h
        simp only at h
        obtain ⟨_, s2, ha, h⟩ := bind_inv h
        obtain ⟨hc, rfl⟩ := assertP_ok ha
        exfalso
        cases hx : s2.root.thing scope with
        | none => rw [hx] at hc; exact Bool.noConfusion hc
        | some x =>
          rw [hx] at hc
          exact hI2.solid _ _ (rel_thing hr0 hx) (isDataContainer_not_member hc) hd

theorem rep_pathNamespaces (w : Prop) (t2 : Tree) (hI2 : Inv t2) (names : List String) :
    ∀ (scope : Nat) (s s1 : PState) (a : Nat),
      pathNamespaces names scope s = (Except.ok a, s1) → Inv s.root →
      scope < s.root.length → Rel w s1.root t2 → ¬ Dead t2 a →
      pathNamespaces names scope { lex := s.lex, root := t2 }
        = (Except.ok a, { lex := s1.lex, root := t2 }) := by
  induction names with
  | nil =>
    intro scope s s1 a h hI hs hr hd
    obtain ⟨rfl, rfl⟩ := pure_inv h
    rfl
  | cons n rest ih =>
    intro scope s s1 a h hI hs hr hd
    cases rest with
    | nil =>
      obtain ⟨rfl, rfl⟩ := pure_inv h
      rfl
    | cons m rest2 =>
      have hmono := mono_pathNamespaces (n :: m :: rest2) scope s _ _ h
      have hr0 : Rel w s.root t2 := ext_rel hmono hr
      simp only [pathNamespaces, bind_eq] at h ⊢
      rw [bind_ok (getTree_apply _)] at h ⊢
      cases hv : s.root.value scope n with
      | some node =>
        rw [hv] at h
        simp only at h
        obtain ⟨v1, h1, h2⟩ := rel_value hr0 hv
        have hnm : t2.isMember node = false := by
          cases hm : t2.isMember node with
          | false => rfl
          | true => exact (hd (pathNamespaces_dead w t2 hI2 _ _ _ _ _ h hr (Dead.member _ hm))).elim
        rw [sim_eq h2 hnm] at h1
        simp only [h1]
        exact ih node s s1 a h hI (hI.link _ _ _ hv).1 hr hd
      | none =>
        rw [hv] at h
        simp only at h
        obtain ⟨_, s2, ha, hB⟩ := bind_inv h
        clear h
        obtain ⟨hc, rfl⟩ := assertP_ok ha
        rw [bind_ok (newChild_apply _ _ _ _ _ _)] at hB
        cases hx : s2.root.thing scope with
        | none => rw [hx] at hc; exact Bool.noConfusion hc
        | some x =>
          rw [hx] at hc
          simp only at hc
          have hIB : Inv (s2.root.addChild scope (some scope) n n
              (some (Thing.Namespace (cstr n)))) :=
            inv_addChild _ hI _ _ _ _ _ hs (Or.inl rfl)
              (fun y hy hm => by
                have := Option.some.inj hy
                subst this
                exact Bool.noConfusion hm)
              (fun _ _ _ => hI.solid _ _ hx (isDataContainer_not_member hc))
          have hmB := mono_pathNamespaces _ _ _ _ _ hB
          have hrB : Rel w (s2.root.addChild scope (some scope) n n
              (some (Thing.Namespace (cstr n)))) t2 := ext_rel hmB hr
          have hvB : (s2.root.addChild scope (some scope) n n
              (some (Thing.Namespace (cstr n)))).value scope n = some s2.root.length :=
            (value_addChild _ _ _ _ _ _ hs scope n).trans (if_pos ⟨rfl, rfl⟩)
          have htB : (s2.root.addChild scope (some scope) n n
              (some (Thing.Namespace (cstr n)))).thing s2.root.length
                = some (Thing.Namespace (cstr n)) :=
            (thing_addChild _ _ _ _ _ _ hs _).trans (if_pos rfl)
          have h1 := rel_value_eq hrB hvB (not_member_of_thing (rel_thing hrB htB) rfl)
          simp only [h1]
          refine ih _ (PState.mk s2.lex (s2.root.addChild scope (some scope) n n
            (some (Thing.Namespace (cstr n))))) s1 a hB hIB ?_ hr hd
          simp only [length_addChild]
          exact Nat.lt_succ_self _

theorem rep_pathNested (w : Prop) (t2 : Tree) (names : List String) :
    ∀ (scope : Nat) (s s1 : PState) (a : Nat),
      pathNested names scope s = (Except.ok a, s1) → Inv s.root →
      (∃ c, s.root.thing scope = some c ∧ c.isClass = true) → Rel w s1.root t2 →
      pathNested names scope { lex := s.lex, root := t2 }
        = (Except.ok a, { lex := s1.lex, root := t2 }) := by
  induction names with
  | nil =>
    intro scope s s1 a h hI hs hr
    obtain ⟨rfl, rfl⟩ := pure_inv h
    rfl
  | cons n rest ih =>
    intro scope s s1 a h hI hs hr
    obtain ⟨c, hc, hcc⟩ := hs
    simp only [pathNested, bind_eq] at h ⊢
    rw [bind_ok (getTree_apply _)] at h ⊢
    cases hv : s.root.value scope n with
    | none =>
      rw [hv] at h
      simp only at h
      rw [bind_ok (newChild_apply _ _ _ _ _ _)] at h
      obtain ⟨_, s3, hcf, h⟩ := bind_inv h
      obtain ⟨hl3, _, c3, hc3, hcc3⟩ := createClassFor_ok hcf
      have hIA : Inv (s.root.addChild scope (some scope) n n none) :=
        inv_addChild _ hI _ _ _ _ _ (thing_lt hc) (Or.inl rfl)
          (fun y hy => Option.noConfusion hy) (fun y hy => Option.noConfusion hy)
      have hI3 : Inv s3.root := (hoare_createClassFor _ _ hIA _ _ hcf).1
      have hm3 := mono_pathNested _ _ _ _ _ h
      have hr3 : Rel w s3.root t2 := ext_rel hm3 hr
      have hmA := mono_createClassFor _ _ _ _ hcf
      have hvA : (s.root.addChild scope (some scope) n n none).value scope n
          = some s.root.length :=
        (value_addChild _ _ _ _ _ _ (thing_lt hc) scope n).trans (if_pos ⟨rfl, rfl⟩)
      have hv3 := ext_value hmA _ _ _ hvA
      have ht2 := rel_thing hr3 hc3
      have h1 := rel_value_eq hr3 hv3 (not_member_of_thing ht2 (isClass_not_member hcc3))
      have hih := ih _ _ s1 a h hI3 ⟨c3, hc3, hcc3⟩ hr
      rw [hl3] at hih
      simp only [h1, ht2]
      cases c3 with
      | Class nm ex => exact hih
      | _ => exact Bool.noConfusion hcc3
    | some node =>
      rw [hv] at h
      simp only at h
      have hm0 := mono_pathNested _ _ _ _ _ (by
        simp only [pathNested, bind_eq]
        rw [bind_ok (getTree_apply _), hv]
        exact h : pathNested (n :: rest) scope s = (Except.ok a, s1))
      have hr0 : Rel w s.root t2 := ext_rel hm0 hr
      cases hth : s.root.thing node with
      | none =>
        rw [hth] at h
        exact (throw_inv h).elim
      | some x =>
        rw [hth] at h
        cases x with
        | Class nm ex =>
          simp only at h
          have ht2 := rel_thing hr0 hth
          have h1 := rel_value_eq hr0 hv (not_member_of_thing ht2 rfl)
          simp only [h1, ht2]
          exact ih _ _ s1 a h hI ⟨_, hth, rfl⟩ hr
        | _ => exact (throw_inv h).elim

theorem rep_primitiveType (w : Prop) (t2 : Tree) (hI2 : Inv t2) (isPrimitive : String → Bool)
    {s s1 : PState} {a : Nat} (h : primitiveType isPrimitive s = (Except.ok a, s1))
    (hI : Inv s.root) (hr : Rel w s1.root t2) (hreq : t2.isMember a = false) :
    primitiveType isPrimitive { lex := s.lex, root := t2 }
      = (Except.ok a, { lex := s1.lex, root := t2 }) := by
  simp only [primitiveType, bind_eq] at h ⊢
  rw [bind_ok (nextP_apply _), bind_ok (peekP_apply _)] at h ⊢
  obtain ⟨str, s3, hstr, h3⟩ := bind_inv h
  clear h
  have hl : LexOnly (if (s.lex.next.2.peek.1.isName && decide (s.lex.next.2.peek.1.d_val = "unsigned")) = true
      then P.bind nextP (fun u => pure [s.lex.next.1.d_val, u.d_val])
      else (pure [s.lex.next.1.d_val] : P (List String))) :=
    lexOnly_ite (lexOnly_bind lexOnly_next (fun _ => lexOnly_pure _)) (lexOnly_pure _)
  have hstr2 := rep_lexOnly hl hstr t2
  have hr3 := (lexOnly_apply hl hstr).1
  simp only at hstr2 hr3
  rw [bind_ok hstr2]
  rw [bind_ok (nextP_apply _)] at h3 ⊢
  split_ifs at h3 ⊢ with h1 h2
  · exact (throw_inv h3).elim
  · exact (throw_inv h3).elim
  · exact rep_fetchPrimitive w t2 hI2 h3 (by simp only; rw [hr3]; exact hI) hr hreq

theorem rep_path (w : Prop) (t2 : Tree) (hI2 : Inv t2) (isPrimitive : String → Bool)
    {scope : Nat} {s s1 : PState} {a : Nat}
    (h : path isPrimitive scope s = (Except.ok a, s1)) (hI : Inv s.root)
    (hs : scope < s.root.length) (hr : Rel w s1.root t2)
    (hreq : ∃ x, t2.thing a = some x ∧ x.isMember = false) :
    path isPrimitive scope { lex := s.lex, root := t2 }
      = (Except.ok a, { lex := s1.lex, root := t2 }) := by
  simp only [path, bind_eq] at h ⊢
  rw [bind_ok (nextP_apply _)] at h ⊢
  split_ifs at h ⊢ with hnm
  · exact (throw_inv h).elim
  · rw [bind_ok (fuelP_apply _)] at h ⊢
    obtain ⟨name, s3, hd, h3⟩ := bind_inv h
    clear h
    have hd2 := rep_lexOnly (lexOnly_dottedLoop _ _ _) hd t2
    have hr3 := (lexOnly_apply (lexOnly_dottedLoop _ _ _) hd).1
    simp only at hd2 hr3
    rw [bind_ok hd2]
    have hI3 : Inv s3.root := by rw [hr3]; exact hI
    have hs3 : scope < s3.root.length := by rw [hr3]; exact hs
    split_ifs at h3 ⊢ with hprim
    · obtain ⟨x, hx, hxm⟩ := hreq
      exact rep_fetchPrimitive w t2 hI2 h3 hI3 hr (not_member_of_thing hx hxm)
    · obtain ⟨scope1, s4, hpn, h4⟩ := bind_inv h3
      clear h3
      obtain ⟨hI4, hs4⟩ := hoare_pathNamespaces _ _ _ hI3 hs3 _ _ hpn
      have hs4 := hs4 _ rfl
      have hm34 := mono_pathNamespaces _ _ _ _ _ hpn
      rw [bind_ok (getTree_apply _)] at h4
      obtain ⟨node, s6, hlk, h6⟩ := bind_inv h4
      clear h4
      have hL : s6.lex = s4.lex ∧ Inv s6.root ∧ Ext s4.root s6.root ∧
          s6.root.value scope1 (name.getLastD "") = some node := by
        cases hv : s4.root.value scope1 (name.getLastD "") with
        | some nd =>
          rw [hv] at hlk
          obtain ⟨rfl, rfl⟩ := pure_inv hlk
          exact ⟨rfl, hI4, ext_refl _, hv⟩
        | none =>
          rw [hv] at hlk
          simp only at hlk
          rw [newChild_apply] at hlk
          simp only [Prod.mk.injEq, Except.ok.injEq] at hlk
          obtain ⟨rfl, rfl⟩ := hlk
          refine ⟨rfl, ?_, ext_newChild _ _ _ _ _ _ hv, ?_⟩
          · exact inv_addChild _ hI4 _ _ _ _ _ hs4 (Or.inl rfl)
              (fun y hy => Option.noConfusion hy) (fun y hy => Option.noConfusion hy)
          · exact (value_addChild _ _ _ _ _ _ hs4 _ _).trans (if_pos ⟨rfl, rfl⟩)
      obtain ⟨hl6, hI6, he46, hv6⟩ := hL
      obtain ⟨nested, s7, hnl, h7⟩ := bind_inv h6
      clear h6
      have hnl2 := rep_lexOnly (lexOnly_nestedLoop _ _) hnl t2
      have hr7 := (lexOnly_apply (lexOnly_nestedLoop _ _) hnl).1
      have hI7 : Inv s7.root := by rw [hr7]; exact hI6
      -- what the rest of the run shows about `node`
      have hrest : Rel w s6.root t2 ∧ ∃ x, t2.thing node = some x ∧ x.isMember = false := by
        split_ifs at h7 with hemp
        · obtain ⟨rfl, rfl⟩ := pure_inv h7
          exact ⟨by rw [← hr7]; exact hr, hreq⟩
        · rw [bind_ok (getTree_apply _)] at h7
          cases hth : s7.root.thing node with
          | none =>
            rw [hth] at h7
            simp only at h7
            obtain ⟨_, s9, hcf, h9⟩ := bind_inv h7
            obtain ⟨_, _, c, hc, hcc⟩ := createClassFor_ok hcf
            have he79 := mono_createClassFor _ _ _ _ hcf
            have he91 := mono_pathNested _ _ _ _ _ h9
            have hr9 : Rel w s9.root t2 := ext_rel he91 hr
            refine ⟨?_, c, rel_thing hr9 hc, isClass_not_member hcc⟩
            rw [← hr7]
            exact ext_rel he79 hr9
          | some x =>
            rw [hth] at h7
            cases x with
            | Class nm ex =>
              simp only at h7
              have he71 := mono_pathNested _ _ _ _ _ h7
              have hr7b : Rel w s7.root t2 := ext_rel he71 hr
              refine ⟨?_, _, rel_thing hr7b hth, rfl⟩
              rw [← hr7]
              exact hr7b
            | _ => exact (throw_inv h7).elim
      obtain ⟨hr6, x, hx, hxm⟩ := hrest
      have hv2 := rel_value_eq hr6 hv6 (not_member_of_thing hx hxm)
      have hnd : ¬ Dead t2 scope1 :=
        fun hd => hI2.solid _ _ hx hxm (dead_of_value hI2 hv2 hd)
      have hpn2 := rep_pathNamespaces w t2 hI2 _ _ _ _ _ hpn hI3 hs3 (ext_rel he46 hr6) hnd
      rw [bind_ok hpn2, bind_ok (getTree_apply _)]
      simp only [hv2]
      rw [bind_ok (pure_apply _ _)]
      simp only [hl6] at hnl2
      rw [bind_ok hnl2]
      split_ifs at h7 ⊢ with hemp
      · obtain ⟨rfl, rfl⟩ := pure_inv h7
        rfl
      · rw [bind_ok (getTree_apply _)] at h7 ⊢
        cases hth : s7.root.thing node with
        | none =>
          rw [hth] at h7
          simp only at h7
          obtain ⟨_, s9, hcf, h9⟩ := bind_inv h7
          obtain ⟨hl9, _, c, hc, hcc⟩ := createClassFor_ok hcf
          have hI9 : Inv s9.root := (hoare_createClassFor _ _ hI7 _ _ hcf).1
          have he91 := mono_pathNested _ _ _ _ _ h9
          have hr9 : Rel w s9.root t2 := ext_rel he91 hr
          have ht2 := rel_thing hr9 hc
          have hih := rep_pathNested w t2 _ _ _ _ _ h9 hI9 ⟨c, hc, hcc⟩ hr
          rw [hl9] at hih
          simp only [ht2]
          cases c with
          | Class nm ex => exact hih
          | _ => exact Bool.noConfusion hcc
        | some y =>
          rw [hth] at h7
          cases y with
          | Class nm ex =>
            simp only at h7
            have he71 := mono_pathNested _ _ _ _ _ h7
            have hr7b : Rel w s7.root t2 := ext_rel he71 hr
            have ht2 := rel_thing hr7b hth
            simp only [ht2]
            exact rep_pathNested w t2 _ _ _ _ _ h7 hI7 ⟨_, hth, rfl⟩ hr
          | _ => exact (throw_inv h7).elim

theorem rep_lex {α : Type} {m : P α} {s s1 : PState} {a : α}
    (h : m s = (Except.ok a, s1)) (hm : LexOnly m) (t2 : Tree) :
    s1.root = s.root ∧
      m { lex := s.lex, root := t2 } = (Except.ok a, { lex := s1.lex, root := t2 }) :=
  ⟨(lexOnly_apply hm h).1, (lexOnly_apply hm h).2 t2⟩

theorem bind_ok_of {α β : Type} {m : P α} {f : α → P β} {s s1 : PState} {a : α}
    {r : Except Err β × PState} (hm : m s = (Except.ok a, s1)) (hf : f a s1 = r) :
    P.bind m f s = r := by
  rw [bind_ok hm]
  exact hf

/-- The part of `typeRef` and of `memberRef` that yields the node of the
class or primitive type, on the later tree. -/
theorem rep_typeNode (w : Prop) (t2 : Tree) (hI2 : Inv t2) (isPrimitive : String → Bool)
    (c1 c2 : Prop) [Decidable c1] [Decidable c2] {s s1 : PState} {a : Nat}
    (h : (if c1 then primitiveType isPrimitive
      else if c2 then P.bind assembly (fun ass => path isPrimitive ass)
      else path isPrimitive 0) s = (Except.ok a, s1))
    (hI : Inv s.root) (hr : Rel w s1.root t2)
    (hreq : ∃ x, t2.thing a = some x ∧ x.isMember = false) :
    (if c1 then primitiveType isPrimitive
      else if c2 then P.bind assembly (fun ass => path isPrimitive ass)
      else path isPrimitive 0) { lex := s.lex, root := t2 }
      = (Except.ok a, { lex := s1.lex, root := t2 }) := by
  split_ifs at h ⊢ with h1 h2
  · obtain ⟨x, hx, hxm⟩ := hreq
    exact rep_primitiveType w t2 hI2 isPrimitive h hI hr (not_member_of_thing hx hxm)
  · obtain ⟨ass, sC, hass, hp⟩ := bind_inv h
    obtain ⟨hIC, hsC⟩ := hoare_assembly _ hI _ _ hass
    have heC := mono_path _ _ _ _ _ hp
    have hass2 := rep_assembly w t2 hI2 hass hI (ext_rel heC hr)
    rw [bind_ok hass2]
    exact rep_path w t2 hI2 isPrimitive hp hIC (hsC _ rfl) hr hreq
  · exact rep_path w t2 hI2 isPrimitive h hI hI.root_lt hr hreq

theorem inv_typeNode (isPrimitive : String → Bool)
    (c1 c2 : Prop) [Decidable c1] [Decidable c2] {s s1 : PState} {a : Nat}
    (h : (if c1 then primitiveType isPrimitive
      else if c2 then P.bind assembly (fun ass => path isPrimitive ass)
      else path isPrimitive 0) s = (Except.ok a, s1))
    (hI : Inv s.root) : Inv s1.root := by
  split_ifs at h with h1 h2
  · exact (hoare_primitiveType _ _ hI _ _ h).1
  · obtain ⟨ass, sC, hass, hp⟩ := bind_inv h
    obtain ⟨hIC, hsC⟩ := hoare_assembly _ hI _ _ hass
    exact (hoare_path _ _ _ hIC (hsC _ rfl) _ _ hp).1
  · exact (hoare_path _ _ _ hI hI.root_lt _ _ h).1

/-- A lookup that creates the node when there is none: what holds
afterwards. -/
theorem lookup_facts {s s1 : PState} {a : Nat} {scope : Nat} {key name : String}
    {x : Option Thing} (hs : scope < s.root.length)
    (h : (match s.root.value scope key with
      | some suffix => (pure suffix : P Nat)
      | none => newChild scope (some scope) key name x) s = (Except.ok a, s1)) :
    s1.lex = s.lex ∧ Ext s.root s1.root ∧ s1.root.value scope key = some a := by
  cases hv : s.root.value scope key with
  | some nd =>
    rw [hv] at h
    obtain ⟨rfl, rfl⟩ := pure_inv h
    exact ⟨rfl, ext_refl _, hv⟩
  | none =>
    rw [hv] at h
    simp only at h
    rw [newChild_apply] at h
    simp only [Prod.mk.injEq, Except.ok.injEq] at h
    obtain ⟨rfl, rfl⟩ := h
    exact ⟨rfl, ext_newChild _ _ _ _ _ _ hv,
      (value_addChild _ _ _ _ _ _ hs _ _).trans (if_pos ⟨rfl, rfl⟩)⟩

theorem rep_typeRef (w : Prop) (t2 : Tree) (hI2 : Inv t2) (isPrimitive : String → Bool)
    {s s1 : PState} {a : Nat} (h : typeRef isPrimitive s = (Except.ok a, s1))
    (hI : Inv s.root) (hr : Rel w s1.root t2) :
    ∃ a1, typeRef isPrimitive { lex := s.lex, root := t2 }
        = (Except.ok a1, { lex := s1.lex, root := t2 }) ∧ Sim w t2 a a1 := by
  simp only [typeRef, bind_eq] at h ⊢
  rw [bind_ok (peekP_apply _)] at h ⊢
  obtain ⟨t, sB, htok, hB⟩ := bind_inv h
  clear h
  obtain ⟨hrB, htok2⟩ := rep_lex htok
    (lexOnly_ite (lexOnly_bind lexOnly_next (fun _ => lexOnly_peek)) (lexOnly_pure _)) t2
  simp only at hrB htok2
  have hIB : Inv sB.root := by rw [hrB]; exact hI
  obtain ⟨node, s3, hnode, h3⟩ := bind_inv hB
  clear hB
  have hI3 : Inv s3.root := inv_typeNode isPrimitive _ _ hnode hIB
  rw [bind_ok (getTree_apply _)] at h3
  obtain ⟨_, s5, hcc, h5⟩ := bind_inv h3
  clear h3
  have h5f : s5.lex = s3.lex ∧ Ext s3.root s5.root ∧ Inv s5.root ∧
      ∃ x, s5.root.thing node = some x := by
    cases hth : s3.root.thing node with
    | none =>
      rw [hth] at hcc
      simp only [Option.isNone_none, ↓reduceIte] at hcc
      obtain ⟨hl, _, c, hc, _⟩ := createClassFor_ok hcc
      exact ⟨hl, mono_createClassFor _ _ _ _ hcc, (hoare_createClassFor _ _ hI3 _ _ hcc).1,
        c, hc⟩
    | some x =>
      rw [hth] at hcc
      simp only [Option.isNone_some, Bool.false_eq_true, ↓reduceIte] at hcc
      obtain ⟨_, rfl⟩ := pure_inv hcc
      exact ⟨rfl, ext_refl _, hI3, x, hth⟩
  obtain ⟨hl5, he35, hI5, x, hx5⟩ := h5f
  rw [bind_ok (fuelP_apply _)] at h5
  obtain ⟨al, s7, harr, h7⟩ := bind_inv h5
  clear h5
  obtain ⟨hr7, harr2⟩ := rep_lex harr (lexOnly_arrayLoop _ _ _) t2
  rw [bind_ok (getTree_apply _)] at h7
  have hx7 : s7.root.thing node = some x := by rw [hr7]; exact hx5
  have hn7 : node < s7.root.length := thing_lt hx7
  rw [hx7] at h7
  -- the end of the first run
  have hfin : s1.lex = s7.lex ∧ Ext s7.root s1.root ∧ x.isMember = false ∧
      ((∃ tp r l b, x = Thing.Type tp r l b ∧ al.2 = 0 ∧ a = node) ∨
        ((∀ tp r l b, x = Thing.Type tp r l b → al.2 ≠ 0) ∧
          s1.root.value node al.1 = some a)) := by
    rcases x with nm | nm | ⟨nm, ex⟩ | ⟨tp, r, l, b⟩ | ⟨nm, c, r, sig, hn, sp⟩ | ⟨nm, ty, st⟩
    · simp only at h7
      obtain ⟨_, s8, ha, h8⟩ := bind_inv h7
      obtain ⟨_, rfl⟩ := assertP_ok ha
      obtain ⟨h1, h2, h3⟩ := lookup_facts hn7 h8
      exact ⟨h1, h2, rfl, Or.inr ⟨fun _ _ _ _ hh => Thing.noConfusion hh, h3⟩⟩
    · simp only at h7
      obtain ⟨_, s8, ha, h8⟩ := bind_inv h7
      obtain ⟨_, rfl⟩ := assertP_ok ha
      obtain ⟨h1, h2, h3⟩ := lookup_facts hn7 h8
      exact ⟨h1, h2, rfl, Or.inr ⟨fun _ _ _ _ hh => Thing.noConfusion hh, h3⟩⟩
    · simp only at h7
      obtain ⟨_, s8, ha, h8⟩ := bind_inv h7
      obtain ⟨_, rfl⟩ := assertP_ok ha
      obtain ⟨h1, h2, h3⟩ := lookup_facts hn7 h8
      exact ⟨h1, h2, rfl, Or.inr ⟨fun _ _ _ _ hh => Thing.noConfusion hh, h3⟩⟩
    · simp only at h7
      split_ifs at h7 with hlev
      · obtain ⟨rfl, rfl⟩ := pure_inv h7
        exact ⟨rfl, ext_refl _, rfl, Or.inl ⟨_, _, _, _, rfl, hlev, rfl⟩⟩
      · obtain ⟨h1, h2, h3⟩ := lookup_facts hn7 h7
        exact ⟨h1, h2, rfl, Or.inr ⟨fun _ _ _ _ _ => hlev, h3⟩⟩
    · simp only at h7
      obtain ⟨_, s8, ha, h8⟩ := bind_inv h7
      obtain ⟨hc, _⟩ := assertP_ok ha
      exact Bool.noConfusion hc
    · simp only at h7
      obtain ⟨_, s8, ha, h8⟩ := bind_inv h7
      obtain ⟨hc, _⟩ := assertP_ok ha
      exact Bool.noConfusion hc
  obtain ⟨hl1, he71, hxm, hcase⟩ := hfin
  have hr7b : Rel w s7.root t2 := ext_rel he71 hr
  have hr5 : Rel w s5.root t2 := by rw [← hr7]; exact hr7b
  have hr3 : Rel w s3.root t2 := ext_rel he35 hr5
  have ht2 : t2.thing node = some x := rel_thing hr7b hx7
  have hnode2 := rep_typeNode w t2 hI2 isPrimitive _ _ hnode hIB hr3 ⟨x, ht2, hxm⟩
  -- the run on the later tree, up to the last lookup
  have hgoal : ∀ a1, ((∃ tp r l b, x = Thing.Type tp r l b ∧ al.2 = 0 ∧ a1 = node) ∨
      ((∀ tp r l b, x = Thing.Type tp r l b → al.2 ≠ 0) ∧ t2.value node al.1 = some a1)) →
      typeRef isPrimitive { lex := s.lex, root := t2 }
        = (Except.ok a1, { lex := s1.lex, root := t2 }) := by
    intro a1 hc
    simp only [typeRef, bind_eq]
    rw [bind_ok (peekP_apply _), bind_ok htok2, bind_ok hnode2, bind_ok (getTree_apply _)]
    simp only [ht2, Option.isNone_some, Bool.false_eq_true, ↓reduceIte]
    rw [bind_ok (pure_apply _ _), bind_ok (fuelP_apply _)]
    rw [hl5] at harr2
    simp only
    rw [bind_ok harr2, bind_ok (getTree_apply _)]
    simp only [ht2, hl1]
    rcases hc with ⟨tp, r, l, b, rfl, hlev, rfl⟩ | ⟨hne, hv⟩
    · simp only [hlev, ↓reduceIte]
      rfl
    · rcases x with nm | nm | ⟨nm, ex⟩ | ⟨tp, r, l, b⟩ | ⟨nm, c, r, sig, hn, sp⟩ | ⟨nm, ty, st⟩
      · simp only [hv]
        rfl
      · simp only [hv]
        rfl
      · simp only [hv]
        rfl
      · simp only [hne tp r l b rfl, ↓reduceIte, hv]
        rfl
      · exact Bool.noConfusion hxm
      · exact Bool.noConfusion hxm
  rcases hcase with ⟨tp, r, l, b, hxt, hlev, rfl⟩ | ⟨hne, hv⟩
  · exact ⟨a, hgoal a (Or.inl ⟨tp, r, l, b, hxt, hlev, rfl⟩), sim_refl _ _ _⟩
  · obtain ⟨a1, hv1, hsim⟩ := rel_value hr hv
    exact ⟨a1, hgoal a1 (Or.inr ⟨hne, hv1⟩), hsim⟩

theorem bind_sim {α β : Type} {m : P α} {f : α → P β} {s s2 : PState} {q : β → Prop}
    (r : α → Prop) (s1 : PState) (hm : ∃ a1, m s = (Except.ok a1, s1) ∧ r a1)
    (hf : ∀ a1, r a1 → ∃ b1, f a1 s1 = (Except.ok b1, s2) ∧ q b1) :
    ∃ b1, P.bind m f s = (Except.ok b1, s2) ∧ q b1 := by
  obtain ⟨a1, h1, h2⟩ := hm
  obtain ⟨b1, h3, h4⟩ := hf a1 h2
  exact ⟨b1, by rw [bind_ok h1]; exact h3, h4⟩

theorem bind_text {β : Type} (f : List Char → P β) (s : PState) :
    P.bind (fun s : PState => (Except.ok s.lex.d_in, s)) f s = f s.lex.d_in s := rfl

theorem fail_inv {α : Type} {e : Err} {b : α} {s s1 : PState}
    (h : (fun s => (Except.error e, s) : P α) s = (Except.ok b, s1)) : False := by
  simp only [Prod.mk.injEq] at h
  exact Except.noConfusion h.1

theorem rep_param (w : Prop) (t2 : Tree) (hI2 : Inv t2) (isPrimitive : String → Bool)
    {s s1 : PState} {p : Nat × String × String}
    (h : param isPrimitive s = (Except.ok p, s1)) (hI : Inv s.root) (hr : Rel w s1.root t2) :
    ∃ p1, param isPrimitive { lex := s.lex, root := t2 }
        = (Except.ok p1, { lex := s1.lex, root := t2 }) ∧ Sim w t2 p.1 p1.1 ∧ p1.2 = p.2 := by
  simp only [param, bind_eq] at h ⊢
  rw [bind_ok (peekP_apply _)] at h ⊢
  obtain ⟨ty, sA, hty, hA⟩ := bind_inv h
  clear h
  have hIA : Inv sA.root := (hoare_typeRef _ (PState.mk s.lex.peek.2 s.root) hI _ _ hty).1
  rw [bind_ok (peekP_apply _)] at hA
  obtain ⟨d, sC, hd, hC⟩ := bind_inv hA
  clear hA
  rw [bind_ok (peekP_apply _), bind_text, bind_ok (peekP_apply _)] at hC
  have hroot : s1.root = sC.root ∧ p.1 = d := by
    split_ifs at hC with hnm
    · rw [bind_ok (nextP_apply _)] at hC
      obtain ⟨rfl, rfl⟩ := pure_inv hC
      exact ⟨rfl, rfl⟩
    · obtain ⟨rfl, rfl⟩ := pure_inv hC
      exact ⟨rfl, rfl⟩
  obtain ⟨hroot, hp1⟩ := hroot
  have hrC : Rel w sC.root t2 := by rw [← hroot]; exact hr
  -- the step that makes the by-reference type only extends the tree
  have heAC : Ext sA.root sC.root := by
    split_ifs at hd with hamp
    · rw [bind_ok (nextP_apply _), bind_ok (getTree_apply _)] at hd
      simp only at hd
      cases hth : sA.root.thing ty with
      | none =>
        rw [hth] at hd
        exact (fail_inv hd).elim
      | some x =>
        rw [hth] at hd
        rcases x with nm | nm | ⟨nm, ex⟩ | ⟨tp, cls, lvl, b⟩ | ⟨nm, c, r, sig, hn, sp⟩ | ⟨nm, ty, st⟩
        · exact (fail_inv hd).elim
        · exact (fail_inv hd).elim
        · exact (fail_inv hd).elim
        · simp only at hd
          by_cases hcond : (cls.isSome || decide (lvl ≠ 0)) = true
          · rw [if_pos hcond] at hd
            cases hp : sA.root.parent ty with
            | none =>
              rw [hp] at hd
              exact (fail_inv hd).elim
            | some par =>
              rw [hp] at hd
              simp only at hd
              exact (lookup_facts (s := PState.mk sA.lex.peek.2.next.2 sA.root)
                (hIA.closed _ _ hp) hd).2.1
          · rw [if_neg hcond] at hd
            exact (lookup_facts (s := PState.mk sA.lex.peek.2.next.2 sA.root)
              (thing_lt hth) hd).2.1
        · exact (fail_inv hd).elim
        · exact (fail_inv hd).elim
    · obtain ⟨_, rfl⟩ := pure_inv hd
      exact ext_refl _
  have hrA : Rel w sA.root t2 := ext_rel heAC hrC
  obtain ⟨ty1, hty2, hsim⟩ := rep_typeRef w t2 hI2 isPrimitive hty hI hrA
  simp only at hty2
  rw [bind_ok hty2, bind_ok (peekP_apply _)]
  refine bind_sim (fun d1 => Sim w t2 d d1) { lex := sC.lex, root := t2 } ?_ ?_
  · simp only
    split_ifs at hd ⊢ with hamp
    · rw [bind_ok (nextP_apply _), bind_ok (getTree_apply _)] at hd ⊢
      simp only at hd ⊢
      cases hth : sA.root.thing ty with
      | none =>
        rw [hth] at hd
        exact (fail_inv hd).elim
      | some x =>
        rw [hth] at hd
        have ht2 := rel_thing hrA hth
        rcases x with nm | nm | ⟨nm, ex⟩ | ⟨tp, cls, lvl, b⟩ | ⟨nm, c, r, sig, hn, sp⟩ | ⟨nm, ty, st⟩
        · exact (fail_inv hd).elim
        · exact (fail_inv hd).elim
        · exact (fail_inv hd).elim
        · have hty1 : ty1 = ty := sim_eq hsim (not_member_of_thing ht2 rfl)
          subst hty1
          simp only [ht2]
          simp only at hd
          by_cases hcond : (cls.isSome || decide (lvl ≠ 0)) = true
          · rw [if_pos hcond] at hd ⊢
            cases hp : sA.root.parent ty1 with
            | none =>
              rw [hp] at hd
              exact (fail_inv hd).elim
            | some par =>
              rw [hp] at hd
              simp only at hd
              obtain ⟨hl, _, hv⟩ := lookup_facts (s := PState.mk sA.lex.peek.2.next.2 sA.root)
                (hIA.closed _ _ hp) hd
              obtain ⟨d1, hv1, hs1⟩ := rel_value hrC hv
              have hp2 : t2.parent ty1 = some par := by
                rw [rel_parent hrA (thing_lt hth)]; exact hp
              have hn2 : t2.name ty1 = sA.root.name ty1 := rel_name hrA (thing_lt hth)
              simp only [hp2, hn2, hv1]
              exact ⟨d1, by rw [hl]; rfl, hs1⟩
          · rw [if_neg hcond] at hd ⊢
            obtain ⟨hl, _, hv⟩ := lookup_facts (s := PState.mk sA.lex.peek.2.next.2 sA.root)
              (thing_lt hth) hd
            obtain ⟨d1, hv1, hs1⟩ := rel_value hrC hv
            simp only [hv1]
            exact ⟨d1, by rw [hl]; rfl, hs1⟩
        · exact (fail_inv hd).elim
        · exact (fail_inv hd).elim
    · obtain ⟨rfl, rfl⟩ := pure_inv hd
      exact ⟨ty1, rfl, hsim⟩
  · intro d1 hs1
    simp only
    rw [bind_ok (peekP_apply _), bind_text, bind_ok (peekP_apply _)]
    simp only
    split_ifs at hC ⊢ with hnm
    · rw [bind_ok (nextP_apply _)] at hC ⊢
      obtain ⟨rfl, rfl⟩ := pure_inv hC
      exact ⟨_, rfl, hs1, rfl⟩
    · obtain ⟨rfl, rfl⟩ := pure_inv hC
      exact ⟨_, rfl, hs1, rfl⟩

theorem simPars_snoc {w : Prop} {t2 : Tree} {l l1 : List (Nat × String × String)}
    {p p1 : Nat × String × String} (h : SimPars w t2 l l1) (hs : Sim w t2 p.1 p1.1)
    (he : p1.2 = p.2) : SimPars w t2 (l ++ [p]) (l1 ++ [p1]) := by
  induction h with
  | nil => exact List.Forall₂.cons ⟨hs, he⟩ List.Forall₂.nil
  | cons hab _ ih => exact List.Forall₂.cons hab ih

theorem simPars_typeStr {w : Prop} {t2 : Tree} {l l1 : List (Nat × String × String)}
    (h : SimPars w t2 l l1) :
    l.map (fun p => cstr p.2.1) = l1.map (fun p => cstr p.2.1) := by
  induction h with
  | nil => rfl
  | cons hab _ ih =>
    simp only [List.map_cons, ih, hab.2]

theorem rep_commaLoop (w : Prop) (t2 : Tree) (hI2 : Inv t2) (isPrimitive : String → Bool)
    (fuel : Nat) :
    ∀ (res res1 : List (Nat × String × String)) (s s1 : PState)
      (l : List (Nat × String × String)),
      commaLoop isPrimitive fuel res s = (Except.ok l, s1) → Inv s.root →
      Rel w s1.root t2 → SimPars w t2 res res1 →
      ∃ l1, commaLoop isPrimitive fuel res1 { lex := s.lex, root := t2 }
          = (Except.ok l1, { lex := s1.lex, root := t2 }) ∧ SimPars w t2 l l1 := by
  induction fuel with
  | zero =>
    intro res res1 s s1 l h hI hr hs
    obtain ⟨rfl, rfl⟩ := pure_inv h
    exact ⟨res1, rfl, hs⟩
  | succ fuel ih =>
    intro res res1 s s1 l h hI hr hs
    simp only [commaLoop, bind_eq] at h ⊢
    rw [bind_ok (peekP_apply _)] at h ⊢
    split_ifs at h ⊢ with hc
    · rw [bind_ok (nextP_apply _)] at h ⊢
      obtain ⟨p, sA, hp, hA⟩ := bind_inv h
      clear h
      have hIA : Inv sA.root :=
        (hoare_param _ (PState.mk s.lex.peek.2.next.2 s.root) hI _ _ hp).1
      have hrA : Rel w sA.root t2 := ext_rel (mono_commaLoop _ _ _ _ _ _ hA) hr
      obtain ⟨p1, hp2, hs1, he1⟩ := rep_param w t2 hI2 isPrimitive hp hI hrA
      simp only at hp2 ⊢
      rw [bind_ok hp2]
      exact ih _ _ _ _ _ hA hIA hr (simPars_snoc hs hs1 he1)
    · obtain ⟨rfl, rfl⟩ := pure_inv h
      exact ⟨res1, rfl, hs⟩

theorem rep_paramsLoop (w : Prop) (t2 : Tree) (hI2 : Inv t2) (isPrimitive : String → Bool)
    (fuel : Nat) :
    ∀ (res res1 : List (Nat × String × String)) (s s1 : PState)
      (l : List (Nat × String × String)),
      paramsLoop isPrimitive fuel res s = (Except.ok l, s1) → Inv s.root →
      Rel w s1.root t2 → SimPars w t2 res res1 →
      ∃ l1, paramsLoop isPrimitive fuel res1 { lex := s.lex, root := t2 }
          = (Except.ok l1, { lex := s1.lex, root := t2 }) ∧ SimPars w t2 l l1 := by
  induction fuel with
  | zero =>
    intro res res1 s s1 l h hI hr hs
    obtain ⟨rfl, rfl⟩ := pure_inv h
    exact ⟨res1, rfl, hs⟩
  | succ fuel ih =>
    intro res res1 s s1 l h hI hr hs
    simp only [paramsLoop, bind_eq] at h ⊢
    rw [bind_ok (peekP_apply _)] at h ⊢
    split_ifs at h ⊢ with hc
    · obtain ⟨p, sA, hp, hA⟩ := bind_inv h
      clear h
      have hIA : Inv sA.root := (hoare_param _ (PState.mk s.lex.peek.2 s.root) hI _ _ hp).1
      rw [bind_ok (fuelP_apply _)] at hA
      obtain ⟨res2, sB, hcl, hB⟩ := bind_inv hA
      clear hA
      have hIB : Inv sB.root := (hoare_commaLoop _ _ _ _ hIA _ _ hcl).1
      have hrB : Rel w sB.root t2 := ext_rel (mono_paramsLoop _ _ _ _ _ _ hB) hr
      have hrA : Rel w sA.root t2 := ext_rel (mono_commaLoop _ _ _ _ _ _ hcl) hrB
      obtain ⟨p1, hp2, hs1, he1⟩ := rep_param w t2 hI2 isPrimitive hp hI hrA
      simp only at hp2 ⊢
      rw [bind_ok hp2, bind_ok (fuelP_apply _)]
      obtain ⟨res3, hcl2, hs3⟩ := rep_commaLoop w t2 hI2 isPrimitive _ _ _ _ _ _ hcl hIA hrB
        (simPars_snoc hs hs1 he1)
      simp only
      rw [bind_ok hcl2]
      exact ih _ _ _ _ _ hB hIB hr hs3
    · obtain ⟨rfl, rfl⟩ := pure_inv h
      exact ⟨res1, rfl, hs⟩

theorem rep_params (w : Prop) (t2 : Tree) (hI2 : Inv t2) (isPrimitive : String → Bool)
    {s s1 : PState} {l : List (Nat × String × String)}
    (h : params isPrimitive s = (Except.ok l, s1)) (hI : Inv s.root) (hr : Rel w s1.root t2) :
    ∃ l1, params isPrimitive { lex := s.lex, root := t2 }
        = (Except.ok l1, { lex := s1.lex, root := t2 }) ∧ SimPars w t2 l l1 := by
  simp only [params, bind_eq] at h ⊢
  rw [bind_ok (peekP_apply _)] at h ⊢
  split_ifs at h ⊢ with hc
  · rw [bind_ok (nextP_apply _), bind_ok (fuelP_apply _)] at h ⊢
    exact rep_paramsLoop w t2 hI2 isPrimitive _ _ _ _ _ _ h hI hr List.Forall₂.nil
  · exact (throw_inv h).elim

/-- The part of `memberRef` that yields the node of the class, on the later
tree. -/
theorem rep_classNode (w : Prop) (t2 : Tree) (hI2 : Inv t2) (isPrimitive : String → Bool)
    (c2 : Prop) [Decidable c2] {s s1 : PState} {a : Nat}
    (h : (if c2 then P.bind assembly (fun ass => path isPrimitive ass)
      else path isPrimitive 0) s = (Except.ok a, s1))
    (hI : Inv s.root) (hr : Rel w s1.root t2)
    (hreq : ∃ x, t2.thing a = some x ∧ x.isMember = false) :
    (if c2 then P.bind assembly (fun ass => path isPrimitive ass)
      else path isPrimitive 0) { lex := s.lex, root := t2 }
      = (Except.ok a, { lex := s1.lex, root := t2 }) := by
  split_ifs at h ⊢ with h2
  · obtain ⟨ass, sC, hass, hp⟩ := bind_inv h
    obtain ⟨hIC, hsC⟩ := hoare_assembly _ hI _ _ hass
    have heC := mono_path _ _ _ _ _ hp
    have hass2 := rep_assembly w t2 hI2 hass hI (ext_rel heC hr)
    rw [bind_ok hass2]
    exact rep_path w t2 hI2 isPrimitive hp hIC (hsC _ rfl) hr hreq
  · exact rep_path w t2 hI2 isPrimitive h hI hI.root_lt hr hreq

theorem inv_classNode (isPrimitive : String → Bool)
    (c2 : Prop) [Decidable c2] {s s1 : PState} {a : Nat}
    (h : (if c2 then P.bind assembly (fun ass => path isPrimitive ass)
      else path isPrimitive 0) s = (Except.ok a, s1))
    (hI : Inv s.root) : Inv s1.root ∧ Ext s.root s1.root := by
  split_ifs at h with h2
  · obtain ⟨ass, sC, hass, hp⟩ := bind_inv h
    obtain ⟨hIC, hsC⟩ := hoare_assembly _ hI _ _ hass
    exact ⟨(hoare_path _ _ _ hIC (hsC _ rfl) _ _ hp).1,
      ext_trans (mono_assembly _ _ _ hass) (mono_path _ _ _ _ _ hp)⟩
  · exact ⟨(hoare_path _ _ _ hI hI.root_lt _ _ h).1, mono_path _ _ _ _ _ h⟩

theorem rep_memberRefHead (w : Prop) (t2 : Tree) (hI2 : Inv t2) (isPrimitive : String → Bool)
    {s s1 : PState} {r : Nat × Nat × String}
    (h : memberRefHead isPrimitive s = (Except.ok r, s1)) (hI : Inv s.root)
    (hr : Rel w s1.root t2) :
    ∃ r1, memberRefHead isPrimitive { lex := s.lex, root := t2 }
        = (Except.ok r1, { lex := s1.lex, root := t2 }) ∧ Sim w t2 r.1 r1.1 ∧ r1.2 = r.2 := by
  obtain ⟨_, hpost⟩ := hoare_memberRefHead isPrimitive s hI _ _ h
  obtain ⟨c, hc, hcc⟩ := hpost r rfl
  simp only [memberRefHead, bind_eq] at h ⊢
  obtain ⟨type, sA, hty, hA⟩ := bind_inv h
  clear h
  have hIA : Inv sA.root := (hoare_typeRef _ _ hI _ _ hty).1
  rw [bind_ok (peekP_apply _)] at hA
  obtain ⟨t, sB, htok, hB⟩ := bind_inv hA
  clear hA
  obtain ⟨hrB, htok2⟩ := rep_lex htok
    (lexOnly_ite (lexOnly_bind lexOnly_next (fun _ => lexOnly_peek)) (lexOnly_pure _)) t2
  simp only at hrB htok2
  have hIB : Inv sB.root := by rw [hrB]; exact hIA
  obtain ⟨node, sC, hnode, hC⟩ := bind_inv hB
  clear hB
  obtain ⟨hIC, heBC⟩ := inv_classNode isPrimitive _ hnode hIB
  rw [bind_ok (nextP_apply _)] at hC
  split_ifs at hC with hcol
  · exact (throw_inv hC).elim
  · rw [bind_ok (getTree_apply _)] at hC
    obtain ⟨_, sD, hcl, hD⟩ := bind_inv hC
    clear hC
    have hD1 : sD.lex = sC.lex.next.2 ∧ Ext sC.root sD.root := by
      cases hth : sC.root.thing node with
      | none =>
        rw [hth] at hcl
        simp only at hcl
        obtain ⟨hl, _, _⟩ := createClassFor_ok hcl
        exact ⟨hl, mono_createClassFor _ (PState.mk sC.lex.next.2 sC.root) _ _ hcl⟩
      | some x =>
        rw [hth] at hcl
        rcases x with nm | nm | ⟨nm, ex⟩ | ⟨tp, cls, lvl, b⟩ | ⟨nm, c, r, sig, hn, sp⟩ | ⟨nm, ty, st⟩
        · exact (throw_inv hcl).elim
        · exact (throw_inv hcl).elim
        · obtain ⟨_, rfl⟩ := pure_inv hcl
          exact ⟨rfl, ext_refl _⟩
        · exact (throw_inv hcl).elim
        · exact (throw_inv hcl).elim
        · exact (throw_inv hcl).elim
    obtain ⟨hlD, heCD⟩ := hD1
    rw [bind_ok (nextP_apply _)] at hD
    split_ifs at hD with hnm
    · exact (throw_inv hD).elim
    · rw [bind_ok (fuelP_apply _)] at hD
      obtain ⟨name, sE, hdl, hE⟩ := bind_inv hD
      clear hD
      obtain ⟨hrE, hdl2⟩ := rep_lex hdl (lexOnly_dottedLoop _ _ _) t2
      simp only at hrE hdl2
      obtain ⟨rfl, rfl⟩ := pure_inv hE
      simp only at hc hr ⊢
      have hrD : Rel w sD.root t2 := by rw [← hrE]; exact hr
      have hrC : Rel w sC.root t2 := ext_rel heCD hrD
      have hrA : Rel w sA.root t2 := by
        have := ext_rel heBC hrC
        rw [hrB] at this
        exact this
      have ht2 : t2.thing node = some c := by
        rw [hrE] at hc
        exact rel_thing hrD hc
      have hnode2 := rep_classNode w t2 hI2 isPrimitive _ hnode hIB hrC
        ⟨c, ht2, isClass_not_member hcc⟩
      refine bind_sim (fun ty1 => Sim w t2 type ty1) { lex := sA.lex, root := t2 }
        (rep_typeRef w t2 hI2 isPrimitive hty hI hrA) ?_
      intro ty1 hs1
      rw [bind_ok (peekP_apply _)]
      simp only
      rw [bind_ok htok2, bind_ok hnode2, bind_ok (nextP_apply _)]
      simp only [hcol, ↓reduceIte]
      rw [bind_ok (getTree_apply _)]
      simp only [ht2]
      rcases c with nm | nm | ⟨nm, ex⟩ | ⟨tp, cls, lvl, b⟩ | ⟨nm, c, r, sig, hn, sp⟩ | ⟨nm, ty, st⟩
      · exact Bool.noConfusion hcc
      · exact Bool.noConfusion hcc
      · simp only
        rw [bind_ok (pure_apply _ _), bind_ok (nextP_apply _)]
        simp only at hlD
        rw [hlD] at hnm hdl2
        rw [if_neg hnm, bind_ok (fuelP_apply _)]
        simp only
        rw [bind_ok hdl2]
        exact ⟨_, rfl, hs1, rfl⟩
      · exact Bool.noConfusion hcc
      · exact Bool.noConfusion hcc
      · exact Bool.noConfusion hcc

theorem findOrCreateField_ok {cls : Nat} {name : String} {type : Nat} {hint : MemberHint}
    {s s1 : PState} {a : Nat} (h : findOrCreateField cls name type hint s = (Except.ok a, s1)) :
    s1.lex = s.lex ∧ Ext s.root s1.root ∧ s1.root.value cls name = some a ∧
      ∃ nm ty st, s1.root.thing a = some (Thing.Field nm ty st) := by
  have he := mono_findOrCreateField cls name type hint s _ _ h
  simp only [findOrCreateField, bind_eq] at h
  rw [bind_ok (getTree_apply _)] at h
  cases hv : s.root.value cls name with
  | none =>
    rw [hv] at h
    simp only at h
    rw [bind_ok (newChild_apply _ _ _ _ _ _)] at h
    cases hth : s.root.thing cls with
    | none =>
      rw [hth] at h
      exact (throw_inv h).elim
    | some x =>
      rw [hth] at h
      rcases x with nm | nm | ⟨nm, ex⟩ | ⟨tp, c, lvl, b⟩ | ⟨nm, c, r, sig, hn, sp⟩ | ⟨nm, ty, st⟩
      · exact (throw_inv h).elim
      · exact (throw_inv h).elim
      · obtain ⟨rfl, rfl⟩ := pure_inv h
        refine ⟨rfl, he, ?_, ?_⟩
        · exact (value_addChild _ _ _ _ _ _ (thing_lt hth) _ _).trans (if_pos ⟨rfl, rfl⟩)
        · exact ⟨_, _, _, (thing_addChild _ _ _ _ _ _ (thing_lt hth) _).trans (if_pos rfl)⟩
      · exact (throw_inv h).elim
      · exact (throw_inv h).elim
      · exact (throw_inv h).elim
  | some member =>
    rw [hv] at h
    simp only at h
    cases hth : s.root.thing member with
    | none =>
      rw [hth] at h
      exact (throw_inv h).elim
    | some x =>
      rw [hth] at h
      rcases x with nm | nm | ⟨nm, ex⟩ | ⟨tp, c, lvl, b⟩ | ⟨nm, c, r, sig, hn, sp⟩ | ⟨nm, ty, st⟩
      · exact (throw_inv h).elim
      · exact (throw_inv h).elim
      · exact (throw_inv h).elim
      · exact (throw_inv h).elim
      · exact (throw_inv h).elim
      · obtain ⟨rfl, rfl⟩ := pure_inv h
        exact ⟨rfl, he, hv, _, _, _, hth⟩

theorem rep_findOrCreateField (t2 : Tree) {cls : Nat} {name : String} {type : Nat}
    {hint : MemberHint} {s s1 : PState} {a : Nat}
    (h : findOrCreateField cls name type hint s = (Except.ok a, s1))
    (hr : Rel False s1.root t2) (type1 : Nat) :
    findOrCreateField cls name type1 hint { lex := s.lex, root := t2 }
      = (Except.ok a, { lex := s1.lex, root := t2 }) := by
  obtain ⟨hl, _, hv, nm, ty, st, hth⟩ := findOrCreateField_ok h
  obtain ⟨a1, hv1, hs1⟩ := rel_value hr hv
  have ha1 : a1 = a := by
    rcases hs1 with h1 | ⟨h1, _⟩
    · exact h1
    · exact h1.elim
  subst ha1
  simp only [findOrCreateField, bind_eq]
  rw [bind_ok (getTree_apply _)]
  simp only [hv1, rel_thing hr hth, hl]
  rfl

theorem findMethod_none_member (t : Tree) (pars : List (Nat × String × String)) :
    ∀ ms : List Nat, findMethod t pars ms = Except.ok none → ∀ m ∈ ms, t.isMember m = true := by
  intro ms
  induction ms with
  | nil => intro _ m hm; exact absurd hm (List.not_mem_nil m)
  | cons a rest ih =>
    intro h m hm
    simp only [findMethod] at h
    cases hth : t.thing a with
    | none =>
      rw [hth] at h
      exact Except.noConfusion h
    | some x =>
      rw [hth] at h
      rcases x with nm | nm | ⟨nm, ex⟩ | ⟨tp, c, lvl, b⟩ | ⟨nm, c, r, sig, hn, sp⟩ | ⟨nm, ty, st⟩
      · exact Except.noConfusion h
      · exact Except.noConfusion h
      · exact Except.noConfusion h
      · exact Except.noConfusion h
      · simp only at h
        split_ifs at h with he
        · simp only [Except.ok.injEq] at h
          exact Option.noConfusion h
        · rcases List.mem_cons.mp hm with rfl | hm2
          · rw [isMember_thing hth]; rfl
          · exact ih h m hm2
      · exact Except.noConfusion h

theorem rel_addChild_member (t : Tree) (cls : Nat) (key name : String) (x : Thing)
    (hs : cls < t.length) (hx : x.isMember = true)
    (hv : ∀ v, t.value cls key = some v → t.isMember v = true) :
    Rel True t (t.addChild cls (some cls) key name (some x)) := by
  intro i nd hi
  have hlt := getElem?_lt hi
  have hnew : (t.addChild cls (some cls) key name (some x)).isMember t.length = true := by
    simp only [Tree.isMember, thing_addChild _ _ _ _ _ _ hs, ↓reduceIte, hx]
  rw [getElem?_addChild _ _ _ _ _ _ hs, if_neg (by omega)]
  by_cases hic : i = cls
  · subst hic
    rw [if_pos rfl, hi]
    refine ⟨_, rfl, rfl, rfl, fun _ h => h, ?_⟩
    intro k v hkv
    simp only [subsValue]
    by_cases hk : key = k
    · subst hk
      rw [if_pos rfl]
      refine ⟨_, rfl, Or.inr ⟨trivial, ?_, hnew⟩⟩
      have hm : t.isMember v = true := hv v (by simp only [Tree.value, hi]; exact hkv)
      have hvl : v ≠ t.length := by
        intro he
        simp only [Tree.isMember, Tree.thing, he] at hm
        rw [List.getElem?_eq_none (le_refl _)] at hm
        exact Bool.noConfusion hm
      rw [isMember_addChild _ _ _ _ _ _ hs _ hvl]
      exact hm
    · rw [if_neg hk]
      exact ⟨v, hkv, Or.inl rfl⟩
  · rw [if_neg hic, hi]
    exact ⟨nd, rfl, rfl, rfl, fun _ h => h, fun k v hkv => ⟨v, hkv, Or.inl rfl⟩⟩

theorem findOrCreateMethod_rel {cls : Nat} {name : String}
    {pars : List (Nat × String × String)} {ret : Nat} {hint : MemberHint} {s s1 : PState}
    {n : Nat} (h : findOrCreateMethod cls name pars ret hint s = (Except.ok n, s1)) :
    Rel True s.root s1.root := by
  simp only [findOrCreateMethod, bind_eq] at h
  rw [bind_ok (getTree_apply _)] at h
  cases hf : findMethod s.root pars (s.root.values cls name) with
  | error e =>
    rw [hf] at h
    simp only [Prod.mk.injEq] at h
    exact Except.noConfusion h.1
  | ok o =>
    rw [hf] at h
    cases o with
    | some m =>
      obtain ⟨_, rfl⟩ := pure_inv h
      exact rel_refl _ _
    | none =>
      simp only at h
      have hlt := (createMethod_ok _ _ _ _ _ _ _ _ h).1
      simp only [createMethod, bind_eq] at h
      rw [bind_ok (getTree_apply _), bind_ok (newChild_apply _ _ _ _ _ _)] at h
      obtain ⟨_, s2, ha, h2⟩ := bind_inv h
      obtain ⟨_, rfl⟩ := assertP_ok ha
      obtain ⟨_, rfl⟩ := pure_inv h2
      refine rel_addChild_member _ _ _ _ _ hlt rfl ?_
      intro v hv
      obtain ⟨rest, hr⟩ := values_of_value _ _ _ _ hv
      exact findMethod_none_member _ _ _ hf v (by rw [hr]; exact List.mem_cons_self _ _)

/-- A request `findOrCreateMethod` that is made again, with parameters that
have the same texts, yields the same node and leaves the tree as it is. -/
theorem findOrCreateMethod_again {cls : Nat} {name : String}
    {pars pars1 : List (Nat × String × String)} {ret : Nat} {hint : MemberHint}
    {s s1 : PState} {n : Nat} (ret1 : Nat) (lex1 : SignatureLexer)
    (h : findOrCreateMethod cls name pars ret hint s = (Except.ok n, s1))
    (hp : pars.map (fun p => cstr p.2.1) = pars1.map (fun p => cstr p.2.1)) :
    findOrCreateMethod cls name pars1 ret1 hint { lex := lex1, root := s1.root }
      = (Except.ok n, { lex := lex1, root := s1.root }) := by
  simp only [findOrCreateMethod, bind, P.bind, getTree] at h ⊢
  rw [findMethod_congr _ _ _ hp]
  cases hf : findMethod s.root pars (s.root.values cls name) with
  | error e => rw [hf] at h; simp at h
  | ok r =>
    rw [hf] at h
    cases r with
    | some m =>
      simp only [pure, P.pure, Prod.mk.injEq, Except.ok.injEq] at h
      obtain ⟨h1, h2⟩ := h
      subst h1; subst h2
      simp only [hf]
      rfl
    | none =>
      simp only at h
      obtain ⟨hlt, hn, hlex, hvals, nm, c, r, sig, hn2, sp, hthing, heq⟩ :=
        createMethod_ok _ _ _ _ _ _ _ _ h
      simp only [hvals, findMethod, hthing, heq, ↓reduceIte]
      rfl

theorem sim_false {t2 : Tree} {a a1 : Nat} (h : Sim False t2 a a1) : a1 = a := by
  rcases h with h | ⟨h, _⟩
  · exact h
  · exact h.elim

/-- C11: resolving a reference is idempotent. In every state the calls of
`PelibGen` lead to (`beginModule`, then any sequence of `find`, `beginClass`,
`endClass`, `addField` and the steps of `addMethod` and of a super class), if
`parse` resolves the reference `ref` with the hint `hint` to the node `n` and
leaves the tree `t1`, then resolving the same reference with the same hint on
`t1` yields the node `n` again and leaves `t1` as it is: no node is added.
This holds for type references (primitive types, classes, array suffixes) and
for member references (fields, and methods with their parameter types, by-ref
suffixes included), whatever value `isPrimitive` yields. -/
theorem parse_idempotent (imp : Imp) (isPrimitive : String → Bool) (hint : MemberHint)
    (ref : String) (n : Nat) (t1 : Tree) (hR : Reach imp)
    (hp : parse isPrimitive hint ref imp.root = (Except.ok (some n), t1)) :
    parse isPrimitive hint ref t1 = (Except.ok (some n), t1) := by
  have hI := reach_inv imp hR
  have hI1 : Inv t1 := by
    have := inv_parse isPrimitive hint ref imp.root hI
    rw [hp] at this
    exact this
  simp only [parse] at hp ⊢
  by_cases hh : hint = MemberHint.TypeRef
  · subst hh
    simp only [ne_eq, not_true_eq_false, ↓reduceIte] at hp ⊢
    cases htr : typeRef isPrimitive { lex := SignatureLexer.init ref, root := imp.root } with
    | mk r s =>
      rw [htr] at hp
      cases r with
      | error e =>
        cases e with
        | thrown msg =>
          simp only [Prod.mk.injEq, Except.ok.injEq] at hp
          exact Option.noConfusion hp.1
        | assertion =>
          simp only [Prod.mk.injEq] at hp
          exact Except.noConfusion hp.1
      | ok a =>
        simp only [Prod.mk.injEq, Except.ok.injEq, Option.some.injEq] at hp
        obtain ⟨rfl, rfl⟩ := hp
        obtain ⟨a1, h2, hs⟩ := rep_typeRef False s.root hI1 isPrimitive htr hI (rel_refl _ _)
        rw [sim_false hs] at h2
        simp only at h2
        rw [h2]
  · simp only [ne_eq, hh, not_false_eq_true, ↓reduceIte] at hp ⊢
    cases hmr : memberRef isPrimitive hint { lex := SignatureLexer.init ref, root := imp.root }
      with
    | mk r s =>
      rw [hmr] at hp
      cases r with
      | error e =>
        cases e with
        | thrown msg =>
          simp only [Prod.mk.injEq, Except.ok.injEq] at hp
          exact Option.noConfusion hp.1
        | assertion =>
          simp only [Prod.mk.injEq] at hp
          exact Except.noConfusion hp.1
      | ok a =>
        simp only [Prod.mk.injEq, Except.ok.injEq, Option.some.injEq] at hp
        obtain ⟨rfl, rfl⟩ := hp
        suffices hm : memberRef isPrimitive hint { lex := SignatureLexer.init ref, root := s.root }
            = (Except.ok a, { lex := s.lex, root := s.root }) by
          rw [hm]
        simp only [memberRef, bind_eq] at hmr ⊢
        obtain ⟨r, sH, hhead, hH⟩ := bind_inv hmr
        clear hmr
        obtain ⟨type, node, name⟩ := r
        simp only at hH
        have hIH : Inv sH.root := (hoare_memberRefHead _ _ hI _ _ hhead).1
        rw [bind_ok (peekP_apply _)] at hH
        by_cases hlp : sH.lex.peek.1.d_tt = TokenType.LPAR
        · rw [if_pos hlp] at hH
          obtain ⟨pars, sP, hpars, hfm⟩ := bind_inv hH
          clear hH
          have hrP : Rel True sP.root s.root := findOrCreateMethod_rel hfm
          have hrH : Rel True sH.root s.root := ext_rel (mono_params _ (PState.mk sH.lex.peek.2 sH.root) _ _ hpars) hrP
          obtain ⟨r1, hhead2, hs1, he1⟩ :=
            rep_memberRefHead True s.root hI1 isPrimitive hhead hI hrH
          obtain ⟨pars1, hpars2, hsp⟩ :=
            rep_params True s.root hI1 isPrimitive hpars hIH hrP
          obtain ⟨type1, node1, name1⟩ := r1
          simp only [Prod.mk.injEq] at he1
          obtain ⟨rfl, rfl⟩ := he1
          simp only at hhead2 hpars2
          rw [bind_ok hhead2]
          simp only
          rw [bind_ok (peekP_apply _), if_pos hlp, bind_ok hpars2]
          have hag := findOrCreateMethod_again type1 sP.lex hfm (simPars_typeStr hsp)
          have hlex : s.lex = sP.lex := by
            simp only [findOrCreateMethod, bind_eq] at hfm
            rw [bind_ok (getTree_apply _)] at hfm
            cases hf : findMethod sP.root pars (sP.root.values node1 name1) with
            | error e =>
              rw [hf] at hfm
              simp only [Prod.mk.injEq] at hfm
              exact Except.noConfusion hfm.1
            | ok o =>
              rw [hf] at hfm
              cases o with
              | some m =>
                obtain ⟨_, rfl⟩ := pure_inv hfm
                rfl
              | none => exact (createMethod_ok _ _ _ _ _ _ _ _ hfm).2.2.1
          rw [hlex]
          exact hag
        · rw [if_neg hlp] at hH
          obtain ⟨hl, he, _⟩ := findOrCreateField_ok hH
          have hrH : Rel False sH.root s.root := rel_of_ext he
          obtain ⟨r1, hhead2, hs1, he1⟩ :=
            rep_memberRefHead False s.root hI1 isPrimitive hhead hI hrH
          obtain ⟨type1, node1, name1⟩ := r1
          simp only [Prod.mk.injEq] at he1
          obtain ⟨rfl, rfl⟩ := he1
          simp only at hhead2
          rw [bind_ok hhead2]
          simp only
          rw [bind_ok (peekP_apply _), if_neg hlp]
          exact rep_findOrCreateField s.root hH (rel_refl _ _) type1

theorem parse_idempotent_witness :
    Reach (beginModule "'M'") ∧
    parse primitivesContains MemberHint.Static "void 'M'::'f'()" (beginModule "'M'").root
      = (Except.ok (some 9), exRootMethod) ∧
    parse primitivesContains MemberHint.Static "void 'M'::'f'()" exRootMethod
      = (Except.ok (some 9), exRootMethod) :=
  ⟨Reach.init "'M'", rfl,
    parse_idempotent (beginModule "'M'") primitivesContains MemberHint.Static "void 'M'::'f'()" 9
      exRootMethod (Reach.init "'M'") rfl⟩

/-! ## Method identity -/

theorem reads_trans {l l1 l2 : SignatureLexer} {a b : List Token} (h1 : Reads l a l1)
    (h2 : Reads l1 b l2) : Reads l (a ++ b) l2 := by
  induction h1 with
  | done l => exact h2
  | peek l ts l1 _ ih => exact Reads.peek _ _ _ (ih h2)
  | next l ts l1 _ ih => exact Reads.next _ _ _ (ih h2)

theorem reads_peek (l : SignatureLexer) : Reads l [] l.peek.2 :=
  Reads.peek _ _ _ (Reads.done _)

theorem reads_next (l : SignatureLexer) : Reads l [l.next.1] l.next.2 :=
  Reads.next _ _ _ (Reads.done _)

/-- A token that `peek` has shown is the one `next` returns. -/
theorem next_peek (l : SignatureLexer) (h : l.peek.1.d_tt ≠ TokenType.Invalid) :
    l.peek.2.next.1 = l.peek.1 := by
  simp only [SignatureLexer.peek] at h ⊢
  split
  · rename_i h0
    rw [if_pos h0] at h
    simp only [SignatureLexer.next]
    rw [if_pos h]
  · rename_i h0
    simp only [SignatureLexer.next]
    rw [if_pos h0]

theorem bracketScan_free (ts : List Token) (h : BracketFree ts) :
    ∀ d, bracketScan d ts = some d := by
  induction ts with
  | nil => intro d; rfl
  | cons t ts ih =>
    intro d
    have h1 := h t (List.mem_cons_self _ _)
    rw [bracketScan, if_neg h1.1, if_neg h1.2]
    exact ih (fun x hx => h x (List.mem_cons_of_mem _ hx)) d

theorem bracketScan_append (a b : List Token) :
    ∀ d, bracketScan d (a ++ b) = (bracketScan d a).bind (fun e => bracketScan e b) := by
  induction a with
  | nil => intro d; rfl
  | cons t ts ih =>
    intro d
    simp only [List.cons_append, bracketScan]
    split
    · exact ih _
    · split
      · split
        · rfl
        · exact ih _
      · exact ih _

theorem balanced_nil : Balanced [] := rfl

theorem balanced_append {a b : List Token} (ha : Balanced a) (hb : Balanced b) :
    Balanced (a ++ b) := by
  unfold Balanced at *
  rw [bracketScan_append, ha]
  exact hb

theorem balanced_of_free {ts : List Token} (h : BracketFree ts) : Balanced ts :=
  bracketScan_free ts h 0

theorem free_nil : BracketFree [] := fun _ h => by simp at h

theorem free_append {a b : List Token} (ha : BracketFree a) (hb : BracketFree b) :
    BracketFree (a ++ b) := by
  intro t ht
  rcases List.mem_append.mp ht with h | h
  · exact ha t h
  · exact hb t h

theorem free_cons {t : Token} {ts : List Token}
    (ht : t.d_tt ≠ TokenType.LBRACK ∧ t.d_tt ≠ TokenType.RBRACK) (hb : BracketFree ts) :
    BracketFree (t :: ts) := by
  intro x hx
  rcases List.mem_cons.mp hx with h | h
  · rw [h]; exact ht
  · exact hb x h

theorem name_free {t : Token} (h : t.isName = true) :
    t.d_tt ≠ TokenType.LBRACK ∧ t.d_tt ≠ TokenType.RBRACK := by
  simp only [Token.isName, Bool.or_eq_true, decide_eq_true_eq] at h
  rcases h with h | h <;> rw [h] <;> exact ⟨fun e => TokenType.noConfusion e,
    fun e => TokenType.noConfusion e⟩

/-- An assembly part: `[`, tokens without bracket, `]`. -/
theorem balanced_assembly {t0 t1 : Token} {ts : List Token}
    (h0 : t0.d_tt = TokenType.LBRACK) (h1 : t1.d_tt = TokenType.RBRACK) (h : BracketFree ts) :
    Balanced (t0 :: (ts ++ [t1])) := by
  unfold Balanced
  rw [bracketScan, if_pos h0, bracketScan_append, bracketScan_free ts h]
  simp [bracketScan, h1]

/-! ### Functions that leave the lexer alone -/

theorem still_bind {α β : Type} {m : P α} {f : α → P β} {s : PState}
    (hm : (m s).2.lex = s.lex) (hf : ∀ a s1, (f a s1).2.lex = s1.lex) :
    (P.bind m f s).2.lex = s.lex := by
  simp only [P.bind]
  cases h : m s with
  | mk r s1 =>
    rw [h] at hm
    cases r with
    | ok a => exact (hf a s1).trans hm
    | error e => exact hm

theorem still_assert (c : Bool) (s : PState) : (assertP c s).2.lex = s.lex := by
  simp only [assertP]; split <;> rfl

theorem still_createClassFor (node : Nat) (s : PState) :
    (createClassFor node s).2.lex = s.lex := by
  simp only [createClassFor, bind_eq]
  refine still_bind rfl (fun t s1 => ?_)
  refine still_bind (still_assert _ _) (fun _ s2 => ?_)
  refine still_bind (still_assert _ _) (fun _ s3 => ?_)
  refine still_bind (still_assert _ _) (fun _ s4 => ?_)
  rfl

theorem still_fetchPrimitive (name : String) (s : PState) :
    (fetchPrimitive name s).2.lex = s.lex := by
  simp only [fetchPrimitive, bind_eq]
  refine still_bind rfl (fun t0 s1 => ?_)
  refine still_bind ?_ (fun p s2 => ?_)
  · cases t0.value 0 "" <;> rfl
  refine still_bind rfl (fun t1 s3 => ?_)
  cases t1.value p name with
  | some t => rfl
  | none =>
    refine still_bind (f := fun t => _) rfl (fun t s4 => ?_)
    cases basicTypeOf name with
    | none => rfl
    | some b =>
      refine still_bind (f := fun t2 => _) rfl (fun t2 s5 => ?_)
      refine still_bind (f := fun _ => _) rfl (fun _ s6 => ?_)
      rfl

theorem still_fetchAssembly (name : String) (s : PState) :
    (fetchAssembly name s).2.lex = s.lex := by
  simp only [fetchAssembly, bind_eq]
  refine still_bind rfl (fun t s1 => ?_)
  cases t.value 0 name with
  | some a => rfl
  | none =>
    show ((if t.name 0 = name then _ else _ : P Nat) s1).2.lex = s1.lex
    split
    · rfl
    · refine still_bind (f := fun _ => _) rfl (fun _ s2 => ?_)
      rfl

theorem still_pathNamespaces (names : List String) :
    ∀ scope s, (pathNamespaces names scope s).2.lex = s.lex := by
  induction names with
  | nil => intro scope s; rfl
  | cons n rest ih =>
    intro scope s
    cases rest with
    | nil => rfl
    | cons m rest2 =>
      simp only [pathNamespaces, bind_eq]
      refine still_bind rfl (fun t s1 => ?_)
      cases t.value scope n with
      | some node => exact ih _ _
      | none =>
        refine still_bind (f := fun _ => _) (still_assert _ _) (fun _ s2 => ?_)
        refine still_bind (f := fun node => _) rfl (fun node s3 => ?_)
        exact ih _ _

theorem still_pathNested (names : List String) :
    ∀ scope s, (pathNested names scope s).2.lex = s.lex := by
  induction names with
  | nil => intro scope s; rfl
  | cons n rest ih =>
    intro scope s
    simp only [pathNested, bind_eq]
    refine still_bind rfl (fun t s1 => ?_)
    cases t.value scope n with
    | none =>
      refine still_bind (f := fun node => _) rfl (fun node s2 => ?_)
      refine still_bind (f := fun _ => _) (still_createClassFor _ _) (fun _ s3 => ?_)
      exact ih _ _
    | some node =>
      cases hth : t.thing node with
      | none => simp only [hth]; rfl
      | some x =>
        rcases x with nm | nm | ⟨nm, ex⟩ | ⟨tp, r, l, b⟩ | ⟨nm, c, r, sig, hn, sp⟩ | ⟨nm, ty, st⟩
        all_goals simp only [hth]
        all_goals first
          | rfl
          | exact ih _ _

theorem still_createMethod (cls : Nat) (name : String) (pars : List (Nat × String × String))
    (ret : Nat) (hint : MemberHint) (s : PState) :
    (createMethod cls name pars ret hint s).2.lex = s.lex := by
  simp only [createMethod, bind_eq]
  refine still_bind rfl (fun t s1 => ?_)
  refine still_bind rfl (fun m s2 => ?_)
  refine still_bind (still_assert _ _) (fun _ s3 => ?_)
  rfl

theorem still_findOrCreateMethod (cls : Nat) (name : String)
    (pars : List (Nat × String × String)) (ret : Nat) (hint : MemberHint) (s : PState) :
    (findOrCreateMethod cls name pars ret hint s).2.lex = s.lex := by
  simp only [findOrCreateMethod, bind_eq]
  refine still_bind rfl (fun t s1 => ?_)
  cases findMethod t pars (t.values cls name) with
  | error e => rfl
  | ok o =>
    cases o with
    | some m => rfl
    | none => exact still_createMethod _ _ _ _ _ _

theorem still_findOrCreateField (cls : Nat) (name : String) (type : Nat) (hint : MemberHint)
    (s : PState) : (findOrCreateField cls name type hint s).2.lex = s.lex := by
  simp only [findOrCreateField, bind_eq]
  refine still_bind rfl (fun t s1 => ?_)
  cases t.value cls name with
  | none =>
    refine still_bind (f := fun m => _) rfl (fun m s2 => ?_)
    cases hth : t.thing cls with
    | none => simp only [hth]; rfl
    | some x =>
      rcases x with nm | nm | ⟨nm, ex⟩ | ⟨tp, r, l, b⟩ | ⟨nm, c, r, sig, hn, sp⟩ | ⟨nm, ty, st⟩
      all_goals simp only [hth]
      all_goals rfl
  | some member =>
    cases hth : t.thing member with
    | none => simp only [hth]; rfl
    | some x =>
      rcases x with nm | nm | ⟨nm, ex⟩ | ⟨tp, r, l, b⟩ | ⟨nm, c, r, sig, hn, sp⟩ | ⟨nm, ty, st⟩
      all_goals simp only [hth]
      all_goals rfl

/-- A run that leaves the lexer alone reads no token. -/
theorem lex_of_still {α : Type} {m : P α} {s s1 : PState} {r : Except Err α}
    (hm : (m s).2.lex = s.lex) (h : m s = (r, s1)) : s1.lex = s.lex := by
  rw [h] at hm
  exact hm

/-! ### The tokens a successful run reads -/

theorem tt_free {t : Token} {tt : TokenType} (h : t.d_tt = tt) (h1 : tt ≠ TokenType.LBRACK)
    (h2 : tt ≠ TokenType.RBRACK) : t.d_tt ≠ TokenType.LBRACK ∧ t.d_tt ≠ TokenType.RBRACK := by
  rw [h]; exact ⟨h1, h2⟩

theorem pure_reads {α : Type} {a b : α} {s s1 : PState}
    (h : (pure a : P α) s = (Except.ok b, s1)) :
    ∃ ts, Reads s.lex ts s1.lex ∧ BracketFree ts := by
  obtain ⟨_, rfl⟩ := pure_inv h
  exact ⟨[], Reads.done _, free_nil⟩

theorem dottedLoop_reads (msg : String) (fuel : Nat) :
    ∀ (name : List String) (s s1 : PState) (names : List String),
      dottedLoop msg fuel name s = (Except.ok names, s1) →
      ∃ ts, Reads s.lex ts s1.lex ∧ BracketFree ts := by
  induction fuel with
  | zero =>
    intro name s s1 names h
    exact pure_reads h
  | succ fuel ih =>
    intro name s s1 names h
    simp only [dottedLoop, bind_eq] at h
    rw [bind_ok (peekP_apply _)] at h
    split_ifs at h with hdot
    · rw [bind_ok (nextP_apply _), bind_ok (nextP_apply _)] at h
      split_ifs at h with hname
      · exact (throw_inv h).elim
      · obtain ⟨ts, hr, hf⟩ := ih _ _ _ _ h
        have hne : s.lex.peek.1.d_tt ≠ TokenType.Invalid := by
          rw [hdot]; exact fun e => TokenType.noConfusion e
        have ht1 := next_peek s.lex hne
        refine ⟨s.lex.peek.2.next.1 :: s.lex.peek.2.next.2.next.1 :: ts,
          Reads.peek _ _ _ (Reads.next _ _ _ (Reads.next _ _ _ hr)), ?_⟩
        refine free_cons ?_ (free_cons (name_free (by simpa using hname)) hf)
        rw [ht1]
        exact tt_free hdot (fun e => TokenType.noConfusion e) (fun e => TokenType.noConfusion e)
    · obtain ⟨_, rfl⟩ := pure_inv h
      exact ⟨[], reads_peek _, free_nil⟩

theorem assembly_reads {s s1 : PState} {a : Nat} (h : assembly s = (Except.ok a, s1)) :
    ∃ ts, Reads s.lex ts s1.lex ∧ Balanced ts := by
  simp only [assembly, bind_eq] at h
  rw [bind_ok (nextP_apply _)] at h
  split_ifs at h with h0
  · exact (throw_inv h).elim
  · rw [bind_ok (nextP_apply _)] at h
    split_ifs at h with hn
    · exact (throw_inv h).elim
    · rw [bind_ok (fuelP_apply _)] at h
      obtain ⟨name, s2, hd, h⟩ := bind_inv h
      obtain ⟨ts, hr, hf⟩ := dottedLoop_reads _ _ _ _ _ _ hd
      rw [bind_ok (nextP_apply _)] at h
      split_ifs at h with h1
      · exact (throw_inv h).elim
      · have hl := lex_of_still (still_fetchAssembly _ _) h
        simp only at hl
        refine ⟨s.lex.next.1 :: ((s.lex.next.2.next.1 :: ts) ++ [s2.lex.next.1]), ?_, ?_⟩
        · refine Reads.next _ _ _ (Reads.next _ _ _ (reads_trans hr ?_))
          rw [hl]
          exact reads_next _
        · exact balanced_assembly (not_not.mp h0) (not_not.mp h1)
            (free_cons (name_free (by simpa using hn)) hf)

theorem nestedLoop_reads (fuel : Nat) :
    ∀ (nested : List String) (s s1 : PState) (res : List String),
      nestedLoop fuel nested s = (Except.ok res, s1) →
      ∃ ts, Reads s.lex ts s1.lex ∧ BracketFree ts := by
  induction fuel with
  | zero =>
    intro nested s s1 res h
    exact pure_reads h
  | succ fuel ih =>
    intro nested s s1 res h
    simp only [nestedLoop, bind_eq] at h
    rw [bind_ok (peekP_apply _)] at h
    split_ifs at h with hsl
    · rw [bind_ok (nextP_apply _), bind_ok (nextP_apply _)] at h
      split_ifs at h with hname
      · exact (throw_inv h).elim
      · rw [bind_ok (fuelP_apply _)] at h
        obtain ⟨parts, s2, hd, h⟩ := bind_inv h
        obtain ⟨ts1, hr1, hf1⟩ := dottedLoop_reads _ _ _ _ _ _ hd
        obtain ⟨ts, hr, hf⟩ := ih _ _ _ _ h
        have hne : s.lex.peek.1.d_tt ≠ TokenType.Invalid := by
          rw [hsl]; exact fun e => TokenType.noConfusion e
        have ht1 := next_peek s.lex hne
        refine ⟨s.lex.peek.2.next.1 :: s.lex.peek.2.next.2.next.1 :: (ts1 ++ ts),
          Reads.peek _ _ _ (Reads.next _ _ _ (Reads.next _ _ _ (reads_trans hr1 hr))), ?_⟩
        refine free_cons ?_ (free_cons (name_free (by simpa using hname)) (free_append hf1 hf))
        rw [ht1]
        exact tt_free hsl (fun e => TokenType.noConfusion e) (fun e => TokenType.noConfusion e)
    · obtain ⟨_, rfl⟩ := pure_inv h
      exact ⟨[], reads_peek _, free_nil⟩

theorem arrayLoop_reads (fuel : Nat) :
    ∀ (array : String) (level : Nat) (s s1 : PState) (res : String × Nat),
      arrayLoop fuel array level s = (Except.ok res, s1) →
      ∃ ts, Reads s.lex ts s1.lex ∧ BracketFree ts := by
  induction fuel with
  | zero =>
    intro array level s s1 res h
    exact pure_reads h
  | succ fuel ih =>
    intro array level s s1 res h
    simp only [arrayLoop, bind_eq] at h
    rw [bind_ok (peekP_apply _)] at h
    split_ifs at h with harr
    · rw [bind_ok (nextP_apply _)] at h
      obtain ⟨ts, hr, hf⟩ := ih _ _ _ _ _ h
      have hne : s.lex.peek.1.d_tt ≠ TokenType.Invalid := by
        rw [harr]; exact fun e => TokenType.noConfusion e
      have ht1 := next_peek s.lex hne
      refine ⟨s.lex.peek.2.next.1 :: ts, Reads.peek _ _ _ (Reads.next _ _ _ hr), ?_⟩
      refine free_cons ?_ hf
      rw [ht1]
      exact tt_free harr (fun e => TokenType.noConfusion e) (fun e => TokenType.noConfusion e)
    · obtain ⟨_, rfl⟩ := pure_inv h
      exact ⟨[], reads_peek _, free_nil⟩

theorem lookup_still (t : Tree) (scope : Nat) (par : Option Nat) (key name : String)
    (x : Option Thing) (s : PState) :
    ((match t.value scope key with
      | some node => (pure node : P Nat)
      | none => newChild scope par key name x) s).2.lex = s.lex := by
  cases t.value scope key <;> rfl

theorem path_reads (isPrimitive : String → Bool) (scope : Nat) {s s1 : PState} {a : Nat}
    (h : path isPrimitive scope s = (Except.ok a, s1)) :
    ∃ ts, Reads s.lex ts s1.lex ∧ BracketFree ts := by
  simp only [path, bind_eq] at h
  rw [bind_ok (nextP_apply _)] at h
  split_ifs at h with hn
  · exact (throw_inv h).elim
  · rw [bind_ok (fuelP_apply _)] at h
    obtain ⟨name, s2, hd, h⟩ := bind_inv h
    obtain ⟨ts1, hr1, hf1⟩ := dottedLoop_reads _ _ _ _ _ _ hd
    have hname := name_free (t := s.lex.next.1) (by simpa using hn)
    split_ifs at h with hprim
    · have hl := lex_of_still (still_fetchPrimitive _ _) h
      refine ⟨s.lex.next.1 :: ts1, Reads.next _ _ _ ?_, free_cons hname hf1⟩
      rw [hl]; exact hr1
    · obtain ⟨scope1, s3, hns, h⟩ := bind_inv h
      have hl3 := lex_of_still (still_pathNamespaces _ _ _) hns
      rw [bind_ok (getTree_apply _)] at h
      obtain ⟨node, s4, hlk, h⟩ := bind_inv h
      have hl4 := lex_of_still (lookup_still _ _ _ _ _ _ _) hlk
      obtain ⟨nested, s5, hnl, h⟩ := bind_inv h
      obtain ⟨ts2, hr2, hf2⟩ := nestedLoop_reads _ _ _ _ _ hnl
      have hl5 : s1.lex = s5.lex := by
        split_ifs at h with hemp
        · obtain ⟨_, rfl⟩ := pure_inv h
          rfl
        · rw [bind_ok (getTree_apply _)] at h
          cases hth : s5.root.thing node with
          | none =>
            simp only [hth] at h
            obtain ⟨_, s6, hc, h⟩ := bind_inv h
            rw [lex_of_still (still_pathNested _ _ _) h,
              lex_of_still (still_createClassFor _ _) hc]
          | some x =>
            rcases x with nm | nm | ⟨nm, ex⟩ | ⟨tp, r, l, b⟩ | ⟨nm, c, r, sig, hn, sp⟩ | ⟨nm, ty, st⟩
            all_goals simp only [hth] at h
            all_goals first
              | exact (throw_inv h).elim
              | exact lex_of_still (still_pathNested _ _ _) h
      refine ⟨s.lex.next.1 :: (ts1 ++ ts2), Reads.next _ _ _ (reads_trans hr1 ?_),
        free_cons hname (free_append hf1 hf2)⟩
      rw [hl5]
      rw [hl4, hl3] at hr2
      exact hr2

theorem primitiveType_reads (isPrimitive : String → Bool) {s s1 : PState} {a : Nat}
    (h0 : s.lex.next.1.d_tt ≠ TokenType.LBRACK ∧ s.lex.next.1.d_tt ≠ TokenType.RBRACK)
    (h : primitiveType isPrimitive s = (Except.ok a, s1)) :
    ∃ ts, Reads s.lex ts s1.lex ∧ BracketFree ts := by
  simp only [primitiveType, bind_eq] at h
  rw [bind_ok (nextP_apply _), bind_ok (peekP_apply _)] at h
  obtain ⟨str, s2, hs, h⟩ := bind_inv h
  have hstr : ∃ ts, Reads s.lex.next.2 ts s2.lex ∧ BracketFree ts := by
    split_ifs at hs with hu
    · rw [bind_ok (nextP_apply _)] at hs
      obtain ⟨_, rfl⟩ := pure_inv hs
      have hnm : s.lex.next.2.peek.1.isName = true := by
        simp only [Bool.and_eq_true] at hu
        exact hu.1
      have hne : s.lex.next.2.peek.1.d_tt ≠ TokenType.Invalid := by
        intro e
        simp [Token.isName, e] at hnm
      refine ⟨[s.lex.next.2.peek.2.next.1], Reads.peek _ _ _ (reads_next _), ?_⟩
      refine free_cons ?_ free_nil
      rw [next_peek _ hne]
      exact name_free hnm
    · obtain ⟨_, rfl⟩ := pure_inv hs
      exact ⟨[], reads_peek _, free_nil⟩
  obtain ⟨ts1, hr1, hf1⟩ := hstr
  rw [bind_ok (nextP_apply _)] at h
  split_ifs at h with hn hp
  · exact (throw_inv h).elim
  · exact (throw_inv h).elim
  · have hl := lex_of_still (still_fetchPrimitive _ _) h
    simp only at hl
    refine ⟨s.lex.next.1 :: (ts1 ++ [s2.lex.next.1]),
      Reads.next _ _ _ (reads_trans hr1 ?_),
      free_cons h0 (free_append hf1 (free_cons (name_free (by simpa using hn)) free_nil))⟩
    rw [hl]
    exact reads_next _

/-- The optional `class` or `valuetype` in front of a type or a class path. -/
theorem skip_reads {c : Prop} [Decidable c] (l : SignatureLexer) (root : Tree)
    (hc : c → l.peek.1.d_tt = TokenType.CLASS ∨ l.peek.1.d_tt = TokenType.VALUETYPE)
    {t : Token} {sB : PState}
    (hB : (if c then (P.bind nextP fun _ => peekP) else (pure l.peek.1 : P Token))
      { lex := l.peek.2, root := root } = (Except.ok t, sB)) :
    ∃ ts, Reads l ts sB.lex ∧ BracketFree ts ∧
      (t.d_tt ≠ TokenType.Invalid → sB.lex.next.1 = t) := by
  split_ifs at hB with h
  · rw [bind_ok (nextP_apply _), peekP_apply] at hB
    simp only [Prod.mk.injEq, Except.ok.injEq] at hB
    obtain ⟨rfl, rfl⟩ := hB
    have hne : l.peek.1.d_tt ≠ TokenType.Invalid := by
      rcases hc h with e | e <;> rw [e] <;> exact fun x => TokenType.noConfusion x
    refine ⟨[l.peek.2.next.1], Reads.peek _ _ _ (Reads.next _ _ _ (reads_peek _)), ?_,
      fun hv => next_peek _ hv⟩
    refine free_cons ?_ free_nil
    rw [next_peek _ hne]
    rcases hc h with e | e <;> rw [e] <;>
      exact ⟨fun x => TokenType.noConfusion x, fun x => TokenType.noConfusion x⟩
  · obtain ⟨rfl, rfl⟩ := pure_inv hB
    exact ⟨[], reads_peek _, free_nil, fun hv => next_peek _ hv⟩

theorem typeRef_reads (isPrimitive : String → Bool) {s s1 : PState} {a : Nat}
    (h : typeRef isPrimitive s = (Except.ok a, s1)) :
    ∃ ts, Reads s.lex ts s1.lex ∧ Balanced ts := by
  simp only [typeRef, bind_eq] at h
  rw [bind_ok (peekP_apply _)] at h
  obtain ⟨t, sB, hB, h⟩ := bind_inv h
  obtain ⟨tsB, hrB, hfB, hnext⟩ := skip_reads s.lex s.root
    (fun hc => by simpa using hc) hB
  obtain ⟨node, sC, hC, h⟩ := bind_inv h
  have hnode : ∃ ts, Reads sB.lex ts sC.lex ∧ Balanced ts := by
    split_ifs at hC with hp hl
    · have hnm : t.isName = true := by
        simp only [Bool.and_eq_true] at hp
        exact hp.1
      have hne : t.d_tt ≠ TokenType.Invalid := by
        intro e
        simp [Token.isName, e] at hnm
      obtain ⟨ts, hr, hf⟩ := primitiveType_reads isPrimitive
        (by rw [hnext hne]; exact name_free hnm) hC
      exact ⟨ts, hr, balanced_of_free hf⟩
    · obtain ⟨ass, sA, hA, hC⟩ := bind_inv hC
      obtain ⟨ts1, hr1, hb1⟩ := assembly_reads hA
      obtain ⟨ts2, hr2, hf2⟩ := path_reads isPrimitive ass hC
      exact ⟨ts1 ++ ts2, reads_trans hr1 hr2, balanced_append hb1 (balanced_of_free hf2)⟩
    · obtain ⟨ts, hr, hf⟩ := path_reads isPrimitive 0 hC
      exact ⟨ts, hr, balanced_of_free hf⟩
  obtain ⟨tsC, hrC, hbC⟩ := hnode
  rw [bind_ok (getTree_apply _)] at h
  obtain ⟨_, sD, hD, h⟩ := bind_inv h
  have hlD : sD.lex = sC.lex := by
    split_ifs at hD
    · exact lex_of_still (still_createClassFor _ _) hD
    · obtain ⟨_, rfl⟩ := pure_inv hD
      rfl
  rw [bind_ok (fuelP_apply _)] at h
  obtain ⟨al, sE, hE, h⟩ := bind_inv h
  obtain ⟨tsE, hrE, hfE⟩ := arrayLoop_reads _ _ _ _ _ _ hE
  rw [hlD] at hrE
  rw [bind_ok (getTree_apply _)] at h
  have hl1 : s1.lex = sE.lex := by
    cases hth : sE.root.thing node with
    | none =>
      simp only [hth] at h
      obtain ⟨_, s6, hc, h⟩ := bind_inv h
      obtain ⟨_, rfl⟩ := assertP_ok hc
      exact lex_of_still (lookup_still _ _ _ _ _ _ _) h
    | some x =>
      rcases x with nm | nm | ⟨nm, ex⟩ | ⟨tp, r, l, b⟩ | ⟨nm, c, r, sig, hn, sp⟩ | ⟨nm, ty, st⟩
      all_goals simp only [hth] at h
      all_goals first
        | (obtain ⟨_, s6, hc, h⟩ := bind_inv h
           obtain ⟨_, rfl⟩ := assertP_ok hc
           exact lex_of_still (lookup_still _ _ _ _ _ _ _) h)
        | (split_ifs at h
           · obtain ⟨_, rfl⟩ := pure_inv h
             rfl
           · exact lex_of_still (lookup_still _ _ _ _ _ _ _) h)
  refine ⟨tsB ++ (tsC ++ tsE), reads_trans hrB (reads_trans hrC ?_),
    balanced_append (balanced_of_free hfB) (balanced_append hbC (balanced_of_free hfE))⟩
  rw [hl1]
  exact hrE

theorem param_reads (isPrimitive : String → Bool) {s s1 : PState} {a : Nat × String × String}
    (h : param isPrimitive s = (Except.ok a, s1)) :
    ∃ ts, Reads s.lex ts s1.lex ∧ Balanced ts := by
  simp only [param, bind_eq] at h
  rw [bind_ok (peekP_apply _)] at h
  obtain ⟨ty, sT, hT, h⟩ := bind_inv h
  obtain ⟨tsT, hrT, hbT⟩ := typeRef_reads isPrimitive hT
  rw [bind_ok (peekP_apply _)] at h
  obtain ⟨d_type, sD, hD, h⟩ := bind_inv h
  have hamp : ∃ ts, Reads sT.lex.peek.2 ts sD.lex ∧ BracketFree ts := by
    split_ifs at hD with ha
    · rw [bind_ok (nextP_apply _), bind_ok (getTree_apply _)] at hD
      have hne : sT.lex.peek.1.d_tt ≠ TokenType.Invalid := by
        rw [ha]; exact fun e => TokenType.noConfusion e
      have hl : sD.lex = sT.lex.peek.2.next.2 := by
        cases hth : sT.root.thing ty with
        | none =>
          simp only [hth] at hD
          exact (fail_inv hD).elim
        | some x =>
          rcases x with nm | nm | ⟨nm, ex⟩ | ⟨tp, r, l, b⟩ | ⟨nm, c, r, sig, hn, sp⟩ | ⟨nm, ty, st⟩
          all_goals simp only [hth] at hD
          all_goals first
            | exact (fail_inv hD).elim
            | (by_cases hc : (r.isSome || decide (l ≠ 0)) = true
               · rw [if_pos hc] at hD
                 cases hpar : sT.root.parent ty with
                 | none =>
                   simp only [hpar] at hD
                   exact (fail_inv hD).elim
                 | some par =>
                   simp only [hpar] at hD
                   exact lex_of_still (lookup_still _ _ _ _ _ _ _) hD
               · rw [if_neg hc] at hD
                 exact lex_of_still (lookup_still _ _ _ _ _ _ _) hD)
      refine ⟨[sT.lex.peek.2.next.1], ?_, ?_⟩
      · rw [hl]; exact reads_next _
      · refine free_cons ?_ free_nil
        rw [next_peek _ hne]
        exact tt_free ha (fun e => TokenType.noConfusion e) (fun e => TokenType.noConfusion e)
    · obtain ⟨_, rfl⟩ := pure_inv hD
      exact ⟨[], Reads.done _, free_nil⟩
  obtain ⟨tsD, hrD, hfD⟩ := hamp
  rw [bind_ok (peekP_apply _), bind_text, bind_ok (peekP_apply _)] at h
  have htail : ∃ ts, Reads sD.lex ts s1.lex ∧ BracketFree ts := by
    split_ifs at h with hnm
    · rw [bind_ok (nextP_apply _)] at h
      obtain ⟨_, rfl⟩ := pure_inv h
      have hne : sD.lex.peek.2.peek.1.d_tt ≠ TokenType.Invalid := by
        intro e
        simp [Token.isName, e] at hnm
      refine ⟨[sD.lex.peek.2.peek.2.next.1],
        Reads.peek _ _ _ (Reads.peek _ _ _ (reads_next _)), free_cons ?_ free_nil⟩
      rw [next_peek _ hne]
      exact name_free hnm
    · obtain ⟨_, rfl⟩ := pure_inv h
      exact ⟨[], Reads.peek _ _ _ (reads_peek _), free_nil⟩
  obtain ⟨tsE, hrE, hfE⟩ := htail
  exact ⟨tsT ++ (tsD ++ tsE),
    Reads.peek _ _ _ (reads_trans hrT (Reads.peek _ _ _ (reads_trans hrD hrE))),
    balanced_append hbT (balanced_of_free (free_append hfD hfE))⟩

theorem commaLoop_reads (isPrimitive : String → Bool) (fuel : Nat) :
    ∀ (res : List (Nat × String × String)) (s s1 : PState) (out : List (Nat × String × String)),
      commaLoop isPrimitive fuel res s = (Except.ok out, s1) →
      ∃ ts, Reads s.lex ts s1.lex ∧ Balanced ts := by
  induction fuel with
  | zero =>
    intro res s s1 out h
    obtain ⟨ts, hr, hf⟩ := pure_reads h
    exact ⟨ts, hr, balanced_of_free hf⟩
  | succ fuel ih =>
    intro res s s1 out h
    simp only [commaLoop, bind_eq] at h
    rw [bind_ok (peekP_apply _)] at h
    split_ifs at h with hc
    · rw [bind_ok (nextP_apply _)] at h
      obtain ⟨p, s2, hp, h⟩ := bind_inv h
      obtain ⟨ts1, hr1, hb1⟩ := param_reads isPrimitive hp
      obtain ⟨ts2, hr2, hb2⟩ := ih _ _ _ _ h
      have hne : s.lex.peek.1.d_tt ≠ TokenType.Invalid := by
        rw [hc]; exact fun e => TokenType.noConfusion e
      refine ⟨s.lex.peek.2.next.1 :: (ts1 ++ ts2),
        Reads.peek _ _ _ (Reads.next _ _ _ (reads_trans hr1 hr2)), ?_⟩
      show Balanced ([s.lex.peek.2.next.1] ++ (ts1 ++ ts2))
      refine balanced_append (balanced_of_free (free_cons ?_ free_nil)) (balanced_append hb1 hb2)
      rw [next_peek _ hne]
      exact tt_free hc (fun e => TokenType.noConfusion e) (fun e => TokenType.noConfusion e)
    · obtain ⟨_, rfl⟩ := pure_inv h
      exact ⟨[], reads_peek _, balanced_nil⟩

theorem paramsLoop_reads (isPrimitive : String → Bool) (fuel : Nat) :
    ∀ (res : List (Nat × String × String)) (s s1 : PState) (out : List (Nat × String × String)),
      paramsLoop isPrimitive fuel res s = (Except.ok out, s1) →
      ∃ ts, Reads s.lex ts s1.lex ∧ Balanced ts := by
  induction fuel with
  | zero =>
    intro res s s1 out h
    obtain ⟨ts, hr, hf⟩ := pure_reads h
    exact ⟨ts, hr, balanced_of_free hf⟩
  | succ fuel ih =>
    intro res s s1 out h
    simp only [paramsLoop, bind_eq] at h
    rw [bind_ok (peekP_apply _)] at h
    split_ifs at h with hc
    · obtain ⟨p, s2, hp, h⟩ := bind_inv h
      obtain ⟨ts1, hr1, hb1⟩ := param_reads isPrimitive hp
      rw [bind_ok (fuelP_apply _)] at h
      obtain ⟨res1, s3, hcl, h⟩ := bind_inv h
      obtain ⟨ts2, hr2, hb2⟩ := commaLoop_reads isPrimitive _ _ _ _ _ hcl
      obtain ⟨ts3, hr3, hb3⟩ := ih _ _ _ _ h
      exact ⟨ts1 ++ (ts2 ++ ts3), Reads.peek _ _ _ (reads_trans hr1 (reads_trans hr2 hr3)),
        balanced_append hb1 (balanced_append hb2 hb3)⟩
    · obtain ⟨_, rfl⟩ := pure_inv h
      exact ⟨[], reads_peek _, balanced_nil⟩

theorem params_reads (isPrimitive : String → Bool) {s s1 : PState}
    {out : List (Nat × String × String)}
    (h : params isPrimitive s = (Except.ok out, s1)) :
    ∃ ts, Reads s.lex ts s1.lex ∧ Balanced ts := by
  simp only [params, bind_eq] at h
  rw [bind_ok (peekP_apply _)] at h
  split_ifs at h with hc
  · rw [bind_ok (nextP_apply _), bind_ok (fuelP_apply _)] at h
    obtain ⟨ts, hr, hb⟩ := paramsLoop_reads isPrimitive _ _ _ _ _ h
    have hne : s.lex.peek.1.d_tt ≠ TokenType.Invalid := by
      rw [hc]; exact fun e => TokenType.noConfusion e
    refine ⟨s.lex.peek.2.next.1 :: ts, Reads.peek _ _ _ (Reads.next _ _ _ hr), ?_⟩
    show Balanced ([s.lex.peek.2.next.1] ++ ts)
    refine balanced_append (balanced_of_free (free_cons ?_ free_nil)) hb
    rw [next_peek _ hne]
    exact tt_free hc (fun e => TokenType.noConfusion e) (fun e => TokenType.noConfusion e)
  · exact (throw_inv h).elim

theorem memberRefHead_reads (isPrimitive : String → Bool) {s s1 : PState}
    {a : Nat × Nat × String} (h : memberRefHead isPrimitive s = (Except.ok a, s1)) :
    ∃ ts, Reads s.lex ts s1.lex ∧ Balanced ts := by
  simp only [memberRefHead, bind_eq] at h
  obtain ⟨type, sT, hT, h⟩ := bind_inv h
  obtain ⟨tsT, hrT, hbT⟩ := typeRef_reads isPrimitive hT
  rw [bind_ok (peekP_apply _)] at h
  obtain ⟨t, sB, hB, h⟩ := bind_inv h
  obtain ⟨tsB, hrB, hfB, _⟩ := skip_reads sT.lex sT.root (fun hc => by simpa using hc) hB
  obtain ⟨node, sC, hC, h⟩ := bind_inv h
  have hnode : ∃ ts, Reads sB.lex ts sC.lex ∧ Balanced ts := by
    split_ifs at hC with hl
    · obtain ⟨ass, sA, hA, hC⟩ := bind_inv hC
      obtain ⟨ts1, hr1, hb1⟩ := assembly_reads hA
      obtain ⟨ts2, hr2, hf2⟩ := path_reads isPrimitive ass hC
      exact ⟨ts1 ++ ts2, reads_trans hr1 hr2, balanced_append hb1 (balanced_of_free hf2)⟩
    · obtain ⟨ts, hr, hf⟩ := path_reads isPrimitive 0 hC
      exact ⟨ts, hr, balanced_of_free hf⟩
  obtain ⟨tsC, hrC, hbC⟩ := hnode
  rw [bind_ok (nextP_apply _)] at h
  split_ifs at h with hcc
  · exact (throw_inv h).elim
  · rw [bind_ok (getTree_apply _)] at h
    obtain ⟨_, sD, hD, h⟩ := bind_inv h
    have hlD : sD.lex = sC.lex.next.2 := by
      cases hth : sC.root.thing node with
      | none =>
        simp only [hth] at hD
        exact lex_of_still (still_createClassFor _ _) hD
      | some x =>
        rcases x with nm | nm | ⟨nm, ex⟩ | ⟨tp, r, l, b⟩ | ⟨nm, c, r, sig, hn, sp⟩ | ⟨nm, ty, st⟩
        all_goals simp only [hth] at hD
        all_goals first
          | exact (throw_inv hD).elim
          | (obtain ⟨_, rfl⟩ := pure_inv hD
             rfl)
    rw [bind_ok (nextP_apply _)] at h
    split_ifs at h with hn
    · exact (throw_inv h).elim
    · rw [bind_ok (fuelP_apply _)] at h
      obtain ⟨name, sE, hE, h⟩ := bind_inv h
      obtain ⟨tsE, hrE, hfE⟩ := dottedLoop_reads _ _ _ _ _ _ hE
      obtain ⟨_, rfl⟩ := pure_inv h
      have hdc : sC.lex.next.1.d_tt = TokenType.DBLCOLON := not_not.mp hcc
      refine ⟨tsT ++ (tsB ++ (tsC ++ (sC.lex.next.1 :: sD.lex.next.1 :: tsE))),
        reads_trans hrT (reads_trans hrB (reads_trans hrC (Reads.next _ _ _ ?_))), ?_⟩
      · rw [← hlD]
        exact Reads.next _ _ _ hrE
      · refine balanced_append hbT (balanced_append (balanced_of_free hfB)
          (balanced_append hbC (balanced_of_free ?_)))
        refine free_cons (tt_free hdc (fun e => TokenType.noConfusion e)
          (fun e => TokenType.noConfusion e)) (free_cons (name_free (by simpa using hn)) hfE)

theorem memberRef_reads (isPrimitive : String → Bool) (hint : MemberHint) {s s1 : PState}
    {a : Nat} (h : memberRef isPrimitive hint s = (Except.ok a, s1)) :
    ∃ ts, Reads s.lex ts s1.lex ∧ Balanced ts := by
  simp only [memberRef, bind_eq] at h
  obtain ⟨hd, sH, hH, h⟩ := bind_inv h
  obtain ⟨tsH, hrH, hbH⟩ := memberRefHead_reads isPrimitive hH
  obtain ⟨type, node, name⟩ := hd
  simp only at h
  rw [bind_ok (peekP_apply _)] at h
  split_ifs at h with hl
  · obtain ⟨pars, sP, hP, h⟩ := bind_inv h
    obtain ⟨tsP, hrP, hbP⟩ := params_reads isPrimitive hP
    have hlex := lex_of_still (still_findOrCreateMethod _ _ _ _ _ _) h
    refine ⟨tsH ++ tsP, reads_trans hrH (Reads.peek _ _ _ ?_), balanced_append hbH hbP⟩
    rw [hlex]
    exact hrP
  · have hlex := lex_of_still (still_findOrCreateField _ _ _ _ _) h
    refine ⟨tsH ++ [], reads_trans hrH ?_, balanced_append hbH balanced_nil⟩
    rw [hlex]
    exact reads_peek _

/-- In a text without `]` the lexer hands out no token `]`. -/
theorem reads_no_rbrack {l l1 : SignatureLexer} {ts : List Token} (h : Reads l ts l1)
    (hl : LexOk l) : ∀ t ∈ ts, t.d_tt ≠ TokenType.RBRACK := by
  induction h with
  | done l => intro t ht; simp at ht
  | peek l ts l1 _ ih => exact ih (peek_lexOk l hl).1
  | next l ts l1 _ ih =>
    intro t ht
    rcases List.mem_cons.mp ht with e | e
    · rw [e]; exact (next_lexOk l hl).2
    · exact ih (next_lexOk l hl).1 t e

theorem bracketScan_ge (ts : List Token) (h : ∀ t ∈ ts, t.d_tt ≠ TokenType.RBRACK) :
    ∀ d e, bracketScan d ts = some e → d ≤ e ∧ (e = d → ∀ t ∈ ts, t.d_tt ≠ TokenType.LBRACK) := by
  induction ts with
  | nil =>
    intro d e he
    simp only [bracketScan, Option.some.injEq] at he
    exact ⟨by omega, fun _ t ht => by simp at ht⟩
  | cons t ts ih =>
    intro d e he
    have ht := h t (List.mem_cons_self _ _)
    have hts : ∀ x ∈ ts, x.d_tt ≠ TokenType.RBRACK := fun x hx => h x (List.mem_cons_of_mem _ hx)
    rw [bracketScan] at he
    by_cases hlb : t.d_tt = TokenType.LBRACK
    · rw [if_pos hlb] at he
      have := (ih hts _ _ he).1
      exact ⟨by omega, fun hed => by omega⟩
    · rw [if_neg hlb, if_neg ht] at he
      obtain ⟨h1, h2⟩ := ih hts _ _ he
      refine ⟨h1, fun hed x hx => ?_⟩
      rcases List.mem_cons.mp hx with e1 | e1
      · rw [e1]; exact hlb
      · exact h2 hed x e1

set_option maxRecDepth 100000 in
/-- C13 (amended): when `parse` returns a node, the brackets among the tokens
it has read balance. `ts` are the tokens the parser has taken from the lexer
between the start of the reference and the end of the run (`Reads`); each `[`
among them opens an assembly part and has its `]` after the dotted name, and a
`]` is read nowhere else. So a reference is rejected when a `[` that the parser
reads is not closed, wherever it stands: in a reference without any `]` that
resolves to a node, no token read is `[`. This holds for type references and
for member references, whatever value `isPrimitive` yields and whatever the
tree holds. Examples of references that are rejected: `[mscorlib System.Object`,
`void [mscorlib System.Object::f()`, `[[mscorlib]System.Object` and
`void 'M'::'f'(int32[)`. -/
theorem parse_brackets_balanced (isPrimitive : String → Bool) (hint : MemberHint)
    (ref : String) (root : Tree) (n : Nat)
    (h : (parse isPrimitive hint ref root).1 = Except.ok (some n)) :
    (∃ ts, Reads (SignatureLexer.init ref) ts (parseEnd isPrimitive hint ref root) ∧
      Balanced ts ∧ (']' ∉ ref.toList → ∀ t ∈ ts, t.d_tt ≠ TokenType.LBRACK)) ∧
    (parse primitivesContains MemberHint.TypeRef "[mscorlib System.Object" exRoot).1 =
      Except.ok none ∧
    (parse primitivesContains MemberHint.Static "void [mscorlib System.Object::f()" exRoot).1 =
      Except.ok none ∧
    (parse primitivesContains MemberHint.TypeRef "[[mscorlib]System.Object" exRoot).1 =
      Except.ok none ∧
    (parse primitivesContains MemberHint.Static "void 'M'::'f'(int32[)" exRoot).1 =
      Except.ok none := by
  refine ⟨?_, by decide!, by decide!, by decide!, by decide!⟩
  have key : ∃ ts, Reads (SignatureLexer.init ref) ts (parseEnd isPrimitive hint ref root) ∧
      Balanced ts := by
    simp only [parse, parseEnd] at h ⊢
    by_cases hh : hint ≠ MemberHint.TypeRef
    · rw [if_pos hh] at h ⊢
      cases hm : memberRef isPrimitive hint { lex := SignatureLexer.init ref, root := root } with
      | mk r s1 =>
        rw [hm] at h
        cases r with
        | error e => cases e <;> simp at h
        | ok a => exact memberRef_reads isPrimitive hint hm
    · rw [if_neg hh] at h ⊢
      cases hm : typeRef isPrimitive { lex := SignatureLexer.init ref, root := root } with
      | mk r s1 =>
        rw [hm] at h
        cases r with
        | error e => cases e <;> simp at h
        | ok a => exact typeRef_reads isPrimitive hm
  obtain ⟨ts, hr, hb⟩ := key
  refine ⟨ts, hr, hb, fun hno => ?_⟩
  have hl : LexOk (SignatureLexer.init ref) := ⟨hno, fun e => TokenType.noConfusion e⟩
  exact (bracketScan_ge ts (reads_no_rbrack hr hl) 0 0 hb).2 rfl

set_option maxRecDepth 100000 in
theorem parse_brackets_balanced_witness :
    (parse primitivesContains MemberHint.Static
        "void [mscorlib]System.Object::'f'([mscorlib]System.Object[])" exRoot).1 =
      Except.ok (some 10) ∧
    ∃ ts, Reads
        (SignatureLexer.init "void [mscorlib]System.Object::'f'([mscorlib]System.Object[])") ts
        (parseEnd primitivesContains MemberHint.Static
          "void [mscorlib]System.Object::'f'([mscorlib]System.Object[])" exRoot) ∧
      Balanced ts ∧
      (']' ∉ "void [mscorlib]System.Object::'f'([mscorlib]System.Object[])".toList →
        ∀ t ∈ ts, t.d_tt ≠ TokenType.LBRACK) :=
  ⟨by decide!,
    (parse_brackets_balanced primitivesContains MemberHint.Static
      "void [mscorlib]System.Object::'f'([mscorlib]System.Object[])" exRoot 10 (by decide!)).1⟩

end Pelib
